import Mathlib

/-! # treetool: the outline tree, its file codec and its restructuring commands

A shallow embedding of `src/tt.c` (with the error kinds of `src/errors.h` and
the message layout of `src/exception.c`).

* Part 1 (`namespace TreeTool`): the file codec `write_tree` / `read_tree`,
  `saveas` and `load`.  Here a `struct tree` is a value: a node together with
  the subtrees it owns through `child[0 .. nchild)`.  `nchild` is the length of
  the `child` list; the `parent` back pointer is implied by the nesting.
* Part 2 (`namespace TreeTool.Store`): the pointer level used by `add_leaf`,
  `del_child`, `shove_up`, `shove_down`, `promote`, `demote` and `delete`,
  where nodes live at addresses and carry their `parent` pointer.

Conventions: a C string is the list of its characters before the terminating
NUL; `int` counters are natural numbers (no counter in these functions comes
near the `int` range); allocation always succeeds.
-/

namespace TreeTool

/-! ## Constants, error kinds, results -/

def MAX_ENTRY_LEN : Nat := 256
def MAX_SAY_CHARS : Nat := 40
def SAY_BLINKS : Nat := 2
def MAX_ERROR_LEN : Nat := 256

inductive fold_state where
  | EMPTY
  | EXPANDED
  | COLLAPSED
  deriving DecidableEq, Repr

/-- The enum `errcode` generated from `errors.h`. -/
inductive errcode where
  | ERR_NONE
  | ERR_NULLARG
  | ERR_FILENOTFOUND
  | ERR_IO
  | ERR_FORMAT
  | ERR_RUNTIME
  | ERR_ALLOC
  deriving DecidableEq, Repr

/-- The table `errstrings` generated from `errors.h`. -/
def errstrings : errcode → List Char
  | .ERR_NONE => "Nothing".toList
  | .ERR_NULLARG => "Null Argument: ".toList
  | .ERR_FILENOTFOUND => "File Not Found: ".toList
  | errcode.ERR_IO => "IO Error: ".toList
  | .ERR_FORMAT => "Format Error: ".toList
  | .ERR_RUNTIME => "Runtime Error: ".toList
  | .ERR_ALLOC => "Allocation Error: ".toList

/-- The text `except_raise` stores in the frame and `get_error` returns:
the label of the kind followed by the message, cut to `MAX_ERROR_LEN - 1`. -/
def get_error (type : errcode) (msg : List Char) : List Char :=
  errstrings type ++ msg.take (MAX_ERROR_LEN - 1 - (errstrings type).length)

/-- Stand-in for the C library message of an error number. -/
def strerror (errnum : Nat) : List Char :=
  "errno ".toList ++ (Nat.repr errnum).toList

/-- How a call ends: it returns `a`; it leaves through `raise(type, msg)`;
the process is terminated by `die`; the C code reads memory it never wrote or
writes past a buffer (`undefined`); or the recursion budget of the embedding
is used up (`nofuel`). -/
inductive Result (α : Type) where
  | ok (a : α)
  | raised (type : errcode) (msg : List Char)
  | died
  | undefined
  | nofuel

/-! ## Trees as values -/

/-- A node: `nalloc`, `state`, `text` and the owned subtrees `child[0..nchild)`. -/
inductive tree where
  | mk (nalloc : Nat) (state : fold_state) (text : List Char) (child : List tree) : tree

namespace tree

def nalloc : tree → Nat
  | mk a _ _ _ => a

def state : tree → fold_state
  | mk _ s _ _ => s

def text : tree → List Char
  | mk _ _ t _ => t

def child : tree → List tree
  | mk _ _ _ c => c

def nchild (t : tree) : Nat := t.child.length

end tree

/-- The call `add_child(NULL, text)`: a new node without children, `EMPTY`. -/
def add_child_null (text : List Char) : tree :=
  tree.mk 0 fold_state.EMPTY text []

/-- The effect of `add_leaf(parent, child)` on a non-NULL `parent`: in each of
the three branches the child lands in slot `nchild`, the parent becomes
`EXPANDED`; the branches differ in `nalloc`. -/
def add_leaf (parent : tree) (child : tree) : tree :=
  match parent with
  | tree.mk nalloc _ text ch =>
    if nalloc = 0 then tree.mk 1 fold_state.EXPANDED text [child]
    else if ch.length < nalloc then tree.mk nalloc fold_state.EXPANDED text (ch ++ [child])
    else tree.mk (nalloc * 2) fold_state.EXPANDED text (ch ++ [child])

/-! ## Writing -/

mutual
/-- The function `write_tree(t, f, depth)`; `f` is the text written so far. -/
def write_tree : tree → List Char → Nat → List Char
  | tree.mk _ _ text child, f, depth =>
    write_children child (f ++ List.replicate depth '\t' ++ text ++ ['\n']) (depth + 1)
/-- The loop `for (i = 0; i < nchild; i++) write_tree(child[i], f, depth)`. -/
def write_children : List tree → List Char → Nat → List Char
  | [], f, _ => f
  | c :: cs, f, depth => write_children cs (write_tree c f depth) depth
end

/-! ## Streams -/

/-- An input stream: the characters not yet read and the end-of-file flag. -/
structure FILE where
  data : List Char
  eof : Bool

def fgetc (f : FILE) : Option Char × FILE :=
  match f.data with
  | [] => (none, { f with eof := true })
  | c :: cs => (some c, { f with data := cs })

/-- Pushing a character back; the flag is cleared. `ungetc(EOF, f)` fails and is
treated at the call sites. -/
def ungetc (c : Char) (f : FILE) : FILE :=
  { data := c :: f.data, eof := false }

def feof (f : FILE) : Bool := f.eof

/-- The call `fsetpos(f, &fp)` with `fp` the unread text saved by `fgetpos`;
it clears the end-of-file flag. (`fgetpos` and `fsetpos` do not fail on the
streams of this embedding, so their `raise(ERR_IO, ...)` branches are not taken.) -/
def fsetpos (_f : FILE) (fp : List Char) : FILE :=
  { data := fp, eof := false }

/-- The code `dcount = 0; c = fgetc(f); while (c == delim) { dcount++; c = fgetc(f); }`:
yields `dcount`, the last `c` (`none` is `EOF`) and the stream. -/
def count_delim (delim : Char) (eof : Bool) : List Char → Nat × Option Char × FILE
  | [] => (0, none, { data := [], eof := true })
  | c :: cs =>
    if c = delim then
      let r := count_delim delim eof cs
      (r.1 + 1, r.2.1, r.2.2)
    else (0, some c, { data := cs, eof := eof })

/-- The reading loop of `fgets`: at most `k` characters, stopping after a
newline or at the end of the input. -/
def fgets_loop : Nat → List Char → Bool → List Char × FILE
  | 0, data, eof => ([], { data := data, eof := eof })
  | _ + 1, [], _ => ([], { data := [], eof := true })
  | k + 1, c :: cs, eof =>
    if c = '\n' then ([c], { data := cs, eof := eof })
    else
      let r := fgets_loop k cs eof
      (c :: r.1, r.2)

/-- The call `fgets(buf, n, f)`: `none` is the `NULL` result (nothing read). -/
def fgets (n : Nat) (f : FILE) : Option (List Char) × FILE :=
  let r := fgets_loop (n - 1) f.data f.eof
  if r.1 = [] then (none, r.2) else (some r.1, r.2)

/-- The code `c = fgetc(f); while (c != '\n' && c != EOF) c = fgetc(f);`. -/
def discard_line (eof : Bool) : List Char → FILE
  | [] => { data := [], eof := true }
  | c :: cs => if c = '\n' then { data := cs, eof := eof } else discard_line eof cs

/-- The C string held by a buffer: the characters before the first NUL. -/
def cstr (buf : List Char) : List Char :=
  buf.takeWhile (fun c => c ≠ Char.ofNat 0)

/-! ## Reading -/

/-- The statements `t->nalloc++; t->nchild++; t->child = realloc(t->child, ...)` of
the loop of `read_tree`. `read_tree` sets `nchild` and `nalloc` of a new node to 0
and assigns `t->child` nowhere before this `realloc`: for a node without children
the pointer handed to `realloc` was never written. -/
def realloc_child (t : tree) : Result tree :=
  match t with
  | tree.mk nalloc state text ch =>
    if ch.length = 0 then Result.undefined
    else Result.ok (tree.mk (nalloc + 1) state text ch)

/-- The assignment `t->child[t->nchild-1] = c` of the loop of `read_tree`, after
`realloc_child`. -/
def push_child (t : tree) (c : tree) : tree :=
  match t with
  | tree.mk nalloc state text ch => tree.mk nalloc state text (ch ++ [c])

/-- The block `if (delim == 0) { c = fgetc(f); if (c is space or tab) delim = c;
if (ungetc(c, f) == EOF && errno != 0) raise(IO) }`. `ungetc(EOF, f)` fails and
leaves the stream as `fgetc` left it. -/
def detect_delim (errno : Nat) (f : FILE) (delim : Char) : Result (Char × FILE) :=
  if delim = Char.ofNat 0 then
    match fgetc f with
    | (none, f1) =>
      if errno ≠ 0 then Result.raised errcode.ERR_IO (strerror errno)
      else Result.ok (delim, f1)
    | (some c, f1) =>
      Result.ok (if c = ' ' ∨ c = '\t' then c else delim, ungetc c f1)
  else Result.ok (delim, f)

/-- The block of `read_tree` from `fgets(buf, MAX_ENTRY_LEN, f)` to the copy into
`t->text`: yields the text of the node and the stream. -/
def read_text (errno : Nat) (f : FILE) : Result (List Char × FILE) :=
  match fgets MAX_ENTRY_LEN f with
  | (none, _) =>
    -- buf was never written
    if errno ≠ 0 then Result.raised errcode.ERR_IO (strerror errno)
    else Result.undefined
  | (some buf, f1) =>
    let s := cstr buf
    if s.length = 0 then Result.undefined  -- reads buf[-1]
    else if s.getLast? = some '\n' then Result.ok (s.dropLast, f1)
    else Result.ok (s, discard_line f1.eof f1.data)

/-- The part of `read_tree` from the delimiter detection to the assignment of
`t->state`: the node's own line. Yields the node (no children, `COLLAPSED`),
the delimiter in force and the stream. -/
def read_line (errno : Nat) (f : FILE) (delim : Char) (indent : Nat) :
    Result (tree × Char × FILE) :=
  match detect_delim errno f delim with
  | Result.ok (delim, f1) =>
    match count_delim delim f1.eof f1.data with
    | (dcount, c, f2) =>
      -- ungetc(c, f)
      if c = none ∧ errno ≠ 0 then Result.raised errcode.ERR_IO (strerror errno)
      else
        let f3 := match c with
          | none => f2
          | some ch => ungetc ch f2
        if dcount ≠ indent then
          Result.raised errcode.ERR_FORMAT "invalid indentation".toList
        else
          match read_text errno f3 with
          | Result.ok (text, f4) => Result.ok (tree.mk 0 fold_state.COLLAPSED text [], delim, f4)
          | Result.raised ty msg => Result.raised ty msg
          | Result.died => Result.died
          | Result.undefined => Result.undefined
          | Result.nofuel => Result.nofuel
  | Result.raised ty msg => Result.raised ty msg
  | Result.died => Result.died
  | Result.undefined => Result.undefined
  | Result.nofuel => Result.nofuel

mutual
/-- The function `read_tree(f, delim, indent)`. The first argument bounds the
nesting of calls and loop rounds; the second is the value of `errno`. -/
def read_tree : Nat → Nat → FILE → Char → Nat → Result (tree × FILE)
  | 0, _, _, _, _ => Result.nofuel
  | fuel + 1, errno, f, delim, indent =>
    match read_line errno f delim indent with
    | Result.ok (t, delim1, f1) => read_loop fuel errno f1 delim1 indent t
    | Result.raised ty msg => Result.raised ty msg
    | Result.died => Result.died
    | Result.undefined => Result.undefined
    | Result.nofuel => Result.nofuel
/-- The loop `for (;;)` of `read_tree`, entered with the node `t` built so far. -/
def read_loop : Nat → Nat → FILE → Char → Nat → tree → Result (tree × FILE)
  | 0, _, _, _, _, _ => Result.nofuel
  | fuel + 1, errno, f, delim, indent, t =>
    match count_delim delim f.eof f.data with
    | (_, none, f1) => Result.ok (t, f1)
    | (dcount, some _, _) =>
      if dcount ≤ indent then Result.ok (t, fsetpos f f.data)
      else if dcount > indent + 1 then
        Result.raised errcode.ERR_FORMAT "invalid indentation".toList
      else
        match realloc_child t with
        | Result.ok t1 =>
          match read_tree fuel errno (fsetpos f f.data) delim (indent + 1) with
          | Result.ok (c, f2) => read_loop fuel errno f2 delim indent (push_child t1 c)
          | Result.raised ty msg => Result.raised ty msg
          | Result.died => Result.died
          | Result.undefined => Result.undefined
          | Result.nofuel => Result.nofuel
        | Result.raised ty msg => Result.raised ty msg
        | Result.died => Result.died
        | Result.undefined => Result.undefined
        | Result.nofuel => Result.nofuel
end

/-! ## The globals used by `saveas` and `load`, and the status message -/

/-- The globals `root`, `filename`, `modified`, `saymsg` and `sayblink`.
(`selected_entry` and the curses state are not part of this record.) -/
structure Globals where
  root : Option tree
  filename : List Char
  modified : Bool
  saymsg : List Char
  sayblink : Nat

/-- The function `say(str)`: `strcpy` into the `MAX_SAY_CHARS` bytes of `saymsg`. -/
def say (str : List Char) (g : Globals) : Result Globals :=
  if str.length < MAX_SAY_CHARS then
    Result.ok { g with saymsg := str,
                       sayblink := if str.length > 0 then 2 * SAY_BLINKS else g.sayblink }
  else Result.undefined

/-- The function `confirm(question)`; `ans` is the line the user types at the
prompt. On an empty line `prompt` returns `NULL`, which `confirm` dereferences. -/
def confirm (ans : List Char) (g : Globals) : Result (Bool × Globals) :=
  match ans with
  | [] => Result.undefined
  | c :: _ =>
    if c = 'y' then Result.ok (true, g)
    else if c ≠ 'n' then
      match say "Please type 'y' or 'n'.".toList g with
      | Result.ok g1 => Result.ok (false, g1)
      | _ => Result.undefined
    else Result.ok (false, g)

/-- The function `modified_warning()`. -/
def modified_warning (ans : List Char) (g : Globals) : Result (Bool × Globals) :=
  if ¬ g.modified then Result.ok (true, g) else confirm ans g

/-! ## saveas -/

/-- A return of `saveas` after a message, with nothing written. -/
def saveas_return (r : Result Globals) : Result (Globals × Option (List Char)) :=
  match r with
  | Result.ok g1 => Result.ok (g1, none)
  | _ => Result.undefined

/-- The part of `saveas` from `f = fopen(fname, "w")` on: the loop
`for (i = 0; i < root->nchild; i++) write_tree(root->child[i], f, 0)` into the
emptied file, then `strcpy(filename, fname)`, `modified = false`, `say("Saved.")`. -/
def saveas_write (g : Globals) (name : List Char) (can_write : Bool) :
    Result (Globals × Option (List Char)) :=
  if ¬ can_write then saveas_return (say "Error opening file.".toList g)
  else
    match g.root with
    | none => Result.undefined
    | some root =>
      if name.length < MAX_ENTRY_LEN then
        match say "Saved.".toList { g with filename := name, modified := false } with
        | Result.ok g1 => Result.ok (g1, some (write_children root.child [] 0))
        | _ => Result.undefined
      else Result.undefined

/-- The function `saveas(fname)`. `fname = none` is `NULL`; `file_exists` tells
whether `fopen(fname, "r")` succeeds, `ans` is the answer typed at the
overwrite prompt, `can_write` whether `fopen(fname, "w")` succeeds. The second
component is the text written to the file (`none`: nothing was written). -/
def saveas (g : Globals) (fname : Option (List Char)) (file_exists : Bool)
    (ans : List Char) (can_write : Bool) : Result (Globals × Option (List Char)) :=
  match fname with
  | none => saveas_return (say "No filename given.".toList g)
  | some name =>
    if name.length = 0 then saveas_return (say "No filename given.".toList g)
    else if name ≠ g.filename ∧ file_exists then
      match confirm ans g with
      | Result.ok (true, g1) => saveas_write g1 name can_write
      | Result.ok (false, g1) => saveas_return (say "Save cancelled.".toList g1)
      | _ => Result.undefined
    else saveas_write g name can_write

/-! ## load -/

/-- The loop `while (!feof(f)) add_leaf(root, read_tree(f, 0, 0))` of `load`.
Yields the tree held in `root` when the loop is left, and how it is left.
Each call of `read_tree` gets two steps per unread character and two more: a
nested call or a further round of its loop is only reached after a character
has been read. -/
def load_loop : Nat → Nat → FILE → tree → tree × Result FILE
  | 0, _, _, root => (root, Result.nofuel)
  | fuel + 1, errno, f, root =>
    if feof f then (root, Result.ok f)
    else
      match read_tree (2 * f.data.length + 2) errno f (Char.ofNat 0) 0 with
      | Result.ok (t, f1) => load_loop fuel errno f1 (add_leaf root t)
      | Result.raised ty msg => (root, Result.raised ty msg)
      | Result.died => (root, Result.died)
      | Result.undefined => (root, Result.undefined)
      | Result.nofuel => (root, Result.nofuel)

/-- The protected region of `load` (the block under `if (try())`): yields the
globals at the moment the region is left, and how it is left. `file` is the
content of the file, `none` when `fopen` fails. -/
def load_try (g : Globals) (fname : List Char) (file : Option (List Char)) (errno : Nat) :
    Globals × Result Unit :=
  match file with
  | none => (g, Result.raised errcode.ERR_FILENOTFOUND fname)
  | some data =>
    -- free_tree(root); root = add_child(NULL, "Entries")
    match load_loop (data.length + 1) errno { data := data, eof := false }
        (add_child_null "Entries".toList) with
    | (root, Result.ok _) =>
      if fname.length < MAX_ENTRY_LEN then
        ({ g with root := some root, filename := fname, modified := false }, Result.ok ())
      else ({ g with root := some root }, Result.undefined)
    | (root, Result.raised ty msg) => ({ g with root := some root }, Result.raised ty msg)
    | (root, Result.died) => ({ g with root := some root }, Result.died)
    | (root, Result.undefined) => ({ g with root := some root }, Result.undefined)
    | (root, Result.nofuel) => ({ g with root := some root }, Result.nofuel)

/-- The `else` branch of `if (try())` followed by `finally()`: the handler of
`load`. It catches `ERR_FILENOTFOUND` and `ERR_FORMAT`; any other pending kind
is found by `finally()`, which ends the process. -/
def load_catch (g : Globals) (ty : errcode) (msg : List Char) : Result (Bool × Globals) :=
  if ty = errcode.ERR_FILENOTFOUND ∨ ty = errcode.ERR_FORMAT then
    match say (get_error ty msg) g with
    | Result.ok g1 =>
      -- discard the partial load
      match g1.root with
      | some _ => Result.ok (false, { g1 with root := some (add_child_null "Entries".toList) })
      | none => Result.ok (false, g1)
    | _ => Result.undefined
  else Result.died

/-- The function `load(fname)`. `file` is the content of the file named
`fname` (`none`: it cannot be opened), `ans` the answer typed at the
"Discard unsaved changes?" prompt, `errno` the value of `errno`. -/
def load (g : Globals) (fname : List Char) (file : Option (List Char)) (ans : List Char)
    (errno : Nat) : Result (Bool × Globals) :=
  if fname.length = 0 then
    match say "No filename given.".toList g with
    | Result.ok g1 => Result.ok (false, g1)
    | _ => Result.undefined
  else
    match modified_warning ans g with
    | Result.ok (true, g1) =>
      match load_try g1 fname file errno with
      | (g2, Result.ok _) => Result.ok (true, g2)
      | (g2, Result.raised ty msg) => load_catch g2 ty msg
      | (_, Result.died) => Result.died
      | (_, Result.undefined) => Result.undefined
      | (_, Result.nofuel) => Result.nofuel
    | Result.ok (false, g1) =>
      if g1.sayblink = 0 then
        match say "Cancelled.".toList g1 with
        | Result.ok g2 => Result.ok (false, g2)
        | _ => Result.undefined
      else Result.ok (false, g1)
    | _ => Result.undefined

/-- The stream after `fgetc` has read the character that ends a run. -/
def after_run (eof : Bool) : List Char → FILE
  | [] => { data := [], eof := true }
  | _ :: cs => { data := cs, eof := eof }

/-- Used in the proofs about `load`: the text, standing at the start of a line,
has a later line that begins with a space or a tab. -/
inductive indented_later : List Char → Prop where
  | next (line post : List Char) (c : Char) (hline : '\n' ∉ line)
      (hc : c = ' ' ∨ c = '\t') : indented_later (line ++ '\n' :: c :: post)
  | later (line tail : List Char) (hline : '\n' ∉ line) (h : indented_later tail) :
      indented_later (line ++ '\n' :: tail)

/-! ## The format of a saved file, in the words of the specification -/

mutual
/-- Specification side: the nodes of a subtree in depth-first pre-order, children
in stored order, each with its depth. -/
def preorder : Nat → tree → List (Nat × List Char)
  | d, tree.mk _ _ text child => (d, text) :: preorder_children (d + 1) child
/-- Specification side: `preorder` over a list of siblings, all at depth `d`. -/
def preorder_children : Nat → List tree → List (Nat × List Char)
  | _, [] => []
  | d, c :: cs => preorder d c ++ preorder_children d cs
end

/-- Specification side: the line of a node at depth `d`: `d` tabs, the text, a newline. -/
def spec_line (p : Nat × List Char) : List Char :=
  List.replicate p.1 '\t' ++ p.2 ++ ['\n']

/-- Specification side: the file of a tree: one line per node below the root. -/
def spec_file (root : tree) : List Char :=
  ((preorder_children 0 root.child).map spec_line).flatten

/-- The tree of the specification's round-trip example. -/
def example_tree : tree :=
  tree.mk 2 fold_state.EXPANDED "Entries".toList
    [tree.mk 2 fold_state.EXPANDED "Buy milk".toList
       [tree.mk 0 fold_state.EMPTY "Get 2%".toList [],
        tree.mk 0 fold_state.EMPTY "Get oat milk".toList []],
     tree.mk 0 fold_state.EMPTY "Call mom".toList []]

/-- Globals holding the example tree, unmodified, no file name. -/
def example_globals : Globals :=
  { root := some example_tree, filename := [], modified := false, saymsg := [], sayblink := 0 }


/-! ## Reading back what `write_tree` wrote, in the words of the specification -/

/-- Specification side: a text that `write_tree` and `read_tree` carry unchanged: no
newline, no NUL, no tab in front, at most 254 characters. -/
def text_ok (text : List Char) : Prop :=
  '\n' ∉ text ∧ Char.ofNat 0 ∉ text ∧ text.head? ≠ some '\t' ∧ text.length ≤ 254

/-! # Part 2: the tree in memory

Nodes live at addresses. `Mem` is the heap: cell `a` holds `some node` while the
address is allocated and `none` otherwise (never allocated, or freed). Reading a
cell that holds no node is `Result.undefined`. -/

/-- Sequencing of calls: the first result that is not `ok` ends the computation. -/
def Result.bind {α β : Type} (r : Result α) (f : α → Result β) : Result β :=
  match r with
  | Result.ok a => f a
  | Result.raised ty msg => Result.raised ty msg
  | Result.died => Result.died
  | Result.undefined => Result.undefined
  | Result.nofuel => Result.nofuel

instance : Monad Result where
  pure := Result.ok
  bind := Result.bind

namespace Store

/-- The `struct tree` at an address; `child` is the array slice
`child[0 .. nchild)`, so `nchild` is its length. (`sibling` is never used.) -/
structure tree where
  nalloc : Nat
  parent : Option Nat
  child : List Nat
  state : fold_state
  text : List Char
  deriving DecidableEq

abbrev Mem := List (Option tree)

/-- The node at address `a`, if the address holds one. -/
def rd (m : Mem) (a : Nat) : Option tree := (m.get? a).join

/-- Store `v` at address `a`. -/
def wr (m : Mem) (a : Nat) (v : Option tree) : Mem := m.set a v

/-- Dereference a pointer. -/
def deref (m : Mem) (a : Nat) : Result tree :=
  match rd m a with
  | some t => Result.ok t
  | none => Result.undefined

/-- The globals used by the restructuring commands. -/
structure World where
  mem : Mem
  root : Option Nat
  selected_entry : Option Nat
  modified : Bool
  saymsg : List Char
  sayblink : Nat
  deriving DecidableEq

/-- The function `say(str)`. -/
def say (str : List Char) (w : World) : Result World :=
  if str.length < MAX_SAY_CHARS then
    Result.ok { w with saymsg := str,
                       sayblink := if str.length > 0 then 2 * SAY_BLINKS else w.sayblink }
  else Result.undefined

/-- The node after `if (tree->nchild == 0) tree->state = EMPTY;`. -/
def mark_leaf (td : tree) : tree :=
  if td.child.length = 0 then { td with state := fold_state.EMPTY } else td

/-- What the redraws made by `prompt` do to the heap. `prompt` calls `redraw()`,
that is `print_tree(root, 0)`, when it opens and again after each C-? key;
`print_tree` executes `if (tree->nchild == 0) tree->state = EMPTY;` on every node
it visits and writes nothing else to the heap. `seen` lists the nodes visited, in
the order of the visits (which nodes are visited depends on the window and on the
fold states: see `print_tree`). -/
def redraw_marks (seen : List Nat) (m : Mem) : Mem :=
  seen.foldl (fun m0 a =>
    match rd m0 a with
    | some t => wr m0 a (some (mark_leaf t))
    | none => m0) m

/-- The function `confirm(question)`; `ans` is the line typed at the prompt and
`seen` lists the nodes visited by the redraws of `prompt` (see `redraw_marks`). On
an empty line `prompt` returns `NULL`, which `confirm` dereferences. -/
def confirm (ans : List Char) (seen : List Nat) (w : World) : Result (Bool × World) :=
  let w0 := { w with mem := redraw_marks seen w.mem }
  match ans with
  | [] => Result.undefined
  | c :: _ =>
    if c = 'y' then Result.ok (true, w0)
    else if c ≠ 'n' then do
      let w1 ← say "Please type 'y' or 'n'.".toList w0
      Result.ok (false, w1)
    else Result.ok (false, w0)

/-- The function `add_leaf(parent, child)` on the heap (it returns `child`). -/
def add_leaf (m : Mem) (parent : Option Nat) (child : Nat) : Result Mem := do
  let cd ← deref m child
  let m1 := wr m child (some { cd with parent := none })
  match parent with
  | none => Result.ok m1
  | some p => do
    let pd ← deref m1 p
    let pd1 : tree :=
      if pd.nalloc = 0 then
        { pd with child := [child], nalloc := 1, state := fold_state.EXPANDED }
      else if pd.child.length < pd.nalloc then
        { pd with child := pd.child ++ [child], state := fold_state.EXPANDED }
      else
        { pd with nalloc := pd.nalloc * 2, child := pd.child ++ [child],
                  state := fold_state.EXPANDED }
    let m2 := wr m1 p (some pd1)
    let cd2 ← deref m2 child
    Result.ok (wr m2 child (some { cd2 with parent := some p }))

/-- The function `del_child(child)`: the heap afterwards and the pointer returned.
The first slot holding `child` is closed by shifting the rest left. -/
def del_child (m : Mem) (child : Option Nat) : Result (Mem × Option Nat) :=
  match child with
  | none => Result.ok (m, none)
  | some c => do
    let cd ← deref m c
    match cd.parent with
    | none => Result.ok (m, none)
    | some t => do
      let td ← deref m t
      if c ∈ td.child then do
        let m1 := wr m t (some { td with child := td.child.erase c })
        let cd1 ← deref m1 c
        Result.ok (wr m1 c (some { cd1 with parent := none }), some c)
      else Result.ok (m, none)

/-- The function `free_tree(t)`; the first argument bounds the recursion depth. -/
def free_tree : Nat → Mem → Nat → Result Mem
  | 0, _, _ => Result.nofuel
  | fuel + 1, m, t => do
    let td ← deref m t
    let m1 ← td.child.foldlM (fun m0 c => free_tree fuel m0 c) m
    Result.ok (wr m1 t none)

/-- The assignments `swap = child[b]; child[b] = sel; child[a] = swap`. -/
def swap_child (child : List Nat) (sel a b : Nat) : List Nat :=
  match child.get? b with
  | some swap => (child.set b sel).set a swap
  | none => child

/-- The child array after `shove_up` for the entry `sel`. -/
def shove_up_list (child : List Nat) (sel : Nat) : List Nat :=
  let a := child.indexOf sel
  if a < child.length ∧ 1 ≤ a then swap_child child sel a (a - 1) else child

/-- The child array after `shove_down` for the entry `sel`. -/
def shove_down_list (child : List Nat) (sel : Nat) : List Nat :=
  let a := child.indexOf sel
  if a < child.length ∧ a + 1 < child.length then swap_child child sel a (a + 1) else child

/-- The function `shove_up()`. -/
def shove_up (w : World) : Result World :=
  match w.selected_entry with
  | none => Result.ok w
  | some sel => do
    let sd ← deref w.mem sel
    match sd.parent with
    | none => Result.ok w
    | some parent => do
      let pd ← deref w.mem parent
      if pd.child.length < 2 then Result.ok w
      else
        let a := pd.child.indexOf sel
        if a < pd.child.length ∧ 1 ≤ a then
          Result.ok { w with
            mem := wr w.mem parent (some { pd with child := swap_child pd.child sel a (a - 1) }),
            modified := true }
        else Result.ok w

/-- The function `shove_down()`. -/
def shove_down (w : World) : Result World :=
  match w.selected_entry with
  | none => Result.ok w
  | some sel => do
    let sd ← deref w.mem sel
    match sd.parent with
    | none => Result.ok w
    | some parent => do
      let pd ← deref w.mem parent
      if pd.child.length < 2 then Result.ok w
      else
        let a := pd.child.indexOf sel
        if a < pd.child.length ∧ a + 1 < pd.child.length then
          Result.ok { w with
            mem := wr w.mem parent (some { pd with child := swap_child pd.child sel a (a + 1) }),
            modified := true }
        else Result.ok w

/-- A loop `for (i = 0; i < n; i++) shove_up();`. -/
def shove_up_times : Nat → World → Result World
  | 0, w => Result.ok w
  | n + 1, w => do
    let w1 ← shove_up w
    shove_up_times n w1

/-- The function `promote()`. -/
def promote (w : World) : Result World :=
  match w.selected_entry with
  | none => Result.ok w
  | some sel => do
    let sd ← deref w.mem sel
    match sd.parent with
    | none => Result.ok w
    | some parent => do
      let pd ← deref w.mem parent
      match pd.parent with
      | none => Result.ok w
      | some new_parent => do
        let (m1, r) ← del_child w.mem (some sel)
        match r with
        | some sel1 => do
          let nd ← deref m1 new_parent
          let i := nd.child.indexOf parent
          let shoves := if i < nd.child.length then nd.child.length - i else 0
          let m2 ← add_leaf m1 (some new_parent) sel1
          let w1 ← shove_up_times shoves { w with mem := m2 }
          Result.ok { w1 with modified := true }
        | none => Result.died  -- die("Lost child while promoting")

/-- The function `demote()`. After `new_parent = add_leaf(new_parent, sel)` the
variable `new_parent` holds the value returned by `add_leaf`, which is `sel`;
the bound of the last loop is read from that node. -/
def demote (w : World) : Result World :=
  match w.selected_entry with
  | none => Result.ok w
  | some sel => do
    let sd ← deref w.mem sel
    match sd.parent with
    | none => Result.ok w
    | some parent => do
      let pd ← deref w.mem parent
      if pd.child.length < 2 then Result.ok w
      else
        let i := pd.child.indexOf sel
        let target : Option Nat :=
          if i < pd.child.length - 1 then pd.child.get? (i + 1)
          else pd.child.get? (pd.child.length - 2)
        match target with
        | none => Result.undefined
        | some new_parent => do
          let (m1, r) ← del_child w.mem (some sel)
          match r with
          | some sel1 => do
            let m2 ← add_leaf m1 (some new_parent) sel1
            let rd1 ← deref m2 sel1
            let w1 ← shove_up_times (rd1.child.length - 1) { w with mem := m2 }
            Result.ok { w1 with modified := true }
          | none => Result.ok { w with mem := m1 }

/-- The function `delete()`; `ans` is the line typed at the prompt
"Delete entry? (y/n)" and `seen` lists the nodes visited by the redraws of that
prompt. The recursion of `free_tree` is given one step per address of the heap. -/
def delete (ans : List Char) (seen : List Nat) (w : World) : Result World := do
  let (yes, w1) ← confirm ans seen w
  if yes then do
    let (m1, t) ← del_child w1.mem w1.selected_entry
    if t ≠ none ∧ t ≠ w1.root then
      match t with
      | some a => do
        let m2 ← free_tree m1.length m1 a
        let w2 ← say "Entry deleted.".toList { w1 with mem := m2 }
        Result.ok { w2 with modified := true }
      | none => Result.undefined
    else if t = w1.root then say "Cannot delete root entry.".toList { w1 with mem := m1 }
    else say "No entry found.".toList { w1 with mem := m1 }
  else say "Deletion cancelled.".toList w1

/-! ## Well-formed heaps -/

/-- The structural part of well-formedness, on the heap seen as a function from
addresses to nodes: a node listed among the children of `p` has `p` as its
parent; a node with parent `p` is listed among the children of `p`; no child
array lists a node twice; `nchild ≤ nalloc` (the array holds its entries);
`root` is a node without parent. -/
structure wf_core (h : Nat → Option tree) (root : Option Nat) : Prop where
  child_parent : ∀ p pd c, h p = some pd → c ∈ pd.child →
    ∃ cd, h c = some cd ∧ cd.parent = some p
  parent_child : ∀ n nd p, h n = some nd → nd.parent = some p →
    ∃ pd, h p = some pd ∧ n ∈ pd.child
  nodup : ∀ p pd, h p = some pd → pd.child.Nodup
  capacity : ∀ p pd, h p = some pd → pd.child.length ≤ pd.nalloc
  root_ok : ∃ r rd0, root = some r ∧ h r = some rd0 ∧ rd0.parent = none

/-- The function `rk` decreases along every parent pointer: no node is its own
ancestor. -/
def ranked (h : Nat → Option tree) (rk : Nat → Nat) : Prop :=
  ∀ n nd p, h n = some nd → nd.parent = some p → rk p < rk n

/-- A well-formed heap: structurally well-formed and without cycles. -/
def wf (h : Nat → Option tree) (root : Option Nat) : Prop :=
  wf_core h root ∧ ∃ rk, ranked h rk

/-- The tree held by the globals is well-formed. -/
def well_formed (w : World) : Prop := wf (rd w.mem) w.root

/-- The `k`-th ancestor of `x` (used in the proofs about `demote` and `free_tree`). -/
def climb (h : Nat → Option tree) : Nat → Nat → Option Nat
  | 0, x => some x
  | k + 1, x =>
    match h x with
    | some nd =>
      match nd.parent with
      | some q => climb h k q
      | none => none
    | none => none

/-- What a call `free_tree(t)` does to the heap `m`, relative to the well-formed
heap `h0`: the cells of `t` and of the nodes below it are released, the other
cells are left alone. -/
def frees (h0 : Nat → Option tree) (t : Nat) (m m1 : Mem) : Prop :=
  m1.length = m.length ∧
    (∀ x, (∃ k, climb h0 k x = some t) → rd m1 x = none) ∧
    (∀ x, (¬ ∃ k, climb h0 k x = some t) → rd m1 x = rd m x)

/-- The worlds agree on everything but the contents of the cells and `modified`. -/
def same_frame (w w1 : World) : Prop :=
  w1.root = w.root ∧ w1.selected_entry = w.selected_entry ∧ w1.mem.length = w.mem.length ∧
    w1.saymsg = w.saymsg ∧ w1.sayblink = w.sayblink

/-! ## Sequences of commands -/

/-- The restructuring commands; `delete` carries the line typed at its prompt and
the nodes visited by the redraws of the prompt. -/
inductive command where
  | promote
  | demote
  | shove_up
  | shove_down
  | delete (ans : List Char) (seen : List Nat)
  deriving DecidableEq

/-- Run one command on the current selection. -/
def exec (c : command) (w : World) : Result World :=
  match c with
  | command.promote => promote w
  | command.demote => demote w
  | command.shove_up => shove_up w
  | command.shove_down => shove_down w
  | command.delete ans seen => delete ans seen w

/-- Select `sel` (an address or `NULL`), then run the command; and so on. -/
def run : List (Option Nat × command) → World → Result World
  | [], w => Result.ok w
  | (sel, c) :: rest, w => do
    let w1 ← exec c { w with selected_entry := sel }
    run rest w1

/-- The selection is `NULL` or the address of a node. -/
def selectable (sel : Option Nat) (w : World) : Prop :=
  match sel with
  | none => True
  | some a => (rd w.mem a).isSome

/-- A delete counts when the user answers the prompt with `y`. -/
def confirmed (c : command) : Prop :=
  match c with
  | command.delete ans _ => ans.head? = some 'y'
  | _ => True

/-- Every step selects `NULL` or a node of the heap as it is when the step
starts, and every delete is confirmed. -/
def admissible : List (Option Nat × command) → World → Prop
  | [], _ => True
  | (sel, c) :: rest, w =>
    selectable sel w ∧ confirmed c ∧
      match exec c { w with selected_entry := sel } with
      | Result.ok w1 => admissible rest w1
      | _ => True

/-- The example heap: the root "Entries" at address 0 with the children "A"
(address 1) and "B" (address 2); "B" has the child "C" (address 3). "A" is selected. -/
def example_world : World :=
  { mem := [some ⟨2, none, [1, 2], fold_state.EXPANDED, "Entries".toList⟩,
            some ⟨0, some 0, [], fold_state.EMPTY, "A".toList⟩,
            some ⟨1, some 0, [3], fold_state.EXPANDED, "B".toList⟩,
            some ⟨0, some 2, [], fold_state.EMPTY, "C".toList⟩],
    root := some 0, selected_entry := some 1, modified := false, saymsg := [], sayblink := 0 }

/-- A second example heap: the root "Entries" at address 0 with the single child
"P" (address 1); "P" has the children "a", "n", "b" (addresses 2, 3, 4). "n" is
selected: it has a parent, a grandparent and a sibling on each side. -/
def example_world2 : World :=
  { mem := [some ⟨1, none, [1], fold_state.EXPANDED, "Entries".toList⟩,
            some ⟨4, some 0, [2, 3, 4], fold_state.EXPANDED, "P".toList⟩,
            some ⟨0, some 1, [], fold_state.EMPTY, "a".toList⟩,
            some ⟨0, some 1, [], fold_state.EMPTY, "n".toList⟩,
            some ⟨0, some 1, [], fold_state.EMPTY, "b".toList⟩],
    root := some 0, selected_entry := some 3, modified := false, saymsg := [], sayblink := 0 }

/-! ## Fold states and the tree window -/

/-- The function `set_fold(f)`. -/
def set_fold (f : fold_state) (w : World) : Result World :=
  match w.selected_entry with
  | none => Result.ok w
  | some sel => do
    let sd ← deref w.mem sel
    Result.ok { w with mem := wr w.mem sel (some { sd with state := f }) }

/-- One line written to `tree_window`. For an entry: `indent` times two blanks,
the marker `[ ]`, `[-]` or `[+]` of the fold state, and the text of the node
(cut to the width of the window). The loop that clears the lines below the last
entry writes blank lines. -/
inductive line where
  | entry (indent : Nat) (mark : fold_state) (node : Nat)
  | blank
  deriving DecidableEq

/-- The globals used by `print_tree`. `tree_window` is `none` for `NULL`,
otherwise the lines written since the cursor was last moved to the top.
`onscreen_entries` is an array of `tree_win_height` pointers. -/
structure Screen where
  tree_window : Option (List line)
  tree_win_height : Int
  vscroll : Int
  printed_lines : Int
  selected_index : Int
  onscreen_entries : Int → Option Nat

/-- Reading `onscreen_entries[i]`. -/
def get_entry (s : Screen) (i : Int) : Result (Option Nat) :=
  if 0 ≤ i ∧ i < s.tree_win_height then Result.ok (s.onscreen_entries i)
  else Result.undefined

/-- Writing `onscreen_entries[i] = v`. -/
def set_entry (s : Screen) (i : Int) (v : Option Nat) : Result Screen :=
  if 0 ≤ i ∧ i < s.tree_win_height then
    Result.ok { s with onscreen_entries := Function.update s.onscreen_entries i v }
  else Result.undefined

/-- The loop of `print_tree` that finds the index of the selected entry:
`for (i = 0; i < printed_lines - vscroll; i++) if (onscreen_entries[i] == selected_entry)
{ selected_index = i; break; }`; the first argument counts the rounds left. -/
def find_selected (sel : Option Nat) : Nat → Int → Screen → Result Screen
  | 0, _, s => Result.ok s
  | k + 1, i, s => do
    let e ← get_entry s i
    if e = sel then Result.ok { s with selected_index := i }
    else find_selected sel k (i + 1) s

/-- The loop of `print_tree` that clears the lines below the last entry:
`for (i = printed_lines - vscroll; i < tree_win_height; i++) { onscreen_entries[i] = NULL; ... }`;
the first argument counts the rounds left. -/
def clear_below : Nat → Int → Screen → Result Screen
  | 0, _, s => Result.ok s
  | k + 1, i, s => do
    let s1 ← set_entry s i none
    clear_below k (i + 1)
      { s1 with tree_window := s1.tree_window.map (fun win => win ++ [line.blank]) }

/-- The function `print_tree(tree, depth)` for the globals `root` and
`selected_entry`: the heap and the screen afterwards. The first argument bounds
the depth of the recursion. The loop over the children uses the child array read
at its start (the calls made by the loop only change `state` fields). -/
def print_tree (root sel : Option Nat) :
    Nat → Mem → Screen → Option Nat → Nat → Result (Mem × Screen)
  | 0, _, _, _, _ => Result.nofuel
  | fuel + 1, m, s, tree, depth =>
    match tree with
    | none => Result.ok (m, s)
    | some t =>
      let s1 := if some t = root then
          { s with printed_lines := 0, tree_window := s.tree_window.map (fun _ => []) }
        else s
      if s1.printed_lines - s1.vscroll ≥ s1.tree_win_height then Result.ok (m, s1)
      else
        match s1.tree_window with
        | none => Result.ok (m, s1)
        | some win => do
          let td ← deref m t
          let td1 := mark_leaf td
          let m1 := wr m t (some td1)
          let s2 ← if 0 ≤ s1.printed_lines - s1.vscroll
                ∧ s1.printed_lines - s1.vscroll < s1.tree_win_height then
              set_entry { s1 with tree_window := some (win ++ [line.entry depth td1.state t]) }
                (s1.printed_lines - s1.vscroll) (some t)
            else Result.ok s1
          let s3 := { s2 with printed_lines := s2.printed_lines + 1 }
          let (m2, s4) ← if td1.state = fold_state.EXPANDED then
              td1.child.foldlM
                (fun ms c => print_tree root sel fuel ms.1 ms.2 (some c) (depth + 1)) (m1, s3)
            else Result.ok (m1, s3)
          if some t = root then do
            let s5 ← find_selected sel (s4.printed_lines - s4.vscroll).toNat 0 s4
            let s6 ← clear_below (s5.tree_win_height - (s5.printed_lines - s5.vscroll)).toNat
              (s5.printed_lines - s5.vscroll) s5
            Result.ok (m2, s6)
          else Result.ok (m2, s4)

/-- The visible flattening as the specification words it, for the nodes `cs`
in turn, all at depth `d`: a depth-first pre-order walk in which the children of
a node are visited, one level deeper, only if its fold state is `EXPANDED`. -/
inductive flatten_visible (h : Nat → Option tree) : List Nat → Nat → List (Nat × Nat) → Prop
  | nil (d : Nat) : flatten_visible h [] d []
  | folded (c : Nat) (cs : List Nat) (d : Nat) (cd : tree) (l : List (Nat × Nat)) :
      h c = some cd → cd.state ≠ fold_state.EXPANDED → flatten_visible h cs d l →
      flatten_visible h (c :: cs) d ((c, d) :: l)
  | expanded (c : Nat) (cs : List Nat) (d : Nat) (cd : tree) (l1 l2 : List (Nat × Nat)) :
      h c = some cd → cd.state = fold_state.EXPANDED →
      flatten_visible h cd.child (d + 1) l1 → flatten_visible h cs d l2 →
      flatten_visible h (c :: cs) d ((c, d) :: (l1 ++ l2))

/-- The line the specification expects for the node `p.1` at depth `p.2`: a node
without children is shown with the marker of `EMPTY` whatever its state. -/
def visible_line (h : Nat → Option tree) (p : Nat × Nat) : line :=
  match h p.1 with
  | some nd =>
    line.entry p.2 (if nd.child.length = 0 then fold_state.EMPTY else nd.state) p.1
  | none => line.blank

/-- Every node without children has the fold state `EMPTY`. -/
def leaves_empty (h : Nat → Option tree) : Prop :=
  ∀ n nd, h n = some nd → nd.child = [] → nd.state = fold_state.EMPTY

/-- The heap `m` is the heap `h` but for nodes without children whose state has
been set to `EMPTY`. -/
def leaves_marked (h : Nat → Option tree) (m : Mem) : Prop :=
  ∀ x, rd m x = h x ∨
    ∃ xd, h x = some xd ∧ xd.child = [] ∧ rd m x = some { xd with state := fold_state.EMPTY }

/-- The screen after the block of `print_tree` that prints one entry and sets
`onscreen_entries[printed_lines - vscroll]`, and after `printed_lines++` (for
`vscroll = 0` and a line inside the window). -/
def put_line (s : Screen) (win : List line) (d : Nat) (st : fold_state) (c : Nat) : Screen :=
  { s with
    tree_window := some (win ++ [line.entry d st c])
    onscreen_entries := Function.update s.onscreen_entries s.printed_lines (some c)
    printed_lines := s.printed_lines + 1 }

/-- The node at `x`, if it has no children, has the fold state `EMPTY`. -/
def leaf_ok (m : Mem) (x : Nat) : Prop :=
  ∃ nd, rd m x = some nd ∧ (nd.child = [] → nd.state = fold_state.EMPTY)

/-- What printing the entries `l` (nodes with their depths) does to the heap `m`
and the screen `s` whose window holds the lines `win`, relative to the heap `h`
the walk started from: the lines of `l` are appended to the window, the nodes of
`l` fill `onscreen_entries` from `printed_lines` on, nodes without children are
set to `EMPTY`, the rest is left alone. -/
structure print_post (h : Nat → Option tree) (m : Mem) (s : Screen) (win : List line)
    (l : List (Nat × Nat)) (m1 : Mem) (s1 : Screen) : Prop where
  marked : leaves_marked h m1
  window : s1.tree_window = some (win ++ l.map (visible_line h))
  vscroll : s1.vscroll = s.vscroll
  height : s1.tree_win_height = s.tree_win_height
  lines : s1.printed_lines = s.printed_lines + l.length
  index : s1.selected_index = s.selected_index
  below : ∀ i, i < s.printed_lines → s1.onscreen_entries i = s.onscreen_entries i
  entries : ∀ j : Nat, j < l.length →
    s1.onscreen_entries (s.printed_lines + j) = (l[j]?).map Prod.fst
  kept : ∀ x, leaf_ok m x → leaf_ok m1 x
  leaves : ∀ p ∈ l, leaf_ok m1 p.1

/-- An example screen: an empty window of ten lines, nothing printed yet. -/
def example_screen : Screen :=
  { tree_window := some [], tree_win_height := 10, vscroll := 0, printed_lines := 0,
    selected_index := 0, onscreen_entries := fun _ => none }

/-- The function `select_up()`. -/
def select_up (w : World) (s : Screen) : Result (World × Screen) :=
  if w.selected_entry = none ∨ s.selected_index ≤ 0 then do
    let e ← get_entry s 0
    Result.ok ({ w with selected_entry := e },
      if s.vscroll > 0 then { s with vscroll := s.vscroll - 1 } else s)
  else do
    let e ← get_entry s (s.selected_index - 1)
    Result.ok ({ w with selected_entry := e }, s)

/-- The function `select_down()`. -/
def select_down (w : World) (s : Screen) : Result (World × Screen) :=
  if w.selected_entry = none ∨ s.selected_index ≥ s.printed_lines - s.vscroll - 1 then do
    let e ← get_entry s (s.printed_lines - s.vscroll - 1)
    Result.ok ({ w with selected_entry := e },
      if s.vscroll + s.tree_win_height ≤ s.printed_lines then { s with vscroll := s.vscroll + 1 }
      else s)
  else do
    let e ← get_entry s (s.selected_index + 1)
    Result.ok ({ w with selected_entry := e }, s)

/-- The example screen after `print_tree(root, 0)` has drawn the example heap with
the entry `sel` selected. -/
def example_drawn (sel : Option Nat) : Screen :=
  match print_tree example_world.root sel 6 example_world.mem example_screen
      example_world.root 0 with
  | Result.ok (_, s) => s
  | _ => example_screen

end Store

/-! # Part 3: the line editor (readline.c)

The fields `len`, `cur`, `scr`, `cutlen` are C `int`s and are integers here (the
values stay far from the limits of `int`). The arrays `buf` and `cut` have
`MAXLEN` cells; they are read as functions of the index, and every access is
checked: an access outside `0 .. MAXLEN-1` is `Result.undefined`. The window
only matters through its width `w` (`getmaxyx`), a parameter. Keys are the
`int` values returned by `wgetch`. -/

namespace Readline

/-- The constant `MAXLEN` of readline.h. -/
def MAXLEN : Int := 256

/-- The character `'\0'`. -/
def NUL : Char := Char.ofNat 0

/-- Key codes of ncurses.h (octal 0402, 0403, 0404, 0405, 0406, 0407, 0512, 0522,
0523, 0550). -/
def KEY_DOWN : Int := 258
def KEY_UP : Int := 259
def KEY_LEFT : Int := 260
def KEY_RIGHT : Int := 261
def KEY_HOME : Int := 262
def KEY_BACKSPACE : Int := 263
def KEY_DC : Int := 330
def KEY_NPAGE : Int := 338
def KEY_PPAGE : Int := 339
def KEY_END : Int := 360

/-- The anonymous enum of `struct rlstate`. -/
inductive rlmode where
  | INSERT
  | REPLACE
  deriving DecidableEq

/-- The `struct rlstate` without its window. -/
structure rlstate where
  buf : Int → Char
  len : Int
  cur : Int
  scr : Int
  msg : Option (List Char)
  mode : rlmode
  cut : Int → Char
  cutlen : Int

/-- Reading `a[i]` of an array of `MAXLEN` cells. -/
def load (a : Int → Char) (i : Int) : Result Char :=
  if 0 ≤ i ∧ i < MAXLEN then Result.ok (a i) else Result.undefined

/-- Writing `a[i] = c` of an array of `MAXLEN` cells. -/
def store (a : Int → Char) (i : Int) (c : Char) : Result (Int → Char) :=
  if 0 ≤ i ∧ i < MAXLEN then Result.ok (Function.update a i c) else Result.undefined

/-- The call `memcpy(&dst[d], &src[s], n)` between arrays of `MAXLEN` cells; a
negative `n` would become a huge `size_t`. -/
def memcpy (dst : Int → Char) (d : Int) (src : Int → Char) (s n : Int) :
    Result (Int → Char) :=
  if 0 ≤ n ∧ 0 ≤ d ∧ d + n ≤ MAXLEN ∧ 0 ≤ s ∧ s + n ≤ MAXLEN then
    Result.ok (fun i => if d ≤ i ∧ i < d + n then src (i - d + s) else dst i)
  else Result.undefined

/-- The call `memmove(&a[d], &a[s], n)` inside one array. -/
def memmove (a : Int → Char) (d s n : Int) : Result (Int → Char) :=
  memcpy a d a s n

/-- The call `memset(&a[d], 0, n)`. -/
def memset (a : Int → Char) (d n : Int) : Result (Int → Char) :=
  if 0 ≤ n ∧ 0 ≤ d ∧ d + n ≤ MAXLEN then
    Result.ok (fun i => if d ≤ i ∧ i < d + n then NUL else a i)
  else Result.undefined

/-- The function `rl_start` (the allocation succeeds): `memset(rl, 0, sizeof(*rl))`. -/
def rl_start : rlstate :=
  { buf := fun _ => NUL, len := 0, cur := 0, scr := 0, msg := none, mode := rlmode.INSERT,
    cut := fun _ => NUL, cutlen := 0 }

/-- The function `rl_set(rl, str)`; `str` holds the characters before the
terminating `'\0'`. -/
def rl_set (rl : rlstate) (str : List Char) : rlstate :=
  let len : Int := if (str.length : Int) > MAXLEN then MAXLEN else str.length
  { rl with len := len
            buf := fun i => if 0 ≤ i ∧ i < len then str.getD i.toNat NUL else NUL
            cur := 0
            scr := 0 }

/-- The function `left`. -/
def left (rl : rlstate) : rlstate :=
  let cur1 := rl.cur - 1
  let cur2 := if cur1 < 0 then 0 else cur1
  { rl with cur := cur2, scr := if cur2 < rl.scr then cur2 else rl.scr }

/-- The function `right`; `w` is the width of the window. -/
def right (w : Int) (rl : rlstate) : rlstate :=
  let cur1 := rl.cur + 1
  let cur2 := if cur1 > rl.len then rl.len else cur1
  { rl with cur := cur2, scr := if cur2 - rl.scr ≥ w - 1 then cur2 - (w - 1) else rl.scr }

/-- The function `del`. -/
def del (rl : rlstate) : Result rlstate :=
  if rl.len ≤ 0 ∨ rl.cur = rl.len then Result.ok rl
  else do
    let b1 ← memmove rl.buf rl.cur (rl.cur + 1) (rl.len - rl.cur)
    let len1 := rl.len - 1
    let b2 ← memset b1 len1 (MAXLEN - len1)
    Result.ok { rl with buf := b2, len := len1 }

/-- The function `bksp`. -/
def bksp (rl : rlstate) : Result rlstate :=
  if rl.cur ≤ 0 then Result.ok rl else del (left rl)

/-- The function `insert`; `c & 0x7F` keeps the low seven bits. -/
def insert (rl : rlstate) (c : Int) : Result rlstate := do
  let b1 ← if rl.cur ≠ rl.len then memmove rl.buf (rl.cur + 1) rl.cur (rl.len - rl.cur + 1)
           else Result.ok rl.buf
  let b2 ← store b1 rl.cur (Char.ofNat (c % 128).toNat)
  let len1 := rl.len + 1
  let b3 ← store b2 len1 NUL
  Result.ok { rl with buf := b3, len := len1 }

/-- The function `replace`. -/
def replace (rl : rlstate) (c : Int) : Result rlstate := do
  let rl1 ← del rl
  insert rl1 c

/-- The function `invalid`. -/
def invalid (rl : rlstate) : rlstate :=
  { rl with msg := some "> Invalid input.".toList }

/-- The function `type`. -/
def type (w : Int) (rl : rlstate) (c : Int) : Result rlstate :=
  if c < 32 ∨ c > 126 then Result.ok (invalid rl)
  else if rl.mode = rlmode.REPLACE then do
    let rl1 ← replace rl c
    Result.ok (right w rl1)
  else if rl.len < MAXLEN then do
    let rl1 ← insert rl c
    Result.ok (right w rl1)
  else Result.ok { rl with msg := some "> Input limit exceeded.".toList }

/-- First loop of `wordb`: `while (dst > 0 && rl->buf[dst] == ' ') dst--;`. The
first argument bounds the number of rounds. -/
def wordb_skip (buf : Int → Char) : Nat → Int → Result Int
  | 0, _ => Result.nofuel
  | f + 1, dst =>
    if dst > 0 then do
      let c ← load buf dst
      if c = ' ' then wordb_skip buf f (dst - 1) else Result.ok dst
    else Result.ok dst

/-- Second loop of `wordb`: `while (dst > 0 && rl->buf[dst-1] != ' ') dst--;`. -/
def wordb_word (buf : Int → Char) : Nat → Int → Result Int
  | 0, _ => Result.nofuel
  | f + 1, dst =>
    if dst > 0 then do
      let c ← load buf (dst - 1)
      if c ≠ ' ' then wordb_word buf f (dst - 1) else Result.ok dst
    else Result.ok dst

/-- Third loop of `wordb`:
`while (rl->cur > dst && rl->cur > 0) { rl->cut[rl->cutlen++] = rl->buf[rl->cur - 1]; bksp(rl); }`. -/
def wordb_cut (dst : Int) : Nat → rlstate → Result rlstate
  | 0, _ => Result.nofuel
  | f + 1, rl =>
    if rl.cur > dst ∧ rl.cur > 0 then do
      let c ← load rl.buf (rl.cur - 1)
      let cut1 ← store rl.cut rl.cutlen c
      let rl1 ← bksp { rl with cut := cut1, cutlen := rl.cutlen + 1 }
      wordb_cut dst f rl1
    else Result.ok rl

/-- The function `wordb`. Each loop gets one round more than its counter can
count down. -/
def wordb (rl : rlstate) : Result rlstate := do
  let dst0 := rl.cur - 1
  let dst1 ← wordb_skip rl.buf (dst0.toNat + 1) dst0
  let dst2 ← wordb_word rl.buf (dst1.toNat + 1) dst1
  let rl1 := if dst2 ≠ rl.cur - 1 then { rl with cutlen := 0 } else rl
  let rl2 ← wordb_cut dst2 (rl1.cur.toNat + 1) rl1
  let cut3 ← store rl2.cut rl2.cutlen NUL
  Result.ok { rl2 with cut := cut3 }

/-- First loop of `wordf`: `while (dst < rl->len && rl->buf[dst] == ' ') dst++;`. -/
def wordf_skip (buf : Int → Char) (len : Int) : Nat → Int → Result Int
  | 0, _ => Result.nofuel
  | f + 1, dst =>
    if dst < len then do
      let c ← load buf dst
      if c = ' ' then wordf_skip buf len f (dst + 1) else Result.ok dst
    else Result.ok dst

/-- Second loop of `wordf`: `while (dst < rl->len && rl->buf[dst+1] != ' ') dst++;`. -/
def wordf_word (buf : Int → Char) (len : Int) : Nat → Int → Result Int
  | 0, _ => Result.nofuel
  | f + 1, dst =>
    if dst < len then do
      let c ← load buf (dst + 1)
      if c ≠ ' ' then wordf_word buf len f (dst + 1) else Result.ok dst
    else Result.ok dst

/-- Third loop of `wordf`:
`while (rl->cur <= dst) { rl->cut[rl->cutlen++] = rl->buf[rl->cur]; del(rl); dst--; }`. -/
def wordf_cut : Nat → Int → rlstate → Result rlstate
  | 0, _, _ => Result.nofuel
  | f + 1, dst, rl =>
    if rl.cur ≤ dst then do
      let c ← load rl.buf rl.cur
      let cut1 ← store rl.cut rl.cutlen c
      let rl1 ← del { rl with cut := cut1, cutlen := rl.cutlen + 1 }
      wordf_cut f (dst - 1) rl1
    else Result.ok rl

/-- The function `wordf`. -/
def wordf (rl : rlstate) : Result rlstate := do
  let dst0 := rl.cur + 1
  let dst1 ← wordf_skip rl.buf rl.len ((rl.len - dst0).toNat + 1) dst0
  let dst2 ← wordf_word rl.buf rl.len ((rl.len - dst1).toNat + 1) dst1
  let rl1 := if dst2 ≠ rl.cur + 1 then { rl with cutlen := 0 } else rl
  let rl2 ← wordf_cut ((dst2 - rl1.cur + 1).toNat + 1) dst2 rl1
  let cut3 ← store rl2.cut rl2.cutlen NUL
  Result.ok { rl2 with cut := cut3 }

/-- The function `cutb`. -/
def cutb (rl : rlstate) : Result rlstate := do
  let rl1 ← if rl.cur > 0 then do
      let c1 ← memcpy rl.cut 0 rl.buf 0 (rl.cur + 1)
      let c2 ← store c1 rl.cur NUL
      Result.ok { rl with cut := c2, cutlen := rl.cur }
    else Result.ok rl
  let b1 ← memmove rl1.buf 0 rl1.cur (rl1.len - rl1.cur)
  let len1 := rl1.len - rl1.cur
  let b2 ← memset b1 len1 (MAXLEN - len1)
  Result.ok (left { rl1 with buf := b2, len := len1, cur := 0 })

/-- The function `cutf`. -/
def cutf (w : Int) (rl : rlstate) : Result rlstate := do
  let rl1 ← if rl.cur < rl.len then do
      let c1 ← memcpy rl.cut 0 rl.buf rl.cur (rl.len - rl.cur + 1)
      let c2 ← store c1 (rl.len - rl.cur) NUL
      Result.ok { rl with cut := c2, cutlen := rl.len - rl.cur }
    else Result.ok rl
  let b1 ← memset rl1.buf rl1.cur (MAXLEN - rl1.cur)
  Result.ok (right w { rl1 with len := rl1.cur, buf := b1 })

/-- The function `home`. -/
def home (rl : rlstate) : rlstate :=
  left { rl with cur := 0 }

/-- The function `end`. -/
def rl_end (w : Int) (rl : rlstate) : rlstate :=
  right w { rl with cur := rl.len }

/-- The function `cls`. -/
def cls (rl : rlstate) : rlstate :=
  { rl with buf := Function.update rl.buf 0 NUL, len := 0 }

/-- The loop of `paste`: `for (i = rl->cutlen-1; i >= 0; i--) insert(rl, rl->cut[i]);`
with `i + 1` as the argument. -/
def paste_loop : Nat → rlstate → Result rlstate
  | 0, rl => Result.ok rl
  | i + 1, rl => do
    let c ← load rl.cut i
    let rl1 ← insert rl c.toNat
    paste_loop i rl1

/-- The function `paste`. -/
def paste (rl : rlstate) : Result rlstate :=
  if rl.cutlen ≤ 0 then Result.ok { rl with msg := some "> Clipboard empty.".toList }
  else paste_loop rl.cutlen.toNat rl

/-- The function `rl_read`; `c` is the key returned by `wgetch`. The result is
the value returned and the state afterwards. -/
def rl_read (w : Int) (c : Int) (rl : rlstate) : Result (Int × rlstate) :=
  if rl.msg ≠ none then Result.ok (0, { rl with msg := none })
  else if c = 0x1F ∨ c = 9 then Result.ok (c, rl)
  else if c = KEY_NPAGE ∨ c = KEY_PPAGE ∨ c = KEY_UP ∨ c = KEY_DOWN then
    Result.ok (c, invalid rl)
  else if c = 10 ∨ c = 13 then Result.ok (c, rl)
  else if c = 0x03 then Result.ok (10, cls rl)
  else if c = 0x0B then do let rl1 ← cutf w rl; Result.ok (c, rl1)
  else if c = 0x15 then do let rl1 ← cutb rl; Result.ok (c, rl1)
  else if c = 0x17 then do let rl1 ← wordb rl; Result.ok (c, rl1)
  else if c = 0x18 then do let rl1 ← wordf rl; Result.ok (c, rl1)
  else if c = 0x16 ∨ c = 0x19 then do let rl1 ← paste rl; Result.ok (c, rl1)
  else if c = 0x02 ∨ c = KEY_LEFT then Result.ok (c, left rl)
  else if c = 0x06 ∨ c = KEY_RIGHT then Result.ok (c, right w rl)
  else if c = 0x01 ∨ c = KEY_HOME then Result.ok (c, home rl)
  else if c = 0x05 ∨ c = KEY_END then Result.ok (c, rl_end w rl)
  else if c = 0x08 ∨ c = 0x7F ∨ c = KEY_BACKSPACE then do
    let rl1 ← bksp rl
    Result.ok (c, rl1)
  else if c = 0x04 ∨ c = KEY_DC then do let rl1 ← del rl; Result.ok (c, rl1)
  else do let rl1 ← type w rl c; Result.ok (c, rl1)

/-- The loop `do { ... c = rl_read(rl); } while (c != '\n');` of `prompt` in tt.c,
fed with the keys `keys`: the state when the keys are used up, and whether the
loop has ended (later keys are then not read by the editor). -/
def rl_loop (w : Int) : List Int → rlstate → Result (Bool × rlstate)
  | [], rl => Result.ok (false, rl)
  | c :: cs, rl => do
    let (r, rl1) ← rl_read w c rl
    if r = 10 then Result.ok (true, rl1) else rl_loop w cs rl1

/-- The characters `buf[0..len)`. -/
def contents (rl : rlstate) : List Char :=
  (List.range rl.len.toNat).map (fun i => rl.buf i)

/-- An example state: the line "ab" set by `rl_set`, the cursor moved right once
in a window 80 columns wide. -/
def example_line : rlstate :=
  right 80 (rl_set rl_start "ab".toList)

/-- The ordering `0 ≤ scr ≤ cur ≤ len` of scroll position, cursor and length. -/
def ordered (rl : rlstate) : Prop :=
  0 ≤ rl.scr ∧ rl.scr ≤ rl.cur ∧ rl.cur ≤ rl.len

end Readline
/-! # Part 4: the frame stack of exception.c

`context` is the list of frames, nearest first (`prev` is the rest of the
list). The `jmp_buf` is not part of a frame here: the transfer of control made
by `longjmp` is the result `except_raise` hands back to the protected region.
`die` prints its argument and ends the process with `exit(1)`; control does not
come back from it. The two callers here format the diagnostic with `sprintf` into
a local buffer of `MAX_ERROR_LEN` bytes and call `die` at once: such a call ends as
`Result.died`, whatever the length of the text formatted for it. -/

namespace Exception

/-- The member `error` of `struct stackframe`; `msg` is the C string in
`msg[MAX_ERROR_LEN]`, `file` is `none` for `NULL`. -/
structure errinfo where
  val : errcode
  msg : List Char
  line : Int
  file : Option (List Char)

/-- The `struct stackframe` without `jmp` and `prev`. -/
structure stackframe where
  line : Int
  file : Option (List Char)
  error : errinfo

/-- The function `except_try(file, line)` (it returns `true`): a frame filled
with zeros but for `file` and `line` is pushed. -/
def except_try (file : List Char) (line : Int) (context : List stackframe) :
    List stackframe :=
  { line := line, file := some file,
    error := { val := errcode.ERR_NONE, msg := [], line := 0, file := none } } :: context

/-- The function `except_raise(type, msg, file, line)`: the frame stack with
which control goes back to the checkpoint of the nearest frame. Without a frame
the diagnostic "Exception raised outside of try block: ..." is handed to `die`. -/
def except_raise (type : errcode) (msg file : List Char) (line : Int)
    (context : List stackframe) : Result (List stackframe) :=
  let errstr := errstrings type
  let errlen := errstr.length
  let msglen := if msg.length > MAX_ERROR_LEN - 1 - errlen then MAX_ERROR_LEN - 1 - errlen
    else msg.length
  match context with
  | fr :: prev =>
    Result.ok ({ fr with
      error := { val := type, msg := errstr ++ msg.take msglen, line := line,
                 file := some file } } :: prev)
  | [] => Result.died

/-- The function `catch(type)`, named `except_catch` by the macro of exception.h:
the value returned and the frame stack. -/
def except_catch (type : errcode) (context : List stackframe) : Bool × List stackframe :=
  match context with
  | fr :: prev =>
    if fr.error.val = type then
      (true, { fr with error := { fr.error with val := errcode.ERR_NONE } } :: prev)
    else (false, context)
  | [] => (false, context)

/-- The function `finally()`, named `except_finally` by the macro of exception.h:
without a frame, or with an error still pending in the nearest frame, a diagnostic
is handed to `die`; otherwise the nearest frame is removed and freed. -/
def except_finally (context : List stackframe) : Result (List stackframe) :=
  match context with
  | [] => Result.died
  | fr :: prev =>
    if fr.error.val ≠ errcode.ERR_NONE then Result.died
    else Result.ok prev

/-- The function `get_error()`. -/
def get_error (context : List stackframe) : List Char :=
  match context with
  | [] => []
  | fr :: _ => fr.error.msg

/-- The handler of `load`, the branch `else` of `if (try())`, followed by
`finally()`: `catch(ERR_FILENOTFOUND) || catch(ERR_FORMAT)`, then the message,
then the fresh root. Yields the frame stack, the globals and the value `load`
returns. -/
def load_else (context : List stackframe) (g : Globals) :
    Result (Bool × Globals × List stackframe) :=
  let c1 := except_catch errcode.ERR_FILENOTFOUND context
  let c2 := if c1.1 then c1 else except_catch errcode.ERR_FORMAT c1.2
  let handled : Result Globals :=
    if c2.1 then
      match TreeTool.say (get_error c2.2) g with
      | Result.ok g1 =>
        match g1.root with
        | some _ => Result.ok { g1 with root := some (add_child_null "Entries".toList) }
        | none => Result.ok g1
      | _ => Result.undefined
    else Result.ok g
  match handled with
  | Result.ok g2 =>
    match except_finally c2.2 with
    | Result.ok context1 => Result.ok (false, g2, context1)
    | Result.raised ty msg => Result.raised ty msg
    | Result.died => Result.died
    | Result.undefined => Result.undefined
    | Result.nofuel => Result.nofuel
  | Result.raised ty msg => Result.raised ty msg
  | Result.died => Result.died
  | Result.undefined => Result.undefined
  | Result.nofuel => Result.nofuel

/-- The block `if (try()) { ... } else { ... } finally();` of `load` on the
frame stack `context`. `src` is `__FILE__`, `line` the `__LINE__` of the
`raise` that is reached (`try()` stands at line 842 of tt.c); the other
arguments are those of `load_try`. -/
def load_protected (context : List stackframe) (src : List Char) (line : Int) (g : Globals)
    (fname : List Char) (file : Option (List Char)) (errno : Nat) :
    Result (Bool × Globals × List stackframe) :=
  let context1 := except_try src 842 context
  match load_try g fname file errno with
  | (g1, Result.ok _) =>
    match except_finally context1 with
    | Result.ok context2 => Result.ok (true, g1, context2)
    | Result.raised ty msg => Result.raised ty msg
    | Result.died => Result.died
    | Result.undefined => Result.undefined
    | Result.nofuel => Result.nofuel
  | (g1, Result.raised ty msg) =>
    match except_raise ty msg src line context1 with
    | Result.ok context2 => load_else context2 g1
    | Result.raised ty1 msg1 => Result.raised ty1 msg1
    | Result.died => Result.died
    | Result.undefined => Result.undefined
    | Result.nofuel => Result.nofuel
  | (_, Result.died) => Result.died
  | (_, Result.undefined) => Result.undefined
  | (_, Result.nofuel) => Result.nofuel

end Exception
/-! ## Lemmas: writing -/

mutual
theorem write_tree_eq : ∀ (t : tree) (f : List Char) (d : Nat),
    write_tree t f d = f ++ ((preorder d t).map spec_line).flatten
  | tree.mk _ _ text child, f, d => by
    rw [write_tree, preorder, write_children_eq child _ (d + 1)]
    simp [spec_line, List.append_assoc]
theorem write_children_eq : ∀ (cs : List tree) (f : List Char) (d : Nat),
    write_children cs f d = f ++ ((preorder_children d cs).map spec_line).flatten
  | [], f, d => by simp [write_children, preorder_children]
  | c :: cs, f, d => by
    rw [write_children, write_children_eq cs _ d, write_tree_eq c f d, preorder_children]
    simp [List.append_assoc]
end

theorem say_short (str : List Char) (g : Globals) (h : str.length < MAX_SAY_CHARS) :
    say str g = Result.ok
      { g with saymsg := str
               sayblink := if str.length > 0 then 2 * SAY_BLINKS else g.sayblink } := by
  simp [say, h]

theorem confirm_root (ans : List Char) (g g1 : Globals) (b : Bool)
    (h : confirm ans g = Result.ok (b, g1)) : g1.root = g.root := by
  unfold confirm at h
  cases ans with
  | nil => simp at h
  | cons c cs =>
    simp only at h
    split at h
    · simp only [Result.ok.injEq, Prod.mk.injEq] at h; rw [← h.2]
    · split at h
      · rw [say_short _ _ (by decide)] at h
        simp only [Result.ok.injEq, Prod.mk.injEq] at h; rw [← h.2]
      · simp only [Result.ok.injEq, Prod.mk.injEq] at h; rw [← h.2]

theorem saveas_return_ne (r : Result Globals) (g1 : Globals) (text : List Char) :
    saveas_return r ≠ Result.ok (g1, some text) := by
  cases r <;> simp [saveas_return]

theorem saveas_write_text (g g1 : Globals) (name text : List Char) (can_write : Bool)
    (h : saveas_write g name can_write = Result.ok (g1, some text)) :
    ∃ root, g.root = some root ∧ text = write_children root.child [] 0 := by
  unfold saveas_write at h
  split at h
  · exact absurd h (saveas_return_ne _ _ _)
  · split at h
    · simp at h
    · rename_i root hroot
      split at h
      · rw [say_short _ _ (by decide)] at h
        simp only [Result.ok.injEq, Prod.mk.injEq, Option.some.injEq] at h
        exact ⟨root, hroot, h.2.symm⟩
      · simp at h

theorem saveas_written (g : Globals) (fname : Option (List Char)) (file_exists : Bool)
    (ans : List Char) (can_write : Bool) (g1 : Globals) (text : List Char)
    (h : saveas g fname file_exists ans can_write = Result.ok (g1, some text)) :
    ∃ root, g.root = some root ∧ text = write_children root.child [] 0 := by
  unfold saveas at h
  cases fname with
  | none => exact absurd h (saveas_return_ne _ _ _)
  | some name =>
    simp only at h
    split at h
    · exact absurd h (saveas_return_ne _ _ _)
    · split at h
      · split at h
        · rename_i g2 hc
          obtain ⟨root, hr, ht⟩ := saveas_write_text g2 g1 name text can_write h
          exact ⟨root, by rw [← confirm_root _ _ _ _ hc]; exact hr, ht⟩
        · exact absurd h (saveas_return_ne _ _ _)
        · simp at h
      · exact saveas_write_text g g1 name text can_write h

/-! ## C2: the format of the saved text -/

/-- C2. The text written by `saveas` is exactly one line per node below the
root, in depth-first pre-order with children in stored order; the line of a node
at depth `d` (top-level entries at depth 0) is `d` tabs, the text of the node and
a newline; the text of the root is not part of it. First part: whatever
`saveas` writes has this form. Second part: when a tree is held, the name is
usable, the file can be opened for writing and no overwrite question arises,
`saveas` does write that text. -/
theorem saveas_format (g : Globals) (fname : Option (List Char)) (file_exists : Bool)
    (ans : List Char) (can_write : Bool) :
    (∀ g1 text, saveas g fname file_exists ans can_write = Result.ok (g1, some text) →
      ∃ root, g.root = some root ∧
        text = ((preorder_children 0 root.child).map
          (fun p => List.replicate p.1 '\t' ++ p.2 ++ ['\n'])).flatten) ∧
    (∀ root name, g.root = some root → fname = some name → name.length ≠ 0 →
      name.length < MAX_ENTRY_LEN → can_write = true →
      (name = g.filename ∨ file_exists = false) →
      ∃ g1, saveas g fname file_exists ans can_write = Result.ok (g1,
        some ((preorder_children 0 root.child).map
          (fun p => List.replicate p.1 '\t' ++ p.2 ++ ['\n'])).flatten)) := by
  have hline : spec_line = fun p => List.replicate p.1 '\t' ++ p.2 ++ ['\n'] := by
    funext p; rfl
  constructor
  · intro g1 text h
    obtain ⟨root, hr, ht⟩ := saveas_written g fname file_exists ans can_write g1 text h
    refine ⟨root, hr, ?_⟩
    rw [ht, write_children_eq, hline, List.nil_append]
  · intro root name hroot hname hne hlen hcw hnoask
    subst hname hcw
    have hcond : ¬ (name ≠ g.filename ∧ file_exists = true) := by
      rintro ⟨h1, h2⟩
      rcases hnoask with h | h
      · exact h1 h
      · rw [h] at h2; simp at h2
    unfold saveas
    simp only [if_neg hne, if_neg hcond, saveas_write, Bool.not_true, Bool.false_eq_true,
      if_false, hroot, if_pos hlen]
    rw [say_short _ _ (by decide), write_children_eq, hline, List.nil_append]
    exact ⟨_, rfl⟩

/-- Witness of C2: saving the example tree under the name `f` writes the four
lines of the specification's example. -/
theorem saveas_format_witness :
    (∃ root, example_globals.root = some root ∧
        "Buy milk\n\tGet 2%\n\tGet oat milk\nCall mom\n".toList
          = ((preorder_children 0 root.child).map
              (fun p => List.replicate p.1 '\t' ++ p.2 ++ ['\n'])).flatten) ∧
      ∃ g1, saveas example_globals (some "f".toList) false [] true = Result.ok (g1,
        some ((preorder_children 0 example_tree.child).map
          (fun p => List.replicate p.1 '\t' ++ p.2 ++ ['\n'])).flatten) :=
  ⟨(saveas_format example_globals (some "f".toList) false [] true).1 _ _ (by rfl),
   (saveas_format example_globals (some "f".toList) false [] true).2 example_tree "f".toList
     rfl rfl (by decide) (by decide) rfl (Or.inr rfl)⟩

/-! ## Lemmas: counting a run of the delimiter -/

theorem count_delim_run (d : Char) (eof : Bool) (n : Nat) (rest : List Char)
    (hrest : rest.head? ≠ some d) :
    count_delim d eof (List.replicate n d ++ rest) = (n, rest.head?, after_run eof rest) := by
  induction n with
  | zero =>
    cases rest with
    | nil => simp [count_delim, after_run]
    | cons c cs =>
      have hc : c ≠ d := by
        intro h; apply hrest; simp [h]
      simp [count_delim, hc, after_run]
  | succ n ih =>
    simp only [List.replicate_succ, List.cons_append, count_delim, if_true]
    show ((count_delim d eof (List.replicate n d ++ rest)).1 + 1,
      (count_delim d eof (List.replicate n d ++ rest)).2.1,
      (count_delim d eof (List.replicate n d ++ rest)).2.2) = _
    rw [ih]

/-! ## C3: the indentation of the node's own line -/

/-- Let the unread input start with exactly `n` copies of the delimiter `d`
(a space or a tab; `rest` does not start with `d`). If `n` differs from the
expected depth `k`, and `errno` is 0 or a character follows the run, then
`read_tree(f, d, k)` raises the Format error "invalid indentation" and returns no
node. -/
theorem read_tree_indentation_mismatch (fuel errno : Nat) (eof : Bool) (d : Char) (k n : Nat)
    (rest : List Char) (hd : d = ' ' ∨ d = '\t') (hrest : rest.head? ≠ some d)
    (hn : n ≠ k) (herr : errno = 0 ∨ rest ≠ []) :
    read_tree (fuel + 1) errno { data := List.replicate n d ++ rest, eof := eof } d k
      = Result.raised errcode.ERR_FORMAT "invalid indentation".toList := by
  have hd0 : d ≠ Char.ofNat 0 := by
    rcases hd with h | h <;> rw [h] <;> decide
  have hline : read_line errno { data := List.replicate n d ++ rest, eof := eof } d k
      = Result.raised errcode.ERR_FORMAT "invalid indentation".toList := by
    unfold read_line detect_delim
    simp only [hd0, if_false, count_delim_run d eof n rest hrest]
    have hio : ¬ (rest.head? = none ∧ errno ≠ 0) := by
      rintro ⟨h1, h2⟩
      rcases herr with h | h
      · exact h2 h
      · cases rest with
        | nil => exact h rfl
        | cons c cs => simp at h1
    rw [if_neg hio, if_pos hn]
  rw [read_tree, hline]

/-- An instance: a line indented by two tabs read at expected depth 1. -/
theorem read_tree_indentation_mismatch_witness :
    read_tree 1 0 { data := "\t\tx\n".toList, eof := false } '\t' 1
      = Result.raised errcode.ERR_FORMAT "invalid indentation".toList :=
  read_tree_indentation_mismatch 0 0 false '\t' 1 2 "x\n".toList (Or.inr rfl) (by decide)
    (by decide) (Or.inl rfl)

/-- A run of delimiters up to the end of the input, read while `errno` is not 0:
`ungetc(EOF, f)` fails, and the test `ungetc(c, f) == EOF && errno != 0` in front
of the indentation check raises an IO error. -/
theorem read_tree_run_at_end (fuel errno : Nat) (eof : Bool) (d : Char) (k n : Nat)
    (hd : d = ' ' ∨ d = '\t') (herr : errno ≠ 0) :
    read_tree (fuel + 1) errno { data := List.replicate n d, eof := eof } d k
      = Result.raised errcode.ERR_IO (strerror errno) := by
  have hd0 : d ≠ Char.ofNat 0 := by
    rcases hd with h | h <;> rw [h] <;> decide
  have hrun := count_delim_run d eof n [] (by simp)
  rw [List.append_nil] at hrun
  have hline : read_line errno { data := List.replicate n d, eof := eof } d k
      = Result.raised errcode.ERR_IO (strerror errno) := by
    unfold read_line detect_delim
    simp only [hd0, if_false, hrun, List.head?_nil, true_and]
    rw [if_pos herr]
  rw [read_tree, hline]

/-- C3 (evaluation of the code). A file that holds a single tab, read while `errno`
is 2: the line starts with one delimiter and the expected depth is 0, yet
`read_tree` raises the IO error "errno 2", not the Format error, both when the
delimiter tab is passed and in the call made by `load` (delimiter unset, detected
from the first character). In general a run of `n` delimiters that reaches the end
of the input is reported as an IO error whenever `errno` is not 0, whatever the
expected depth. When `errno` is 0 or a character follows the run, a run whose
length differs from the expected depth raises the Format error
"invalid indentation". -/
theorem read_tree_mismatch_stale_errno :
    read_tree 1 2 { data := ['\t'], eof := false } '\t' 0
      = Result.raised errcode.ERR_IO "errno 2".toList ∧
    read_tree 1 2 { data := ['\t'], eof := false } (Char.ofNat 0) 0
      = Result.raised errcode.ERR_IO "errno 2".toList ∧
    (∀ (fuel errno : Nat) (eof : Bool) (d : Char) (k n : Nat), d = ' ' ∨ d = '\t' →
      errno ≠ 0 →
      read_tree (fuel + 1) errno { data := List.replicate n d, eof := eof } d k
        = Result.raised errcode.ERR_IO (strerror errno)) ∧
    (∀ (fuel errno : Nat) (eof : Bool) (d : Char) (k n : Nat) (rest : List Char),
      d = ' ' ∨ d = '\t' → rest.head? ≠ some d → n ≠ k → errno = 0 ∨ rest ≠ [] →
      read_tree (fuel + 1) errno { data := List.replicate n d ++ rest, eof := eof } d k
        = Result.raised errcode.ERR_FORMAT "invalid indentation".toList) :=
  ⟨rfl, rfl, fun fuel errno eof d k n hd herr => read_tree_run_at_end fuel errno eof d k n hd herr,
   fun fuel errno eof d k n rest hd hrest hn herr =>
     read_tree_indentation_mismatch fuel errno eof d k n rest hd hrest hn herr⟩

/-! ## C4: a child indented too deep -/

/-- C4. Whenever the loop of `read_tree(..., k)` (entered after the node's own
line, and again after each child) stands, with delimiter `d`, before a line
that starts with more than `k + 1` copies of `d` followed by a character (not
the end of the input), the Format error "invalid indentation" is raised,
whatever node `t` has been built so far. In particular `read_tree` raises it
when the line after the node's own line is such a line. -/
theorem read_loop_too_deep (fuel errno : Nat) (eof : Bool) (d c : Char) (k n : Nat)
    (rest : List Char) (hc : c ≠ d) (hn : k + 1 < n) :
    (∀ t, read_loop (fuel + 1) errno { data := List.replicate n d ++ c :: rest, eof := eof }
        d k t = Result.raised errcode.ERR_FORMAT "invalid indentation".toList) ∧
    (∀ f d0 t, read_line errno f d0 k
        = Result.ok (t, d, { data := List.replicate n d ++ c :: rest, eof := eof }) →
      read_tree (fuel + 2) errno f d0 k
        = Result.raised errcode.ERR_FORMAT "invalid indentation".toList) := by
  have hloop : ∀ t, read_loop (fuel + 1) errno
      { data := List.replicate n d ++ c :: rest, eof := eof } d k t
        = Result.raised errcode.ERR_FORMAT "invalid indentation".toList := by
    intro t
    have hrest : (c :: rest).head? ≠ some d := by simp [hc]
    rw [read_loop]
    simp only [count_delim_run d eof n (c :: rest) hrest, List.head?_cons]
    have h1 : ¬ n ≤ k := by omega
    have h2 : n > k + 1 := hn
    simp [h1, h2]
  refine ⟨hloop, ?_⟩
  intro f d0 t hline
  rw [read_tree, hline]
  exact hloop t

/-- Witness of C4: the entry `a` read at depth 0 with delimiter tab, followed by
a line indented by two tabs. -/
theorem read_loop_too_deep_witness :
    read_loop 1 0 { data := "\t\tb\n".toList, eof := false } '\t' 0
        (tree.mk 0 fold_state.COLLAPSED "a".toList [])
      = Result.raised errcode.ERR_FORMAT "invalid indentation".toList ∧
    read_tree 2 0 { data := "a\n\t\tb\n".toList, eof := false } '\t' 0
      = Result.raised errcode.ERR_FORMAT "invalid indentation".toList :=
  ⟨(read_loop_too_deep 0 0 false '\t' 'b' 0 2 "\n".toList (by decide) (by decide)).1 _,
   (read_loop_too_deep 0 0 false '\t' 'b' 0 2 "\n".toList (by decide) (by decide)).2
     { data := "a\n\t\tb\n".toList, eof := false } '\t' _ (by rfl)⟩

/-! ## Lemmas: the only Format error of the parser -/

theorem read_text_not_format (errno : Nat) (f : FILE) (msg : List Char) :
    read_text errno f ≠ Result.raised errcode.ERR_FORMAT msg := by
  unfold read_text
  split
  · split <;> simp
  · simp only
    split
    · simp
    · split <;> simp

theorem read_line_format_msg (errno : Nat) (f : FILE) (delim : Char) (indent : Nat)
    (msg : List Char)
    (h : read_line errno f delim indent = Result.raised errcode.ERR_FORMAT msg) :
    msg = "invalid indentation".toList := by
  unfold read_line at h
  split at h
  · rename_i d1 f1 hdet
    simp only at h
    split at h
    · simp at h
    · split at h
      · simp only [Result.raised.injEq, true_and] at h
        exact h.symm
      · split at h
        · simp at h
        · rename_i ty m hl
          simp only [Result.raised.injEq] at h
          rw [h.1, h.2] at hl
          exact absurd hl (read_text_not_format _ _ _)
        · simp at h
        · simp at h
        · simp at h
  · rename_i ty m hdet
    unfold detect_delim at hdet
    split at hdet
    · split at hdet
      · split at hdet
        · simp only [Result.raised.injEq] at hdet h
          rw [← hdet.1] at h
          simp at h
        · simp at hdet
      · simp at hdet
    · simp at hdet
  · simp at h
  · simp at h
  · simp at h

theorem realloc_child_not_raised (t : tree) (ty : errcode) (msg : List Char) :
    realloc_child t ≠ Result.raised ty msg := by
  obtain ⟨a, s, text, ch⟩ := t
  simp only [realloc_child]
  split_ifs <;> simp

theorem read_format_msg (fuel : Nat) :
    (∀ errno f delim indent msg,
      read_tree fuel errno f delim indent = Result.raised errcode.ERR_FORMAT msg →
        msg = "invalid indentation".toList) ∧
    (∀ errno f delim indent t msg,
      read_loop fuel errno f delim indent t = Result.raised errcode.ERR_FORMAT msg →
        msg = "invalid indentation".toList) := by
  induction fuel with
  | zero =>
    constructor
    · intro errno f delim indent msg h
      simp [read_tree] at h
    · intro errno f delim indent t msg h
      simp [read_loop] at h
  | succ fuel ih =>
    constructor
    · intro errno f delim indent msg h
      rw [read_tree] at h
      split at h
      · exact ih.2 _ _ _ _ _ _ h
      · rename_i ty m hl
        simp only [Result.raised.injEq] at h
        rw [h.1, h.2] at hl
        exact read_line_format_msg _ _ _ _ _ hl
      · simp at h
      · simp at h
      · simp at h
    · intro errno f delim indent t msg h
      rw [read_loop] at h
      split at h
      · simp at h
      · split at h
        · simp at h
        · split at h
          · simp only [Result.raised.injEq, true_and] at h
            exact h.symm
          · split at h
            · split at h
              · exact ih.2 _ _ _ _ _ _ h
              · rename_i ty m hl
                simp only [Result.raised.injEq] at h
                rw [h.1, h.2] at hl
                exact ih.1 _ _ _ _ _ hl
              · simp at h
              · simp at h
              · simp at h
            · rename_i ty m hl
              exact absurd hl (realloc_child_not_raised t ty m)
            · simp at h
            · simp at h
            · simp at h

theorem load_loop_format_msg (fuel errno : Nat) (f : FILE) (root built : tree) (msg : List Char)
    (h : load_loop fuel errno f root = (built, Result.raised errcode.ERR_FORMAT msg)) :
    msg = "invalid indentation".toList := by
  induction fuel generalizing f root with
  | zero => simp [load_loop] at h
  | succ fuel ih =>
    rw [load_loop] at h
    split at h
    · simp at h
    · split at h
      · exact ih _ _ h
      · rename_i ty m hl
        simp only [Prod.mk.injEq, Result.raised.injEq] at h
        rw [h.2.1, h.2.2] at hl
        exact (read_format_msg _).1 _ _ _ _ _ hl
      · simp at h
      · simp at h
      · simp at h

/-! ## Lemmas: the handler of `load` -/

theorem modified_warning_root (ans : List Char) (g g1 : Globals) (b : Bool)
    (h : modified_warning ans g = Result.ok (b, g1)) : g1.root = g.root := by
  unfold modified_warning at h
  split at h
  · simp only [Result.ok.injEq, Prod.mk.injEq] at h; rw [← h.2]
  · exact confirm_root _ _ _ _ h

theorem load_catch_format (g : Globals) (built : tree) (hroot : g.root = some built) :
    ∃ g2, load_catch g errcode.ERR_FORMAT "invalid indentation".toList = Result.ok (false, g2) ∧
      g2.root = some (tree.mk 0 fold_state.EMPTY "Entries".toList []) := by
  unfold load_catch
  rw [if_pos (Or.inr rfl), say_short _ _ (by decide)]
  simp only [hroot]
  exact ⟨_, rfl, rfl⟩

theorem load_format_error (g g1 : Globals) (fname data ans : List Char) (errno : Nat)
    (built : tree) (msg : List Char) (hname : fname.length ≠ 0)
    (hgo : modified_warning ans g = Result.ok (true, g1))
    (hraise : load_loop (data.length + 1) errno { data := data, eof := false }
        (add_child_null "Entries".toList) = (built, Result.raised errcode.ERR_FORMAT msg)) :
    ∃ g2, load g fname (some data) ans errno = Result.ok (false, g2) ∧
      g2.root = some (tree.mk 0 fold_state.EMPTY "Entries".toList []) := by
  have hmsg := load_loop_format_msg _ _ _ _ _ _ hraise
  subst hmsg
  unfold load
  rw [if_neg hname, hgo]
  simp only [load_try, hraise]
  exact load_catch_format _ built rfl

/-! ## C1: saving and loading again -/

/-- C1 (evaluation of the code at the specification's example). Saving the tree
with entries "Buy milk" (children "Get 2%", "Get oat milk") and "Call mom" writes
the text of the example; loading that text does not return the tree: `load`
returns false with the message "Format Error: invalid indentation" and an empty
root. The delimiter is looked for only at the first character of a top-level
line, so "Buy milk" is read without children and the next call meets the tab. -/
theorem roundtrip_example_fails :
    saveas example_globals (some "f".toList) false [] true
        = Result.ok ({ example_globals with filename := "f".toList, saymsg := "Saved.".toList,
                                            sayblink := 4 },
            some "Buy milk\n\tGet 2%\n\tGet oat milk\nCall mom\n".toList) ∧
    load { example_globals with filename := "f".toList, saymsg := "Saved.".toList, sayblink := 4 }
        "f".toList (some "Buy milk\n\tGet 2%\n\tGet oat milk\nCall mom\n".toList) [] 0
      = Result.ok (false,
          { root := some (tree.mk 0 fold_state.EMPTY "Entries".toList []),
            filename := "f".toList, modified := false,
            saymsg := "Format Error: invalid indentation".toList, sayblink := 4 }) :=
  ⟨by rfl, by rfl⟩

/-! ## C6: a malformed file leaves an empty tree -/

/-- C6. If parsing the file raises a Format error, then, whatever tree `built`
(the root with the top-level entries attached so far) exists at that moment,
`load` returns false and `root` is a fresh node with text "Entries" and no
children. -/
theorem load_format_error_rollback (g g1 : Globals) (fname data ans : List Char) (errno : Nat)
    (built : tree) (msg : List Char) (hname : fname.length ≠ 0)
    (hgo : modified_warning ans g = Result.ok (true, g1))
    (hraise : load_loop (data.length + 1) errno { data := data, eof := false }
        (add_child_null "Entries".toList) = (built, Result.raised errcode.ERR_FORMAT msg)) :
    ∃ g2, load g fname (some data) ans errno = Result.ok (false, g2) ∧
      g2.root = some (tree.mk 0 fold_state.EMPTY "Entries".toList []) :=
  load_format_error g g1 fname data ans errno built msg hname hgo hraise

/-- Witness of C6: in the file `a`, `b`, tab-indented `c` the entries `a` and
`b` are attached to the root before the third line raises the Format error. -/
theorem load_format_error_rollback_witness :
    load_loop 7 0 { data := "a\nb\n\tc\n".toList, eof := false } (add_child_null "Entries".toList)
        = (tree.mk 2 fold_state.EXPANDED "Entries".toList
            [tree.mk 0 fold_state.COLLAPSED "a".toList [],
             tree.mk 0 fold_state.COLLAPSED "b".toList []],
           Result.raised errcode.ERR_FORMAT "invalid indentation".toList) ∧
      ∃ g2, load example_globals "f".toList (some "a\nb\n\tc\n".toList) [] 0
          = Result.ok (false, g2) ∧
        g2.root = some (tree.mk 0 fold_state.EMPTY "Entries".toList []) :=
  ⟨by rfl,
   load_format_error_rollback example_globals example_globals "f".toList "a\nb\n\tc\n".toList []
     0 _ _ (by decide) (by rfl) (by rfl)⟩

/-! ## C7: what a failed load leaves in `root` -/

/-- C7 (counterexample). With the example tree held in `root`, a `load` of a
file that cannot be opened returns false and leaves a root without children:
the two entries held before are gone. The same happens for a file that raises
a Format error. -/
theorem load_not_atomic :
    load example_globals "f".toList none [] 0
        = Result.ok (false,
            { root := some (tree.mk 0 fold_state.EMPTY "Entries".toList []),
              filename := [], modified := false,
              saymsg := "File Not Found: f".toList, sayblink := 4 }) ∧
      load example_globals "f".toList (some "a\n\tb\n".toList) [] 0
        = Result.ok (false,
            { root := some (tree.mk 0 fold_state.EMPTY "Entries".toList []),
              filename := [], modified := false,
              saymsg := "Format Error: invalid indentation".toList, sayblink := 4 }) ∧
      (example_globals.root.map tree.nchild) = some 2 :=
  ⟨by rfl, by rfl, by rfl⟩

/-- C7 (amended). A `load` that fails because the file cannot be opened (the
name being short enough for the message to fit the status buffer) or because
the file raises a Format error does not keep the tree held before: it returns
false and `root` is a fresh node "Entries" without children. -/
theorem load_failure_discards_tree (g g1 : Globals) (old : tree) (fname ans : List Char)
    (file : Option (List Char)) (errno : Nat) (hold : g.root = some old)
    (hname : fname.length ≠ 0) (hgo : modified_warning ans g = Result.ok (true, g1))
    (hfail : (file = none ∧ fname.length < 24) ∨
      ∃ data built msg, file = some data ∧
        load_loop (data.length + 1) errno { data := data, eof := false }
          (add_child_null "Entries".toList) = (built, Result.raised errcode.ERR_FORMAT msg)) :
    ∃ g2, load g fname file ans errno = Result.ok (false, g2) ∧
      g2.root = some (tree.mk 0 fold_state.EMPTY "Entries".toList []) := by
  rcases hfail with ⟨hnone, hlen⟩ | ⟨data, built, msg, hsome, hraise⟩
  · subst hnone
    have hr1 : g1.root = some old := by
      rw [modified_warning_root _ _ _ _ hgo]; exact hold
    unfold load
    rw [if_neg hname, hgo]
    simp only [load_try, load_catch, true_or, if_true]
    have hfit : (get_error errcode.ERR_FILENOTFOUND fname).length < MAX_SAY_CHARS := by
      simp only [get_error, errstrings, List.length_append, List.length_take, MAX_SAY_CHARS,
        MAX_ERROR_LEN, String.toList]
      simp only [List.length_cons, List.length_nil]
      omega
    rw [say_short _ _ hfit]
    simp only [hr1]
    exact ⟨_, rfl, rfl⟩
  · subst hsome
    exact load_format_error g g1 fname data ans errno built msg hname hgo hraise

/-- Witness of C7 (amended): the example tree and a file that cannot be opened. -/
theorem load_failure_discards_tree_witness :
    ∃ g2, load example_globals "f".toList none [] 0 = Result.ok (false, g2) ∧
      g2.root = some (tree.mk 0 fold_state.EMPTY "Entries".toList []) :=
  load_failure_discards_tree example_globals example_globals example_tree "f".toList [] none 0
    rfl (by decide) (by rfl) (Or.inl ⟨rfl, by decide⟩)

/-! ## Lemmas: reading one line -/

theorem fgets_loop_line (k : Nat) (line tail : List Char) (eof : Bool)
    (hline : '\n' ∉ line) :
    fgets_loop k (line ++ '\n' :: tail) eof
      = if line.length < k then (line ++ ['\n'], { data := tail, eof := eof })
        else (line.take k, { data := line.drop k ++ '\n' :: tail, eof := eof }) := by
  induction k generalizing line with
  | zero => simp [fgets_loop]
  | succ k ih =>
    cases line with
    | nil => simp [fgets_loop]
    | cons c cs =>
      have hc : c ≠ '\n' := by
        intro h; apply hline; simp [h]
      have hcs : '\n' ∉ cs := by
        intro h; apply hline; simp [h]
      have e : fgets_loop (k + 1) (c :: (cs ++ '\n' :: tail)) eof
          = (c :: (fgets_loop k (cs ++ '\n' :: tail) eof).1,
             (fgets_loop k (cs ++ '\n' :: tail) eof).2) := by
        rw [fgets_loop, if_neg hc]
      rw [List.cons_append, e, ih cs hcs]
      simp only [List.length_cons, Nat.add_lt_add_iff_right, List.take_succ_cons,
        List.drop_succ_cons]
      split <;> rfl

theorem discard_line_line (line tail : List Char) (eof : Bool) (hline : '\n' ∉ line) :
    discard_line eof (line ++ '\n' :: tail) = { data := tail, eof := eof } := by
  induction line with
  | nil => simp [discard_line]
  | cons c cs ih =>
    have hc : c ≠ '\n' := by
      intro h; apply hline; simp [h]
    have hcs : '\n' ∉ cs := by
      intro h; apply hline; simp [h]
    have e : discard_line eof (c :: (cs ++ '\n' :: tail))
        = discard_line eof (cs ++ '\n' :: tail) := by
      rw [discard_line, if_neg hc]
    rw [List.cons_append, e, ih hcs]

theorem cstr_self (buf : List Char) (h : Char.ofNat 0 ∉ buf) : cstr buf = buf := by
  unfold cstr
  rw [List.takeWhile_eq_self_iff]
  intro c hc
  simp only [ne_eq, decide_not, Bool.not_eq_eq_eq_not, Bool.not_true, decide_eq_false_iff_not]
  intro h0
  exact h (h0 ▸ hc)

/-- A line that ends with a newline and holds no NUL is read as its first 255
characters, and the stream is left at the start of the following line. -/
theorem read_text_line (line tail : List Char) (eof : Bool) (errno : Nat)
    (hline : '\n' ∉ line) (hnul : Char.ofNat 0 ∉ line) :
    read_text errno { data := line ++ '\n' :: tail, eof := eof }
      = Result.ok (line.take 255, { data := tail, eof := eof }) := by
  unfold read_text fgets
  simp only [MAX_ENTRY_LEN, Nat.add_one_sub_one, fgets_loop_line 255 line tail eof hline]
  by_cases hlen : line.length < 255
  · have hbuf : Char.ofNat 0 ∉ line ++ ['\n'] := by
      simp only [List.mem_append, List.mem_singleton, not_or]
      exact ⟨hnul, by decide⟩
    simp only [if_pos hlen, List.append_eq_nil, List.cons_ne_nil, and_false, if_false,
      cstr_self _ hbuf, List.length_append, List.length_singleton, Nat.add_one_ne_zero,
      List.getLast?_concat, if_true,
      List.dropLast_concat]
    rw [List.take_of_length_le (by omega)]
  · have htake : (line.take 255).length = 255 := by
      rw [List.length_take]; omega
    have hne : line.take 255 ≠ [] := by
      intro h; rw [h] at htake; simp at htake
    have hbuf : Char.ofNat 0 ∉ line.take 255 := fun h => hnul (List.mem_of_mem_take h)
    have hlast : (line.take 255).getLast? ≠ some '\n' := by
      intro h
      exact hline (List.mem_of_mem_take (List.mem_of_getLast?_eq_some h))
    simp only [if_neg hlen, if_neg hne, cstr_self _ hbuf, htake, if_neg hlast,
      discard_line_line _ tail eof (fun h => hline (List.mem_of_mem_drop h))]
    simp

theorem run_split (d : Char) (l : List Char) :
    ∃ m r, l = List.replicate m d ++ r ∧ r.head? ≠ some d := by
  induction l with
  | nil => exact ⟨0, [], by simp, by simp⟩
  | cons c cs ih =>
    by_cases hc : c = d
    · obtain ⟨m, r, hl, hr⟩ := ih
      refine ⟨m + 1, r, ?_, hr⟩
      rw [hc, hl, List.replicate_succ, List.cons_append]
    · exact ⟨0, c :: cs, by simp, by simp [hc]⟩

/-- With the delimiter unset, a line that begins with a space or a tab is
rejected at depth 0. -/
theorem read_tree_unset_indented (fuel : Nat) (c : Char) (rest : List Char)
    (hc : c = ' ' ∨ c = '\t') :
    read_tree (fuel + 1) 0 { data := c :: rest, eof := false } (Char.ofNat 0) 0
      = Result.raised errcode.ERR_FORMAT "invalid indentation".toList := by
  obtain ⟨m, r, hl, hr⟩ := run_split c rest
  have hdata : c :: rest = List.replicate (m + 1) c ++ r := by
    rw [hl, List.replicate_succ, List.cons_append]
  have hline : read_line 0 { data := c :: rest, eof := false } (Char.ofNat 0) 0
      = Result.raised errcode.ERR_FORMAT "invalid indentation".toList := by
    unfold read_line detect_delim
    simp only [if_true, fgetc, ungetc, if_pos hc]
    rw [hdata, count_delim_run c false (m + 1) r hr]
    simp
  rw [read_tree, hline]

/-- With the delimiter unset and no NUL in the input, a line that does not begin
with a space or a tab is read as one entry without children, and the stream is
left at the start of the next line (with the end-of-file flag set when there
is none). -/
theorem read_tree_unset_line (fuel : Nat) (line tail : List Char)
    (hline : '\n' ∉ line) (hnul : Char.ofNat 0 ∉ line ++ '\n' :: tail)
    (hhead : ∀ c, (line ++ '\n' :: tail).head? = some c → c ≠ ' ' ∧ c ≠ '\t') :
    ∃ t, read_tree (fuel + 2) 0 { data := line ++ '\n' :: tail, eof := false } (Char.ofNat 0) 0
      = Result.ok (t, { data := tail, eof := decide (tail = []) }) := by
  have hnul1 : Char.ofNat 0 ∉ line := fun h => hnul (List.mem_append_left _ h)
  have hnul2 : Char.ofNat 0 ∉ tail := fun h =>
    hnul (List.mem_append_right _ (List.mem_cons_of_mem _ h))
  obtain ⟨c0, data1, hdata⟩ : ∃ c0 data1, line ++ '\n' :: tail = c0 :: data1 := by
    cases line with
    | nil => exact ⟨_, _, rfl⟩
    | cons a as => exact ⟨_, _, rfl⟩
  have hc0 : c0 ≠ Char.ofNat 0 := by
    intro h; apply hnul; rw [hdata, h]; simp
  have hc1 : ¬ (c0 = ' ' ∨ c0 = '\t') := by
    have := hhead c0 (by rw [hdata]; rfl)
    tauto
  have hline1 : read_line 0 { data := line ++ '\n' :: tail, eof := false } (Char.ofNat 0) 0
      = Result.ok (tree.mk 0 fold_state.COLLAPSED (line.take 255) [], Char.ofNat 0,
          { data := tail, eof := false }) := by
    unfold read_line detect_delim
    simp only [if_true, fgetc, ungetc, hdata, if_neg hc1, count_delim, if_neg hc0]
    simp only [reduceCtorEq, false_and, if_false, ne_eq, not_true_eq_false]
    rw [← hdata, read_text_line line tail false 0 hline hnul1]
  refine ⟨tree.mk 0 fold_state.COLLAPSED (line.take 255) [], ?_⟩
  rw [read_tree, hline1]
  simp only
  rw [read_loop]
  cases tail with
  | nil => simp [count_delim]
  | cons c cs =>
    have hc : c ≠ Char.ofNat 0 := by
      intro h; apply hnul2; rw [h]; simp
    simp [count_delim, hc, fsetpos]

theorem indented_later_ne_nil (l : List Char) (h : indented_later l) : l ≠ [] := by
  cases h <;> simp

theorem load_loop_indented_later (data : List Char) (h : indented_later data) :
    ∀ (fuel : Nat) (root : tree), data.length < fuel → Char.ofNat 0 ∉ data →
      (∀ c, data.head? = some c → c ≠ ' ' ∧ c ≠ '\t') →
      ∃ built, load_loop fuel 0 { data := data, eof := false } root
        = (built, Result.raised errcode.ERR_FORMAT "invalid indentation".toList) := by
  induction h with
  | next line post c hline hc =>
    intro fuel root hfuel hnul hhead
    simp only [List.length_append, List.length_cons] at hfuel
    obtain ⟨fuel2, rfl⟩ : ∃ k, fuel = k + 2 := ⟨fuel - 2, by omega⟩
    obtain ⟨t, ht⟩ := read_tree_unset_line (2 * (line ++ '\n' :: c :: post).length) line
      (c :: post) hline hnul hhead
    rw [load_loop]
    simp only [feof, Bool.false_eq_true, if_false, ht]
    rw [load_loop]
    simp only [feof, List.cons_ne_nil, decide_False, Bool.false_eq_true, if_false]
    rw [show 2 * (c :: post).length + 2 = (2 * (c :: post).length + 1) + 1 from rfl,
      read_tree_unset_indented _ c post hc]
    exact ⟨_, rfl⟩
  | later line tail hline htail ih =>
    intro fuel root hfuel hnul hhead
    simp only [List.length_append, List.length_cons] at hfuel
    obtain ⟨fuel1, rfl⟩ : ∃ k, fuel = k + 1 := ⟨fuel - 1, by omega⟩
    obtain ⟨t, ht⟩ := read_tree_unset_line (2 * (line ++ '\n' :: tail).length) line
      tail hline hnul hhead
    have hnul2 : Char.ofNat 0 ∉ tail := fun h =>
      hnul (List.mem_append_right _ (List.mem_cons_of_mem _ h))
    rw [load_loop]
    simp only [feof, Bool.false_eq_true, if_false, ht]
    have htne : tail ≠ [] := indented_later_ne_nil tail htail
    simp only [htne, decide_False]
    by_cases hsp : ∀ c, tail.head? = some c → c ≠ ' ' ∧ c ≠ '\t'
    · exact ih fuel1 _ (by omega) hnul2 hsp
    · obtain ⟨c, cs, rfl⟩ : ∃ c cs, tail = c :: cs := by
        cases tail with
        | nil => exact absurd rfl htne
        | cons c cs => exact ⟨c, cs, rfl⟩
      have hc : c = ' ' ∨ c = '\t' := by
        by_contra hcon
        apply hsp
        intro c1 h1
        simp only [List.head?_cons, Option.some.injEq] at h1
        subst h1
        tauto
      obtain ⟨fuel2, rfl⟩ : ∃ k, fuel1 = k + 1 := ⟨fuel1 - 1, by simp at hfuel; omega⟩
      rw [load_loop]
      simp only [feof, Bool.false_eq_true, if_false]
      rw [show 2 * (c :: cs).length + 2 = (2 * (c :: cs).length + 1) + 1 from rfl,
        read_tree_unset_indented _ c cs hc]
      exact ⟨_, rfl⟩

theorem indented_later_of_split (pre post : List Char) (c : Char) (hc : c = ' ' ∨ c = '\t') :
    indented_later (pre ++ '\n' :: c :: post) := by
  induction pre with
  | nil => exact indented_later.next [] post c (by simp) hc
  | cons x xs ih =>
    by_cases hx : x = '\n'
    · subst hx
      exact indented_later.later [] (xs ++ '\n' :: c :: post) (by simp) ih
    · generalize hgen : xs ++ '\n' :: c :: post = l at ih
      rw [List.cons_append, hgen]
      cases ih with
      | next line p c1 hline hc1 =>
        have := indented_later.next (x :: line) p c1 (by
          simp only [List.mem_cons, not_or]; exact ⟨fun h => hx h.symm, hline⟩) hc1
        simpa using this
      | later line tail hline htail =>
        have := indented_later.later (x :: line) tail (by
          simp only [List.mem_cons, not_or]; exact ⟨fun h => hx h.symm, hline⟩) htail
        simpa using this

/-! ## C5: a file whose first character leaves the delimiter unset -/

/-- Let the input hold no NUL byte and not begin with a space or a tab, and let
`errno` be 0. If some line of the input begins with a space or a tab (the input is
`pre`, a newline, then that character `c`), then the protected region of `load` is
left by the Format error "invalid indentation", and `load` returns false with that
message in the status line. -/
theorem load_unset_delimiter (g g1 : Globals) (fname data ans pre post : List Char) (c : Char)
    (hname : fname.length ≠ 0) (hgo : modified_warning ans g = Result.ok (true, g1))
    (hnul : Char.ofNat 0 ∉ data)
    (hfirst : ∀ a, data.head? = some a → a ≠ ' ' ∧ a ≠ '\t')
    (hsplit : data = pre ++ '\n' :: c :: post) (hc : c = ' ' ∨ c = '\t') :
    (load_try g1 fname (some data) 0).2
        = Result.raised errcode.ERR_FORMAT "invalid indentation".toList ∧
      ∃ g2, load g fname (some data) ans 0 = Result.ok (false, g2) ∧
        g2.saymsg = "Format Error: invalid indentation".toList := by
  have hlater : indented_later data := by
    rw [hsplit]; exact indented_later_of_split pre post c hc
  obtain ⟨built, hb⟩ := load_loop_indented_later data hlater (data.length + 1)
    (add_child_null "Entries".toList) (by omega) hnul hfirst
  constructor
  · simp only [load_try, hb]
  · unfold load
    rw [if_neg hname, hgo]
    simp only [load_try, hb, load_catch, or_true, if_true]
    rw [say_short _ _ (by decide)]
    exact ⟨_, rfl, rfl⟩

/-- An instance: the text written for the specification's example tree. -/
theorem load_unset_delimiter_witness :
    (load_try example_globals "f".toList
        (some "Buy milk\n\tGet 2%\n\tGet oat milk\nCall mom\n".toList) 0).2
        = Result.raised errcode.ERR_FORMAT "invalid indentation".toList ∧
      ∃ g2, load example_globals "f".toList
          (some "Buy milk\n\tGet 2%\n\tGet oat milk\nCall mom\n".toList) [] 0
            = Result.ok (false, g2) ∧
        g2.saymsg = "Format Error: invalid indentation".toList :=
  load_unset_delimiter example_globals example_globals "f".toList
    "Buy milk\n\tGet 2%\n\tGet oat milk\nCall mom\n".toList [] "Buy milk".toList
    "Get 2%\n\tGet oat milk\nCall mom\n".toList '\t' (by decide) (by rfl) (by decide)
    (by intro a h; simp only [String.toList, List.head?_cons, Option.some.injEq] at h
        subst h; decide)
    (by rfl) (Or.inr rfl)

/-- C5 (evaluation of the code). The file holds the line "a" and then a single
tab; it has no NUL byte, does not begin with a space or a tab, and its second line
begins with a tab. Read while `errno` is 2 (the value a failed `fopen` leaves, as
in `main` before it creates a new file), the second call of `read_tree` takes the
tab as the delimiter, meets the end of the file, and the failing `ungetc(EOF)` is
raised as the IO error "errno 2" in front of the indentation check; the handler of
`load` does not catch that kind and the process ends. With `errno` 0 the same file
is rejected with the Format error "invalid indentation". -/
theorem load_indented_stale_errno :
    (load_try example_globals "f".toList (some "a\n\t".toList) 2).2
      = Result.raised errcode.ERR_IO "errno 2".toList ∧
    load example_globals "f".toList (some "a\n\t".toList) [] 2 = Result.died ∧
    (load_try example_globals "f".toList (some "a\n\t".toList) 0).2
      = Result.raised errcode.ERR_FORMAT "invalid indentation".toList ∧
    (∃ g2, load example_globals "f".toList (some "a\n\t".toList) [] 0 = Result.ok (false, g2) ∧
      g2.saymsg = "Format Error: invalid indentation".toList) :=
  ⟨rfl, rfl, rfl, ⟨_, rfl, rfl⟩⟩

/-! ## C29: the text of a parsed line -/

theorem fgets_loop_end (k : Nat) (line : List Char) (eof : Bool) (hline : '\n' ∉ line) :
    fgets_loop k line eof
      = if line.length < k then (line, { data := [], eof := true })
        else (line.take k, { data := line.drop k, eof := eof }) := by
  induction k generalizing line with
  | zero => simp [fgets_loop]
  | succ k ih =>
    cases line with
    | nil => simp [fgets_loop]
    | cons c cs =>
      have hc : c ≠ '\n' := by
        intro h; apply hline; simp [h]
      have hcs : '\n' ∉ cs := by
        intro h; apply hline; simp [h]
      have e : fgets_loop (k + 1) (c :: cs) eof
          = (c :: (fgets_loop k cs eof).1, (fgets_loop k cs eof).2) := by
        rw [fgets_loop, if_neg hc]
      rw [e, ih cs hcs]
      simp only [List.length_cons, Nat.add_lt_add_iff_right, List.take_succ_cons,
        List.drop_succ_cons]
      split_ifs <;> rfl

theorem discard_line_end (line : List Char) (eof : Bool) (hline : '\n' ∉ line) :
    discard_line eof line = { data := [], eof := true } := by
  induction line with
  | nil => simp [discard_line]
  | cons c cs ih =>
    have hc : c ≠ '\n' := by
      intro h; apply hline; simp [h]
    have hcs : '\n' ∉ cs := by
      intro h; apply hline; simp [h]
    rw [discard_line, if_neg hc, ih hcs]

/-- A last line without a newline and without NUL is read as its first 255
characters; nothing is raised and the stream is at its end. -/
theorem read_text_end (line : List Char) (eof : Bool) (errno : Nat) (hne : line ≠ [])
    (hline : '\n' ∉ line) (hnul : Char.ofNat 0 ∉ line) :
    read_text errno { data := line, eof := eof }
      = Result.ok (line.take 255, { data := [], eof := true }) := by
  have hpos : 0 < line.length := List.length_pos.mpr hne
  unfold read_text fgets
  simp only [MAX_ENTRY_LEN, Nat.add_one_sub_one, fgets_loop_end 255 line eof hline]
  by_cases hlen : line.length < 255
  · have hlast : line.getLast? ≠ some '\n' := fun h =>
      hline (List.mem_of_getLast?_eq_some h)
    have hl0 : line.length ≠ 0 := by omega
    simp only [if_pos hlen, if_neg hne, cstr_self _ hnul, if_neg hl0, if_neg hlast,
      discard_line]
    rw [List.take_of_length_le (by omega)]
  · have htake : (line.take 255).length = 255 := by
      rw [List.length_take]; omega
    have hne1 : line.take 255 ≠ [] := by
      intro h; rw [h] at htake; simp at htake
    have hbuf : Char.ofNat 0 ∉ line.take 255 := fun h => hnul (List.mem_of_mem_take h)
    have hlast : (line.take 255).getLast? ≠ some '\n' := by
      intro h
      exact hline (List.mem_of_mem_take (List.mem_of_getLast?_eq_some h))
    simp only [if_neg hlen, if_neg hne1, cstr_self _ hbuf, htake, if_neg hlast,
      discard_line_end _ eof (fun h => hline (List.mem_of_mem_drop h))]
    simp

/-- The node's own line when its indentation is as expected and a character `c0`
follows the indentation: the node gets the text read by the `fgets` block. The
delimiter is a space or a tab, or it is still unset at depth 0 and `c0` is neither
a space, a tab nor NUL. -/
theorem read_line_rest (errno : Nat) (eof : Bool) (d : Char) (k : Nat) (c0 : Char)
    (r text : List Char) (f4 : FILE)
    (hd : d = ' ' ∨ d = '\t' ∨ (d = Char.ofNat 0 ∧ k = 0 ∧ c0 ≠ ' ' ∧ c0 ≠ '\t'))
    (hc : c0 ≠ d)
    (hread : read_text errno { data := c0 :: r, eof := false } = Result.ok (text, f4)) :
    read_line errno { data := List.replicate k d ++ c0 :: r, eof := eof } d k
      = Result.ok (tree.mk 0 fold_state.COLLAPSED text [], d, f4) := by
  have hrest : (c0 :: r).head? ≠ some d := by
    simp [hc]
  have hset : d ≠ Char.ofNat 0 →
      read_line errno { data := List.replicate k d ++ c0 :: r, eof := eof } d k
        = Result.ok (tree.mk 0 fold_state.COLLAPSED text [], d, f4) := by
    intro hd0
    unfold read_line detect_delim
    simp only [hd0, if_false, count_delim_run d eof k (c0 :: r) hrest]
    simp only [List.head?_cons, reduceCtorEq, false_and, if_false, ne_eq, not_true_eq_false,
      after_run, ungetc, hread]
  rcases hd with h | h | ⟨h0, hk, hs, ht⟩
  · exact hset (by rw [h]; decide)
  · exact hset (by rw [h]; decide)
  · subst hk
    have hc1 : ¬ (c0 = ' ' ∨ c0 = '\t') := by tauto
    have hc0 : c0 ≠ Char.ofNat 0 := by rw [← h0]; exact hc
    subst h0
    unfold read_line detect_delim
    simp only [if_true, fgetc, ungetc, List.replicate_zero, List.nil_append, if_neg hc1,
      count_delim, if_neg hc0]
    simp only [reduceCtorEq, false_and, if_false, ne_eq, not_true_eq_false, hread]

/-- C29 (counterexample). A file whose single line holds 300 times `a`: the node
read by `read_tree` has a text of 255 characters (`fgets` reads at most
`MAX_ENTRY_LEN - 1` and the rest of the line is discarded). A line `a`, NUL, `b`:
the text is "a" (the C string ends at the NUL), and as the last character of that
string is not the newline the line "c" that follows is skipped as well. -/
theorem read_tree_text_cut :
    read_tree 2 0 { data := List.replicate 300 'a' ++ ['\n'], eof := false } (Char.ofNat 0) 0
      = Result.ok (tree.mk 0 fold_state.COLLAPSED (List.replicate 255 'a') [],
          { data := [], eof := true }) ∧
    read_tree 2 0 { data := ['a', Char.ofNat 0, 'b', '\n', 'c', '\n'], eof := false }
        (Char.ofNat 0) 0
      = Result.ok (tree.mk 0 fold_state.COLLAPSED ['a'] [], { data := [], eof := true }) := by
  constructor
  · have hline : read_line 0 { data := List.replicate 0 (Char.ofNat 0) ++
          'a' :: (List.replicate 299 'a' ++ ['\n']), eof := false } (Char.ofNat 0) 0
        = Result.ok (tree.mk 0 fold_state.COLLAPSED ((List.replicate 300 'a').take 255) [],
            Char.ofNat 0, { data := [], eof := false }) :=
      read_line_rest 0 false (Char.ofNat 0) 0 'a' _ _ _
        (Or.inr (Or.inr ⟨rfl, rfl, by decide, by decide⟩)) (by decide)
        (read_text_line (List.replicate 300 'a') [] false 0
          (fun h => absurd (List.eq_of_mem_replicate h) (by decide))
          (fun h => absurd (List.eq_of_mem_replicate h) (by decide)))
    have e : (List.replicate 300 'a').take 255 = List.replicate 255 'a' := by
      rw [List.take_replicate]
      rfl
    rw [e] at hline
    have hdata : List.replicate 300 'a' ++ ['\n']
        = List.replicate 0 (Char.ofNat 0) ++ 'a' :: (List.replicate 299 'a' ++ ['\n']) := rfl
    rw [read_tree, hdata, hline]
    rfl
  · rfl

/-- C29 (amended). Let the unread input be `k` copies of the delimiter `d` (a space
or a tab; or still unset, at depth 0, before a line that starts with neither)
followed by the characters `line`, which hold no newline, no NUL and do not start
with `d`. When a newline and `tail` follow, the code of `read_tree` for the node's
own line at depth `k` returns a node whose text is the first 255 characters of
`line` (all of `line` when it has at most 255), and the stream is at `tail`, the
start of the following line. When `line` is not empty and the input ends after
it, the same node is returned, nothing is raised (whatever `errno` holds), and
the stream is at its end. -/
theorem read_line_text (errno : Nat) (eof : Bool) (d : Char) (k : Nat) (line tail : List Char)
    (hd : d = ' ' ∨ d = '\t' ∨
      (d = Char.ofNat 0 ∧ k = 0 ∧ line.head? ≠ some ' ' ∧ line.head? ≠ some '\t'))
    (hhead : line.head? ≠ some d) (hline : '\n' ∉ line) (hnul : Char.ofNat 0 ∉ line) :
    read_line errno { data := List.replicate k d ++ (line ++ '\n' :: tail), eof := eof } d k
      = Result.ok (tree.mk 0 fold_state.COLLAPSED (line.take 255) [], d,
          { data := tail, eof := false }) ∧
    (line.length ≤ 255 → line.take 255 = line) ∧
    (line ≠ [] →
      read_line errno { data := List.replicate k d ++ line, eof := eof } d k
        = Result.ok (tree.mk 0 fold_state.COLLAPSED (line.take 255) [], d,
            { data := [], eof := true })) := by
  refine ⟨?_, fun h => List.take_of_length_le h, ?_⟩
  · cases line with
    | nil =>
      have hd1 : d = ' ' ∨ d = '\t' ∨ (d = Char.ofNat 0 ∧ k = 0 ∧ '\n' ≠ ' ' ∧ '\n' ≠ '\t') := by
        rcases hd with h | h | ⟨h0, hk, _, _⟩
        · exact Or.inl h
        · exact Or.inr (Or.inl h)
        · exact Or.inr (Or.inr ⟨h0, hk, by decide, by decide⟩)
      have hc : '\n' ≠ d := by
        rcases hd with h | h | ⟨h, _, _, _⟩ <;> rw [h] <;> decide
      exact read_line_rest errno eof d k '\n' tail _ _ hd1 hc
        (read_text_line [] tail false errno hline hnul)
    | cons c0 r =>
      have hd1 : d = ' ' ∨ d = '\t' ∨ (d = Char.ofNat 0 ∧ k = 0 ∧ c0 ≠ ' ' ∧ c0 ≠ '\t') := by
        rcases hd with h | h | ⟨h0, hk, hs, ht⟩
        · exact Or.inl h
        · exact Or.inr (Or.inl h)
        · refine Or.inr (Or.inr ⟨h0, hk, ?_, ?_⟩)
          · intro h; apply hs; rw [h]; rfl
          · intro h; apply ht; rw [h]; rfl
      have hc : c0 ≠ d := by
        intro h; apply hhead; rw [h]; rfl
      exact read_line_rest errno eof d k c0 (r ++ '\n' :: tail) _ _ hd1 hc
        (read_text_line (c0 :: r) tail false errno hline hnul)
  · intro hne
    cases line with
    | nil => exact absurd rfl hne
    | cons c0 r =>
      have hd1 : d = ' ' ∨ d = '\t' ∨ (d = Char.ofNat 0 ∧ k = 0 ∧ c0 ≠ ' ' ∧ c0 ≠ '\t') := by
        rcases hd with h | h | ⟨h0, hk, hs, ht⟩
        · exact Or.inl h
        · exact Or.inr (Or.inl h)
        · refine Or.inr (Or.inr ⟨h0, hk, ?_, ?_⟩)
          · intro h; apply hs; rw [h]; rfl
          · intro h; apply ht; rw [h]; rfl
      have hc : c0 ≠ d := by
        intro h; apply hhead; rw [h]; rfl
      exact read_line_rest errno eof d k c0 r _ _ hd1 hc
        (read_text_end (c0 :: r) false errno hne hline hnul)

/-- Witness of C29 (amended): the line "b" indented by one tab, read at depth 1
with `errno` 2; once the line "c" follows, once the input ends after the `b`. -/
theorem read_line_text_witness :
    read_line 2 { data := List.replicate 1 '\t' ++ ("b".toList ++ '\n' :: "c\n".toList)
                  eof := false } '\t' 1
      = Result.ok (tree.mk 0 fold_state.COLLAPSED ("b".toList.take 255) [], '\t',
          { data := "c\n".toList, eof := false }) ∧
    read_line 2 { data := List.replicate 1 '\t' ++ "b".toList, eof := false } '\t' 1
      = Result.ok (tree.mk 0 fold_state.COLLAPSED ("b".toList.take 255) [], '\t',
          { data := [], eof := true }) :=
  ⟨(read_line_text 2 false '\t' 1 "b".toList "c\n".toList (Or.inr (Or.inl rfl)) (by decide)
      (by decide) (by decide)).1,
   (read_line_text 2 false '\t' 1 "b".toList [] (Or.inr (Or.inl rfl)) (by decide)
      (by decide) (by decide)).2.2 (by decide)⟩

/-! ## C31: reading back the text of `write_tree` with the delimiter given -/

theorem write_tree_nil (a : Nat) (s : fold_state) (text : List Char) (ch : List tree)
    (k : Nat) :
    write_tree (tree.mk a s text ch) [] k
      = List.replicate k '\t' ++ (text ++ '\n' :: write_children ch [] (k + 1)) := by
  rw [write_tree_eq, write_children_eq, preorder]
  simp [spec_line, List.append_assoc]

theorem write_children_cons (c : tree) (cs : List tree) (d : Nat) :
    write_children (c :: cs) [] d = write_tree c [] d ++ write_children cs [] d := by
  rw [write_children_eq, write_children_eq, write_tree_eq, preorder_children]
  simp

/-- The first character of a line whose text does not start with a tab. -/
theorem line_head (text tail : List Char) (h : text.head? ≠ some '\t') :
    ∃ c0 r, text ++ '\n' :: tail = c0 :: r ∧ c0 ≠ '\t' := by
  cases text with
  | nil => exact ⟨'\n', tail, rfl, by decide⟩
  | cons c r =>
    refine ⟨c, r ++ '\n' :: tail, rfl, ?_⟩
    intro hc
    apply h
    rw [hc]
    rfl

/-- The node's own line, written by `write_tree` at depth `k` and read with the
delimiter tab at depth `k`. -/
theorem read_line_tab (errno : Nat) (eof : Bool) (k : Nat) (text tail : List Char)
    (h : text_ok text) :
    read_line errno { data := List.replicate k '\t' ++ (text ++ '\n' :: tail), eof := eof }
        '\t' k
      = Result.ok (tree.mk 0 fold_state.COLLAPSED text [], '\t',
          { data := tail, eof := false }) := by
  obtain ⟨hline, hnul, hhead, hlen⟩ := h
  obtain ⟨c0, r, hdata, hc0⟩ := line_head text tail hhead
  have hread := read_text_line text tail false errno hline hnul
  rw [List.take_of_length_le (by omega), hdata] at hread
  rw [hdata]
  exact read_line_rest errno eof '\t' k c0 r text _ (Or.inr (Or.inl rfl)) hc0 hread

/-- The loop of `read_tree` in front of a line one level deeper, for a node that
has no child yet: the array `t->child`, never assigned, is handed to `realloc`. -/
theorem read_loop_first_child (fuel errno : Nat) (eof : Bool) (k : Nat) (c0 : Char)
    (r : List Char) (a : Nat) (s : fold_state) (text : List Char) (hc : c0 ≠ '\t') :
    read_loop (fuel + 1) errno { data := List.replicate (k + 1) '\t' ++ c0 :: r, eof := eof }
        '\t' k (tree.mk a s text [])
      = Result.undefined := by
  have hrun := count_delim_run '\t' eof (k + 1) (c0 :: r) (by simp [hc])
  rw [read_loop]
  simp only [hrun, List.head?_cons, fsetpos, realloc_child, List.length_nil, if_true]
  rw [if_neg (by omega), if_neg (by omega)]

/-- The loop of `read_tree` at the end of the input or in front of a line that is
not deeper than the node: the node is returned, the line is left unread. -/
theorem read_loop_stop (fuel errno : Nat) (eof : Bool) (k : Nat) (rest : List Char) (t0 : tree)
    (hrest : rest = [] ∨ ∃ m c0 r, rest = List.replicate m '\t' ++ c0 :: r ∧ c0 ≠ '\t' ∧ m ≤ k) :
    read_loop (fuel + 1) errno { data := rest, eof := eof } '\t' k t0
      = Result.ok (t0, { data := rest, eof := decide (rest = []) }) := by
  rcases hrest with h | ⟨m, c0, r, h, hc, hm⟩
  · subst h
    rw [read_loop]
    simp [count_delim]
  · have hrun := count_delim_run '\t' eof m (c0 :: r) (by simp [hc])
    rw [read_loop]
    simp only [h, hrun, List.head?_cons, fsetpos]
    rw [if_pos hm]
    simp

/-- C31 (evaluation of the code). The tree "a" with the single child "b" is
written by `write_tree` at depth 0 as the lines "a" and tab "b". `read_tree` with
the delimiter tab and depth 0 reads the line "a", finds the next line one level
deeper and grows the child array with `realloc(t->child, ...)`, although
`t->child` of the node just allocated was never assigned: no defined result. The
same holds for every node with at least one child, at every depth, whatever
`errno` holds (the texts of the node and of its first child without newline and
NUL, not starting with a tab, at most 254 characters). A node without children is
read back as claimed: its text, no children, nothing raised, the whole text
consumed. -/
theorem read_tree_first_child_undefined :
    write_tree (tree.mk 1 fold_state.EXPANDED "a".toList
        [tree.mk 0 fold_state.EMPTY "b".toList []]) [] 0 = "a\n\tb\n".toList ∧
    read_tree 3 0 { data := "a\n\tb\n".toList, eof := false } '\t' 0 = Result.undefined ∧
    (∀ (a : Nat) (s : fold_state) (text : List Char) (c : tree) (cs : List tree)
        (k errno fuel : Nat) (eof : Bool), text_ok text → text_ok c.text →
      read_tree (fuel + 2) errno
          { data := write_tree (tree.mk a s text (c :: cs)) [] k, eof := eof } '\t' k
        = Result.undefined) ∧
    (∀ (a : Nat) (s : fold_state) (text : List Char) (k errno fuel : Nat) (eof : Bool),
      text_ok text →
      read_tree (fuel + 2) errno
          { data := write_tree (tree.mk a s text []) [] k, eof := eof } '\t' k
        = Result.ok (tree.mk 0 fold_state.COLLAPSED text [], { data := [], eof := true })) := by
  refine ⟨rfl, rfl, ?_, ?_⟩
  · intro a s text c cs k errno fuel eof ht hc
    obtain ⟨ca, cst, ctext, cch⟩ := c
    obtain ⟨c0, r, hdata, hc0⟩ :=
      line_head ctext (write_children cch [] (k + 1 + 1) ++ write_children cs [] (k + 1))
        hc.2.2.1
    have hline := read_line_tab errno eof k text (write_children (tree.mk ca cst ctext cch :: cs)
      [] (k + 1)) ht
    have hshape : write_children (tree.mk ca cst ctext cch :: cs) [] (k + 1)
        = List.replicate (k + 1) '\t' ++ c0 :: r := by
      rw [write_children_cons, write_tree_nil, ← hdata]
      simp [List.append_assoc]
    rw [write_tree_nil, read_tree, hline]
    simp only
    rw [hshape]
    exact read_loop_first_child fuel errno false k c0 r 0 fold_state.COLLAPSED text hc0
  · intro a s text k errno fuel eof ht
    have hline := read_line_tab errno eof k text (write_children [] [] (k + 1)) ht
    rw [write_tree_nil, read_tree, hline]
    simp only
    rw [write_children, read_loop_stop fuel errno false k [] _ (Or.inl rfl)]
    rfl

/-! # Part 2: theorems about the tree in memory -/

namespace Store

@[simp] theorem bind_ok {α β : Type} (a : α) (f : α → Result β) :
    (Result.ok a >>= f) = f a := rfl

@[simp] theorem pure_eq_ok {α : Type} (a : α) : (pure a : Result α) = Result.ok a := rfl

/-! ## Reading and writing cells -/

theorem rd_lt {m : Mem} {a : Nat} {t : tree} (h : rd m a = some t) : a < m.length := by
  unfold rd at h
  by_contra hlt
  rw [List.get?_eq_none.mpr (by omega)] at h
  simp at h

theorem rd_wr (m : Mem) (a : Nat) (v : Option tree) (ha : a < m.length) :
    rd (wr m a v) = Function.update (rd m) a v := by
  funext b
  unfold rd wr
  by_cases hb : b = a
  · subst hb
    simp [List.getElem?_set, ha]
  · rw [Function.update_noteq hb]
    simp [List.getElem?_set, Ne.symm hb]

theorem wr_length (m : Mem) (a : Nat) (v : Option tree) : (wr m a v).length = m.length := by
  simp [wr]

theorem deref_eq {m : Mem} {a : Nat} {t : tree} (h : rd m a = some t) :
    deref m a = Result.ok t := by
  simp [deref, h]

/-! ## Well-formedness under the elementary changes of the heap -/

theorem ranked_ne {h : Nat → Option tree} {rk : Nat → Nat} {n p : Nat} {nd : tree}
    (hr : ranked h rk) (hn : h n = some nd) (hp : nd.parent = some p) : p ≠ n := by
  intro e
  subst e
  have := hr p nd p hn hp
  omega

/-- Detaching `c` from its parent `t` keeps the structure well-formed. -/
theorem wf_core_detach {h : Nat → Option tree} {root : Option Nat} {rk : Nat → Nat}
    {c t : Nat} {cd td : tree} (hw : wf_core h root) (hr : ranked h rk)
    (hc : h c = some cd) (hp : cd.parent = some t) (ht : h t = some td) :
    wf_core (Function.update (Function.update h t (some { td with child := td.child.erase c }))
      c (some { cd with parent := none })) root := by
  have htc : t ≠ c := ranked_ne hr hc hp
  have hnd := hw.nodup t td ht
  constructor
  · intro p pd x hp1 hx
    by_cases hpc : p = c
    · subst hpc
      simp only [Function.update_same, Option.some.injEq] at hp1
      subst hp1
      obtain ⟨xd, hxd, hxp⟩ := hw.child_parent p cd x hc hx
      have hxc : x ≠ p := by
        rintro rfl
        rw [hc] at hxd
        simp only [Option.some.injEq] at hxd
        subst hxd
        rw [hp] at hxp
        simp only [Option.some.injEq] at hxp
        exact htc hxp
      by_cases hxt : x = t
      · subst hxt
        rw [ht] at hxd
        simp only [Option.some.injEq] at hxd
        subst hxd
        refine ⟨_, by rw [Function.update_noteq hxc, Function.update_same], ?_⟩
        exact hxp
      · exact ⟨xd, by rw [Function.update_noteq hxc, Function.update_noteq hxt]; exact hxd, hxp⟩
    · rw [Function.update_noteq hpc] at hp1
      by_cases hpt : p = t
      · subst hpt
        simp only [Function.update_same, Option.some.injEq] at hp1
        subst hp1
        simp only at hx
        have hx1 := (hnd.mem_erase_iff).mp hx
        obtain ⟨xd, hxd, hxp⟩ := hw.child_parent p td x ht hx1.2
        by_cases hxt : x = p
        · subst hxt
          rw [ht] at hxd
          simp only [Option.some.injEq] at hxd
          subst hxd
          refine ⟨_, by rw [Function.update_noteq hx1.1, Function.update_same], ?_⟩
          exact hxp
        · exact ⟨xd, by rw [Function.update_noteq hx1.1, Function.update_noteq hxt]; exact hxd,
            hxp⟩
      · rw [Function.update_noteq hpt] at hp1
        obtain ⟨xd, hxd, hxp⟩ := hw.child_parent p pd x hp1 hx
        have hxc : x ≠ c := by
          rintro rfl
          rw [hc] at hxd
          simp only [Option.some.injEq] at hxd
          subst hxd
          rw [hp] at hxp
          simp only [Option.some.injEq] at hxp
          exact hpt hxp.symm
        by_cases hxt : x = t
        · subst hxt
          rw [ht] at hxd
          simp only [Option.some.injEq] at hxd
          subst hxd
          refine ⟨_, by rw [Function.update_noteq hxc, Function.update_same], ?_⟩
          exact hxp
        · exact ⟨xd, by rw [Function.update_noteq hxc, Function.update_noteq hxt]; exact hxd,
            hxp⟩
  · intro n nd p hn hpar
    by_cases hnc : n = c
    · subst hnc
      simp only [Function.update_same, Option.some.injEq] at hn
      subst hn
      simp at hpar
    · rw [Function.update_noteq hnc] at hn
      have key : ∀ nd0 : tree, h n = some nd0 → nd0.parent = some p →
          ∃ pd, Function.update (Function.update h t
            (some { td with child := td.child.erase c })) c (some { cd with parent := none }) p
              = some pd ∧ n ∈ pd.child := by
        intro nd0 hn0 hpar0
        obtain ⟨pd, hpd, hmem⟩ := hw.parent_child n nd0 p hn0 hpar0
        by_cases hpc : p = c
        · subst hpc
          rw [hc] at hpd
          simp only [Option.some.injEq] at hpd
          subst hpd
          refine ⟨_, by rw [Function.update_same], ?_⟩
          exact hmem
        · by_cases hpt : p = t
          · subst hpt
            rw [ht] at hpd
            simp only [Option.some.injEq] at hpd
            subst hpd
            refine ⟨_, by rw [Function.update_noteq hpc, Function.update_same], ?_⟩
            exact (hnd.mem_erase_iff).mpr ⟨hnc, hmem⟩
          · exact ⟨pd, by rw [Function.update_noteq hpc, Function.update_noteq hpt]; exact hpd,
              hmem⟩
      by_cases hnt : n = t
      · subst hnt
        simp only [Function.update_same, Option.some.injEq] at hn
        subst hn
        exact key td ht hpar
      · rw [Function.update_noteq hnt] at hn
        exact key nd hn hpar
  · intro p pd hp1
    by_cases hpc : p = c
    · subst hpc
      simp only [Function.update_same, Option.some.injEq] at hp1
      subst hp1
      exact hw.nodup p cd hc
    · rw [Function.update_noteq hpc] at hp1
      by_cases hpt : p = t
      · subst hpt
        simp only [Function.update_same, Option.some.injEq] at hp1
        subst hp1
        exact hnd.erase c
      · rw [Function.update_noteq hpt] at hp1
        exact hw.nodup p pd hp1
  · intro p pd hp1
    by_cases hpc : p = c
    · subst hpc
      simp only [Function.update_same, Option.some.injEq] at hp1
      subst hp1
      exact hw.capacity p cd hc
    · rw [Function.update_noteq hpc] at hp1
      by_cases hpt : p = t
      · subst hpt
        simp only [Function.update_same, Option.some.injEq] at hp1
        subst hp1
        have := hw.capacity p td ht
        have := List.length_erase_le c td.child
        simp only
        omega
      · rw [Function.update_noteq hpt] at hp1
        exact hw.capacity p pd hp1
  · obtain ⟨r, rd0, hroot, hr0, hrp⟩ := hw.root_ok
    have hrc : r ≠ c := by
      rintro rfl
      rw [hc] at hr0
      simp only [Option.some.injEq] at hr0
      subst hr0
      rw [hp] at hrp
      simp at hrp
    by_cases hrt : r = t
    · subst hrt
      rw [ht] at hr0
      simp only [Option.some.injEq] at hr0
      subst hr0
      refine ⟨r, _, hroot, by rw [Function.update_noteq hrc, Function.update_same], ?_⟩
      exact hrp
    · exact ⟨r, rd0, hroot, by rw [Function.update_noteq hrc, Function.update_noteq hrt]; exact hr0,
        hrp⟩

theorem ranked_detach {h : Nat → Option tree} {rk : Nat → Nat}
    {c t : Nat} {cd td : tree} (hr : ranked h rk) (ht : h t = some td) (l : List Nat) :
    ranked (Function.update (Function.update h t (some { td with child := l }))
      c (some { cd with parent := none })) rk := by
  intro n nd p hn hpar
  by_cases hnc : n = c
  · subst hnc
    simp only [Function.update_same, Option.some.injEq] at hn
    subst hn
    simp at hpar
  · rw [Function.update_noteq hnc] at hn
    by_cases hnt : n = t
    · subst hnt
      simp only [Function.update_same, Option.some.injEq] at hn
      subst hn
      exact hr n td p ht hpar
    · rw [Function.update_noteq hnt] at hn
      exact hr n nd p hn hpar

/-- Attaching the parentless node `c` as the last child of `p`. -/
theorem wf_core_attach {h : Nat → Option tree} {root : Option Nat}
    {c p : Nat} {cd pd pd1 : tree} (hw : wf_core h root)
    (hc : h c = some cd) (hcp : cd.parent = none) (hp : h p = some pd) (hne : p ≠ c)
    (hroot : root ≠ some c) (hpar1 : pd1.parent = pd.parent)
    (hch1 : pd1.child = pd.child ++ [c]) (hcap1 : pd1.child.length ≤ pd1.nalloc) :
    wf_core (Function.update (Function.update h p (some pd1))
      c (some { cd with parent := some p })) root := by
  have hcfree : ∀ q qd, h q = some qd → c ∉ qd.child := by
    intro q qd hq hmem
    obtain ⟨xd, hxd, hxp⟩ := hw.child_parent q qd c hq hmem
    rw [hc] at hxd
    simp only [Option.some.injEq] at hxd
    subst hxd
    rw [hcp] at hxp
    simp at hxp
  -- the cell of a node other than `c` keeps its parent field
  have hkeep : ∀ x xd q, x ≠ c → h x = some xd → xd.parent = some q →
      ∃ yd, Function.update (Function.update h p (some pd1))
        c (some { cd with parent := some p }) x = some yd ∧ yd.parent = some q := by
    intro x xd q hxc hx hxq
    by_cases hxp : x = p
    · subst hxp
      rw [hp] at hx
      simp only [Option.some.injEq] at hx
      subst hx
      refine ⟨_, by rw [Function.update_noteq hxc, Function.update_same], ?_⟩
      rw [hpar1]; exact hxq
    · exact ⟨xd, by rw [Function.update_noteq hxc, Function.update_noteq hxp]; exact hx, hxq⟩
  -- the children of a node are still listed after the change
  have hlist : ∀ q qd n, h q = some qd → n ∈ qd.child →
      ∃ yd, Function.update (Function.update h p (some pd1))
        c (some { cd with parent := some p }) q = some yd ∧ n ∈ yd.child := by
    intro q qd n hq hn
    by_cases hqc : q = c
    · subst hqc
      rw [hc] at hq
      simp only [Option.some.injEq] at hq
      subst hq
      refine ⟨_, by rw [Function.update_same], ?_⟩
      exact hn
    · by_cases hqp : q = p
      · subst hqp
        rw [hp] at hq
        simp only [Option.some.injEq] at hq
        subst hq
        refine ⟨_, by rw [Function.update_noteq hqc, Function.update_same], ?_⟩
        rw [hch1]
        exact List.mem_append_left _ hn
      · exact ⟨qd, by rw [Function.update_noteq hqc, Function.update_noteq hqp]; exact hq, hn⟩
  constructor
  · intro q qd x hq hx
    by_cases hqc : q = c
    · subst hqc
      simp only [Function.update_same, Option.some.injEq] at hq
      subst hq
      obtain ⟨xd, hxd, hxp⟩ := hw.child_parent q cd x hc hx
      exact hkeep x xd q (fun e => hcfree q cd hc (e ▸ hx)) hxd hxp
    · rw [Function.update_noteq hqc] at hq
      by_cases hqp : q = p
      · subst hqp
        simp only [Function.update_same, Option.some.injEq] at hq
        subst hq
        rw [hch1, List.mem_append, List.mem_singleton] at hx
        rcases hx with hx | hx
        · obtain ⟨xd, hxd, hxp⟩ := hw.child_parent q pd x hp hx
          exact hkeep x xd q (fun e => hcfree q pd hp (e ▸ hx)) hxd hxp
        · subst hx
          refine ⟨_, by rw [Function.update_same], ?_⟩
          rfl
      · rw [Function.update_noteq hqp] at hq
        obtain ⟨xd, hxd, hxp⟩ := hw.child_parent q qd x hq hx
        exact hkeep x xd q (fun e => hcfree q qd hq (e ▸ hx)) hxd hxp
  · intro n nd q hn hq
    by_cases hnc : n = c
    · subst hnc
      simp only [Function.update_same, Option.some.injEq] at hn
      subst hn
      simp only [Option.some.injEq] at hq
      subst hq
      refine ⟨_, by rw [Function.update_noteq hne, Function.update_same], ?_⟩
      rw [hch1]
      simp
    · rw [Function.update_noteq hnc] at hn
      by_cases hnp : n = p
      · subst hnp
        simp only [Function.update_same, Option.some.injEq] at hn
        subst hn
        rw [hpar1] at hq
        obtain ⟨qd, hqd, hmem⟩ := hw.parent_child n pd q hp hq
        exact hlist q qd n hqd hmem
      · rw [Function.update_noteq hnp] at hn
        obtain ⟨qd, hqd, hmem⟩ := hw.parent_child n nd q hn hq
        exact hlist q qd n hqd hmem
  · intro q qd hq
    by_cases hqc : q = c
    · subst hqc
      simp only [Function.update_same, Option.some.injEq] at hq
      subst hq
      exact hw.nodup q cd hc
    · rw [Function.update_noteq hqc] at hq
      by_cases hqp : q = p
      · subst hqp
        simp only [Function.update_same, Option.some.injEq] at hq
        subst hq
        rw [hch1]
        refine List.Nodup.append (hw.nodup q pd hp) (List.nodup_singleton c) ?_
        intro x hx1 hx2
        rw [List.mem_singleton] at hx2
        subst hx2
        exact hcfree q pd hp hx1
      · rw [Function.update_noteq hqp] at hq
        exact hw.nodup q qd hq
  · intro q qd hq
    by_cases hqc : q = c
    · subst hqc
      simp only [Function.update_same, Option.some.injEq] at hq
      subst hq
      exact hw.capacity q cd hc
    · rw [Function.update_noteq hqc] at hq
      by_cases hqp : q = p
      · subst hqp
        simp only [Function.update_same, Option.some.injEq] at hq
        subst hq
        exact hcap1
      · rw [Function.update_noteq hqp] at hq
        exact hw.capacity q qd hq
  · obtain ⟨r, rd0, hr, hr0, hrp⟩ := hw.root_ok
    have hrc : r ≠ c := by
      rintro rfl
      exact hroot hr
    by_cases hrq : r = p
    · subst hrq
      rw [hp] at hr0
      simp only [Option.some.injEq] at hr0
      subst hr0
      refine ⟨r, _, hr, by rw [Function.update_noteq hrc, Function.update_same], ?_⟩
      rw [hpar1]; exact hrp
    · exact ⟨r, rd0, hr, by rw [Function.update_noteq hrc, Function.update_noteq hrq]; exact hr0,
        hrp⟩

theorem ranked_attach {h : Nat → Option tree} {rk : Nat → Nat}
    {c p : Nat} {cd pd pd1 : tree} (hr : ranked h rk) (hp : h p = some pd)
    (hlt : rk p < rk c) (hpar1 : pd1.parent = pd.parent) :
    ranked (Function.update (Function.update h p (some pd1))
      c (some { cd with parent := some p })) rk := by
  intro n nd q hn hq
  by_cases hnc : n = c
  · subst hnc
    simp only [Function.update_same, Option.some.injEq] at hn
    subst hn
    simp only [Option.some.injEq] at hq
    subst hq
    exact hlt
  · rw [Function.update_noteq hnc] at hn
    by_cases hnp : n = p
    · subst hnp
      simp only [Function.update_same, Option.some.injEq] at hn
      subst hn
      rw [hpar1] at hq
      exact hr n pd q hp hq
    · rw [Function.update_noteq hnp] at hn
      exact hr n nd q hn hq

/-- Reordering the children of `g`. -/
theorem wf_core_perm {h : Nat → Option tree} {root : Option Nat}
    {g : Nat} {gd gd1 : tree} (hw : wf_core h root) (hg : h g = some gd)
    (hpar1 : gd1.parent = gd.parent) (hperm : gd1.child.Perm gd.child)
    (hcap1 : gd1.child.length ≤ gd1.nalloc) :
    wf_core (Function.update h g (some gd1)) root := by
  have hkeep : ∀ x xd q, h x = some xd → xd.parent = some q →
      ∃ yd, Function.update h g (some gd1) x = some yd ∧ yd.parent = some q := by
    intro x xd q hx hxq
    by_cases hxg : x = g
    · subst hxg
      rw [hg] at hx
      simp only [Option.some.injEq] at hx
      subst hx
      refine ⟨_, by rw [Function.update_same], ?_⟩
      rw [hpar1]; exact hxq
    · exact ⟨xd, by rw [Function.update_noteq hxg]; exact hx, hxq⟩
  constructor
  · intro q qd x hq hx
    by_cases hqg : q = g
    · subst hqg
      simp only [Function.update_same, Option.some.injEq] at hq
      subst hq
      obtain ⟨xd, hxd, hxp⟩ := hw.child_parent q gd x hg (hperm.mem_iff.mp hx)
      exact hkeep x xd q hxd hxp
    · rw [Function.update_noteq hqg] at hq
      obtain ⟨xd, hxd, hxp⟩ := hw.child_parent q qd x hq hx
      exact hkeep x xd q hxd hxp
  · intro n nd q hn hq
    have key : ∀ nd0 : tree, h n = some nd0 → nd0.parent = some q →
        ∃ pd, Function.update h g (some gd1) q = some pd ∧ n ∈ pd.child := by
      intro nd0 hn0 hq0
      obtain ⟨qd, hqd, hmem⟩ := hw.parent_child n nd0 q hn0 hq0
      by_cases hqg : q = g
      · subst hqg
        rw [hg] at hqd
        simp only [Option.some.injEq] at hqd
        subst hqd
        refine ⟨_, by rw [Function.update_same], ?_⟩
        exact hperm.mem_iff.mpr hmem
      · exact ⟨qd, by rw [Function.update_noteq hqg]; exact hqd, hmem⟩
    by_cases hng : n = g
    · subst hng
      simp only [Function.update_same, Option.some.injEq] at hn
      subst hn
      rw [hpar1] at hq
      exact key gd hg hq
    · rw [Function.update_noteq hng] at hn
      exact key nd hn hq
  · intro q qd hq
    by_cases hqg : q = g
    · subst hqg
      simp only [Function.update_same, Option.some.injEq] at hq
      subst hq
      exact hperm.nodup_iff.mpr (hw.nodup q gd hg)
    · rw [Function.update_noteq hqg] at hq
      exact hw.nodup q qd hq
  · intro q qd hq
    by_cases hqg : q = g
    · subst hqg
      simp only [Function.update_same, Option.some.injEq] at hq
      subst hq
      exact hcap1
    · rw [Function.update_noteq hqg] at hq
      exact hw.capacity q qd hq
  · obtain ⟨r, rd0, hr, hr0, hrp⟩ := hw.root_ok
    obtain ⟨yd, hyd, hyp⟩ : ∃ yd, Function.update h g (some gd1) r = some yd ∧
        yd.parent = none := by
      by_cases hrg : r = g
      · subst hrg
        rw [hg] at hr0
        simp only [Option.some.injEq] at hr0
        subst hr0
        refine ⟨_, by rw [Function.update_same], ?_⟩
        rw [hpar1]; exact hrp
      · exact ⟨rd0, by rw [Function.update_noteq hrg]; exact hr0, hrp⟩
    exact ⟨r, yd, hr, hyd, hyp⟩

theorem ranked_perm {h : Nat → Option tree} {rk : Nat → Nat}
    {g : Nat} {gd gd1 : tree} (hr : ranked h rk) (hg : h g = some gd)
    (hpar1 : gd1.parent = gd.parent) :
    ranked (Function.update h g (some gd1)) rk := by
  intro n nd q hn hq
  by_cases hng : n = g
  · subst hng
    simp only [Function.update_same, Option.some.injEq] at hn
    subst hn
    rw [hpar1] at hq
    exact hr n gd q hg hq
  · rw [Function.update_noteq hng] at hn
    exact hr n nd q hn hq

/-! ## The child array under `shove_up` and `shove_down` -/

theorem indexOf_split (A B : List Nat) (n : Nat) (hA : n ∉ A) :
    (A ++ n :: B).indexOf n = A.length := by
  rw [List.indexOf_append_of_not_mem hA, List.indexOf_cons_self]
  rfl

theorem swap_child_adjacent (A B : List Nat) (x y sel : Nat) :
    swap_child (A ++ x :: y :: B) sel (A.length + 1) A.length = A ++ sel :: x :: B := by
  unfold swap_child
  have h1 : (A ++ x :: y :: B).get? A.length = some x := by
    rw [List.get?_eq_getElem?, List.getElem?_append_right (le_refl _)]
    simp
  rw [h1]
  simp only
  rw [List.set_append_right _ _ (le_refl _), Nat.sub_self, List.set_cons_zero,
    List.set_append_right _ _ (by omega : A.length ≤ A.length + 1), Nat.add_sub_cancel_left]
  simp

theorem swap_child_adjacent_down (A B : List Nat) (x y sel : Nat) :
    swap_child (A ++ x :: y :: B) sel A.length (A.length + 1) = A ++ y :: sel :: B := by
  unfold swap_child
  have h1 : (A ++ x :: y :: B).get? (A.length + 1) = some y := by
    rw [List.get?_eq_getElem?, List.getElem?_append_right (Nat.le_succ _)]
    simp
  rw [h1]
  simp only
  rw [List.set_append_right _ _ (by omega : A.length ≤ A.length + 1),
    Nat.add_sub_cancel_left, List.set_cons_succ, List.set_cons_zero,
    List.set_append_right _ _ (le_refl _)]
  simp

/-- The entry moves one slot towards the front. -/
theorem shove_up_list_mid (A B : List Nat) (x n : Nat) (hA : n ∉ A) (hx : x ≠ n) :
    shove_up_list (A ++ x :: n :: B) n = A ++ n :: x :: B := by
  have hidx : (A ++ x :: n :: B).indexOf n = A.length + 1 := by
    have := indexOf_split (A ++ [x]) B n (by
      simp only [List.mem_append, List.mem_singleton, not_or]
      exact ⟨hA, fun e => hx e.symm⟩)
    simpa using this
  unfold shove_up_list
  simp only [hidx, List.length_append, List.length_cons]
  rw [if_pos ⟨by omega, by omega⟩, Nat.add_sub_cancel]
  exact swap_child_adjacent A B x n n

theorem shove_up_list_front (B : List Nat) (n : Nat) :
    shove_up_list (n :: B) n = n :: B := by
  unfold shove_up_list
  simp [List.indexOf_cons_self]

theorem shove_up_list_absent (l : List Nat) (n : Nat) (h : n ∉ l) :
    shove_up_list l n = l := by
  unfold shove_up_list
  have := List.indexOf_eq_length.mpr h
  simp [this]

/-- The entry moves one slot towards the back. -/
theorem shove_down_list_mid (A B : List Nat) (x n : Nat) (hA : n ∉ A) :
    shove_down_list (A ++ n :: x :: B) n = A ++ x :: n :: B := by
  have hidx : (A ++ n :: x :: B).indexOf n = A.length := indexOf_split A (x :: B) n hA
  unfold shove_down_list
  simp only [hidx, List.length_append, List.length_cons]
  rw [if_pos ⟨by omega, by omega⟩]
  exact swap_child_adjacent_down A B n x n

theorem shove_down_list_last (A : List Nat) (n : Nat) (hA : n ∉ A) :
    shove_down_list (A ++ [n]) n = A ++ [n] := by
  have hidx : (A ++ [n]).indexOf n = A.length := indexOf_split A [] n hA
  unfold shove_down_list
  simp [hidx]

theorem shove_down_list_absent (l : List Nat) (n : Nat) (h : n ∉ l) :
    shove_down_list l n = l := by
  unfold shove_down_list
  have := List.indexOf_eq_length.mpr h
  simp [this]

/-- Where the first occurrence of `n` stands in `l`. -/
theorem first_occurrence (l : List Nat) (n : Nat) :
    n ∉ l ∨ (∃ B, l = n :: B) ∨ ∃ A x B, l = A ++ x :: n :: B ∧ n ∉ A ∧ x ≠ n := by
  induction l with
  | nil => left; simp
  | cons y ys ih =>
    by_cases hy : y = n
    · right; left; exact ⟨ys, by rw [hy]⟩
    · rcases ih with h | ⟨B, h⟩ | ⟨A, x, B, h, hA, hx⟩
      · left
        simp only [List.mem_cons, not_or]
        exact ⟨fun e => hy e.symm, h⟩
      · right; right
        exact ⟨[], y, B, by rw [h]; rfl, by simp, hy⟩
      · right; right
        refine ⟨y :: A, x, B, by rw [h]; rfl, ?_, hx⟩
        simp only [List.mem_cons, not_or]
        exact ⟨fun e => hy e.symm, hA⟩

theorem shove_up_list_perm (l : List Nat) (n : Nat) : (shove_up_list l n).Perm l := by
  rcases first_occurrence l n with h | ⟨B, h⟩ | ⟨A, x, B, h, hA, hx⟩
  · rw [shove_up_list_absent l n h]
  · rw [h, shove_up_list_front]
  · rw [h, shove_up_list_mid A B x n hA hx]
    exact List.Perm.append_left A (List.Perm.swap x n B)

theorem shove_down_list_perm (l : List Nat) (n : Nat) : (shove_down_list l n).Perm l := by
  by_cases hmem : n ∈ l
  · obtain ⟨A, B, h, hA⟩ := List.eq_append_cons_of_mem hmem
    cases B with
    | nil => rw [h, shove_down_list_last A n hA]
    | cons x B =>
      rw [h, shove_down_list_mid A B x n hA]
      exact List.Perm.append_left A (List.Perm.swap n x B)
  · rw [shove_down_list_absent l n hmem]

/-! ## The effect of the elementary operations on the heap -/

theorem tree_parent_none_eq (cd : tree) (h : cd.parent = none) :
    ({ cd with parent := none } : tree) = cd := by
  cases cd
  simp only at h
  subst h
  rfl

theorem del_child_ok {m : Mem} {c t : Nat} {cd td : tree} (hc : rd m c = some cd)
    (hp : cd.parent = some t) (ht : rd m t = some td) (hmem : c ∈ td.child) (htc : t ≠ c) :
    ∃ m1, del_child m (some c) = Result.ok (m1, some c) ∧
      rd m1 = Function.update (Function.update (rd m) t
        (some { td with child := td.child.erase c })) c (some { cd with parent := none }) ∧
      m1.length = m.length := by
  have h1 : rd (wr m t (some { td with child := td.child.erase c })) c = some cd := by
    rw [rd_wr _ _ _ (rd_lt ht), Function.update_noteq (Ne.symm htc)]
    exact hc
  refine ⟨wr (wr m t (some { td with child := td.child.erase c })) c
    (some { cd with parent := none }), ?_, ?_, ?_⟩
  · simp only [del_child, deref_eq hc, bind_ok, hp, deref_eq ht, if_pos hmem, deref_eq h1]
  · rw [rd_wr _ _ _ (by rw [wr_length]; exact rd_lt hc), rd_wr _ _ _ (rd_lt ht)]
  · rw [wr_length, wr_length]

theorem add_leaf_ok {m : Mem} {c p : Nat} {cd pd : tree} (hc : rd m c = some cd)
    (hcp : cd.parent = none) (hp : rd m p = some pd) (hne : p ≠ c)
    (hcap : pd.child.length ≤ pd.nalloc) :
    ∃ m2 pd1, add_leaf m (some p) c = Result.ok m2 ∧
      rd m2 = Function.update (Function.update (rd m) p (some pd1)) c
        (some { cd with parent := some p }) ∧
      pd1.parent = pd.parent ∧ pd1.child = pd.child ++ [c] ∧
      pd1.child.length ≤ pd1.nalloc ∧ pd1.text = pd.text ∧ m2.length = m.length := by
  have e0 : wr m c (some { cd with parent := none }) = wr m c (some cd) := by
    rw [tree_parent_none_eq cd hcp]
  have hm1 : rd (wr m c (some cd)) = rd m := by
    rw [rd_wr _ _ _ (rd_lt hc), ← hc, Function.update_eq_self]
  have hlen1 : (wr m c (some cd)).length = m.length := wr_length _ _ _
  have hp1 : rd (wr m c (some cd)) p = some pd := by rw [hm1]; exact hp
  -- the three branches of add_leaf
  obtain ⟨pd1, hpd1, hpar, hch, hcap1, htext⟩ : ∃ pd1 : tree,
      pd1 = (if pd.nalloc = 0 then
          { pd with child := [c], nalloc := 1, state := fold_state.EXPANDED }
        else if pd.child.length < pd.nalloc then
          { pd with child := pd.child ++ [c], state := fold_state.EXPANDED }
        else
          { pd with nalloc := pd.nalloc * 2, child := pd.child ++ [c],
                    state := fold_state.EXPANDED }) ∧
      pd1.parent = pd.parent ∧ pd1.child = pd.child ++ [c] ∧
      pd1.child.length ≤ pd1.nalloc ∧ pd1.text = pd.text := by
    refine ⟨_, rfl, ?_, ?_, ?_, ?_⟩
    · split
      · rfl
      · split <;> rfl
    · split
      · rename_i h0
        have : pd.child = [] := by
          apply List.eq_nil_of_length_eq_zero
          omega
        simp [this]
      · split <;> rfl
    · split
      · simp
      · split
        · simp only [List.length_append, List.length_singleton]
          omega
        · simp only [List.length_append, List.length_singleton]
          omega
    · split
      · rfl
      · split <;> rfl
  have h2 : rd (wr (wr m c (some cd)) p (some pd1)) c = some cd := by
    rw [rd_wr _ _ _ (by rw [hlen1]; exact rd_lt hp), hm1, Function.update_noteq (Ne.symm hne)]
    exact hc
  refine ⟨wr (wr (wr m c (some cd)) p (some pd1)) c (some { cd with parent := some p }), pd1,
    ?_, ?_, hpar, hch, hcap1, htext, ?_⟩
  · simp only [add_leaf, deref_eq hc, bind_ok, e0, deref_eq hp1]
    rw [← hpd1]
    simp only [deref_eq h2, bind_ok]
  · rw [rd_wr _ _ _ (by rw [wr_length, hlen1]; exact rd_lt hc),
      rd_wr _ _ _ (by rw [hlen1]; exact rd_lt hp), hm1]
  · rw [wr_length, wr_length, wr_length]

theorem shove_up_ok {w : World} {n g : Nat} {nd gd : tree} (hsel : w.selected_entry = some n)
    (hn : rd w.mem n = some nd) (hpar : nd.parent = some g) (hg : rd w.mem g = some gd) :
    ∃ w1, shove_up w = Result.ok w1 ∧
      rd w1.mem = Function.update (rd w.mem) g
        (some { gd with child := shove_up_list gd.child n }) ∧ same_frame w w1 := by
  have hself : ∀ l, l = gd.child → rd w.mem = Function.update (rd w.mem) g
      (some { gd with child := l }) := by
    intro l hl
    subst hl
    rw [← hg, Function.update_eq_self]
  unfold shove_up
  simp only [hsel, deref_eq hn, bind_ok, hpar, deref_eq hg]
  by_cases hlen : gd.child.length < 2
  · rw [if_pos hlen]
    refine ⟨w, rfl, hself _ ?_, rfl, rfl, rfl, rfl, rfl⟩
    unfold shove_up_list
    rw [if_neg (by omega)]
  · rw [if_neg hlen]
    by_cases hcond : gd.child.indexOf n < gd.child.length ∧ 1 ≤ gd.child.indexOf n
    · simp only [hcond, and_self, if_true]
      refine ⟨_, rfl, ?_, rfl, hsel.symm, ?_, rfl, rfl⟩
      · simp only [rd_wr _ _ _ (rd_lt hg), shove_up_list, hcond, and_self, if_true]
      · simp only [wr_length]
    · simp only [hcond, if_false]
      refine ⟨w, rfl, hself _ ?_, rfl, rfl, rfl, rfl, rfl⟩
      unfold shove_up_list
      simp only [hcond, if_false]

theorem shove_down_ok {w : World} {n g : Nat} {nd gd : tree} (hsel : w.selected_entry = some n)
    (hn : rd w.mem n = some nd) (hpar : nd.parent = some g) (hg : rd w.mem g = some gd) :
    ∃ w1, shove_down w = Result.ok w1 ∧
      rd w1.mem = Function.update (rd w.mem) g
        (some { gd with child := shove_down_list gd.child n }) ∧ same_frame w w1 := by
  have hself : ∀ l, l = gd.child → rd w.mem = Function.update (rd w.mem) g
      (some { gd with child := l }) := by
    intro l hl
    subst hl
    rw [← hg, Function.update_eq_self]
  unfold shove_down
  simp only [hsel, deref_eq hn, bind_ok, hpar, deref_eq hg]
  by_cases hlen : gd.child.length < 2
  · rw [if_pos hlen]
    refine ⟨w, rfl, hself _ ?_, rfl, rfl, rfl, rfl, rfl⟩
    unfold shove_down_list
    rw [if_neg (by omega)]
  · rw [if_neg hlen]
    by_cases hcond : gd.child.indexOf n < gd.child.length ∧
        gd.child.indexOf n + 1 < gd.child.length
    · simp only [hcond, and_self, if_true]
      refine ⟨_, rfl, ?_, rfl, hsel.symm, ?_, rfl, rfl⟩
      · simp only [rd_wr _ _ _ (rd_lt hg), shove_down_list, hcond, and_self, if_true]
      · simp only [wr_length]
    · simp only [hcond, if_false]
      refine ⟨w, rfl, hself _ ?_, rfl, rfl, rfl, rfl, rfl⟩
      unfold shove_down_list
      simp only [hcond, if_false]

theorem same_frame_refl (w : World) : same_frame w w := ⟨rfl, rfl, rfl, rfl, rfl⟩

theorem same_frame_trans {w w1 w2 : World} (h1 : same_frame w w1) (h2 : same_frame w1 w2) :
    same_frame w w2 :=
  ⟨h2.1.trans h1.1, h2.2.1.trans h1.2.1, h2.2.2.1.trans h1.2.2.1,
    h2.2.2.2.1.trans h1.2.2.2.1, h2.2.2.2.2.trans h1.2.2.2.2⟩

theorem shove_up_times_ok (k : Nat) : ∀ {w : World} {n g : Nat} {nd gd : tree},
    w.selected_entry = some n → rd w.mem n = some nd → nd.parent = some g →
    rd w.mem g = some gd → n ≠ g →
    ∃ w1, shove_up_times k w = Result.ok w1 ∧
      rd w1.mem = Function.update (rd w.mem) g
        (some { gd with child := (fun l => shove_up_list l n)^[k] gd.child }) ∧
      same_frame w w1 := by
  induction k with
  | zero =>
    intro w n g nd gd hsel hn hpar hg hng
    refine ⟨w, rfl, ?_, same_frame_refl w⟩
    simp only [Function.iterate_zero, id_eq]
    rw [← hg, Function.update_eq_self]
  | succ k ih =>
    intro w n g nd gd hsel hn hpar hg hng
    obtain ⟨w1, hw1, hrd1, hf1⟩ := shove_up_ok hsel hn hpar hg
    have hsel1 : w1.selected_entry = some n := by rw [hf1.2.1]; exact hsel
    have hn1 : rd w1.mem n = some nd := by
      rw [hrd1, Function.update_noteq hng]; exact hn
    have hg1 : rd w1.mem g = some { gd with child := shove_up_list gd.child n } := by
      rw [hrd1, Function.update_same]
    obtain ⟨w2, hw2, hrd2, hf2⟩ := ih hsel1 hn1 hpar hg1 hng
    refine ⟨w2, ?_, ?_, same_frame_trans hf1 hf2⟩
    · simp only [shove_up_times, hw1, bind_ok, hw2]
    · rw [hrd2, hrd1, Function.update_idem]
      simp only [Function.iterate_succ, Function.comp_apply]

/-- After as many `shove_up` as there are entries between, the entry stands in
front of the block `M`. -/
theorem shove_up_list_iterate (A M : List Nat) (n : Nat) (hA : n ∉ A) (hM : n ∉ M) :
    ∀ B : List Nat, (fun l => shove_up_list l n)^[M.length] (A ++ M ++ n :: B)
      = A ++ n :: (M ++ B) := by
  induction M using List.reverseRecOn with
  | nil => intro B; simp
  | append_singleton M x ih =>
    intro B
    have hM1 : n ∉ M := fun h => hM (List.mem_append_left _ h)
    have hx : x ≠ n := by
      intro e; apply hM; rw [e]; simp
    have h1 : A ++ (M ++ [x]) ++ n :: B = (A ++ M) ++ x :: n :: B := by simp
    have hAM : n ∉ A ++ M := by
      simp only [List.mem_append, not_or]; exact ⟨hA, hM1⟩
    rw [List.length_append, List.length_singleton, Function.iterate_succ, Function.comp_apply,
      h1, shove_up_list_mid (A ++ M) B x n hAM hx, ih hM1 (x :: B)]
    simp

theorem shove_up_list_iterate_perm (n k : Nat) (l : List Nat) :
    ((fun l => shove_up_list l n)^[k] l).Perm l := by
  induction k generalizing l with
  | zero => simp
  | succ k ih =>
    rw [Function.iterate_succ, Function.comp_apply]
    exact (ih _).trans (shove_up_list_perm l n)

theorem root_ne_of_parent {h : Nat → Option tree} {root : Option Nat} {n p : Nat} {nd : tree}
    (hw : wf_core h root) (hn : h n = some nd) (hp : nd.parent = some p) : root ≠ some n := by
  obtain ⟨r, rd0, hr, hr0, hrp⟩ := hw.root_ok
  intro e
  rw [hr] at e
  simp only [Option.some.injEq] at e
  subst e
  rw [hn] at hr0
  simp only [Option.some.injEq] at hr0
  subst hr0
  rw [hp] at hrp
  simp at hrp

/-- What `promote()` does to a node with a parent and a grandparent. -/
theorem promote_ok {w : World} {n p g : Nat} {nd pd gd : tree} {l1 l2 : List Nat}
    (hwf : well_formed w) (hsel : w.selected_entry = some n) (hn : rd w.mem n = some nd)
    (hnp : nd.parent = some p) (hp : rd w.mem p = some pd) (hpg : pd.parent = some g)
    (hg : rd w.mem g = some gd) (hsplit : gd.child = l1 ++ p :: l2) :
    ∃ w1 gd1, promote w = Result.ok w1 ∧ well_formed w1 ∧ same_frame w w1 ∧
      rd w1.mem n = some { nd with parent := some g } ∧
      rd w1.mem p = some { pd with child := pd.child.erase n } ∧
      rd w1.mem g = some gd1 ∧ gd1.child = l1 ++ n :: p :: l2 ∧
      gd1.parent = gd.parent ∧ gd1.text = gd.text ∧
      ∀ x, x ≠ n → x ≠ p → x ≠ g → rd w1.mem x = rd w.mem x := by
  obtain ⟨hcore, rk, hrk⟩ := hwf
  have hpn : p ≠ n := ranked_ne hrk hn hnp
  have hgp : g ≠ p := ranked_ne hrk hp hpg
  have hlt1 := hrk n nd p hn hnp
  have hlt2 := hrk p pd g hp hpg
  have hgn : g ≠ n := by
    intro e; subst e; omega
  have hnmem : n ∈ pd.child := by
    obtain ⟨pd0, hpd0, hmem⟩ := hcore.parent_child n nd p hn hnp
    rw [hp] at hpd0
    simp only [Option.some.injEq] at hpd0
    subst hpd0
    exact hmem
  obtain ⟨m1, hdel, hrd1, hlen1⟩ := del_child_ok hn hnp hp hnmem hpn
  have hcore1 : wf_core (rd m1) w.root := by
    rw [hrd1]; exact wf_core_detach hcore hrk hn hnp hp
  have hrk1 : ranked (rd m1) rk := by
    rw [hrd1]; exact ranked_detach hrk hp _
  have hg1 : rd m1 g = some gd := by
    rw [hrd1, Function.update_noteq hgn, Function.update_noteq hgp]; exact hg
  have hn1 : rd m1 n = some { nd with parent := none } := by
    rw [hrd1, Function.update_same]
  have hnd := hcore.nodup g gd hg
  have hp_l1 : p ∉ l1 := by
    rw [hsplit] at hnd
    intro hmem
    exact (List.nodup_append.mp hnd).2.2 hmem (List.mem_cons_self _ _)
  have hidx : gd.child.indexOf p = l1.length := by
    rw [hsplit]; exact indexOf_split l1 l2 p hp_l1
  have hshoves : (if gd.child.indexOf p < gd.child.length
      then gd.child.length - gd.child.indexOf p else 0) = (p :: l2).length := by
    rw [hidx, hsplit]
    simp only [List.length_append, List.length_cons]
    rw [if_pos (by omega)]
    omega
  obtain ⟨m2, gd1, hadd, hrd2, hpar1, hch1, hcap1, htext1, hlen2⟩ :=
    add_leaf_ok (m := m1) (c := n) (p := g) hn1 rfl hg1 hgn (hcore.capacity g gd hg)
  have hroot : w.root ≠ some n := root_ne_of_parent hcore hn hnp
  have hcore2 : wf_core (rd m2) w.root := by
    rw [hrd2]; exact wf_core_attach hcore1 hn1 rfl hg1 hgn hroot hpar1 hch1 hcap1
  have hrk2 : ranked (rd m2) rk := by
    rw [hrd2]; exact ranked_attach hrk1 hg1 (by omega) hpar1
  have hn2 : rd m2 n = some { nd with parent := some g } := by
    rw [hrd2, Function.update_same]
  have hg2 : rd m2 g = some gd1 := by
    rw [hrd2, Function.update_noteq hgn, Function.update_same]
  obtain ⟨w3, hrun, hrd3, hf3⟩ := shove_up_times_ok (p :: l2).length
    (w := { w with mem := m2 }) (n := n) (g := g) hsel hn2 rfl hg2 (Ne.symm hgn)
  have hn_g : n ∉ gd.child := by
    intro hmem
    obtain ⟨xd, hxd, hxp⟩ := hcore.child_parent g gd n hg hmem
    rw [hn] at hxd
    simp only [Option.some.injEq] at hxd
    subst hxd
    rw [hnp] at hxp
    simp only [Option.some.injEq] at hxp
    exact hgp hxp.symm
  have hiter : (fun l => shove_up_list l n)^[(p :: l2).length] gd1.child
      = l1 ++ n :: p :: l2 := by
    rw [hch1, hsplit]
    have := shove_up_list_iterate l1 (p :: l2) n
      (fun h => hn_g (by rw [hsplit]; exact List.mem_append_left _ h))
      (fun h => hn_g (by rw [hsplit]; exact List.mem_append_right _ h)) []
    simpa using this
  have hperm : ((fun l => shove_up_list l n)^[(p :: l2).length] gd1.child).Perm gd1.child :=
    shove_up_list_iterate_perm n _ _
  have hcore3 : wf_core (rd w3.mem) w.root := by
    rw [hrd3]
    exact wf_core_perm hcore2 hg2 rfl hperm (by
      have := hperm.length_eq
      simp only at this ⊢
      omega)
  have hrk3 : ranked (rd w3.mem) rk := by
    rw [hrd3]; exact ranked_perm hrk2 hg2 rfl
  refine ⟨{ w3 with modified := true },
    { gd1 with child := (fun l => shove_up_list l n)^[(p :: l2).length] gd1.child }, ?_,
    ⟨by rw [← hf3.1] at hcore3; exact hcore3, rk, hrk3⟩, ?_, ?_, ?_, ?_, hiter, hpar1, htext1, ?_⟩
  · unfold promote
    simp only [hsel] at hrun
    simp only [hsel, deref_eq hn, bind_ok, hnp, deref_eq hp, hpg, hdel, deref_eq hg1, hshoves,
      hadd, hrun]
  · exact ⟨hf3.1, hf3.2.1, hf3.2.2.1.trans (hlen2.trans hlen1), hf3.2.2.2.1, hf3.2.2.2.2⟩
  · show rd w3.mem n = _
    rw [hrd3, Function.update_noteq (Ne.symm hgn), hn2]
  · show rd w3.mem p = _
    rw [hrd3, Function.update_noteq (Ne.symm hgp), hrd2, Function.update_noteq hpn,
      Function.update_noteq (Ne.symm hgp), hrd1, Function.update_noteq hpn,
      Function.update_same]
  · show rd w3.mem g = _
    rw [hrd3, Function.update_same]
  · intro x hxn hxp hxg
    show rd w3.mem x = _
    rw [hrd3, Function.update_noteq hxg, hrd2, Function.update_noteq hxn,
      Function.update_noteq hxg, hrd1, Function.update_noteq hxn, Function.update_noteq hxp]

/-! ## The example heap -/

theorem example_world_cells (a : Nat) (t : tree) (h : rd example_world.mem a = some t) :
    (a = 0 ∧ t = ⟨2, none, [1, 2], fold_state.EXPANDED, "Entries".toList⟩) ∨
    (a = 1 ∧ t = ⟨0, some 0, [], fold_state.EMPTY, "A".toList⟩) ∨
    (a = 2 ∧ t = ⟨1, some 0, [3], fold_state.EXPANDED, "B".toList⟩) ∨
    (a = 3 ∧ t = ⟨0, some 2, [], fold_state.EMPTY, "C".toList⟩) := by
  have hlt : a < 4 := rd_lt h
  interval_cases a
  · left; exact ⟨rfl, by simpa [rd, example_world] using h.symm⟩
  · right; left; exact ⟨rfl, by simpa [rd, example_world] using h.symm⟩
  · right; right; left; exact ⟨rfl, by simpa [rd, example_world] using h.symm⟩
  · right; right; right; exact ⟨rfl, by simpa [rd, example_world] using h.symm⟩

theorem example_world_wf : well_formed example_world := by
  refine ⟨⟨?_, ?_, ?_, ?_, ?_⟩, fun a => a, ?_⟩
  · intro p pd c hp hc
    rcases example_world_cells p pd hp with ⟨rfl, rfl⟩ | ⟨rfl, rfl⟩ | ⟨rfl, rfl⟩ | ⟨rfl, rfl⟩
    · simp only [List.mem_cons, List.mem_singleton, List.not_mem_nil, or_false] at hc
      rcases hc with rfl | rfl
      · exact ⟨_, rfl, rfl⟩
      · exact ⟨_, rfl, rfl⟩
    · simp at hc
    · simp only [List.mem_singleton] at hc
      subst hc
      exact ⟨_, rfl, rfl⟩
    · simp at hc
  · intro n nd p hn hp
    rcases example_world_cells n nd hn with ⟨rfl, rfl⟩ | ⟨rfl, rfl⟩ | ⟨rfl, rfl⟩ | ⟨rfl, rfl⟩
    · simp at hp
    · simp only [Option.some.injEq] at hp
      subst hp
      exact ⟨_, rfl, by simp⟩
    · simp only [Option.some.injEq] at hp
      subst hp
      exact ⟨_, rfl, by simp⟩
    · simp only [Option.some.injEq] at hp
      subst hp
      exact ⟨_, rfl, by simp⟩
  · intro p pd hp
    rcases example_world_cells p pd hp with ⟨rfl, rfl⟩ | ⟨rfl, rfl⟩ | ⟨rfl, rfl⟩ | ⟨rfl, rfl⟩ <;>
      simp
  · intro p pd hp
    rcases example_world_cells p pd hp with ⟨rfl, rfl⟩ | ⟨rfl, rfl⟩ | ⟨rfl, rfl⟩ | ⟨rfl, rfl⟩ <;>
      simp
  · exact ⟨0, _, rfl, rfl, rfl⟩
  · intro n nd p hn hp
    rcases example_world_cells n nd hn with ⟨rfl, rfl⟩ | ⟨rfl, rfl⟩ | ⟨rfl, rfl⟩ | ⟨rfl, rfl⟩
    · simp at hp
    · simp only [Option.some.injEq] at hp
      subst hp
      decide
    · simp only [Option.some.injEq] at hp
      subst hp
      decide
    · simp only [Option.some.injEq] at hp
      subst hp
      decide

/-! ## C9: promote -/

/-- C9. In a well-formed tree let `n` be the selected node. If `n` has a parent
`p` and a grandparent `g` whose children are `l1`, `p`, `l2`, then after
`promote()` the children of `g` are `l1`, `n`, `p`, `l2` (`n` stands
immediately before `p`), the children of `p` are its old children without `n`,
in unchanged order, and the parent of `n` is `g`. If `n` has no parent, or its
parent has no parent, `promote()` changes nothing. -/
theorem promote_spec (w : World) (n : Nat) (nd : tree) (hwf : well_formed w)
    (hsel : w.selected_entry = some n) (hn : rd w.mem n = some nd) :
    (nd.parent = none → promote w = Result.ok w) ∧
    (∀ p pd, nd.parent = some p → rd w.mem p = some pd → pd.parent = none →
      promote w = Result.ok w) ∧
    (∀ p pd g gd l1 l2, nd.parent = some p → rd w.mem p = some pd → pd.parent = some g →
      rd w.mem g = some gd → gd.child = l1 ++ p :: l2 →
      ∃ w1 nd1 pd1 gd1, promote w = Result.ok w1 ∧
        rd w1.mem g = some gd1 ∧ gd1.child = l1 ++ n :: p :: l2 ∧
        rd w1.mem p = some pd1 ∧ pd1.child = pd.child.filter (fun x => x ≠ n) ∧
        rd w1.mem n = some nd1 ∧ nd1.parent = some g) := by
  refine ⟨?_, ?_, ?_⟩
  · intro hnone
    unfold promote
    simp only [hsel, deref_eq hn, bind_ok, hnone]
  · intro p pd hnp hp hpnone
    unfold promote
    simp only [hsel, deref_eq hn, bind_ok, hnp, deref_eq hp, hpnone]
  · intro p pd g gd l1 l2 hnp hp hpg hg hsplit
    obtain ⟨w1, gd1, hrun, _, _, hn1, hp1, hg1, hch, _, _, _⟩ :=
      promote_ok hwf hsel hn hnp hp hpg hg hsplit
    refine ⟨w1, _, _, gd1, hrun, hg1, hch, hp1, ?_, hn1, rfl⟩
    show pd.child.erase n = _
    rw [(hwf.1.nodup p pd hp).erase_eq_filter n]
    congr 1
    funext x
    by_cases hx : x = n <;> simp [hx]

/-- Witness of C9: in the example heap the entry "C" (address 3), child of "B"
(address 2), is promoted; the root then lists "A", "C", "B". -/
theorem promote_spec_witness :
    ∃ w1 nd1 pd1 gd1, promote { example_world with selected_entry := some 3 } = Result.ok w1 ∧
      rd w1.mem 0 = some gd1 ∧ gd1.child = [1] ++ 3 :: 2 :: [] ∧
      rd w1.mem 2 = some pd1 ∧ pd1.child = [3].filter (fun x => x ≠ 3) ∧
      rd w1.mem 3 = some nd1 ∧ nd1.parent = some 0 :=
  (promote_spec { example_world with selected_entry := some 3 } 3
    ⟨0, some 2, [], fold_state.EMPTY, "C".toList⟩ example_world_wf rfl rfl).2.2
    2 ⟨1, some 0, [3], fold_state.EXPANDED, "B".toList⟩
    0 ⟨2, none, [1, 2], fold_state.EXPANDED, "Entries".toList⟩ [1] [] rfl rfl rfl rfl rfl

/-! ## Ancestors -/

theorem climb_succ {h : Nat → Option tree} {x q : Nat} {xd : tree} (k : Nat)
    (hx : h x = some xd) (hq : xd.parent = some q) : climb h (k + 1) x = climb h k q := by
  simp only [climb, hx, hq]

theorem climb_succ_none {h : Nat → Option tree} {x : Nat} {xd : tree} (k : Nat)
    (hx : h x = some xd) (hq : xd.parent = none) : climb h (k + 1) x = none := by
  simp only [climb, hx, hq]

theorem climb_rank {h : Nat → Option tree} {rk : Nat → Nat} (hr : ranked h rk) (k : Nat) :
    ∀ x y, climb h k x = some y → rk y + k ≤ rk x := by
  induction k with
  | zero =>
    intro x y hxy
    simp only [climb, Option.some.injEq] at hxy
    subst hxy
    omega
  | succ k ih =>
    intro x y hxy
    cases hx : h x with
    | none => simp [climb, hx] at hxy
    | some xd =>
      cases hq : xd.parent with
      | none => rw [climb_succ_none k hx hq] at hxy; simp at hxy
      | some q =>
        rw [climb_succ k hx hq] at hxy
        have := ih q y hxy
        have := hr x xd q hx hq
        omega

/-- When the parentless node `n` is to be hung below `sb`, a node that is not
below `n`, the ranks can be chosen so that `sb` ranks below `n`. -/
theorem rerank {h : Nat → Option tree} {rk : Nat → Nat} {n sb : Nat} {nd : tree}
    (hr : ranked h rk) (hn : h n = some nd) (hnone : nd.parent = none)
    (hsb : ∀ k, climb h k sb ≠ some n) :
    ∃ rk1, ranked h rk1 ∧ rk1 sb < rk1 n := by
  classical
  refine ⟨fun x => if ∃ k, climb h k x = some n then rk x + rk sb + 1 else rk x, ?_, ?_⟩
  · intro x xd q hx hq
    have hiff : (∃ k, climb h k x = some n) ↔ ∃ k, climb h k q = some n := by
      constructor
      · rintro ⟨k, hk⟩
        cases k with
        | zero =>
          simp only [climb, Option.some.injEq] at hk
          subst hk
          rw [hn] at hx
          simp only [Option.some.injEq] at hx
          subst hx
          rw [hnone] at hq
          simp at hq
        | succ k =>
          rw [climb_succ k hx hq] at hk
          exact ⟨k, hk⟩
      · rintro ⟨k, hk⟩
        exact ⟨k + 1, by rw [climb_succ k hx hq]; exact hk⟩
    have := hr x xd q hx hq
    show (if ∃ k, climb h k q = some n then rk q + rk sb + 1 else rk q)
      < (if ∃ k, climb h k x = some n then rk x + rk sb + 1 else rk x)
    by_cases hD : ∃ k, climb h k x = some n
    · rw [if_pos hD, if_pos (hiff.mp hD)]
      omega
    · rw [if_neg hD, if_neg (fun hq1 => hD (hiff.mpr hq1))]
      exact this
  · have h1 : ¬ ∃ k, climb h k sb = some n := fun ⟨k, hk⟩ => hsb k hk
    have h2 : ∃ k, climb h k n = some n := ⟨0, rfl⟩
    show (if ∃ k, climb h k sb = some n then rk sb + rk sb + 1 else rk sb)
      < (if ∃ k, climb h k n = some n then rk n + rk sb + 1 else rk n)
    rw [if_neg h1, if_pos h2]
    omega

/-! ## Well-formedness is kept by each command -/

theorem selectable_some {w : World} {n : Nat} (h : selectable (some n) w) :
    ∃ nd, rd w.mem n = some nd := by
  simp only [selectable] at h
  exact Option.isSome_iff_exists.mp h

theorem parent_cell {h : Nat → Option tree} {root : Option Nat} {n p : Nat} {nd : tree}
    (hw : wf_core h root) (hn : h n = some nd) (hp : nd.parent = some p) :
    ∃ pd, h p = some pd ∧ n ∈ pd.child := hw.parent_child n nd p hn hp

theorem shove_up_wf (w : World) (hwf : well_formed w) (hs : selectable w.selected_entry w) :
    ∃ w1, shove_up w = Result.ok w1 ∧ well_formed w1 := by
  cases hsel : w.selected_entry with
  | none => exact ⟨w, by simp only [shove_up, hsel], hwf⟩
  | some n =>
    rw [hsel] at hs
    obtain ⟨nd, hn⟩ := selectable_some hs
    cases hnp : nd.parent with
    | none => exact ⟨w, by simp only [shove_up, hsel, deref_eq hn, bind_ok, hnp], hwf⟩
    | some g =>
      obtain ⟨hcore, rk, hrk⟩ := hwf
      obtain ⟨gd, hg, _⟩ := parent_cell hcore hn hnp
      obtain ⟨w1, hrun, hrd, hf⟩ := shove_up_ok hsel hn hnp hg
      refine ⟨w1, hrun, ?_, rk, ?_⟩
      · rw [hf.1]
        show wf_core (rd w1.mem) w.root
        rw [hrd]
        have hperm := shove_up_list_perm gd.child n
        exact wf_core_perm hcore hg rfl hperm (by
          have := hperm.length_eq
          have := hcore.capacity g gd hg
          simp only at *
          omega)
      · rw [hrd]; exact ranked_perm hrk hg rfl

theorem shove_down_wf (w : World) (hwf : well_formed w) (hs : selectable w.selected_entry w) :
    ∃ w1, shove_down w = Result.ok w1 ∧ well_formed w1 := by
  cases hsel : w.selected_entry with
  | none => exact ⟨w, by simp only [shove_down, hsel], hwf⟩
  | some n =>
    rw [hsel] at hs
    obtain ⟨nd, hn⟩ := selectable_some hs
    cases hnp : nd.parent with
    | none => exact ⟨w, by simp only [shove_down, hsel, deref_eq hn, bind_ok, hnp], hwf⟩
    | some g =>
      obtain ⟨hcore, rk, hrk⟩ := hwf
      obtain ⟨gd, hg, _⟩ := parent_cell hcore hn hnp
      obtain ⟨w1, hrun, hrd, hf⟩ := shove_down_ok hsel hn hnp hg
      refine ⟨w1, hrun, ?_, rk, ?_⟩
      · rw [hf.1]
        show wf_core (rd w1.mem) w.root
        rw [hrd]
        have hperm := shove_down_list_perm gd.child n
        exact wf_core_perm hcore hg rfl hperm (by
          have := hperm.length_eq
          have := hcore.capacity g gd hg
          simp only at *
          omega)
      · rw [hrd]; exact ranked_perm hrk hg rfl

theorem promote_wf (w : World) (hwf : well_formed w) (hs : selectable w.selected_entry w) :
    ∃ w1, promote w = Result.ok w1 ∧ well_formed w1 := by
  cases hsel : w.selected_entry with
  | none => exact ⟨w, by simp only [promote, hsel], hwf⟩
  | some n =>
    rw [hsel] at hs
    obtain ⟨nd, hn⟩ := selectable_some hs
    cases hnp : nd.parent with
    | none => exact ⟨w, by simp only [promote, hsel, deref_eq hn, bind_ok, hnp], hwf⟩
    | some p =>
      obtain ⟨pd, hp, _⟩ := parent_cell hwf.1 hn hnp
      cases hpg : pd.parent with
      | none =>
        exact ⟨w, by simp only [promote, hsel, deref_eq hn, bind_ok, hnp, deref_eq hp, hpg], hwf⟩
      | some g =>
        obtain ⟨gd, hg, hmem⟩ := parent_cell hwf.1 hp hpg
        obtain ⟨l1, l2, hsplit⟩ := List.append_of_mem hmem
        obtain ⟨w1, gd1, hrun, hwf1, _⟩ := promote_ok hwf hsel hn hnp hp hpg hg hsplit
        exact ⟨w1, hrun, hwf1⟩

/-- The sibling below which `demote` hangs the entry: the next one, or the one
before the last entry. It is a sibling other than the entry itself. -/
theorem demote_target (l : List Nat) (n : Nat) (hnd : l.Nodup) (hmem : n ∈ l)
    (hlen : ¬ l.length < 2) :
    ∃ sb, (if l.indexOf n < l.length - 1 then l.get? (l.indexOf n + 1)
        else l.get? (l.length - 2)) = some sb ∧ sb ∈ l ∧ sb ≠ n := by
  have hi : l.indexOf n < l.length := List.indexOf_lt_length.mpr hmem
  have pick : ∀ j (hj : j < l.length), j ≠ l.indexOf n →
      l.get? j = some l[j] ∧ l[j] ∈ l ∧ l[j] ≠ n := by
    intro j hj hne
    refine ⟨by rw [List.get?_eq_getElem?, List.getElem?_eq_getElem hj], List.getElem_mem hj, ?_⟩
    intro e
    apply hne
    rw [← e, List.indexOf_getElem hnd j hj]
  by_cases hc : l.indexOf n < l.length - 1
  · rw [if_pos hc]
    exact ⟨_, pick (l.indexOf n + 1) (by omega) (by omega)⟩
  · rw [if_neg hc]
    exact ⟨_, pick (l.length - 2) (by omega) (by omega)⟩

theorem demote_wf (w : World) (hwf : well_formed w) (hs : selectable w.selected_entry w) :
    ∃ w1, demote w = Result.ok w1 ∧ well_formed w1 := by
  cases hsel : w.selected_entry with
  | none => exact ⟨w, by simp only [demote, hsel], hwf⟩
  | some n =>
    rw [hsel] at hs
    obtain ⟨nd, hn⟩ := selectable_some hs
    cases hnp : nd.parent with
    | none => exact ⟨w, by simp only [demote, hsel, deref_eq hn, bind_ok, hnp], hwf⟩
    | some p =>
      obtain ⟨hcore, rk, hrk⟩ := hwf
      obtain ⟨pd, hp, hnmem⟩ := parent_cell hcore hn hnp
      by_cases hlen : pd.child.length < 2
      · exact ⟨w, by simp only [demote, hsel, deref_eq hn, bind_ok, hnp, deref_eq hp, if_pos hlen],
          hcore, rk, hrk⟩
      · obtain ⟨sb, htarget, hsbmem, hsbn⟩ :=
          demote_target pd.child n (hcore.nodup p pd hp) hnmem hlen
        obtain ⟨sbd, hsb, hsbp⟩ := hcore.child_parent p pd sb hp hsbmem
        have hpn : p ≠ n := ranked_ne hrk hn hnp
        have hpsb : p ≠ sb := ranked_ne hrk hsb hsbp
        have hlt := hrk n nd p hn hnp
        obtain ⟨m1, hdel, hrd1, hlen1⟩ := del_child_ok hn hnp hp hnmem hpn
        have hcore1 : wf_core (rd m1) w.root := by
          rw [hrd1]; exact wf_core_detach hcore hrk hn hnp hp
        have hrk1 : ranked (rd m1) rk := by
          rw [hrd1]; exact ranked_detach hrk hp _
        have hn1 : rd m1 n = some { nd with parent := none } := by
          rw [hrd1, Function.update_same]
        have hsb1 : rd m1 sb = some sbd := by
          rw [hrd1, Function.update_noteq hsbn, Function.update_noteq (Ne.symm hpsb)]; exact hsb
        have hclimb : ∀ k, climb (rd m1) k sb ≠ some n := by
          intro k hk
          cases k with
          | zero =>
            simp only [climb, Option.some.injEq] at hk
            exact hsbn hk
          | succ k =>
            rw [climb_succ k hsb1 hsbp] at hk
            have := climb_rank hrk1 k p n hk
            omega
        obtain ⟨rk1, hrk1a, hrk1lt⟩ := rerank hrk1 hn1 rfl hclimb
        obtain ⟨m2, sbd1, hadd, hrd2, hpar1, hch1, hcap1, _, hlen2⟩ :=
          add_leaf_ok (m := m1) (c := n) (p := sb) hn1 rfl hsb1 hsbn (hcore.capacity sb sbd hsb)
        have hroot : w.root ≠ some n := root_ne_of_parent hcore hn hnp
        have hcore2 : wf_core (rd m2) w.root := by
          rw [hrd2]; exact wf_core_attach hcore1 hn1 rfl hsb1 hsbn hroot hpar1 hch1 hcap1
        have hrk2 : ranked (rd m2) rk1 := by
          rw [hrd2]; exact ranked_attach hrk1a hsb1 hrk1lt hpar1
        have hn2 : rd m2 n = some { nd with parent := some sb } := by
          rw [hrd2, Function.update_same]
        have hsb2 : rd m2 sb = some sbd1 := by
          rw [hrd2, Function.update_noteq hsbn, Function.update_same]
        obtain ⟨w3, hrun, hrd3, hf3⟩ := shove_up_times_ok (nd.child.length - 1)
          (w := { w with mem := m2 }) (n := n) (g := sb) hsel hn2 rfl hsb2 (Ne.symm hsbn)
        have hperm : ((fun l => shove_up_list l n)^[nd.child.length - 1] sbd1.child).Perm
            sbd1.child := shove_up_list_iterate_perm n _ _
        refine ⟨{ w3 with modified := true }, ?_, ?_, rk1, ?_⟩
        · unfold demote
          simp only [hsel] at hrun
          simp only [hsel, deref_eq hn, bind_ok, hnp, deref_eq hp, if_neg hlen, htarget, hdel,
            hadd, deref_eq hn2, hrun]
        · show wf_core (rd w3.mem) w3.root
          rw [hf3.1, hrd3]
          exact wf_core_perm hcore2 hsb2 rfl hperm (by
            have := hperm.length_eq
            simp only at this ⊢
            omega)
        · show ranked (rd w3.mem) rk1
          rw [hrd3]; exact ranked_perm hrk2 hsb2 rfl

/-! ## Ancestor chains -/

theorem climb_add (h : Nat → Option tree) (a j : Nat) :
    ∀ x, climb h (a + j) x = (climb h a x).bind (climb h j) := by
  induction a with
  | zero => intro x; simp [climb]
  | succ a ih =>
    intro x
    rw [Nat.add_right_comm]
    cases hx : h x with
    | none => simp [climb, hx]
    | some xd =>
      cases hq : xd.parent with
      | none => rw [climb_succ_none _ hx hq, climb_succ_none _ hx hq]; rfl
      | some q => rw [climb_succ _ hx hq, climb_succ _ hx hq, ih q]

/-- One more step at the top of a chain. -/
theorem climb_snoc {h : Nat → Option tree} {k x c t : Nat} {cd : tree}
    (hk : climb h k x = some c) (hc : h c = some cd) (hp : cd.parent = some t) :
    climb h (k + 1) x = some t := by
  rw [climb_add, hk]
  simp only [Option.some_bind]
  rw [climb_succ 0 hc hp]
  rfl

/-- The last step of a chain. -/
theorem climb_last {h : Nat → Option tree} {k x t : Nat} (hk : climb h (k + 1) x = some t) :
    ∃ y yd, climb h k x = some y ∧ h y = some yd ∧ yd.parent = some t := by
  rw [climb_add] at hk
  cases hy : climb h k x with
  | none => rw [hy] at hk; simp at hk
  | some y =>
    rw [hy] at hk
    simp only [Option.some_bind] at hk
    cases hyd : h y with
    | none => simp [climb, hyd] at hk
    | some yd =>
      cases hq : yd.parent with
      | none => rw [climb_succ_none 0 hyd hq] at hk; simp at hk
      | some q =>
        rw [climb_succ 0 hyd hq] at hk
        simp only [climb, Option.some.injEq] at hk
        subst hk
        exact ⟨y, yd, rfl, hyd, hq⟩

/-- A chain can be cut at any earlier point. -/
theorem climb_cut {h : Nat → Option tree} {k x t : Nat} (hk : climb h k x = some t) (j : Nat)
    (hj : j ≤ k) : ∃ y, climb h j x = some y ∧ climb h (k - j) y = some t := by
  have e : k = j + (k - j) := by omega
  rw [e, climb_add] at hk
  cases hy : climb h j x with
  | none => rw [hy] at hk; simp at hk
  | some y =>
    rw [hy] at hk
    exact ⟨y, rfl, hk⟩

/-- Two different children of `t` have no common descendant. -/
theorem climb_disjoint {h : Nat → Option tree} {rk : Nat → Nat} (hr : ranked h rk)
    {x c1 c2 t a b : Nat} {d1 d2 : tree} (h1 : h c1 = some d1) (hp1 : d1.parent = some t)
    (h2 : h c2 = some d2) (hp2 : d2.parent = some t) (hne : c1 ≠ c2)
    (ha : climb h a x = some c1) (hb : climb h b x = some c2) : False := by
  have key : ∀ {u v : Nat} {du dv : tree} {i j : Nat}, h u = some du → du.parent = some t →
      h v = some dv → dv.parent = some t → u ≠ v → climb h i x = some u →
      climb h j x = some v → i ≤ j → False := by
    intro u v du dv i j hu hpu hv hpv huv hi hj hij
    obtain ⟨y, hy1, hy2⟩ := climb_cut hj i hij
    rw [hi] at hy1
    simp only [Option.some.injEq] at hy1
    subst hy1
    cases hd : j - i with
    | zero =>
      rw [hd] at hy2
      simp only [climb, Option.some.injEq] at hy2
      exact huv hy2
    | succ d =>
      rw [hd, climb_succ d hu hpu] at hy2
      have := climb_rank hr d t v hy2
      have := hr v dv t hv hpv
      omega
  rcases Nat.le_total a b with hab | hab
  · exact key h1 hp1 h2 hp2 hne ha hb hab
  · exact key h2 hp2 h1 hp1 (Ne.symm hne) hb ha hab

/-- An ancestor chain is shorter than the heap. -/
theorem climb_bound {m : Mem} {rk : Nat → Nat} (hr : ranked (rd m) rk) {k x t : Nat} {td : tree}
    (ht : rd m t = some td) (hk : climb (rd m) k x = some t) : k < m.length := by
  -- the nodes on the chain
  have hnode : ∀ j, j ≤ k → ∃ y, climb (rd m) j x = some y ∧ y < m.length := by
    intro j hj
    obtain ⟨y, hy1, hy2⟩ := climb_cut hk j hj
    refine ⟨y, hy1, ?_⟩
    cases hd : k - j with
    | zero =>
      rw [hd] at hy2
      simp only [climb, Option.some.injEq] at hy2
      subst hy2
      exact rd_lt ht
    | succ d =>
      rw [hd] at hy2
      cases hyd : rd m y with
      | none => simp [climb, hyd] at hy2
      | some yd => exact rd_lt hyd
  have hinj : ∀ i, i ∈ List.range (k + 1) → ∀ j, j ∈ List.range (k + 1) →
      (climb (rd m) i x).getD 0 = (climb (rd m) j x).getD 0 → i = j := by
    have key : ∀ i j, i < j → j ≤ k →
        (climb (rd m) i x).getD 0 ≠ (climb (rd m) j x).getD 0 := by
      intro i j hij hjk e
      obtain ⟨yj, hyj, _⟩ := hnode j hjk
      obtain ⟨yi, hyi1, hyi2⟩ := climb_cut hyj i (by omega)
      rw [hyj, hyi1] at e
      simp only [Option.getD_some] at e
      subst e
      have := climb_rank hr (j - i) yi yi hyi2
      omega
    intro i hi j hj e
    rw [List.mem_range] at hi hj
    rcases Nat.lt_trichotomy i j with hlt | heq | hgt
    · exact absurd e (key i j hlt (by omega))
    · exact heq
    · exact absurd e.symm (key j i hgt (by omega))
  have hnodup : ((List.range (k + 1)).map (fun j => (climb (rd m) j x).getD 0)).Nodup :=
    List.Nodup.map_on hinj (List.nodup_range _)
  have hsub : ((List.range (k + 1)).map (fun j => (climb (rd m) j x).getD 0)).toFinset
      ⊆ Finset.range m.length := by
    intro y hy
    rw [List.mem_toFinset, List.mem_map] at hy
    obtain ⟨j, hj, rfl⟩ := hy
    rw [List.mem_range] at hj
    obtain ⟨y, hy1, hy2⟩ := hnode j (by omega)
    rw [hy1]
    simpa using hy2
  have hcard := Finset.card_le_card hsub
  rw [List.toFinset_card_of_nodup hnodup, List.length_map, List.length_range,
    Finset.card_range] at hcard
  omega

/-! ## free_tree -/

theorem free_children_ok {h0 : Nat → Option tree} {rk : Nat → Nat} (hr : ranked h0 rk)
    {fuel t : Nat}
    (ih : ∀ (m : Mem) (c : Nat), (∀ x k, climb h0 k x = some c → rd m x = h0 x) →
      (∃ cd, h0 c = some cd) → (∀ x k, climb h0 k x = some c → k < fuel) →
      ∃ m1, free_tree fuel m c = Result.ok m1 ∧ frees h0 c m m1) :
    ∀ (cs : List Nat) (m : Mem), (∀ c ∈ cs, ∃ cd, h0 c = some cd ∧ cd.parent = some t) →
      cs.Nodup → (∀ c ∈ cs, ∀ x k, climb h0 k x = some c → rd m x = h0 x) →
      (∀ c ∈ cs, ∀ x k, climb h0 k x = some c → k < fuel) →
      ∃ m1, cs.foldlM (fun m0 c => free_tree fuel m0 c) m = Result.ok m1 ∧
        m1.length = m.length ∧
        (∀ x, (∃ c ∈ cs, ∃ k, climb h0 k x = some c) → rd m1 x = none) ∧
        (∀ x, (¬ ∃ c ∈ cs, ∃ k, climb h0 k x = some c) → rd m1 x = rd m x) := by
  intro cs
  induction cs with
  | nil =>
    intro m _ _ _ _
    refine ⟨m, rfl, rfl, ?_, ?_⟩
    · rintro x ⟨c, hc, _⟩
      simp at hc
    · intro x _
      rfl
  | cons c cs ihl =>
    intro m hch hnd hint hfuel
    obtain ⟨cd, hcd, hcp⟩ := hch c (List.mem_cons_self _ _)
    obtain ⟨m1, hrun1, hlen1, hdead1, hkeep1⟩ := ih m c (hint c (List.mem_cons_self _ _))
      ⟨cd, hcd⟩ (hfuel c (List.mem_cons_self _ _))
    have hnd1 := List.nodup_cons.mp hnd
    obtain ⟨m2, hrun2, hlen2, hdead2, hkeep2⟩ := ihl m1
      (fun c1 hc1 => hch c1 (List.mem_cons_of_mem _ hc1)) hnd1.2
      (by
        intro c1 hc1 x k hk
        obtain ⟨cd1, hcd1, hcp1⟩ := hch c1 (List.mem_cons_of_mem _ hc1)
        have hne : c ≠ c1 := fun e => hnd1.1 (e ▸ hc1)
        rw [hkeep1 x (fun ⟨k0, hk0⟩ => climb_disjoint hr hcd hcp hcd1 hcp1 hne hk0 hk)]
        exact hint c1 (List.mem_cons_of_mem _ hc1) x k hk)
      (fun c1 hc1 => hfuel c1 (List.mem_cons_of_mem _ hc1))
    refine ⟨m2, ?_, hlen2.trans hlen1, ?_, ?_⟩
    · simp only [List.foldlM_cons, hrun1, bind_ok, hrun2]
    · rintro x ⟨c1, hc1, hk⟩
      rw [List.mem_cons] at hc1
      by_cases hin : ∃ c2 ∈ cs, ∃ k, climb h0 k x = some c2
      · exact hdead2 x hin
      · rw [hkeep2 x hin]
        rcases hc1 with rfl | hc1
        · exact hdead1 x hk
        · exact absurd ⟨c1, hc1, hk⟩ hin
    · intro x hx
      rw [hkeep2 x (fun ⟨c2, hc2, hk⟩ => hx ⟨c2, List.mem_cons_of_mem _ hc2, hk⟩),
        hkeep1 x (fun hk => hx ⟨c, List.mem_cons_self _ _, hk⟩)]

theorem free_tree_ok {h0 : Nat → Option tree} {root : Option Nat} {rk : Nat → Nat}
    (hw : wf_core h0 root) (hr : ranked h0 rk) (fuel : Nat) :
    ∀ (m : Mem) (t : Nat), (∀ x k, climb h0 k x = some t → rd m x = h0 x) →
      (∃ td, h0 t = some td) → (∀ x k, climb h0 k x = some t → k < fuel) →
      ∃ m1, free_tree fuel m t = Result.ok m1 ∧ frees h0 t m m1 := by
  induction fuel with
  | zero =>
    intro m t _ _ hfuel
    exact absurd (hfuel t 0 rfl) (by omega)
  | succ fuel ih =>
    intro m t hint ⟨td, htd⟩ hfuel
    have hmt : rd m t = some td := by rw [hint t 0 rfl]; exact htd
    have hchild : ∀ c ∈ td.child, ∃ cd, h0 c = some cd ∧ cd.parent = some t :=
      fun c hc => hw.child_parent t td c htd hc
    obtain ⟨m1, hrun1, hlen1, hdead1, hkeep1⟩ := free_children_ok hr ih td.child m hchild
      (hw.nodup t td htd)
      (by
        intro c hc x k hk
        obtain ⟨cd, hcd, hcp⟩ := hchild c hc
        exact hint x (k + 1) (climb_snoc hk hcd hcp))
      (by
        intro c hc x k hk
        obtain ⟨cd, hcd, hcp⟩ := hchild c hc
        have := hfuel x (k + 1) (climb_snoc hk hcd hcp)
        omega)
    have hself : ¬ ∃ c ∈ td.child, ∃ k, climb h0 k t = some c := by
      rintro ⟨c, hc, k, hk⟩
      obtain ⟨cd, hcd, hcp⟩ := hchild c hc
      have := climb_rank hr k t c hk
      have := hr c cd t hcd hcp
      omega
    have hm1t : rd m1 t = some td := by rw [hkeep1 t hself]; exact hmt
    refine ⟨wr m1 t none, ?_, ?_, ?_, ?_⟩
    · simp only [free_tree, deref_eq hmt, bind_ok, hrun1]
    · rw [wr_length]; exact hlen1
    · rintro x ⟨k, hk⟩
      rw [rd_wr _ _ _ (rd_lt hm1t)]
      by_cases hxt : x = t
      · rw [hxt, Function.update_same]
      · rw [Function.update_noteq hxt]
        cases k with
        | zero =>
          simp only [climb, Option.some.injEq] at hk
          exact absurd hk hxt
        | succ k =>
          obtain ⟨y, yd, hy, hyd, hyp⟩ := climb_last hk
          obtain ⟨td1, htd1, hmem⟩ := hw.parent_child y yd t hyd hyp
          rw [htd] at htd1
          simp only [Option.some.injEq] at htd1
          subst htd1
          exact hdead1 x ⟨y, hmem, k, hy⟩
    · intro x hx
      have hxt : x ≠ t := fun e => hx ⟨0, by rw [e]; rfl⟩
      rw [rd_wr _ _ _ (rd_lt hm1t), Function.update_noteq hxt]
      apply hkeep1
      rintro ⟨c, hc, k, hk⟩
      obtain ⟨cd, hcd, hcp⟩ := hchild c hc
      exact hx ⟨k + 1, climb_snoc hk hcd hcp⟩

/-- Releasing a parentless node other than the root, with all nodes below it,
leaves a well-formed heap. -/
theorem wf_core_free {h0 h2 : Nat → Option tree} {root : Option Nat} {rk : Nat → Nat}
    {n : Nat} {nd : tree} (hw : wf_core h0 root) (hr : ranked h0 rk)
    (hn : h0 n = some nd) (hnone : nd.parent = none) (hroot : root ≠ some n)
    (hdead : ∀ x, (∃ k, climb h0 k x = some n) → h2 x = none)
    (hkeep : ∀ x, (¬ ∃ k, climb h0 k x = some n) → h2 x = h0 x) :
    wf_core h2 root ∧ ranked h2 rk := by
  have hlive : ∀ x xd, h2 x = some xd → (¬ ∃ k, climb h0 k x = some n) ∧ h0 x = some xd := by
    intro x xd hx
    by_cases hD : ∃ k, climb h0 k x = some n
    · rw [hdead x hD] at hx; simp at hx
    · exact ⟨hD, by rw [← hkeep x hD]; exact hx⟩
  refine ⟨⟨?_, ?_, ?_, ?_, ?_⟩, ?_⟩
  · intro p pd c hp hc
    obtain ⟨hDp, hp0⟩ := hlive p pd hp
    obtain ⟨cd, hcd, hcp⟩ := hw.child_parent p pd c hp0 hc
    refine ⟨cd, ?_, hcp⟩
    rw [hkeep c]
    · exact hcd
    · rintro ⟨k, hk⟩
      cases k with
      | zero =>
        simp only [climb, Option.some.injEq] at hk
        subst hk
        rw [hn] at hcd
        simp only [Option.some.injEq] at hcd
        subst hcd
        rw [hnone] at hcp
        simp at hcp
      | succ k =>
        rw [climb_succ k hcd hcp] at hk
        exact hDp ⟨k, hk⟩
  · intro x xd q hx hq
    obtain ⟨hDx, hx0⟩ := hlive x xd hx
    obtain ⟨qd, hqd, hmem⟩ := hw.parent_child x xd q hx0 hq
    refine ⟨qd, ?_, hmem⟩
    rw [hkeep q]
    · exact hqd
    · rintro ⟨k, hk⟩
      exact hDx ⟨k + 1, by rw [climb_succ k hx0 hq]; exact hk⟩
  · intro p pd hp
    exact hw.nodup p pd (hlive p pd hp).2
  · intro p pd hp
    exact hw.capacity p pd (hlive p pd hp).2
  · obtain ⟨r, rd0, hroot0, hr0, hrp⟩ := hw.root_ok
    refine ⟨r, rd0, hroot0, ?_, hrp⟩
    rw [hkeep r]
    · exact hr0
    · rintro ⟨k, hk⟩
      cases k with
      | zero =>
        simp only [climb, Option.some.injEq] at hk
        subst hk
        exact hroot hroot0
      | succ k =>
        rw [climb_succ_none k hr0 hrp] at hk
        simp at hk
  · intro x xd q hx hq
    exact hr x xd q (hlive x xd hx).2 hq

theorem say_ok (str : List Char) (w : World) (h : str.length < MAX_SAY_CHARS) :
    say str w = Result.ok { w with
      saymsg := str
      sayblink := if str.length > 0 then 2 * SAY_BLINKS else w.sayblink } := by
  simp [say, h]

/-! ## The redraws made by a prompt -/

theorem leaves_marked_trans {h : Nat → Option tree} {m1 m2 : Mem} (h1 : leaves_marked h m1)
    (h2 : leaves_marked (rd m1) m2) : leaves_marked h m2 := by
  intro x
  rcases h2 x with e2 | ⟨xd1, hx1, hc1, e2⟩
  · rw [e2]
    exact h1 x
  · rcases h1 x with e1 | ⟨xd, hx, hc, e1⟩
    · exact Or.inr ⟨xd1, by rw [← e1]; exact hx1, hc1, e2⟩
    · rw [e1] at hx1
      cases hx1
      exact Or.inr ⟨xd, hx, hc, e2⟩

/-- Marking one node: the heap is as before but for the state of a childless node. -/
theorem leaves_marked_wr (m : Mem) (a : Nat) (t : tree) (ha : rd m a = some t) :
    leaves_marked (rd m) (wr m a (some (mark_leaf t))) := by
  intro x
  rw [rd_wr m a _ (rd_lt ha)]
  by_cases hx : x = a
  · subst hx
    rw [Function.update_same]
    unfold mark_leaf
    split_ifs with hc
    · exact Or.inr ⟨t, ha, List.length_eq_zero.mp hc, rfl⟩
    · exact Or.inl ha.symm
  · rw [Function.update_noteq hx]
    exact Or.inl rfl

/-- The redraws of a prompt change nothing but the state of childless nodes, and
keep the size of the heap. -/
theorem redraw_marks_marked : ∀ (seen : List Nat) (m : Mem),
    leaves_marked (rd m) (redraw_marks seen m) ∧ (redraw_marks seen m).length = m.length := by
  intro seen
  induction seen with
  | nil =>
    intro m
    exact ⟨fun x => Or.inl rfl, rfl⟩
  | cons a rest ih =>
    intro m
    cases ha : rd m a with
    | none =>
      have e : redraw_marks (a :: rest) m = redraw_marks rest m := by
        simp only [redraw_marks, List.foldl_cons, ha]
      rw [e]
      exact ih m
    | some t =>
      have e : redraw_marks (a :: rest) m = redraw_marks rest (wr m a (some (mark_leaf t))) := by
        simp only [redraw_marks, List.foldl_cons, ha]
      rw [e]
      obtain ⟨h1, h2⟩ := ih (wr m a (some (mark_leaf t)))
      exact ⟨leaves_marked_trans (leaves_marked_wr m a t ha) h1, by rw [h2, wr_length]⟩

/-- A heap that differs from `h` in the state of childless nodes only holds the
same nodes with the same parents, children, texts and allocations. -/
theorem leaves_marked_cell {h : Nat → Option tree} {m1 : Mem} (hm : leaves_marked h m1)
    (x : Nat) :
    (h x = none ∧ rd m1 x = none) ∨
      ∃ xd xd1, h x = some xd ∧ rd m1 x = some xd1 ∧ xd1.child = xd.child ∧
        xd1.parent = xd.parent ∧ xd1.nalloc = xd.nalloc ∧ xd1.text = xd.text := by
  rcases hm x with e | ⟨xd, hx, _, e⟩
  · cases hx : h x with
    | none => exact Or.inl ⟨rfl, by rw [e, hx]⟩
    | some xd => exact Or.inr ⟨xd, xd, rfl, by rw [e, hx], rfl, rfl, rfl, rfl⟩
  · exact Or.inr ⟨xd, _, hx, e, rfl, rfl, rfl, rfl⟩

theorem leaves_marked_some {h : Nat → Option tree} {m1 : Mem} (hm : leaves_marked h m1)
    {x : Nat} {xd : tree} (hx : h x = some xd) :
    ∃ xd1, rd m1 x = some xd1 ∧ xd1.child = xd.child ∧ xd1.parent = xd.parent ∧
      xd1.nalloc = xd.nalloc ∧ xd1.text = xd.text := by
  rcases leaves_marked_cell hm x with ⟨e, _⟩ | ⟨yd, xd1, hy, h1, hc, hp, ha, ht⟩
  · rw [hx] at e
    cases e
  · rw [hx] at hy
    cases hy
    exact ⟨xd1, h1, hc, hp, ha, ht⟩

theorem leaves_marked_back {h : Nat → Option tree} {m1 : Mem} (hm : leaves_marked h m1)
    {x : Nat} {xd1 : tree} (hx : rd m1 x = some xd1) :
    ∃ xd, h x = some xd ∧ xd1.child = xd.child ∧ xd1.parent = xd.parent ∧
      xd1.nalloc = xd.nalloc ∧ xd1.text = xd.text := by
  rcases leaves_marked_cell hm x with ⟨_, e⟩ | ⟨xd, yd, hy, h1, hc, hp, ha, ht⟩
  · rw [hx] at e
    cases e
  · rw [hx] at h1
    cases h1
    exact ⟨xd, hy, hc, hp, ha, ht⟩

/-- Well-formedness does not depend on the fold states. -/
theorem wf_marked {h : Nat → Option tree} {root : Option Nat} {m1 : Mem} (hwf : wf h root)
    (hm : leaves_marked h m1) : wf (rd m1) root := by
  obtain ⟨hcore, rk, hrk⟩ := hwf
  refine ⟨⟨?_, ?_, ?_, ?_, ?_⟩, rk, ?_⟩
  · intro p pd1 c hp hc
    obtain ⟨pd, hp0, hch, _⟩ := leaves_marked_back hm hp
    rw [hch] at hc
    obtain ⟨cd, hcd, hcp⟩ := hcore.child_parent p pd c hp0 hc
    obtain ⟨cd1, hcd1, _, hpar, _⟩ := leaves_marked_some hm hcd
    exact ⟨cd1, hcd1, by rw [hpar, hcp]⟩
  · intro n nd1 p hn hp
    obtain ⟨nd, hn0, _, hpar, _⟩ := leaves_marked_back hm hn
    rw [hpar] at hp
    obtain ⟨pd, hpd, hmem⟩ := hcore.parent_child n nd p hn0 hp
    obtain ⟨pd1, hpd1, hch, _⟩ := leaves_marked_some hm hpd
    exact ⟨pd1, hpd1, by rw [hch]; exact hmem⟩
  · intro p pd1 hp
    obtain ⟨pd, hp0, hch, _⟩ := leaves_marked_back hm hp
    rw [hch]
    exact hcore.nodup p pd hp0
  · intro p pd1 hp
    obtain ⟨pd, hp0, hch, _, hna, _⟩ := leaves_marked_back hm hp
    rw [hch, hna]
    exact hcore.capacity p pd hp0
  · obtain ⟨r, rd0, hroot, hr0, hrp⟩ := hcore.root_ok
    obtain ⟨rd1, hr1, _, hpar, _⟩ := leaves_marked_some hm hr0
    exact ⟨r, rd1, hroot, hr1, by rw [hpar, hrp]⟩
  · intro n nd1 p hn hp
    obtain ⟨nd, hn0, _, hpar, _⟩ := leaves_marked_back hm hn
    rw [hpar] at hp
    exact hrk n nd p hn0 hp

theorem redraw_marks_nil (m : Mem) : redraw_marks [] m = m := rfl

theorem confirm_yes (ans : List Char) (seen : List Nat) (w : World)
    (h : ans.head? = some 'y') :
    confirm ans seen w = Result.ok (true, { w with mem := redraw_marks seen w.mem }) := by
  cases ans with
  | nil => simp at h
  | cons c cs =>
    simp only [List.head?_cons, Option.some.injEq] at h
    simp [confirm, h]

/-- A `delete()` whose prompt redraws the screen is the `delete()` without redraw
on the heap the redraws leave. -/
theorem delete_marks (ans : List Char) (seen : List Nat) (w : World) :
    delete ans seen w = delete ans [] { w with mem := redraw_marks seen w.mem } := rfl

theorem say_frame (str : List Char) (w : World) (h : str.length < MAX_SAY_CHARS) :
    ∃ w1, say str w = Result.ok w1 ∧ w1.mem = w.mem ∧ w1.root = w.root :=
  ⟨_, say_ok str w h, rfl, rfl⟩

theorem delete_wf_plain (ans : List Char) (w : World) (hwf : well_formed w)
    (hs : selectable w.selected_entry w) (hans : ans.head? = some 'y') :
    ∃ w1, delete ans [] w = Result.ok w1 ∧ well_formed w1 := by
  obtain ⟨r, rd0, hroot, hr0, hrp⟩ := hwf.1.root_ok
  -- the cases in which del_child returns NULL
  have hnull : del_child w.mem w.selected_entry = Result.ok (w.mem, none) →
      ∃ w1, delete ans [] w = Result.ok w1 ∧ well_formed w1 := by
    intro hdel
    obtain ⟨w1, hsay, hmem, hrt⟩ := say_frame "No entry found.".toList { w with mem := w.mem }
      (by decide)
    refine ⟨w1, ?_, ?_⟩
    · unfold delete
      simp only [confirm_yes ans [] w hans, redraw_marks_nil, bind_ok, if_true, hdel, ne_eq, not_true_eq_false,
        false_and, if_false, hroot, reduceCtorEq]
      rw [← hroot]
      exact hsay
    · unfold well_formed
      rw [hmem, hrt]
      exact hwf
  cases hsel : w.selected_entry with
  | none =>
    apply hnull
    rw [hsel]
    rfl
  | some n =>
    rw [hsel] at hs
    obtain ⟨nd, hn⟩ := selectable_some hs
    cases hnp : nd.parent with
    | none =>
      apply hnull
      rw [hsel]
      simp only [del_child, deref_eq hn, bind_ok, hnp]
    | some p =>
      obtain ⟨hcore, rk, hrk⟩ := hwf
      obtain ⟨pd, hp, hnmem⟩ := parent_cell hcore hn hnp
      have hpn : p ≠ n := ranked_ne hrk hn hnp
      obtain ⟨m1, hdel, hrd1, hlen1⟩ := del_child_ok hn hnp hp hnmem hpn
      have hcore1 : wf_core (rd m1) w.root := by
        rw [hrd1]; exact wf_core_detach hcore hrk hn hnp hp
      have hrk1 : ranked (rd m1) rk := by
        rw [hrd1]; exact ranked_detach hrk hp _
      have hn1 : rd m1 n = some { nd with parent := none } := by
        rw [hrd1, Function.update_same]
      have hrootn : w.root ≠ some n := root_ne_of_parent hcore hn hnp
      obtain ⟨m2, hfree, _, hdead, hkeep⟩ := free_tree_ok hcore1 hrk1 m1.length m1 n
        (fun _ _ _ => rfl) ⟨_, hn1⟩ (fun x k hk => climb_bound hrk1 hn1 hk)
      obtain ⟨hcore2, hrk2⟩ := wf_core_free hcore1 hrk1 hn1 rfl hrootn hdead hkeep
      obtain ⟨w2, hsay, hmem, hrt⟩ := say_frame "Entry deleted.".toList { w with mem := m2 }
        (by decide)
      refine ⟨{ w2 with modified := true }, ?_, ?_⟩
      · unfold delete
        simp only [confirm_yes ans [] w hans, redraw_marks_nil, bind_ok, if_true, hsel, hdel, ne_eq, reduceCtorEq,
          not_false_eq_true, true_and, Ne.symm hrootn]
        simp only [hsel] at hsay
        simp only [hfree, bind_ok, hsay]
      · show wf (rd w2.mem) w2.root
        rw [hmem, hrt]
        exact ⟨hcore2, rk, hrk2⟩

theorem delete_wf (ans : List Char) (seen : List Nat) (w : World) (hwf : well_formed w)
    (hs : selectable w.selected_entry w) (hans : ans.head? = some 'y') :
    ∃ w1, delete ans seen w = Result.ok w1 ∧ well_formed w1 := by
  have hm := (redraw_marks_marked seen w.mem).1
  rw [delete_marks]
  refine delete_wf_plain ans { w with mem := redraw_marks seen w.mem } (wf_marked hwf hm) ?_ hans
  cases hsel : w.selected_entry with
  | none => exact trivial
  | some n =>
    rw [hsel] at hs
    obtain ⟨nd, hn⟩ := selectable_some hs
    obtain ⟨nd1, hn1, _⟩ := leaves_marked_some hm hn
    show (rd (redraw_marks seen w.mem) n).isSome = true
    rw [hn1]
    rfl

/-! ## C8: well-formedness is an invariant -/

theorem exec_wf (c : command) (w : World) (hwf : well_formed w)
    (hs : selectable w.selected_entry w) (hc : confirmed c) :
    ∃ w1, exec c w = Result.ok w1 ∧ well_formed w1 := by
  cases c with
  | promote => exact promote_wf w hwf hs
  | demote => exact demote_wf w hwf hs
  | shove_up => exact shove_up_wf w hwf hs
  | shove_down => exact shove_down_wf w hwf hs
  | delete ans seen => exact delete_wf ans seen w hwf hs hc

theorem run_wf (steps : List (Option Nat × command)) :
    ∀ w : World, well_formed w → admissible steps w →
      ∃ w1, run steps w = Result.ok w1 ∧ well_formed w1 := by
  induction steps with
  | nil =>
    intro w hwf _
    exact ⟨w, rfl, hwf⟩
  | cons step rest ih =>
    intro w hwf hadm
    obtain ⟨sel, c⟩ := step
    obtain ⟨hsel, hconf, hrest⟩ := hadm
    obtain ⟨w1, hexec, hwf1⟩ := exec_wf c { w with selected_entry := sel } hwf hsel hconf
    rw [hexec] at hrest
    obtain ⟨w2, hrun, hwf2⟩ := ih w1 hwf1 hrest
    exact ⟨w2, by simp only [run, hexec, bind_ok, hrun], hwf2⟩

/-- C8. Start from a well-formed tree: a node listed among the children of `p`
has `p` as its parent, a node with parent `p` is listed among the children of
`p`, no children list holds a node twice, the root has no parent, no node is
its own ancestor, and every child array fits its allocation. Run any sequence of `promote`, `demote`, `shove_up`,
`shove_down` and confirmed `delete`, each on any selected node of the tree as
it then is (or with nothing selected). Every command returns, and in the
final heap a node occurs in the children of `p` exactly if its parent field is
`p`, no children list holds a node twice, and the tree is again well-formed. -/
theorem well_formed_preserved (steps : List (Option Nat × command)) (w : World)
    (hwf : well_formed w) (hadm : admissible steps w) :
    ∃ w1, run steps w = Result.ok w1 ∧ well_formed w1 ∧
      (∀ n nd p pd, rd w1.mem n = some nd → rd w1.mem p = some pd →
        (n ∈ pd.child ↔ nd.parent = some p)) ∧
      (∀ p pd, rd w1.mem p = some pd → pd.child.Nodup) := by
  obtain ⟨w1, hrun, hwf1⟩ := run_wf steps w hwf hadm
  refine ⟨w1, hrun, hwf1, ?_, hwf1.1.nodup⟩
  intro n nd p pd hn hp
  constructor
  · intro hmem
    obtain ⟨cd, hcd, hcp⟩ := hwf1.1.child_parent p pd n hp hmem
    rw [hn] at hcd
    simp only [Option.some.injEq] at hcd
    rw [hcd]
    exact hcp
  · intro hpar
    obtain ⟨pd1, hpd1, hmem⟩ := hwf1.1.parent_child n nd p hn hpar
    rw [hp] at hpd1
    simp only [Option.some.injEq] at hpd1
    rw [hpd1]
    exact hmem

/-- Witness of C8: on the example heap, demote "A", promote "C", move "C" down,
delete "A" (confirmed, the prompt drawing "Entries", "B", "A", "C") and move "B"
down. -/
theorem well_formed_preserved_witness :
    ∃ w1, run [(some 1, command.demote), (some 3, command.promote),
        (some 3, command.shove_down), (some 1, command.delete "y".toList [0, 2, 1, 3]),
        (some 2, command.shove_down)] example_world = Result.ok w1 ∧ well_formed w1 ∧
      (∀ n nd p pd, rd w1.mem n = some nd → rd w1.mem p = some pd →
        (n ∈ pd.child ↔ nd.parent = some p)) ∧
      (∀ p pd, rd w1.mem p = some pd → pd.child.Nodup) :=
  well_formed_preserved _ example_world example_world_wf
    ⟨rfl, trivial, rfl, trivial, rfl, trivial, rfl, rfl, rfl, trivial, trivial⟩

/-! ## C10: where `demote` puts the entry -/

/-- C10 (evaluation of the code). In the example heap "A" (address 1) is
selected and its parent, the root, has two children. `demote()` hangs "A" below
its next sibling "B" (address 2), which already has the child "C" (address 3):
afterwards the children of "B" are "C", "A", so "A" stands at index 1, not at
index 0. The loop that should move the entry to the top runs `nchild - 1` times
for the `nchild` of the entry itself ("A" has no children: no round). -/
theorem demote_not_first :
    demote example_world = Result.ok
      { mem := [some ⟨2, none, [2], fold_state.EXPANDED, "Entries".toList⟩,
                some ⟨0, some 2, [], fold_state.EMPTY, "A".toList⟩,
                some ⟨2, some 0, [3, 1], fold_state.EXPANDED, "B".toList⟩,
                some ⟨0, some 2, [], fold_state.EMPTY, "C".toList⟩],
        root := some 0, selected_entry := some 1, modified := true, saymsg := [],
        sayblink := 0 } ∧
    ([3, 1] : List Nat).indexOf 1 = 1 := by
  constructor
  · rfl
  · decide

end Store

/-! # Part 2, continued: demote, the deletion guard -/

namespace Store

/-- As `add_leaf_ok`, with the fold state of the parent. -/
theorem add_leaf_expanded {m : Mem} {c p : Nat} {cd pd : tree} (hc : rd m c = some cd)
    (hcp : cd.parent = none) (hp : rd m p = some pd) (hne : p ≠ c)
    (hcap : pd.child.length ≤ pd.nalloc) :
    ∃ m2 pd1, add_leaf m (some p) c = Result.ok m2 ∧
      rd m2 = Function.update (Function.update (rd m) p (some pd1)) c
        (some { cd with parent := some p }) ∧
      pd1.parent = pd.parent ∧ pd1.child = pd.child ++ [c] ∧
      pd1.child.length ≤ pd1.nalloc ∧ pd1.text = pd.text ∧
      pd1.state = fold_state.EXPANDED ∧ m2.length = m.length := by
  have e0 : wr m c (some { cd with parent := none }) = wr m c (some cd) := by
    rw [tree_parent_none_eq cd hcp]
  have hm1 : rd (wr m c (some cd)) = rd m := by
    rw [rd_wr _ _ _ (rd_lt hc), ← hc, Function.update_eq_self]
  have hlen1 : (wr m c (some cd)).length = m.length := wr_length _ _ _
  have hp1 : rd (wr m c (some cd)) p = some pd := by rw [hm1]; exact hp
  obtain ⟨pd1, hpd1, hpar, hch, hcap1, htext, hstate⟩ : ∃ pd1 : tree,
      pd1 = (if pd.nalloc = 0 then
          { pd with child := [c], nalloc := 1, state := fold_state.EXPANDED }
        else if pd.child.length < pd.nalloc then
          { pd with child := pd.child ++ [c], state := fold_state.EXPANDED }
        else
          { pd with nalloc := pd.nalloc * 2, child := pd.child ++ [c],
                    state := fold_state.EXPANDED }) ∧
      pd1.parent = pd.parent ∧ pd1.child = pd.child ++ [c] ∧
      pd1.child.length ≤ pd1.nalloc ∧ pd1.text = pd.text ∧
      pd1.state = fold_state.EXPANDED := by
    refine ⟨_, rfl, ?_, ?_, ?_, ?_, ?_⟩
    · split
      · rfl
      · split <;> rfl
    · split
      · rename_i h0
        have : pd.child = [] := by
          apply List.eq_nil_of_length_eq_zero
          omega
        simp [this]
      · split <;> rfl
    · split
      · simp
      · split
        · simp only [List.length_append, List.length_singleton]
          omega
        · simp only [List.length_append, List.length_singleton]
          omega
    · split
      · rfl
      · split <;> rfl
    · split
      · rfl
      · split <;> rfl
  have h2 : rd (wr (wr m c (some cd)) p (some pd1)) c = some cd := by
    rw [rd_wr _ _ _ (by rw [hlen1]; exact rd_lt hp), hm1, Function.update_noteq (Ne.symm hne)]
    exact hc
  refine ⟨wr (wr (wr m c (some cd)) p (some pd1)) c (some { cd with parent := some p }), pd1,
    ?_, ?_, hpar, hch, hcap1, htext, hstate, ?_⟩
  · simp only [add_leaf, deref_eq hc, bind_ok, e0, deref_eq hp1]
    rw [← hpd1]
    simp only [deref_eq h2, bind_ok]
  · rw [rd_wr _ _ _ (by rw [wr_length, hlen1]; exact rd_lt hc),
      rd_wr _ _ _ (by rw [hlen1]; exact rd_lt hp), hm1]
  · rw [wr_length, wr_length, wr_length]

/-- `shove_up` keeps the order of the other entries. -/
theorem shove_up_list_filter (l : List Nat) (n : Nat) :
    (shove_up_list l n).filter (fun x => x ≠ n) = l.filter (fun x => x ≠ n) := by
  rcases first_occurrence l n with h | ⟨B, h⟩ | ⟨A, x, B, h, hA, hx⟩
  · rw [shove_up_list_absent l n h]
  · rw [h, shove_up_list_front]
  · rw [h, shove_up_list_mid A B x n hA hx]
    simp [List.filter_cons, hx]

theorem shove_up_list_iterate_filter (n k : Nat) (l : List Nat) :
    ((fun l => shove_up_list l n)^[k] l).filter (fun x => x ≠ n)
      = l.filter (fun x => x ≠ n) := by
  induction k generalizing l with
  | zero => simp
  | succ k ih =>
    rw [Function.iterate_succ, Function.comp_apply, ih, shove_up_list_filter]

theorem filter_ne_of_not_mem (l : List Nat) (n : Nat) (h : n ∉ l) :
    l.filter (fun x => x ≠ n) = l := by
  rw [List.filter_eq_self]
  intro x hx
  simp only [ne_eq, decide_not, Bool.not_eq_eq_eq_not, Bool.not_true, decide_eq_false_iff_not]
  intro e
  exact h (e ▸ hx)

/-- What `demote()` does to a node whose parent has at least two children;
`sb` is the sibling chosen by the first loop of `demote`. -/
theorem demote_ok {w : World} {n p sb : Nat} {nd pd : tree}
    (hwf : well_formed w) (hsel : w.selected_entry = some n) (hn : rd w.mem n = some nd)
    (hnp : nd.parent = some p) (hp : rd w.mem p = some pd) (hlen : ¬ pd.child.length < 2)
    (htarget : (if pd.child.indexOf n < pd.child.length - 1
        then pd.child.get? (pd.child.indexOf n + 1)
        else pd.child.get? (pd.child.length - 2)) = some sb) :
    ∃ w1 sbd sbd1, demote w = Result.ok w1 ∧ well_formed w1 ∧ same_frame w w1 ∧
      rd w.mem sb = some sbd ∧ sb ∈ pd.child ∧ sb ≠ n ∧ sb ≠ p ∧
      rd w1.mem n = some { nd with parent := some sb } ∧
      rd w1.mem p = some { pd with child := pd.child.erase n } ∧
      rd w1.mem sb = some sbd1 ∧
      sbd1.child = (fun l => shove_up_list l n)^[nd.child.length - 1] (sbd.child ++ [n]) ∧
      sbd1.parent = sbd.parent ∧ sbd1.text = sbd.text ∧
      sbd1.state = fold_state.EXPANDED ∧
      ∀ x, x ≠ n → x ≠ p → x ≠ sb → rd w1.mem x = rd w.mem x := by
  obtain ⟨hcore, rk, hrk⟩ := hwf
  obtain ⟨pd0, hpd0, hnmem⟩ := parent_cell hcore hn hnp
  rw [hp] at hpd0
  simp only [Option.some.injEq] at hpd0
  subst hpd0
  obtain ⟨sb0, htarget0, hsbmem, hsbn⟩ :=
    demote_target pd.child n (hcore.nodup p pd hp) hnmem hlen
  rw [htarget] at htarget0
  simp only [Option.some.injEq] at htarget0
  subst htarget0
  obtain ⟨sbd, hsb, hsbp⟩ := hcore.child_parent p pd sb hp hsbmem
  have hpn : p ≠ n := ranked_ne hrk hn hnp
  have hpsb : p ≠ sb := ranked_ne hrk hsb hsbp
  have hlt := hrk n nd p hn hnp
  obtain ⟨m1, hdel, hrd1, hlen1⟩ := del_child_ok hn hnp hp hnmem hpn
  have hcore1 : wf_core (rd m1) w.root := by
    rw [hrd1]; exact wf_core_detach hcore hrk hn hnp hp
  have hrk1 : ranked (rd m1) rk := by
    rw [hrd1]; exact ranked_detach hrk hp _
  have hn1 : rd m1 n = some { nd with parent := none } := by
    rw [hrd1, Function.update_same]
  have hsb1 : rd m1 sb = some sbd := by
    rw [hrd1, Function.update_noteq hsbn, Function.update_noteq (Ne.symm hpsb)]; exact hsb
  have hclimb : ∀ k, climb (rd m1) k sb ≠ some n := by
    intro k hk
    cases k with
    | zero =>
      simp only [climb, Option.some.injEq] at hk
      exact hsbn hk
    | succ k =>
      rw [climb_succ k hsb1 hsbp] at hk
      have := climb_rank hrk1 k p n hk
      omega
  obtain ⟨rk1, hrk1a, hrk1lt⟩ := rerank hrk1 hn1 rfl hclimb
  obtain ⟨m2, sbd1, hadd, hrd2, hpar1, hch1, hcap1, htext1, hstate1, hlen2⟩ :=
    add_leaf_expanded (m := m1) (c := n) (p := sb) hn1 rfl hsb1 hsbn
      (hcore.capacity sb sbd hsb)
  have hroot : w.root ≠ some n := root_ne_of_parent hcore hn hnp
  have hcore2 : wf_core (rd m2) w.root := by
    rw [hrd2]; exact wf_core_attach hcore1 hn1 rfl hsb1 hsbn hroot hpar1 hch1 hcap1
  have hrk2 : ranked (rd m2) rk1 := by
    rw [hrd2]; exact ranked_attach hrk1a hsb1 hrk1lt hpar1
  have hn2 : rd m2 n = some { nd with parent := some sb } := by
    rw [hrd2, Function.update_same]
  have hsb2 : rd m2 sb = some sbd1 := by
    rw [hrd2, Function.update_noteq hsbn, Function.update_same]
  obtain ⟨w3, hrun, hrd3, hf3⟩ := shove_up_times_ok (nd.child.length - 1)
    (w := { w with mem := m2 }) (n := n) (g := sb) hsel hn2 rfl hsb2 (Ne.symm hsbn)
  have hperm : ((fun l => shove_up_list l n)^[nd.child.length - 1] sbd1.child).Perm
      sbd1.child := shove_up_list_iterate_perm n _ _
  refine ⟨{ w3 with modified := true }, sbd,
    { sbd1 with child := (fun l => shove_up_list l n)^[nd.child.length - 1] sbd1.child },
    ?_, ⟨?_, rk1, ?_⟩, ?_, hsb, hsbmem, hsbn, Ne.symm hpsb, ?_, ?_, ?_, ?_, hpar1, htext1,
    hstate1, ?_⟩
  · unfold demote
    simp only [hsel] at hrun
    simp only [hsel, deref_eq hn, bind_ok, hnp, deref_eq hp, if_neg hlen, htarget, hdel,
      hadd, deref_eq hn2, hrun]
  · show wf_core (rd w3.mem) w3.root
    rw [hf3.1, hrd3]
    exact wf_core_perm hcore2 hsb2 rfl hperm (by
      have := hperm.length_eq
      simp only at this ⊢
      omega)
  · show ranked (rd w3.mem) rk1
    rw [hrd3]; exact ranked_perm hrk2 hsb2 rfl
  · exact ⟨hf3.1, hf3.2.1, hf3.2.2.1.trans (hlen2.trans hlen1), hf3.2.2.2.1, hf3.2.2.2.2⟩
  · show rd w3.mem n = _
    rw [hrd3, Function.update_noteq (Ne.symm hsbn), hn2]
  · show rd w3.mem p = _
    rw [hrd3, Function.update_noteq hpsb, hrd2, Function.update_noteq hpn,
      Function.update_noteq hpsb, hrd1, Function.update_noteq hpn, Function.update_same]
  · show rd w3.mem sb = _
    rw [hrd3, Function.update_same]
  · show (fun l => shove_up_list l n)^[nd.child.length - 1] sbd1.child = _
    rw [hch1]
  · intro x hxn hxp hxsb
    show rd w3.mem x = _
    rw [hrd3, Function.update_noteq hxsb, hrd2, Function.update_noteq hxn,
      Function.update_noteq hxsb, hrd1, Function.update_noteq hxn, Function.update_noteq hxp]

end Store

namespace Store

theorem demote_target_next (l1 l2 : List Nat) (n x : Nat)
    (hnd : (l1 ++ n :: x :: l2).Nodup) :
    (if (l1 ++ n :: x :: l2).indexOf n < (l1 ++ n :: x :: l2).length - 1
      then (l1 ++ n :: x :: l2).get? ((l1 ++ n :: x :: l2).indexOf n + 1)
      else (l1 ++ n :: x :: l2).get? ((l1 ++ n :: x :: l2).length - 2)) = some x ∧
    (l1 ++ n :: x :: l2).erase n = l1 ++ x :: l2 := by
  have hn1 : n ∉ l1 := by
    intro h
    rw [List.nodup_append] at hnd
    exact hnd.2.2 h (List.mem_cons_self _ _)
  rw [indexOf_split l1 (x :: l2) n hn1]
  have hlt : l1.length < (l1 ++ n :: x :: l2).length - 1 := by
    simp only [List.length_append, List.length_cons]
    omega
  rw [if_pos hlt]
  constructor
  · rw [List.get?_eq_getElem?, List.getElem?_append_right (by omega)]
    simp
  · rw [List.erase_append_right _ hn1, List.erase_cons_head]

theorem demote_target_prev (l1 : List Nat) (n y : Nat) (hnd : (l1 ++ [y, n]).Nodup) :
    (if (l1 ++ [y, n]).indexOf n < (l1 ++ [y, n]).length - 1
      then (l1 ++ [y, n]).get? ((l1 ++ [y, n]).indexOf n + 1)
      else (l1 ++ [y, n]).get? ((l1 ++ [y, n]).length - 2)) = some y ∧
    (l1 ++ [y, n]).erase n = l1 ++ [y] := by
  have e : l1 ++ [y, n] = (l1 ++ [y]) ++ n :: [] := by simp
  have hn1 : n ∉ l1 ++ [y] := by
    intro h
    rw [e, List.nodup_append] at hnd
    exact hnd.2.2 h (List.mem_cons_self _ _)
  have hidx : (l1 ++ [y, n]).indexOf n = l1.length + 1 := by
    rw [e, indexOf_split (l1 ++ [y]) [] n hn1]
    simp
  rw [hidx]
  have hlt : ¬ l1.length + 1 < (l1 ++ [y, n]).length - 1 := by
    simp only [List.length_append, List.length_cons, List.length_nil]
    omega
  rw [if_neg hlt]
  constructor
  · have h2 : (l1 ++ [y, n]).length - 2 = l1.length := by
      simp only [List.length_append, List.length_cons, List.length_nil]
      omega
    rw [h2, List.get?_eq_getElem?, List.getElem?_append_right (le_refl _)]
    simp
  · rw [e, List.erase_append_right _ hn1, List.erase_cons_head, List.append_nil]

theorem mem_shove_up_list_iterate (n k : Nat) (l : List Nat) (h : n ∈ l) :
    n ∈ (fun l => shove_up_list l n)^[k] l :=
  (shove_up_list_iterate_perm n k l).mem_iff.mpr h

/-! ## C11: the target of demote -/

/-- C11. In a well-formed tree let `n` be the selected node and `p` its parent.
If `p` has fewer than two children, `demote()` returns the state unchanged. If
the children of `p` are `l1`, `n`, `x`, `l2` (`x` follows `n`), then after
`demote()` the parent of `n` is `x`, `n` is listed among the children of `x`,
and the children of `p` are `l1`, `x`, `l2`. If the children of `p` are `l1`,
`y`, `n` (`n` is the last child, `y` precedes it), then after `demote()` the
parent of `n` is `y`, `n` is listed among the children of `y`, and the children
of `p` are `l1`, `y`. -/
theorem demote_target_choice (w : World) (n p : Nat) (nd pd : tree) (hwf : well_formed w)
    (hsel : w.selected_entry = some n) (hn : rd w.mem n = some nd)
    (hnp : nd.parent = some p) (hp : rd w.mem p = some pd) :
    (pd.child.length < 2 → demote w = Result.ok w) ∧
    (∀ l1 x l2, pd.child = l1 ++ n :: x :: l2 →
      ∃ w1 nd1 pd1 xd1, demote w = Result.ok w1 ∧
        rd w1.mem n = some nd1 ∧ nd1.parent = some x ∧
        rd w1.mem x = some xd1 ∧ n ∈ xd1.child ∧
        rd w1.mem p = some pd1 ∧ pd1.child = l1 ++ x :: l2) ∧
    (∀ l1 y, pd.child = l1 ++ [y, n] →
      ∃ w1 nd1 pd1 yd1, demote w = Result.ok w1 ∧
        rd w1.mem n = some nd1 ∧ nd1.parent = some y ∧
        rd w1.mem y = some yd1 ∧ n ∈ yd1.child ∧
        rd w1.mem p = some pd1 ∧ pd1.child = l1 ++ [y]) := by
  refine ⟨?_, ?_, ?_⟩
  · intro hlen
    unfold demote
    simp only [hsel, deref_eq hn, bind_ok, hnp, deref_eq hp, if_pos hlen]
  · intro l1 x l2 hsplit
    have hnd := hwf.1.nodup p pd hp
    rw [hsplit] at hnd
    obtain ⟨ht, he⟩ := demote_target_next l1 l2 n x hnd
    have hlen : ¬ pd.child.length < 2 := by
      rw [hsplit]
      simp only [List.length_append, List.length_cons]
      omega
    rw [← hsplit] at ht he
    obtain ⟨w1, sbd, sbd1, hrun, _, _, _, _, _, _, hn1, hp1, hx1, hch, _⟩ :=
      demote_ok hwf hsel hn hnp hp hlen ht
    refine ⟨w1, _, _, sbd1, hrun, hn1, rfl, hx1, ?_, hp1, he⟩
    rw [hch]
    exact mem_shove_up_list_iterate n _ _ (by simp)
  · intro l1 y hsplit
    have hnd := hwf.1.nodup p pd hp
    rw [hsplit] at hnd
    obtain ⟨ht, he⟩ := demote_target_prev l1 n y hnd
    have hlen : ¬ pd.child.length < 2 := by
      rw [hsplit]
      simp only [List.length_append, List.length_cons]
      omega
    rw [← hsplit] at ht he
    obtain ⟨w1, sbd, sbd1, hrun, _, _, _, _, _, _, hn1, hp1, hx1, hch, _⟩ :=
      demote_ok hwf hsel hn hnp hp hlen ht
    refine ⟨w1, _, _, sbd1, hrun, hn1, rfl, hx1, ?_, hp1, he⟩
    rw [hch]
    exact mem_shove_up_list_iterate n _ _ (by simp)

/-- Witness of C11: in the example heap "A" (address 1) is selected; its parent,
the root, lists "A", "B". After `demote()` the parent of "A" is "B" (address 2)
and the root lists "B" alone. -/
theorem demote_target_choice_witness :
    ∃ w1 nd1 pd1 xd1, demote example_world = Result.ok w1 ∧
      rd w1.mem 1 = some nd1 ∧ nd1.parent = some 2 ∧
      rd w1.mem 2 = some xd1 ∧ 1 ∈ xd1.child ∧
      rd w1.mem 0 = some pd1 ∧ pd1.child = [] ++ 2 :: [] :=
  (demote_target_choice example_world 1 0 ⟨0, some 0, [], fold_state.EMPTY, "A".toList⟩
    ⟨2, none, [1, 2], fold_state.EXPANDED, "Entries".toList⟩ example_world_wf rfl rfl rfl
    rfl).2.1 [] 2 [] rfl

/-! ## C13: deleting the root -/

/-- C13. In a well-formed tree with the root selected, `delete()` answered with
`y` returns, whatever the redraws of its prompt visit. No node is removed: an
address holds a node afterwards exactly if it held one before. Every node has the
children list, the parent, the text and the allocation it had; `root`, the
selection and the `modified` flag are unchanged; the message is
"No entry found." (not "Entry deleted."). The heap is the one the redraws of the
prompt leave: it differs from the heap before in the fold state of childless
nodes only. -/
theorem delete_root_rejected (ans : List Char) (seen : List Nat) (w : World)
    (hwf : well_formed w) (hsel : w.selected_entry = w.root) (hans : ans.head? = some 'y') :
    ∃ w1, delete ans seen w = Result.ok w1 ∧
      w1.mem = redraw_marks seen w.mem ∧
      (∀ a, (rd w1.mem a).isSome = (rd w.mem a).isSome) ∧
      (∀ a nd, rd w.mem a = some nd → ∃ nd1, rd w1.mem a = some nd1 ∧
        nd1.child = nd.child ∧ nd1.parent = nd.parent ∧ nd1.text = nd.text ∧
        nd1.nalloc = nd.nalloc) ∧
      w1.root = w.root ∧ w1.selected_entry = w.selected_entry ∧
      w1.modified = w.modified ∧ w1.saymsg = "No entry found.".toList ∧
      w1.saymsg ≠ "Entry deleted.".toList := by
  have hm := (redraw_marks_marked seen w.mem).1
  have hwf0 : wf (rd (redraw_marks seen w.mem)) w.root := wf_marked hwf hm
  obtain ⟨r, rd0, hroot, hr0, hrp⟩ := hwf0.1.root_ok
  have hdel : del_child (redraw_marks seen w.mem) w.selected_entry
      = Result.ok (redraw_marks seen w.mem, none) := by
    rw [hsel, hroot]
    simp only [del_child, deref_eq hr0, bind_ok, hrp]
  refine ⟨{ w with mem := redraw_marks seen w.mem, saymsg := "No entry found.".toList,
                   sayblink := 2 * SAY_BLINKS },
    ?_, rfl, ?_, ?_, rfl, rfl, rfl, rfl, ?_⟩
  · unfold delete
    simp only [confirm_yes ans seen w hans, bind_ok, if_true, hdel, ne_eq, not_true_eq_false,
      false_and, if_false, hroot, reduceCtorEq]
    rw [← hroot]
    exact say_ok "No entry found.".toList { w with mem := redraw_marks seen w.mem } (by decide)
  · intro a
    show (rd (redraw_marks seen w.mem) a).isSome = (rd w.mem a).isSome
    rcases leaves_marked_cell hm a with ⟨e0, e1⟩ | ⟨xd, xd1, e0, e1, _⟩
    · rw [e0, e1]
    · rw [e0, e1]
      rfl
  · intro a nd ha
    obtain ⟨nd1, h1, hc, hp, hna, ht⟩ := leaves_marked_some hm ha
    exact ⟨nd1, h1, hc, hp, ht, hna⟩
  · show "No entry found.".toList ≠ "Entry deleted.".toList
    decide

/-- Witness of C13: the example heap with the root (address 0) selected; the
prompt draws the four entries. -/
theorem delete_root_rejected_witness :
    ∃ w1, delete "y".toList [0, 1, 2, 3] { example_world with selected_entry := some 0 }
        = Result.ok w1 ∧
      w1.mem = redraw_marks [0, 1, 2, 3] example_world.mem ∧
      (∀ a, (rd w1.mem a).isSome = (rd example_world.mem a).isSome) ∧
      (∀ a nd, rd example_world.mem a = some nd → ∃ nd1, rd w1.mem a = some nd1 ∧
        nd1.child = nd.child ∧ nd1.parent = nd.parent ∧ nd1.text = nd.text ∧
        nd1.nalloc = nd.nalloc) ∧
      w1.root = example_world.root ∧ w1.selected_entry = some 0 ∧
      w1.modified = example_world.modified ∧ w1.saymsg = "No entry found.".toList ∧
      w1.saymsg ≠ "Entry deleted.".toList :=
  delete_root_rejected "y".toList [0, 1, 2, 3] { example_world with selected_entry := some 0 }
    example_world_wf rfl rfl

end Store

namespace Store

/-! ## C12: promote, then demote -/

theorem example_world2_cells (a : Nat) (t : tree) (h : rd example_world2.mem a = some t) :
    (a = 0 ∧ t = ⟨1, none, [1], fold_state.EXPANDED, "Entries".toList⟩) ∨
    (a = 1 ∧ t = ⟨4, some 0, [2, 3, 4], fold_state.EXPANDED, "P".toList⟩) ∨
    (a = 2 ∧ t = ⟨0, some 1, [], fold_state.EMPTY, "a".toList⟩) ∨
    (a = 3 ∧ t = ⟨0, some 1, [], fold_state.EMPTY, "n".toList⟩) ∨
    (a = 4 ∧ t = ⟨0, some 1, [], fold_state.EMPTY, "b".toList⟩) := by
  have hlt : a < 5 := rd_lt h
  interval_cases a
  · left; exact ⟨rfl, by simpa [rd, example_world2] using h.symm⟩
  · right; left; exact ⟨rfl, by simpa [rd, example_world2] using h.symm⟩
  · right; right; left; exact ⟨rfl, by simpa [rd, example_world2] using h.symm⟩
  · right; right; right; left; exact ⟨rfl, by simpa [rd, example_world2] using h.symm⟩
  · right; right; right; right; exact ⟨rfl, by simpa [rd, example_world2] using h.symm⟩

theorem example_world2_wf : well_formed example_world2 := by
  refine ⟨⟨?_, ?_, ?_, ?_, ?_⟩, fun a => a, ?_⟩
  · intro p pd c hp hc
    rcases example_world2_cells p pd hp with
      ⟨rfl, rfl⟩ | ⟨rfl, rfl⟩ | ⟨rfl, rfl⟩ | ⟨rfl, rfl⟩ | ⟨rfl, rfl⟩
    · simp only [List.mem_singleton] at hc
      subst hc
      exact ⟨_, rfl, rfl⟩
    · simp only [List.mem_cons, List.mem_singleton, List.not_mem_nil, or_false] at hc
      rcases hc with rfl | rfl | rfl
      · exact ⟨_, rfl, rfl⟩
      · exact ⟨_, rfl, rfl⟩
      · exact ⟨_, rfl, rfl⟩
    · simp at hc
    · simp at hc
    · simp at hc
  · intro n nd p hn hp
    rcases example_world2_cells n nd hn with
      ⟨rfl, rfl⟩ | ⟨rfl, rfl⟩ | ⟨rfl, rfl⟩ | ⟨rfl, rfl⟩ | ⟨rfl, rfl⟩
    · simp at hp
    all_goals
      simp only [Option.some.injEq] at hp
      subst hp
      exact ⟨_, rfl, by simp⟩
  · intro p pd hp
    rcases example_world2_cells p pd hp with
      ⟨rfl, rfl⟩ | ⟨rfl, rfl⟩ | ⟨rfl, rfl⟩ | ⟨rfl, rfl⟩ | ⟨rfl, rfl⟩ <;> simp
  · intro p pd hp
    rcases example_world2_cells p pd hp with
      ⟨rfl, rfl⟩ | ⟨rfl, rfl⟩ | ⟨rfl, rfl⟩ | ⟨rfl, rfl⟩ | ⟨rfl, rfl⟩ <;> simp
  · exact ⟨0, _, rfl, rfl, rfl⟩
  · intro n nd p hn hp
    rcases example_world2_cells n nd hn with
      ⟨rfl, rfl⟩ | ⟨rfl, rfl⟩ | ⟨rfl, rfl⟩ | ⟨rfl, rfl⟩ | ⟨rfl, rfl⟩
    · simp at hp
    all_goals
      simp only [Option.some.injEq] at hp
      subst hp
      decide

/-- C12 (counterexample). The second example heap is well formed; "n" (address 3)
has the parent "P" (address 1), the grandparent "Entries" (address 0), the left
sibling "a" and the right sibling "b". After `promote()` and `demote()` the
parent of "n" is "P" again, but the children of "P" are "a", "b", "n": "n"
stands last, not between "a" and "b". -/
theorem promote_demote_not_identity :
    well_formed example_world2 ∧ example_world2.selected_entry = some 3 ∧
    rd example_world2.mem 3 = some ⟨0, some 1, [], fold_state.EMPTY, "n".toList⟩ ∧
    rd example_world2.mem 1 = some ⟨4, some 0, [2, 3, 4], fold_state.EXPANDED, "P".toList⟩ ∧
    ∃ w1 w2, promote example_world2 = Result.ok w1 ∧ demote w1 = Result.ok w2 ∧
      rd w2.mem 3 = some ⟨0, some 1, [], fold_state.EMPTY, "n".toList⟩ ∧
      rd w2.mem 1 = some ⟨4, some 0, [2, 4, 3], fold_state.EXPANDED, "P".toList⟩ ∧
      ([2, 4, 3] : List Nat) ≠ [2, 3, 4] :=
  ⟨example_world2_wf, rfl, rfl, rfl, _, _, rfl, rfl, rfl, rfl, by decide⟩

/-- C12 (amended). In a well-formed tree let `n` be the selected node, with parent
`p` whose children are `l1`, `n`, `l2`, and with grandparent `g`. Then
`promote()` followed by `demote()` both return, and afterwards the parent of `n`
is `p` again, `n` is listed among the children of `p`, the other children of
`p` are `l1`, `l2` in their original order, and the children of `g` are as
before. -/
theorem promote_demote_parent (w : World) (n p g : Nat) (nd pd gd : tree) (l1 l2 : List Nat)
    (hwf : well_formed w) (hsel : w.selected_entry = some n) (hn : rd w.mem n = some nd)
    (hnp : nd.parent = some p) (hp : rd w.mem p = some pd) (hpg : pd.parent = some g)
    (hg : rd w.mem g = some gd) (hsplit : pd.child = l1 ++ n :: l2) :
    ∃ w1 w2 nd2 pd2 gd2, promote w = Result.ok w1 ∧ demote w1 = Result.ok w2 ∧
      rd w2.mem n = some nd2 ∧ nd2.parent = some p ∧
      rd w2.mem p = some pd2 ∧ n ∈ pd2.child ∧
      pd2.child.filter (fun x => x ≠ n) = l1 ++ l2 ∧
      rd w2.mem g = some gd2 ∧ gd2.child = gd.child := by
  obtain ⟨gd0, hgd0, hpmem⟩ := parent_cell hwf.1 hp hpg
  rw [hg] at hgd0
  simp only [Option.some.injEq] at hgd0
  subst hgd0
  obtain ⟨A, B, hAB⟩ := List.append_of_mem hpmem
  obtain ⟨w1, gd1, hrun1, hwf1, hf1, hn1, hp1, hg1, hch1, _, _, _⟩ :=
    promote_ok hwf hsel hn hnp hp hpg hg hAB
  have hnd1 := hwf1.1.nodup g gd1 hg1
  rw [hch1] at hnd1
  obtain ⟨ht, he⟩ := demote_target_next A B n p hnd1
  rw [← hch1] at ht he
  have hlen : ¬ gd1.child.length < 2 := by
    rw [hch1]
    simp only [List.length_append, List.length_cons]
    omega
  obtain ⟨w2, sbd, sbd1, hrun2, _, _, hsb, _, _, _, hn2, hg2, hp2, hch2, _⟩ :=
    demote_ok hwf1 (hf1.2.1.trans hsel) hn1 rfl hg1 hlen ht
  rw [hp1] at hsb
  simp only [Option.some.injEq] at hsb
  subst hsb
  have hndp := hwf.1.nodup p pd hp
  rw [hsplit] at hndp
  have hn1' : n ∉ l1 := by
    intro h
    rw [List.nodup_append] at hndp
    exact hndp.2.2 h (List.mem_cons_self _ _)
  have hn2' : n ∉ l2 := by
    intro h
    rw [List.nodup_append, List.nodup_cons] at hndp
    exact hndp.2.1.1 h
  have herase : pd.child.erase n = l1 ++ l2 := by
    rw [hsplit, List.erase_append_right _ hn1', List.erase_cons_head]
  refine ⟨w1, w2, _, sbd1, _, hrun1, hrun2, hn2, rfl, hp2, ?_, ?_, hg2, ?_⟩
  · rw [hch2]
    exact mem_shove_up_list_iterate n _ _ (by simp)
  · rw [hch2, shove_up_list_iterate_filter]
    show (pd.child.erase n ++ [n]).filter (fun x => x ≠ n) = _
    rw [herase, List.filter_append, filter_ne_of_not_mem]
    · simp
    · intro h
      rcases List.mem_append.mp h with h | h
      · exact hn1' h
      · exact hn2' h
  · show gd1.child.erase n = _
    rw [he, hAB]

/-- Witness of C12 (amended): the second example heap, with "n" (address 3)
selected below "P" (address 1) and the grandparent at address 0. -/
theorem promote_demote_parent_witness :
    ∃ w1 w2 nd2 pd2 gd2, promote example_world2 = Result.ok w1 ∧ demote w1 = Result.ok w2 ∧
      rd w2.mem 3 = some nd2 ∧ nd2.parent = some 1 ∧
      rd w2.mem 1 = some pd2 ∧ 3 ∈ pd2.child ∧
      pd2.child.filter (fun x => x ≠ 3) = [2] ++ [4] ∧
      rd w2.mem 0 = some gd2 ∧
      gd2.child = (⟨1, none, [1], fold_state.EXPANDED, "Entries".toList⟩ : tree).child :=
  promote_demote_parent example_world2 3 1 0 ⟨0, some 1, [], fold_state.EMPTY, "n".toList⟩
    ⟨4, some 0, [2, 3, 4], fold_state.EXPANDED, "P".toList⟩
    ⟨1, none, [1], fold_state.EXPANDED, "Entries".toList⟩ [2] [4]
    example_world2_wf rfl rfl rfl rfl rfl rfl rfl

end Store

namespace Store

/-! ## C19: the fold state of nodes without children -/

theorem example_world_leaves : leaves_empty (rd example_world.mem) := by
  intro n nd hn hch
  rcases example_world_cells n nd hn with ⟨rfl, rfl⟩ | ⟨rfl, rfl⟩ | ⟨rfl, rfl⟩ | ⟨rfl, rfl⟩
  · simp at hch
  · rfl
  · simp at hch
  · rfl

/-- C19 (counterexample). First: `read_tree` on the one-line file "a" returns a
node without children in state `COLLAPSED`. Second: in the example heap every
node without children is `EMPTY`; after `promote()` of "C" (address 3) its old
parent "B" (address 2) has no children and is still `EXPANDED`. Third: the same
after `delete()` of "C" (the prompt draws the four entries first). Fourth: `set_fold(COLLAPSED)` on the selected entry "A"
(address 1), which has no children, leaves it `COLLAPSED`. Fifth: `del_child` of
"C" leaves "B" without children and `EXPANDED`. -/
theorem leaves_not_empty :
    (∃ f1, read_tree 4 0 ⟨"a\n".toList, false⟩ (Char.ofNat 0) 0
      = Result.ok (TreeTool.tree.mk 0 fold_state.COLLAPSED "a".toList [], f1)) ∧
    leaves_empty (rd example_world.mem) ∧
    (∃ w1, promote { example_world with selected_entry := some 3 } = Result.ok w1 ∧
      rd w1.mem 2 = some ⟨1, some 0, [], fold_state.EXPANDED, "B".toList⟩) ∧
    (∃ w1, delete "y".toList [0, 1, 2, 3] { example_world with selected_entry := some 3 }
        = Result.ok w1 ∧
      rd w1.mem 2 = some ⟨1, some 0, [], fold_state.EXPANDED, "B".toList⟩) ∧
    (∃ w1, set_fold fold_state.COLLAPSED example_world = Result.ok w1 ∧
      rd w1.mem 1 = some ⟨0, some 0, [], fold_state.COLLAPSED, "A".toList⟩) ∧
    (∃ m1, del_child example_world.mem (some 3) = Result.ok (m1, some 3) ∧
      rd m1 2 = some ⟨1, some 0, [], fold_state.EXPANDED, "B".toList⟩) :=
  ⟨⟨_, rfl⟩, example_world_leaves, ⟨_, rfl, rfl⟩, ⟨_, rfl, rfl⟩, ⟨_, rfl, rfl⟩,
    ⟨_, rfl, rfl⟩⟩

/-- The function `add_leaf` keeps the nodes without children `EMPTY`. -/
theorem add_leaf_leaves {m : Mem} {c p : Nat} {cd pd : tree} (hc : rd m c = some cd)
    (hcp : cd.parent = none) (hp : rd m p = some pd) (hne : p ≠ c)
    (hcap : pd.child.length ≤ pd.nalloc) (hinv : leaves_empty (rd m)) :
    ∃ m2, add_leaf m (some p) c = Result.ok m2 ∧ leaves_empty (rd m2) := by
  obtain ⟨m2, pd1, hadd, hrd2, _, hch1, _⟩ := add_leaf_expanded hc hcp hp hne hcap
  refine ⟨m2, hadd, ?_⟩
  intro x xd hx hch
  rw [hrd2] at hx
  by_cases hxc : x = c
  · rw [hxc, Function.update_same] at hx
    simp only [Option.some.injEq] at hx
    subst hx
    exact hinv c cd hc hch
  · rw [Function.update_noteq hxc] at hx
    by_cases hxp : x = p
    · rw [hxp, Function.update_same] at hx
      simp only [Option.some.injEq] at hx
      subst hx
      rw [hch1] at hch
      simp at hch
    · rw [Function.update_noteq hxp] at hx
      exact hinv x xd hx hch

/-- The function `demote` keeps the nodes without children `EMPTY`. -/
theorem demote_leaves (w : World) (hwf : well_formed w)
    (hs : selectable w.selected_entry w) (hinv : leaves_empty (rd w.mem)) :
    ∃ w1, demote w = Result.ok w1 ∧ leaves_empty (rd w1.mem) := by
  cases hsel : w.selected_entry with
  | none => exact ⟨w, by simp only [demote, hsel], hinv⟩
  | some n =>
    rw [hsel] at hs
    obtain ⟨nd, hn⟩ := selectable_some hs
    cases hnp : nd.parent with
    | none => exact ⟨w, by simp only [demote, hsel, deref_eq hn, bind_ok, hnp], hinv⟩
    | some p =>
      obtain ⟨pd, hp, hnmem⟩ := parent_cell hwf.1 hn hnp
      by_cases hlen : pd.child.length < 2
      · exact ⟨w, by
          simp only [demote, hsel, deref_eq hn, bind_ok, hnp, deref_eq hp, if_pos hlen], hinv⟩
      · obtain ⟨sb, htarget, _, _⟩ :=
          demote_target pd.child n (hwf.1.nodup p pd hp) hnmem hlen
        obtain ⟨w1, sbd, sbd1, hrun, _, _, _, _, hsbn, hsbp, hn1, hp1, hsb1, hch, _, _, _,
          hrest⟩ := demote_ok hwf hsel hn hnp hp hlen htarget
        refine ⟨w1, hrun, ?_⟩
        intro x xd hx hxc
        by_cases hxn : x = n
        · rw [hxn, hn1] at hx
          simp only [Option.some.injEq] at hx
          subst hx
          exact hinv n nd hn hxc
        · by_cases hxp : x = p
          · rw [hxp, hp1] at hx
            simp only [Option.some.injEq] at hx
            subst hx
            have hl : (pd.child.erase n).length = pd.child.length - 1 :=
              List.length_erase_of_mem hnmem
            simp only at hxc
            rw [hxc] at hl
            simp only [List.length_nil] at hl
            omega
          · by_cases hxs : x = sb
            · rw [hxs, hsb1] at hx
              simp only [Option.some.injEq] at hx
              subst hx
              have hmem : n ∈ sbd1.child := by
                rw [hch]
                exact mem_shove_up_list_iterate n _ _ (by simp)
              rw [hxc] at hmem
              simp at hmem
            · rw [hrest x hxn hxp hxs] at hx
              exact hinv x xd hx hxc

/-- C19 (amended). Of the operations named, `add_leaf` and `demote` keep the
property: if every node without children has the fold state `EMPTY` before the
call, the call returns and every node without children has the fold state
`EMPTY` afterwards. For `add_leaf(p, c)` the node `c` is detached, differs from
`p`, and the child array of `p` holds its entries; for `demote()` the tree is
well formed and the selected entry is `NULL` or a node. -/
theorem leaves_empty_preserved :
    (∀ (m : Mem) (c p : Nat) (cd pd : tree), rd m c = some cd → cd.parent = none →
      rd m p = some pd → p ≠ c → pd.child.length ≤ pd.nalloc → leaves_empty (rd m) →
      ∃ m2, add_leaf m (some p) c = Result.ok m2 ∧ leaves_empty (rd m2)) ∧
    (∀ w : World, well_formed w → selectable w.selected_entry w → leaves_empty (rd w.mem) →
      ∃ w1, demote w = Result.ok w1 ∧ leaves_empty (rd w1.mem)) :=
  ⟨fun _ _ _ _ _ hc hcp hp hne hcap hinv => add_leaf_leaves hc hcp hp hne hcap hinv,
    fun w hwf hs hinv => demote_leaves w hwf hs hinv⟩

/-- Witness of C19 (amended): `demote()` in the example heap, with "A" selected. -/
theorem leaves_empty_preserved_witness :
    ∃ w1, demote example_world = Result.ok w1 ∧ leaves_empty (rd w1.mem) :=
  leaves_empty_preserved.2 example_world example_world_wf rfl example_world_leaves

end Store

namespace Store

/-! ## print_tree -/

theorem set_entry_ok (s : Screen) (i : Int) (v : Option Nat) (h0 : 0 ≤ i)
    (h1 : i < s.tree_win_height) :
    set_entry s i v
      = Result.ok { s with onscreen_entries := Function.update s.onscreen_entries i v } := by
  unfold set_entry
  rw [if_pos ⟨h0, h1⟩]

theorem get_entry_ok (s : Screen) (i : Int) (h0 : 0 ≤ i) (h1 : i < s.tree_win_height) :
    get_entry s i = Result.ok (s.onscreen_entries i) := by
  unfold get_entry
  rw [if_pos ⟨h0, h1⟩]

/-- The search for the selected entry only changes `selected_index`. -/
theorem find_selected_ok (sel : Option Nat) : ∀ (k : Nat) (i : Int) (s : Screen), 0 ≤ i →
    i + k ≤ s.tree_win_height →
    ∃ s1, find_selected sel k i s = Result.ok s1 ∧ s1.tree_window = s.tree_window ∧
      s1.tree_win_height = s.tree_win_height ∧ s1.vscroll = s.vscroll ∧
      s1.printed_lines = s.printed_lines ∧ s1.onscreen_entries = s.onscreen_entries := by
  intro k
  induction k with
  | zero =>
    intro i s _ _
    exact ⟨s, rfl, rfl, rfl, rfl, rfl, rfl⟩
  | succ k ih =>
    intro i s h0 h1
    simp only [Nat.cast_add, Nat.cast_one] at h1
    simp only [find_selected]
    rw [get_entry_ok s i h0 (by omega)]
    simp only [bind_ok]
    split_ifs
    · exact ⟨_, rfl, rfl, rfl, rfl, rfl, rfl⟩
    · exact ih (i + 1) s (by omega) (by omega)

/-- The loop that clears the lines below the last entry. -/
theorem clear_below_ok : ∀ (k : Nat) (i : Int) (s : Screen) (win : List line), 0 ≤ i →
    i + k ≤ s.tree_win_height → s.tree_window = some win →
    ∃ s1, clear_below k i s = Result.ok s1 ∧
      s1.tree_window = some (win ++ List.replicate k line.blank) ∧
      s1.tree_win_height = s.tree_win_height ∧ s1.vscroll = s.vscroll ∧
      s1.printed_lines = s.printed_lines ∧ s1.selected_index = s.selected_index ∧
      ∀ j, j < i → s1.onscreen_entries j = s.onscreen_entries j := by
  intro k
  induction k with
  | zero =>
    intro i s win _ _ hwin
    exact ⟨s, rfl, by simp [hwin], rfl, rfl, rfl, rfl, fun _ _ => rfl⟩
  | succ k ih =>
    intro i s win h0 h1 hwin
    simp only [Nat.cast_add, Nat.cast_one] at h1
    simp only [clear_below]
    rw [set_entry_ok s i none h0 (by omega)]
    simp only [bind_ok]
    obtain ⟨s1, hrun, hw1, hh1, hv1, hp1, hs1, he1⟩ := ih (i + 1)
      { s with
        onscreen_entries := Function.update s.onscreen_entries i none
        tree_window := (s.tree_window).map (fun win => win ++ [line.blank]) }
      (win ++ [line.blank]) (by omega) (by show i + 1 + (k : Int) ≤ s.tree_win_height; omega)
      (by simp [hwin])
    refine ⟨s1, hrun, ?_, hh1, hv1, hp1, hs1, ?_⟩
    · rw [hw1, List.replicate_succ, List.append_assoc]
      rfl
    · intro j hj
      rw [he1 j (by omega)]
      show Function.update s.onscreen_entries i none j = _
      rw [Function.update_noteq (by omega)]

theorem flatten_visible_nil {h : Nat → Option tree} {d : Nat} {l : List (Nat × Nat)}
    (hf : flatten_visible h [] d l) : l = [] := by
  cases hf
  rfl

theorem leaves_marked_refl (m : Mem) : leaves_marked (rd m) m :=
  fun _ => Or.inl rfl

theorem bind_pair_ok {α β : Type} (r : Result (α × β)) :
    (r >>= fun p => Result.ok (p.1, p.2)) = r := by
  cases r <;> rfl

/-- One call of `print_tree` for a node that is not the root, with room in the
window: the entry is printed, then the children if the node is expanded. -/
theorem print_tree_node (root sel : Option Nat) (fuel : Nat) (m : Mem) (s : Screen)
    (c d : Nat) (td : tree) (win : List line) (hnr : some c ≠ root)
    (hwin : s.tree_window = some win) (hvs : s.vscroll = 0) (h0 : 0 ≤ s.printed_lines)
    (hroom : s.printed_lines < s.tree_win_height) (htd : rd m c = some td) :
    print_tree root sel (fuel + 1) m s (some c) d =
      (if (mark_leaf td).state = fold_state.EXPANDED then
        (mark_leaf td).child.foldlM
          (fun ms c1 => print_tree root sel fuel ms.1 ms.2 (some c1) (d + 1))
          (wr m c (some (mark_leaf td)), put_line s win d (mark_leaf td).state c)
      else
        Result.ok (wr m c (some (mark_leaf td)), put_line s win d (mark_leaf td).state c)) := by
  simp only [print_tree, if_neg hnr, hvs, sub_zero, hwin, deref_eq htd, bind_ok]
  rw [if_neg (by omega), if_pos ⟨h0, hroom⟩]
  simp only [set_entry]
  rw [if_pos ⟨h0, hroom⟩]
  simp only [bind_ok, mark_leaf, put_line, hvs]
  split_ifs
  · exact bind_pair_ok _
  · rfl
  · exact bind_pair_ok _
  · rfl

theorem mark_leaf_of_marked {h : Nat → Option tree} {m : Mem} {c : Nat} {cd : tree}
    (hm : leaves_marked h m) (hc : h c = some cd) :
    ∃ td, rd m c = some td ∧ mark_leaf td = mark_leaf cd := by
  rcases hm c with e | ⟨xd, hx, hch, e⟩
  · exact ⟨cd, e.trans hc, rfl⟩
  · rw [hc] at hx
    simp only [Option.some.injEq] at hx
    subst hx
    refine ⟨_, e, ?_⟩
    simp [mark_leaf, hch]

theorem mark_leaf_child (cd : tree) : (mark_leaf cd).child = cd.child := by
  unfold mark_leaf
  split_ifs <;> rfl

theorem mark_leaf_state (cd : tree) :
    (mark_leaf cd).state = (if cd.child.length = 0 then fold_state.EMPTY else cd.state) := by
  unfold mark_leaf
  split_ifs <;> rfl

theorem mark_leaf_ok (cd : tree) (hch : (mark_leaf cd).child = []) :
    (mark_leaf cd).state = fold_state.EMPTY := by
  rw [mark_leaf_child] at hch
  rw [mark_leaf_state, if_pos (by simp [hch])]

/-- The entry of one node. -/
theorem print_post_node {h : Nat → Option tree} {m : Mem} {s : Screen} {win : List line}
    {c d : Nat} {cd td : tree} (hm : leaves_marked h m) (hc : h c = some cd)
    (htd : rd m c = some td) (hmark : mark_leaf td = mark_leaf cd) :
    print_post h m s win [(c, d)] (wr m c (some (mark_leaf td)))
      (put_line s win d (mark_leaf td).state c) := by
  have hrd : rd (wr m c (some (mark_leaf td)))
      = Function.update (rd m) c (some (mark_leaf cd)) := by
    rw [rd_wr _ _ _ (rd_lt htd), hmark]
  have hleaf : leaf_ok (wr m c (some (mark_leaf td))) c := by
    refine ⟨mark_leaf cd, by rw [hrd, Function.update_same], mark_leaf_ok cd⟩
  refine ⟨?_, ?_, rfl, rfl, ?_, rfl, ?_, ?_, ?_, ?_⟩
  · intro x
    rw [hrd]
    by_cases hx : x = c
    · rw [hx, Function.update_same, hc]
      by_cases hch : cd.child = []
      · right
        refine ⟨cd, rfl, hch, ?_⟩
        simp [mark_leaf, hch]
      · left
        have : ¬ cd.child.length = 0 := fun e => hch (List.eq_nil_of_length_eq_zero e)
        simp [mark_leaf, this]
    · rw [Function.update_noteq hx]
      exact hm x
  · show some (win ++ [line.entry d (mark_leaf td).state c]) = _
    rw [hmark, mark_leaf_state]
    simp [visible_line, hc]
  · show s.printed_lines + 1 = _
    simp
  · intro i hi
    show Function.update s.onscreen_entries s.printed_lines (some c) i = _
    rw [Function.update_noteq (by omega)]
  · intro j hj
    simp only [List.length_singleton, Nat.lt_one_iff] at hj
    subst hj
    have e : s.printed_lines + ((0 : Nat) : Int) = s.printed_lines := by simp
    show Function.update s.onscreen_entries s.printed_lines (some c) _ = _
    rw [e, Function.update_same]
    rfl
  · intro x hx
    by_cases hxc : x = c
    · rw [hxc]
      exact hleaf
    · obtain ⟨nd, hnd, hok⟩ := hx
      exact ⟨nd, by rw [hrd, Function.update_noteq hxc]; exact hnd, hok⟩
  · intro p hp
    simp only [List.mem_singleton] at hp
    rw [hp]
    exact hleaf

/-- Printing `l1`, then `l2`. -/
theorem print_post_append {h : Nat → Option tree} {m m1 m2 : Mem} {s s1 s2 : Screen}
    {win : List line} {l1 l2 : List (Nat × Nat)} (p1 : print_post h m s win l1 m1 s1)
    (p2 : print_post h m1 s1 (win ++ l1.map (visible_line h)) l2 m2 s2) :
    print_post h m s win (l1 ++ l2) m2 s2 := by
  have hl : s1.printed_lines = s.printed_lines + l1.length := p1.lines
  refine ⟨p2.marked, ?_, p2.vscroll.trans p1.vscroll, p2.height.trans p1.height, ?_,
    p2.index.trans p1.index, ?_, ?_, fun x hx => p2.kept x (p1.kept x hx), ?_⟩
  · rw [p2.window, List.map_append, List.append_assoc]
  · rw [p2.lines, hl, List.length_append]
    push_cast
    omega
  · intro i hi
    rw [p2.below i (by omega), p1.below i hi]
  · intro j hj
    by_cases hj1 : j < l1.length
    · rw [p2.below _ (by omega), p1.entries j hj1, List.getElem?_append_left hj1]
    · have e : s.printed_lines + (j : Int) = s1.printed_lines + ((j - l1.length : Nat) : Int) := by
        omega
      rw [e, p2.entries (j - l1.length) (by
        rw [List.length_append] at hj
        omega), List.getElem?_append_right (by omega)]
  · intro p hp
    rcases List.mem_append.mp hp with hp | hp
    · exact p2.kept _ (p1.leaves p hp)
    · exact p2.leaves p hp

theorem print_post_nil {h : Nat → Option tree} {m : Mem} {s : Screen} {win : List line}
    (hm : leaves_marked h m) (hwin : s.tree_window = some win) :
    print_post h m s win [] m s :=
  ⟨hm, by simp [hwin], rfl, rfl, by simp, rfl, fun _ _ => rfl,
    fun j hj => by simp at hj, fun _ hx => hx, fun p hp => by simp at hp⟩

/-- A node whose children are not visited. -/
theorem print_children_skip (root sel : Option Nat) {h : Nat → Option tree} {c d : Nat}
    {cs : List Nat} {cd : tree} {l : List (Nat × Nat)} (hc : h c = some cd)
    (hskip : cd.state ≠ fold_state.EXPANDED ∨ cd.child = [])
    (ih : ∀ (m : Mem) (s : Screen) (win : List line), leaves_marked h m →
      s.tree_window = some win → s.vscroll = 0 → 0 ≤ s.printed_lines →
      s.printed_lines + l.length ≤ s.tree_win_height → (∀ p ∈ l, some p.1 ≠ root) →
      ∃ f0 m1 s1, print_post h m s win l m1 s1 ∧ ∀ fuel, f0 ≤ fuel →
        cs.foldlM (fun ms c => print_tree root sel fuel ms.1 ms.2 (some c) d) (m, s)
          = Result.ok (m1, s1))
    (m : Mem) (s : Screen) (win : List line) (hm : leaves_marked h m)
    (hwin : s.tree_window = some win) (hvs : s.vscroll = 0) (h0 : 0 ≤ s.printed_lines)
    (hroom : s.printed_lines + ((c, d) :: l).length ≤ s.tree_win_height)
    (hnr : ∀ p ∈ (c, d) :: l, some p.1 ≠ root) :
    ∃ f0 m1 s1, print_post h m s win ((c, d) :: l) m1 s1 ∧ ∀ fuel, f0 ≤ fuel →
      (c :: cs).foldlM (fun ms c => print_tree root sel fuel ms.1 ms.2 (some c) d) (m, s)
        = Result.ok (m1, s1) := by
  simp only [List.length_cons, Nat.cast_add, Nat.cast_one] at hroom
  obtain ⟨td, htd, hmark⟩ := mark_leaf_of_marked hm hc
  have pn : print_post h m s win [(c, d)] (wr m c (some (mark_leaf td)))
      (put_line s win d (mark_leaf td).state c) := print_post_node hm hc htd hmark
  have hstate : (mark_leaf td).state ≠ fold_state.EXPANDED := by
    rw [hmark, mark_leaf_state]
    rcases hskip with hst | hch
    · split_ifs
      · decide
      · exact hst
    · rw [if_pos (by simp [hch])]
      decide
  have hl := pn.lines
  simp only [List.length_singleton, Nat.cast_one] at hl
  have hh := pn.height
  obtain ⟨f0, m1, s1, p2, hrun⟩ := ih _ _ _ pn.marked pn.window (pn.vscroll.trans hvs)
    (by omega) (by omega) (fun p hp => hnr p (List.mem_cons_of_mem _ hp))
  refine ⟨f0 + 1, m1, s1, print_post_append pn p2, ?_⟩
  intro fuel hfuel
  obtain ⟨k, rfl⟩ : ∃ k, fuel = k + 1 := ⟨fuel - 1, by omega⟩
  rw [List.foldlM_cons]
  show (print_tree root sel (k + 1) m s (some c) d >>= _) = _
  rw [print_tree_node root sel k m s c d td win (hnr (c, d) (List.mem_cons_self _ _)) hwin hvs
    h0 (by omega) htd, if_neg hstate]
  simp only [bind_ok]
  exact hrun (k + 1) (by omega)

/-- The loop over the children in `print_tree`, for nodes none of which is the
root, with room in the window for all the entries: the entries of the visible
flattening are printed in order. -/
theorem print_children (root sel : Option Nat) {h : Nat → Option tree} {cs : List Nat}
    {d : Nat} {l : List (Nat × Nat)} (hf : flatten_visible h cs d l) :
    ∀ (m : Mem) (s : Screen) (win : List line), leaves_marked h m →
      s.tree_window = some win → s.vscroll = 0 → 0 ≤ s.printed_lines →
      s.printed_lines + l.length ≤ s.tree_win_height → (∀ p ∈ l, some p.1 ≠ root) →
      ∃ f0 m1 s1, print_post h m s win l m1 s1 ∧ ∀ fuel, f0 ≤ fuel →
        cs.foldlM (fun ms c => print_tree root sel fuel ms.1 ms.2 (some c) d) (m, s)
          = Result.ok (m1, s1) := by
  induction hf with
  | nil d =>
    intro m s win hm hwin _ _ _ _
    exact ⟨0, m, s, print_post_nil hm hwin, fun _ _ => rfl⟩
  | folded c cs d cd l hc hst _ ih =>
    intro m s win hm hwin hvs h0 hroom hnr
    exact print_children_skip root sel hc (Or.inl hst) ih m s win hm hwin hvs h0 hroom hnr
  | expanded c cs d cd l1 l2 hc hst hkids _ ihk ihr =>
    intro m s win hm hwin hvs h0 hroom hnr
    by_cases hch : cd.child = []
    · rw [hch] at hkids
      have e := flatten_visible_nil hkids
      subst e
      rw [List.nil_append] at hroom hnr ⊢
      exact print_children_skip root sel hc (Or.inr hch) ihr m s win hm hwin hvs h0 hroom hnr
    · simp only [List.length_cons, List.length_append, Nat.cast_add, Nat.cast_one] at hroom
      obtain ⟨td, htd, hmark⟩ := mark_leaf_of_marked hm hc
      have pn : print_post h m s win [(c, d)] (wr m c (some (mark_leaf td)))
          (put_line s win d (mark_leaf td).state c) := print_post_node hm hc htd hmark
      have hstate : (mark_leaf td).state = fold_state.EXPANDED := by
        rw [hmark, mark_leaf_state, if_neg (fun e => hch (List.eq_nil_of_length_eq_zero e))]
        exact hst
      have hchild : (mark_leaf td).child = cd.child := by
        rw [hmark, mark_leaf_child]
      have hl := pn.lines
      simp only [List.length_singleton, Nat.cast_one] at hl
      have hh := pn.height
      obtain ⟨fk, m1, s1, pk, hrunk⟩ := ihk _ _ _ pn.marked pn.window (pn.vscroll.trans hvs)
        (by omega) (by omega)
        (fun p hp => hnr p (List.mem_cons_of_mem _ (List.mem_append_left _ hp)))
      have hl1 := pk.lines
      have hh1 := pk.height
      obtain ⟨fr, m2, s2, pr, hrunr⟩ := ihr m1 s1 _ pk.marked pk.window
        (pk.vscroll.trans (pn.vscroll.trans hvs)) (by omega) (by omega)
        (fun p hp => hnr p (List.mem_cons_of_mem _ (List.mem_append_right _ hp)))
      refine ⟨max (fk + 1) fr, m2, s2, print_post_append pn (print_post_append pk pr), ?_⟩
      intro fuel hfuel
      obtain ⟨k, rfl⟩ : ∃ k, fuel = k + 1 := ⟨fuel - 1, by omega⟩
      rw [List.foldlM_cons]
      show (print_tree root sel (k + 1) m s (some c) d >>= _) = _
      rw [print_tree_node root sel k m s c d td win (hnr (c, d) (List.mem_cons_self _ _)) hwin
        hvs h0 (by omega) htd, if_pos hstate, hchild, hrunk k (by omega)]
      simp only [bind_ok]
      exact hrunr (k + 1) (by omega)

/-! ## The visible flattening of a well-formed tree -/

theorem flatten_visible_cons {h : Nat → Option tree} {c d : Nat} {cs : List Nat}
    {l1 l2 : List (Nat × Nat)} (h1 : flatten_visible h [c] d l1)
    (h2 : flatten_visible h cs d l2) : flatten_visible h (c :: cs) d (l1 ++ l2) := by
  cases h1 with
  | folded _ _ _ cd l hc hst hrest =>
    have e := flatten_visible_nil hrest
    subst e
    exact flatten_visible.folded c cs d cd l2 hc hst h2
  | expanded _ _ _ cd a b hc hst hkids hrest =>
    have e := flatten_visible_nil hrest
    subst e
    have := flatten_visible.expanded c cs d cd a l2 hc hst hkids h2
    simpa using this

theorem flatten_visible_list {h : Nat → Option tree} {d : Nat} : ∀ (cs : List Nat),
    (∀ c ∈ cs, ∃ l, flatten_visible h [c] d l) → ∃ l, flatten_visible h cs d l := by
  intro cs
  induction cs with
  | nil =>
    intro _
    exact ⟨[], flatten_visible.nil d⟩
  | cons c cs ih =>
    intro hall
    obtain ⟨l1, h1⟩ := hall c (List.mem_cons_self _ _)
    obtain ⟨l2, h2⟩ := ih (fun x hx => hall x (List.mem_cons_of_mem _ hx))
    exact ⟨l1 ++ l2, flatten_visible_cons h1 h2⟩

/-- In a well-formed heap every node has a visible flattening. -/
theorem flatten_visible_exists {m : Mem} {root : Option Nat} (hwf : wf (rd m) root) :
    ∀ (j : Nat) (n k a d : Nat) (nd ad : tree), rd m n = some nd →
      climb (rd m) k n = some a → rd m a = some ad → m.length ≤ k + j →
      ∃ l, flatten_visible (rd m) [n] d l := by
  obtain ⟨hcore, rk, hrk⟩ := hwf
  intro j
  induction j with
  | zero =>
    intro n k a d nd ad _ hk ha hlen
    have := climb_bound hrk ha hk
    omega
  | succ j ih =>
    intro n k a d nd ad hn hk ha hlen
    by_cases hst : nd.state = fold_state.EXPANDED
    · obtain ⟨l1, h1⟩ := flatten_visible_list (h := rd m) (d := d + 1) nd.child (by
        intro c hc
        obtain ⟨cd, hcd, hcp⟩ := hcore.child_parent n nd c hn hc
        exact ih c (k + 1) a (d + 1) cd ad hcd (by rw [climb_succ k hcd hcp]; exact hk) ha
          (by omega))
      exact ⟨_, flatten_visible.expanded n [] d nd l1 [] hn hst h1 (flatten_visible.nil d)⟩
    · exact ⟨_, flatten_visible.folded n [] d nd [] hn hst (flatten_visible.nil d)⟩

/-- Every node of a visible flattening is one of the nodes walked from or a
child of some node. -/
theorem flatten_visible_nodes {h : Nat → Option tree} {cs : List Nat} {d : Nat}
    {l : List (Nat × Nat)} (hf : flatten_visible h cs d l) :
    ∀ p ∈ l, p.1 ∈ cs ∨ ∃ q qd, h q = some qd ∧ p.1 ∈ qd.child := by
  induction hf with
  | nil d =>
    intro p hp
    simp at hp
  | folded c cs d cd l hc hst _ ih =>
    intro p hp
    rcases List.mem_cons.mp hp with e | hp
    · left
      rw [e]
      exact List.mem_cons_self _ _
    · rcases ih p hp with hin | hq
      · exact Or.inl (List.mem_cons_of_mem _ hin)
      · exact Or.inr hq
  | expanded c cs d cd l1 l2 hc hst _ _ ihk ihr =>
    intro p hp
    rcases List.mem_cons.mp hp with e | hp
    · left
      rw [e]
      exact List.mem_cons_self _ _
    · rcases List.mem_append.mp hp with hp | hp
      · rcases ihk p hp with hin | hq
        · exact Or.inr ⟨c, cd, hc, hin⟩
        · exact Or.inr hq
      · rcases ihr p hp with hin | hq
        · exact Or.inl (List.mem_cons_of_mem _ hin)
        · exact Or.inr hq

theorem child_ne_root {h : Nat → Option tree} {root : Option Nat} (hcore : wf_core h root)
    {q x : Nat} {qd : tree} (hq : h q = some qd) (hx : x ∈ qd.child) : some x ≠ root := by
  obtain ⟨xd, hxd, hxp⟩ := hcore.child_parent q qd x hq hx
  obtain ⟨r, rd0, hroot, hr, hrp⟩ := hcore.root_ok
  intro e
  rw [hroot] at e
  simp only [Option.some.injEq] at e
  subst e
  rw [hr] at hxd
  simp only [Option.some.injEq] at hxd
  subst hxd
  rw [hrp] at hxp
  cases hxp

/-- One call of `print_tree` for the root, with room in the window. -/
theorem print_tree_root (root sel : Option Nat) (fuel : Nat) (m : Mem) (s : Screen)
    (r d : Nat) (td : tree) (win0 : List line) (hroot : root = some r)
    (hwin : s.tree_window = some win0) (hvs : s.vscroll = 0)
    (hroom : 0 < s.tree_win_height) (htd : rd m r = some td) :
    print_tree root sel (fuel + 1) m s (some r) d =
      ((if (mark_leaf td).state = fold_state.EXPANDED then
        (mark_leaf td).child.foldlM
          (fun ms c1 => print_tree root sel fuel ms.1 ms.2 (some c1) (d + 1))
          (wr m r (some (mark_leaf td)),
            put_line { s with printed_lines := 0, tree_window := some [] } [] d
              (mark_leaf td).state r)
      else
        Result.ok (wr m r (some (mark_leaf td)),
          put_line { s with printed_lines := 0, tree_window := some [] } [] d
            (mark_leaf td).state r)) >>= fun p => do
        let s5 ← find_selected sel (p.2.printed_lines - p.2.vscroll).toNat 0 p.2
        let s6 ← clear_below (s5.tree_win_height - (s5.printed_lines - s5.vscroll)).toNat
          (s5.printed_lines - s5.vscroll) s5
        Result.ok (p.1, s6)) := by
  subst hroot
  simp only [print_tree, if_true, hvs, sub_zero, hwin, Option.map_some', deref_eq htd, bind_ok]
  rw [if_neg (by omega), if_pos ⟨le_refl _, hroom⟩]
  simp only [set_entry]
  rw [if_pos ⟨le_refl _, hroom⟩]
  simp only [bind_ok, mark_leaf, put_line, hvs]
  split_ifs <;> rfl

/-- The entries printed by the call for the root, before the two closing loops. -/
theorem print_root_body (w : World) (s : Screen) (r : Nat) (rd0 : tree)
    (seq : List (Nat × Nat)) (hwf : well_formed w) (hrd0 : rd w.mem r = some rd0)
    (hvs : s.vscroll = 0) (hf : flatten_visible (rd w.mem) [r] 0 seq)
    (hlen : (seq.length : Int) ≤ s.tree_win_height) :
    ∃ f0 m1 s1,
      print_post (rd w.mem) w.mem { s with printed_lines := 0, tree_window := some [] } []
        seq m1 s1 ∧
      ∀ fuel, f0 ≤ fuel →
        (if (mark_leaf rd0).state = fold_state.EXPANDED then
          (mark_leaf rd0).child.foldlM
            (fun ms c1 => print_tree w.root w.selected_entry fuel ms.1 ms.2 (some c1) (0 + 1))
            (wr w.mem r (some (mark_leaf rd0)),
              put_line { s with printed_lines := 0, tree_window := some [] } [] 0
                (mark_leaf rd0).state r)
        else
          Result.ok (wr w.mem r (some (mark_leaf rd0)),
            put_line { s with printed_lines := 0, tree_window := some [] } [] 0
              (mark_leaf rd0).state r)) = Result.ok (m1, s1) := by
  have pn : print_post (rd w.mem) w.mem { s with printed_lines := 0, tree_window := some [] }
      [] [(r, 0)] (wr w.mem r (some (mark_leaf rd0)))
      (put_line { s with printed_lines := 0, tree_window := some [] } [] 0
        (mark_leaf rd0).state r) :=
    print_post_node (leaves_marked_refl w.mem) hrd0 hrd0 rfl
  cases hf with
  | folded _ _ _ cd l hc hst hrest =>
    have e := flatten_visible_nil hrest
    subst e
    rw [hrd0] at hc
    simp only [Option.some.injEq] at hc
    subst hc
    refine ⟨0, _, _, pn, fun fuel _ => ?_⟩
    rw [if_neg]
    rw [mark_leaf_state]
    split_ifs
    · decide
    · exact hst
  | expanded _ _ _ cd l1 l2 hc hst hkids hrest =>
    have e := flatten_visible_nil hrest
    subst e
    rw [hrd0] at hc
    simp only [Option.some.injEq] at hc
    subst hc
    rw [List.append_nil] at hlen ⊢
    by_cases hch : rd0.child = []
    · rw [hch] at hkids
      have e := flatten_visible_nil hkids
      subst e
      refine ⟨0, _, _, pn, fun fuel _ => ?_⟩
      rw [if_neg]
      rw [mark_leaf_state, if_pos (by simp [hch])]
      decide
    · simp only [List.length_cons, Nat.cast_add, Nat.cast_one] at hlen
      have hl := pn.lines
      have hh := pn.height
      simp only [List.length_singleton, Nat.cast_one] at hl
      obtain ⟨fk, m1, s1, pk, hrunk⟩ := print_children w.root w.selected_entry hkids _ _ _
        pn.marked pn.window (pn.vscroll.trans hvs) (by rw [hl]; decide)
        (by
          rw [hl, hh]
          show (0 : Int) + 1 + l1.length ≤ s.tree_win_height
          omega)
        (by
          intro p hp
          rcases flatten_visible_nodes hkids p hp with hin | ⟨q, qd, hq, hin⟩
          · exact child_ne_root hwf.1 hrd0 hin
          · exact child_ne_root hwf.1 hq hin)
      refine ⟨fk, m1, s1, print_post_append pn pk, fun fuel hfuel => ?_⟩
      rw [if_pos, mark_leaf_child]
      · exact hrunk fuel hfuel
      · rw [mark_leaf_state, if_neg (fun e => hch (List.eq_nil_of_length_eq_zero e))]
        exact hst

/-! ## C20: the visible flattening -/

/-- C20. Let the tree be well formed with root `r`, the window exist and
`vscroll = 0`. Then the root has a visible flattening, and for every visible
flattening `seq` of the root at depth 0 (depth-first, pre-order, children one
level deeper and only below nodes in state `EXPANDED`) that is no longer than
the window is tall: with enough recursion depth `print_tree(root, 0)` returns;
afterwards `printed_lines` is the length of `seq`, `onscreen_entries[j]` is the
`j`-th node of `seq`, the window holds the lines of `seq` in order, each with
the indentation of its depth (a node without children with the marker of
`EMPTY`), followed by blank lines, and every node of `seq` without children has
the state `EMPTY`. -/
theorem print_tree_flattens (w : World) (s : Screen) (r : Nat) (win0 : List line)
    (hwf : well_formed w) (hroot : w.root = some r) (hwin : s.tree_window = some win0)
    (hvs : s.vscroll = 0) :
    (∃ seq, flatten_visible (rd w.mem) [r] 0 seq) ∧
    ∀ seq, flatten_visible (rd w.mem) [r] 0 seq → (seq.length : Int) ≤ s.tree_win_height →
      ∃ f0 m1 s1,
        (∀ fuel, f0 ≤ fuel →
          print_tree w.root w.selected_entry fuel w.mem s (some r) 0 = Result.ok (m1, s1)) ∧
        s1.printed_lines = seq.length ∧
        (∀ j : Nat, j < seq.length → s1.onscreen_entries j = (seq[j]?).map Prod.fst) ∧
        s1.tree_window = some (seq.map (visible_line (rd w.mem)) ++
          List.replicate (s.tree_win_height - seq.length).toNat line.blank) ∧
        ∀ p ∈ seq, leaf_ok m1 p.1 := by
  obtain ⟨r0, rd0, hr0, hrd0, _⟩ := hwf.1.root_ok
  have e : r0 = r := by
    rw [hroot] at hr0
    exact (Option.some.inj hr0).symm
  subst e
  constructor
  · exact flatten_visible_exists hwf w.mem.length r0 0 r0 0 rd0 rd0 hrd0 rfl hrd0 (by omega)
  · intro seq hf hlen
    have hpos : 0 < seq.length := by
      cases hf <;> simp
    obtain ⟨f0, m1, s1, post, hrun⟩ := print_root_body w s r0 rd0 seq hwf hrd0 hvs hf hlen
    have hl : s1.printed_lines = seq.length := by
      rw [post.lines]
      show (0 : Int) + seq.length = seq.length
      omega
    have hv : s1.vscroll = 0 := post.vscroll.trans hvs
    have hh : s1.tree_win_height = s.tree_win_height := post.height
    have hw : s1.tree_window = some (seq.map (visible_line (rd w.mem))) := by
      rw [post.window, List.nil_append]
    obtain ⟨s5, hfind, hw5, hh5, hv5, hl5, he5⟩ :=
      find_selected_ok w.selected_entry (s1.printed_lines - s1.vscroll).toNat 0 s1 (le_refl _)
        (by omega)
    obtain ⟨s6, hclear, hw6, hh6, hv6, hl6, _, he6⟩ :=
      clear_below_ok (s5.tree_win_height - (s5.printed_lines - s5.vscroll)).toNat
        (s5.printed_lines - s5.vscroll) s5 (seq.map (visible_line (rd w.mem))) (by omega)
        (by omega) (hw5.trans hw)
    refine ⟨f0 + 1, m1, s6, ?_, ?_, ?_, ?_, post.leaves⟩
    · intro fuel hfuel
      obtain ⟨k, rfl⟩ : ∃ k, fuel = k + 1 := ⟨fuel - 1, by omega⟩
      rw [print_tree_root w.root w.selected_entry k w.mem s r0 0 rd0 win0 hroot hwin hvs
        (by omega) hrd0, hrun k (by omega)]
      simp only [bind_ok, hfind, hclear]
    · rw [hl6, hl5, hl]
    · intro j hj
      rw [he6 j (by omega), he5]
      have := post.entries j hj
      have e0 : (0 : Int) + (j : Int) = j := by omega
      rw [← this]
      show s1.onscreen_entries j = s1.onscreen_entries ((0 : Int) + j)
      rw [e0]
    · rw [hw6]
      congr 3
      omega

/-- Witness of C20: the example heap on the example screen (ten lines). All nodes
with children are expanded: the flattening lists "Entries" at depth 0, "A" and
"B" at depth 1, "C" at depth 2. -/
theorem print_tree_flattens_witness :
    ∃ f0 m1 s1,
      (∀ fuel, f0 ≤ fuel → print_tree example_world.root example_world.selected_entry fuel
        example_world.mem example_screen (some 0) 0 = Result.ok (m1, s1)) ∧
      s1.printed_lines = ([(0, 0), (1, 1), (2, 1), (3, 2)] : List (Nat × Nat)).length ∧
      (∀ j : Nat, j < ([(0, 0), (1, 1), (2, 1), (3, 2)] : List (Nat × Nat)).length →
        s1.onscreen_entries j
          = (([(0, 0), (1, 1), (2, 1), (3, 2)] : List (Nat × Nat))[j]?).map Prod.fst) ∧
      s1.tree_window = some
        (([(0, 0), (1, 1), (2, 1), (3, 2)] : List (Nat × Nat)).map
            (visible_line (rd example_world.mem)) ++
          List.replicate (example_screen.tree_win_height
            - ([(0, 0), (1, 1), (2, 1), (3, 2)] : List (Nat × Nat)).length).toNat line.blank) ∧
      ∀ p ∈ ([(0, 0), (1, 1), (2, 1), (3, 2)] : List (Nat × Nat)), leaf_ok m1 p.1 :=
  (print_tree_flattens example_world example_screen 0 [] example_world_wf rfl rfl rfl).2
    [(0, 0), (1, 1), (2, 1), (3, 2)]
    (flatten_visible.expanded 0 [] 0 _ [(1, 1), (2, 1), (3, 2)] [] rfl rfl
      (flatten_visible.folded 1 [2] 1 _ [(2, 1), (3, 2)] rfl (by decide)
        (flatten_visible.expanded 2 [] 1 _ [(3, 2)] [] rfl rfl
          (flatten_visible.folded 3 [] 2 _ [] rfl (by decide) (flatten_visible.nil 2))
          (flatten_visible.nil 1)))
      (flatten_visible.nil 0))
    (by decide)

end Store

/-! # Part 2, continued: moving and losing the selection (C21, C30) -/

namespace Store

/-- Writing back the selection it already holds leaves the globals as they are. -/
theorem world_selected_eta (w : World) : { w with selected_entry := w.selected_entry } = w := by
  cases w
  rfl

/-- The branch of `select_down` taken at the last listed entry. -/
theorem select_down_last (w : World) (s : Screen)
    (h0 : 0 ≤ s.printed_lines - s.vscroll - 1)
    (h1 : s.printed_lines - s.vscroll - 1 < s.tree_win_height)
    (hidx : s.printed_lines - s.vscroll - 1 ≤ s.selected_index) :
    select_down w s = Result.ok
      ({ w with selected_entry := s.onscreen_entries (s.printed_lines - s.vscroll - 1) },
       if s.vscroll + s.tree_win_height ≤ s.printed_lines then
         { s with vscroll := s.vscroll + 1 }
       else s) := by
  unfold select_down
  rw [if_pos (Or.inr hidx), get_entry_ok s _ h0 h1]
  rfl

/-- The branch of `select_up` taken at index 0. -/
theorem select_up_first (w : World) (s : Screen) (hh : 0 < s.tree_win_height)
    (hidx : s.selected_index ≤ 0) :
    select_up w s = Result.ok
      ({ w with selected_entry := s.onscreen_entries 0 },
       if s.vscroll > 0 then { s with vscroll := s.vscroll - 1 } else s) := by
  unfold select_up
  rw [if_pos (Or.inr hidx), get_entry_ok s 0 (le_refl _) hh]
  rfl

/-- C21. Let the window have at least one line. (Down) Let `last` be
`printed_lines - vscroll - 1`, the index of the last listed entry, inside the
table; let the selection be listed there and at no smaller index, and let
`selected_index` be an index up to `last` at which the table holds the selection
(the first such index is what `print_tree` stores). Then `select_down` returns
with `selected_entry` unchanged, still the last listed entry, and the table
untouched; `vscroll` grows by one exactly when `vscroll + tree_win_height` does
not exceed `printed_lines`. (Up) When `selected_index` is 0, `select_up` returns
with `selected_entry` equal to `onscreen_entries[0]`, the table untouched, and
`vscroll` one smaller exactly when it was positive. -/
theorem select_clamps (w : World) (s : Screen) (hh : 0 < s.tree_win_height) :
    (∀ last : Int, last = s.printed_lines - s.vscroll - 1 → 0 ≤ last →
      last < s.tree_win_height → s.onscreen_entries last = w.selected_entry →
      (∀ i : Int, 0 ≤ i → i < last → s.onscreen_entries i ≠ w.selected_entry) →
      0 ≤ s.selected_index → s.selected_index ≤ last →
      s.onscreen_entries s.selected_index = w.selected_entry →
      ∃ s1, select_down w s = Result.ok (w, s1) ∧
        w.selected_entry = s1.onscreen_entries last ∧
        s1.onscreen_entries = s.onscreen_entries ∧
        s1.vscroll = if s.vscroll + s.tree_win_height ≤ s.printed_lines then s.vscroll + 1
          else s.vscroll) ∧
    (s.selected_index = 0 →
      ∃ s1, select_up w s
          = Result.ok ({ w with selected_entry := s.onscreen_entries 0 }, s1) ∧
        s1.onscreen_entries = s.onscreen_entries ∧
        s1.selected_index = 0 ∧
        s1.vscroll = if s.vscroll > 0 then s.vscroll - 1 else s.vscroll) := by
  constructor
  · intro last hlast h0 h1 hsel hfirst hi0 hi1 hidx
    have e : s.selected_index = last := by
      by_contra hne
      exact hfirst s.selected_index hi0 (by omega) hidx
    subst hlast
    rw [select_down_last w s h0 h1 (by omega), hsel, world_selected_eta]
    by_cases hv : s.vscroll + s.tree_win_height ≤ s.printed_lines
    · rw [if_pos hv, if_pos hv]
      exact ⟨_, rfl, hsel.symm, rfl, rfl⟩
    · rw [if_neg hv, if_neg hv]
      exact ⟨_, rfl, hsel.symm, rfl, rfl⟩
  · intro hidx
    rw [select_up_first w s hh (by omega)]
    by_cases hv : s.vscroll > 0
    · rw [if_pos hv, if_pos hv]
      exact ⟨_, rfl, rfl, hidx, rfl⟩
    · rw [if_neg hv, if_neg hv]
      exact ⟨_, rfl, rfl, hidx, rfl⟩

/-- Witness of C21: the example heap drawn by `print_tree` on the example screen
(four lines: "Entries", "A", "B", "C"). With "C" selected, `select_down` stays on
"C"; with the root selected, `select_up` stays on the root. -/
theorem select_clamps_witness :
    (∃ m s1, print_tree (some 0) (some 3) 6 example_world.mem example_screen (some 0) 0
        = Result.ok (m, example_drawn (some 3)) ∧
      select_down { example_world with selected_entry := some 3 } (example_drawn (some 3))
        = Result.ok ({ example_world with selected_entry := some 3 }, s1) ∧
      s1.onscreen_entries 3 = some 3 ∧ s1.vscroll = 0) ∧
    (∃ m s1, print_tree (some 0) (some 0) 6 example_world.mem example_screen (some 0) 0
        = Result.ok (m, example_drawn (some 0)) ∧
      select_up { example_world with selected_entry := some 0 } (example_drawn (some 0))
        = Result.ok ({ example_world with selected_entry := some 0 }, s1) ∧
      s1.onscreen_entries 0 = some 0 ∧ s1.vscroll = 0) := by
  constructor
  · obtain ⟨s1, h1, h2, _, h4⟩ :=
      (select_clamps { example_world with selected_entry := some 3 } (example_drawn (some 3))
        (by decide)).1 3 rfl (by decide) (by decide) rfl
        (by
          intro i h0 h3
          have hi : i = 0 ∨ i = 1 ∨ i = 2 := by omega
          rcases hi with rfl | rfl | rfl <;> decide)
        (by decide) (by decide) rfl
    exact ⟨_, s1, rfl, h1, h2.symm, h4⟩
  · obtain ⟨s1, h1, h2, _, h4⟩ :=
      (select_clamps { example_world with selected_entry := some 0 } (example_drawn (some 0))
        (by decide)).2 rfl
    exact ⟨_, s1, rfl, h1, by rw [h2]; rfl, h4⟩

/-! ## C30: the selection after `delete` -/

/-- C30 (evaluation of the code). The example heap with "C" (address 3, the child
of "B") selected, the prompt drawing the four entries, and the answer "y":
`delete()` reports "Entry deleted.", the node at address 3 is freed and "B" has no child left, yet `selected_entry` still
holds address 3. -/
theorem delete_keeps_freed_selection :
    ∃ w1, delete "y".toList [0, 1, 2, 3] { example_world with selected_entry := some 3 }
        = Result.ok w1 ∧
      w1.saymsg = "Entry deleted.".toList ∧
      w1.selected_entry = some 3 ∧
      rd w1.mem 3 = none ∧
      (rd w1.mem 2).map (fun t => t.child) = some [] ∧
      w1.root = some 0 :=
  ⟨_, rfl, rfl, rfl, rfl, rfl, rfl⟩

end Store

/-! # Part 2, continued: what a redraw does to the heap -/

namespace Store

theorem bind_ok_inv {α β : Type} {r : Result α} {f : α → Result β} {b : β}
    (h : (r >>= f) = Result.ok b) : ∃ a, r = Result.ok a ∧ f a = Result.ok b := by
  cases r with
  | ok a => exact ⟨a, rfl, h⟩
  | raised ty m => cases h
  | died => cases h
  | undefined => cases h
  | nofuel => cases h

theorem redraw_marks_append (l1 l2 : List Nat) (m : Mem) :
    redraw_marks (l1 ++ l2) m = redraw_marks l2 (redraw_marks l1 m) := by
  simp only [redraw_marks, List.foldl_append]

theorem redraw_marks_one (m : Mem) (a : Nat) (t : tree) (h : rd m a = some t) :
    redraw_marks [a] m = wr m a (some (mark_leaf t)) := by
  simp only [redraw_marks, List.foldl_cons, List.foldl_nil, h]

/-- The loop of `print_tree` over the children, given that each call leaves a heap
of the form `redraw_marks seen _`. -/
theorem print_children_marks (root sel : Option Nat) (fuel : Nat)
    (ih : ∀ (m : Mem) (s : Screen) (t : Option Nat) (d : Nat) (m1 : Mem) (s1 : Screen),
      print_tree root sel fuel m s t d = Result.ok (m1, s1) → ∃ seen, m1 = redraw_marks seen m) :
    ∀ (cs : List Nat) (d : Nat) (m : Mem) (s : Screen) (m1 : Mem) (s1 : Screen),
      cs.foldlM (fun ms c => print_tree root sel fuel ms.1 ms.2 (some c) d) (m, s)
        = Result.ok (m1, s1) →
      ∃ seen, m1 = redraw_marks seen m := by
  intro cs
  induction cs with
  | nil =>
    intro d m s m1 s1 h
    simp only [List.foldlM_nil] at h
    cases h
    exact ⟨[], rfl⟩
  | cons c cs ihc =>
    intro d m s m1 s1 h
    simp only [List.foldlM_cons] at h
    obtain ⟨⟨m2, s2⟩, h1, h2⟩ := bind_ok_inv h
    obtain ⟨seen1, e1⟩ := ih m s (some c) d m2 s2 h1
    obtain ⟨seen2, e2⟩ := ihc d m2 s2 m1 s1 h2
    exact ⟨seen1 ++ seen2, by rw [redraw_marks_append, ← e1, e2]⟩

/-- Whatever the window and the fold states: when `print_tree` returns, the heap it
leaves is `redraw_marks seen m` for the list `seen` of the nodes it visited. -/
theorem print_tree_marks (root sel : Option Nat) : ∀ (fuel : Nat) (m : Mem) (s : Screen)
    (t : Option Nat) (d : Nat) (m1 : Mem) (s1 : Screen),
    print_tree root sel fuel m s t d = Result.ok (m1, s1) → ∃ seen, m1 = redraw_marks seen m := by
  intro fuel
  induction fuel with
  | zero =>
    intro m s t d m1 s1 h
    simp [print_tree] at h
  | succ fuel ih =>
    intro m s t d m1 s1 h
    cases t with
    | none =>
      simp only [print_tree] at h
      cases h
      exact ⟨[], rfl⟩
    | some a =>
      simp only [print_tree] at h
      generalize (if some a = root then
        { s with printed_lines := 0, tree_window := s.tree_window.map (fun _ => []) }
        else s) = s0 at h
      by_cases h1 : s0.tree_win_height ≤ s0.printed_lines - s0.vscroll
      · rw [if_pos h1] at h
        cases h
        exact ⟨[], rfl⟩
      · rw [if_neg h1] at h
        cases hw : s0.tree_window with
        | none =>
          simp only [hw] at h
          cases h
          exact ⟨[], rfl⟩
        | some win =>
          simp only [hw] at h
          obtain ⟨td, htd, h⟩ := bind_ok_inv h
          have hrd : rd m a = some td := by
            unfold deref at htd
            cases hr : rd m a with
            | none => rw [hr] at htd; cases htd
            | some x => rw [hr] at htd; cases htd; rfl
          have hone := redraw_marks_one m a td hrd
          by_cases hin : 0 ≤ s0.printed_lines - s0.vscroll
              ∧ s0.printed_lines - s0.vscroll < s0.tree_win_height
          all_goals first | rw [if_pos hin] at h | rw [if_neg hin] at h
          all_goals obtain ⟨y, _, h⟩ := bind_ok_inv h
          all_goals by_cases hst : (mark_leaf td).state = fold_state.EXPANDED
          all_goals first | rw [if_pos hst] at h | rw [if_neg hst] at h
          all_goals obtain ⟨⟨m2, s4⟩, hch, h⟩ := bind_ok_inv h
          all_goals by_cases hr : some a = root
          all_goals first | rw [if_pos hr] at h | rw [if_neg hr] at h
          all_goals first
            | (obtain ⟨s5, _, h⟩ := bind_ok_inv h
               obtain ⟨s6, _, h⟩ := bind_ok_inv h
               cases h)
            | cases h
          all_goals first
            | (obtain ⟨seen, e⟩ := print_children_marks root sel fuel ih _ _ _ _ _ _ hch
               exact ⟨a :: seen, by
                 rw [e, ← hone, ← redraw_marks_append]
                 rfl⟩)
            | (cases hch
               exact ⟨[a], hone.symm⟩)

/-- The example heap drawn on the example screen: `print_tree(root, 0)` visits
the nodes 0, 1, 2, 3. -/
theorem example_redraw :
    ∃ s1, print_tree example_world.root (some 3) 6 example_world.mem example_screen
        example_world.root 0
      = Result.ok (redraw_marks [0, 1, 2, 3] example_world.mem, s1) :=
  ⟨example_drawn (some 3), rfl⟩

end Store

/-! # Part 3: theorems about the line editor -/

namespace Readline

open Store (bind_ok pure_eq_ok)

@[simp] theorem bind_undefined {α β : Type} (f : α → Result β) :
    (Result.undefined >>= f) = Result.undefined := rfl

@[simp] theorem bind_nofuel {α β : Type} (f : α → Result β) :
    (Result.nofuel >>= f) = Result.nofuel := rfl

theorem MAXLEN_eq : MAXLEN = 256 := rfl

theorem load_ok (a : Int → Char) (i : Int) (h0 : 0 ≤ i) (h1 : i < 256) :
    load a i = Result.ok (a i) := by
  unfold load
  rw [if_pos ⟨h0, by rw [MAXLEN_eq]; exact h1⟩]

theorem store_ok (a : Int → Char) (i : Int) (c : Char) (h0 : 0 ≤ i) (h1 : i < 256) :
    store a i c = Result.ok (Function.update a i c) := by
  unfold store
  rw [if_pos ⟨h0, by rw [MAXLEN_eq]; exact h1⟩]

theorem store_out (a : Int → Char) (i : Int) (c : Char) (h : 256 ≤ i) :
    store a i c = Result.undefined := by
  unfold store
  rw [if_neg]
  rw [MAXLEN_eq]
  omega

theorem memcpy_ok (dst : Int → Char) (d : Int) (src : Int → Char) (s n : Int) (hn : 0 ≤ n)
    (hd : 0 ≤ d) (hdn : d + n ≤ 256) (hs : 0 ≤ s) (hsn : s + n ≤ 256) :
    memcpy dst d src s n
      = Result.ok (fun i => if d ≤ i ∧ i < d + n then src (i - d + s) else dst i) := by
  unfold memcpy
  rw [if_pos]
  rw [MAXLEN_eq]
  exact ⟨hn, hd, hdn, hs, hsn⟩

theorem memcpy_out (dst : Int → Char) (d : Int) (src : Int → Char) (s n : Int)
    (h : n < 0 ∨ d < 0 ∨ 256 < d + n ∨ s < 0 ∨ 256 < s + n) :
    memcpy dst d src s n = Result.undefined := by
  unfold memcpy
  rw [if_neg]
  rw [MAXLEN_eq]
  omega

theorem memset_ok (a : Int → Char) (d n : Int) (hn : 0 ≤ n) (hd : 0 ≤ d) (hdn : d + n ≤ 256) :
    memset a d n = Result.ok (fun i => if d ≤ i ∧ i < d + n then NUL else a i) := by
  unfold memset
  rw [if_pos]
  rw [MAXLEN_eq]
  exact ⟨hn, hd, hdn⟩

/-! ## Typing at the end of the line -/

theorem rl_read_type (w c : Int) (rl : rlstate) (hmsg : rl.msg = none) (h0 : 32 ≤ c)
    (h1 : c ≤ 126) :
    rl_read w c rl = (type w rl c >>= fun rl1 => Result.ok (c, rl1)) := by
  have k0 : ¬ rl.msg ≠ none := by simp [hmsg]
  have k1 : ¬ (c = 0x1F ∨ c = 9) := by omega
  have k2 : ¬ (c = 338 ∨ c = 339 ∨ c = 259 ∨ c = 258) := by omega
  have k3 : ¬ (c = 10 ∨ c = 13) := by omega
  have k4 : ¬ c = 0x03 ∧ ¬ c = 0x0B ∧ ¬ c = 0x15 ∧ ¬ c = 0x17 ∧ ¬ c = 0x18 := by omega
  have k5 : ¬ (c = 0x16 ∨ c = 0x19) ∧ ¬ (c = 0x02 ∨ c = 260) ∧ ¬ (c = 0x06 ∨ c = 261) := by
    omega
  have k6 : ¬ (c = 0x01 ∨ c = 262) ∧ ¬ (c = 0x05 ∨ c = 360) := by omega
  have k7 : ¬ (c = 0x08 ∨ c = 0x7F ∨ c = 263) ∧ ¬ (c = 0x04 ∨ c = 330) := by omega
  unfold rl_read
  simp only [KEY_NPAGE, KEY_PPAGE, KEY_UP, KEY_DOWN, KEY_LEFT, KEY_RIGHT, KEY_HOME, KEY_END,
    KEY_BACKSPACE, KEY_DC]
  rw [if_neg k0, if_neg k1, if_neg k2, if_neg k3, if_neg k4.1, if_neg k4.2.1,
    if_neg k4.2.2.1, if_neg k4.2.2.2.1, if_neg k4.2.2.2.2, if_neg k5.1, if_neg k5.2.1,
    if_neg k5.2.2, if_neg k6.1, if_neg k6.2, if_neg k7.1, if_neg k7.2]

theorem insert_end (rl : rlstate) (c : Int) (hcur : rl.cur = rl.len) (h0 : 0 ≤ rl.len)
    (h1 : rl.len < 255) :
    insert rl c = Result.ok { rl with
      buf := Function.update (Function.update rl.buf rl.len (Char.ofNat (c % 128).toNat))
        (rl.len + 1) NUL
      len := rl.len + 1 } := by
  unfold insert
  rw [if_neg (by simp [hcur])]
  simp only [bind_ok, hcur]
  rw [store_ok _ _ _ h0 (by omega)]
  simp only [bind_ok]
  rw [store_ok _ _ _ (by omega) (by omega)]
  simp only [bind_ok]

theorem insert_end_full (rl : rlstate) (c : Int) (hcur : rl.cur = rl.len)
    (h : rl.len = 255) : insert rl c = Result.undefined := by
  unfold insert
  rw [if_neg (by simp [hcur])]
  simp only [bind_ok, hcur]
  rw [store_ok _ _ _ (by omega) (by omega)]
  simp only [bind_ok]
  rw [store_out _ _ _ (by omega)]
  rfl

theorem right_fields (w : Int) (rl : rlstate) :
    (right w rl).buf = rl.buf ∧ (right w rl).len = rl.len ∧ (right w rl).msg = rl.msg ∧
      (right w rl).mode = rl.mode ∧ (right w rl).cut = rl.cut ∧
      (right w rl).cutlen = rl.cutlen ∧
      (right w rl).cur = (if rl.cur + 1 > rl.len then rl.len else rl.cur + 1) :=
  ⟨rfl, rfl, rfl, rfl, rfl, rfl, rfl⟩

theorem printable_mask (c : Int) (h0 : 32 ≤ c) (h1 : c ≤ 126) : c % 128 = c :=
  Int.emod_eq_of_lt (by omega) (by omega)

/-- One printable key typed at the end of a line of fewer than 255 characters. -/
theorem rl_read_type_end (w c : Int) (rl : rlstate) (hmsg : rl.msg = none)
    (hmode : rl.mode = rlmode.INSERT) (hcur : rl.cur = rl.len) (h0 : 0 ≤ rl.len)
    (h1 : rl.len < 255) (hc0 : 32 ≤ c) (hc1 : c ≤ 126) :
    ∃ rl1, rl_read w c rl = Result.ok (c, rl1) ∧ rl1.msg = none ∧
      rl1.mode = rlmode.INSERT ∧ rl1.cur = rl.len + 1 ∧ rl1.len = rl.len + 1 ∧
      rl1.buf = Function.update (Function.update rl.buf rl.len (Char.ofNat c.toNat))
        (rl.len + 1) NUL ∧
      rl1.cut = rl.cut ∧ rl1.cutlen = rl.cutlen := by
  refine ⟨right w { rl with
      buf := Function.update (Function.update rl.buf rl.len (Char.ofNat (c % 128).toNat))
        (rl.len + 1) NUL
      len := rl.len + 1 }, ?_, hmsg, hmode, ?_, rfl, ?_, rfl, rfl⟩
  · rw [rl_read_type w c rl hmsg hc0 hc1]
    unfold type
    rw [if_neg (by omega), if_neg (by simp [hmode]), if_pos (by rw [MAXLEN_eq]; omega),
      insert_end rl c hcur h0 h1]
    rfl
  · rw [(right_fields w _).2.2.2.2.2.2]
    show (if rl.cur + 1 > rl.len + 1 then rl.len + 1 else rl.cur + 1) = rl.len + 1
    rw [if_neg (by omega), hcur]
  · rw [(right_fields w _).1, printable_mask c hc0 hc1]

/-- The key that would bring the line to 256 characters. -/
theorem rl_read_type_full (w c : Int) (rl : rlstate) (hmsg : rl.msg = none)
    (hmode : rl.mode = rlmode.INSERT) (hcur : rl.cur = rl.len) (h : rl.len = 255)
    (hc0 : 32 ≤ c) (hc1 : c ≤ 126) : rl_read w c rl = Result.undefined := by
  rw [rl_read_type w c rl hmsg hc0 hc1]
  unfold type
  rw [if_neg (by omega), if_neg (by simp [hmode]), if_pos (by rw [MAXLEN_eq]; omega),
    insert_end_full rl c hcur h]
  rfl

theorem rl_loop_cons_ok (w c : Int) (cs : List Int) (rl rl1 : rlstate)
    (h : rl_read w c rl = Result.ok (c, rl1)) (hc : c ≠ 10) :
    rl_loop w (c :: cs) rl = rl_loop w cs rl1 := by
  simp only [rl_loop, h, bind_ok, if_neg hc]

theorem rl_loop_append (w : Int) (xs ys : List Int) :
    ∀ rl rl1, rl_loop w xs rl = Result.ok (false, rl1) →
      rl_loop w (xs ++ ys) rl = rl_loop w ys rl1 := by
  induction xs with
  | nil =>
    intro rl rl1 h
    simp only [rl_loop, Result.ok.injEq, Prod.mk.injEq, true_and] at h
    subst h
    rfl
  | cons c cs ih =>
    intro rl rl1 h
    simp only [rl_loop, List.cons_append] at h ⊢
    cases hr : rl_read w c rl with
    | ok p =>
      obtain ⟨r, rl2⟩ := p
      rw [hr] at h
      simp only [bind_ok] at h ⊢
      by_cases h10 : r = 10
      · rw [if_pos h10] at h
        simp at h
      · rw [if_neg h10] at h ⊢
        exact ih rl2 rl1 h
    | raised ty m => rw [hr] at h; cases h
    | died => rw [hr] at h; cases h
    | undefined => rw [hr] at h; cases h
    | nofuel => rw [hr] at h; cases h

/-- Typing printable keys at the end of the line, up to 255 characters in all. -/
theorem type_run (w : Int) : ∀ (s : List Int) (rl : rlstate),
    (∀ c ∈ s, 32 ≤ c ∧ c ≤ 126) → rl.msg = none → rl.mode = rlmode.INSERT →
    rl.cur = rl.len → 0 ≤ rl.len → rl.len + s.length ≤ 255 →
    ∃ rl1, rl_loop w s rl = Result.ok (false, rl1) ∧ rl1.msg = none ∧
      rl1.mode = rlmode.INSERT ∧ rl1.cur = rl1.len ∧ rl1.len = rl.len + s.length ∧
      (∀ i, i < rl.len → rl1.buf i = rl.buf i) ∧
      (∀ j : Nat, j < s.length → rl1.buf (rl.len + j) = Char.ofNat (s.getD j 0).toNat) ∧
      rl1.cut = rl.cut ∧ rl1.cutlen = rl.cutlen := by
  intro s
  induction s with
  | nil =>
    intro rl _ hmsg hmode hcur _ _
    exact ⟨rl, rfl, hmsg, hmode, hcur, by simp, fun i _ => rfl, by simp, rfl, rfl⟩
  | cons c cs ih =>
    intro rl hs hmsg hmode hcur h0 hlen
    have hc := hs c (List.mem_cons_self _ _)
    simp only [List.length_cons, Nat.cast_add, Nat.cast_one] at hlen
    obtain ⟨rl1, hrun1, hmsg1, hmode1, hcur1, hlen1, hbuf1, hcut1, hcl1⟩ :=
      rl_read_type_end w c rl hmsg hmode hcur h0 (by omega) hc.1 hc.2
    obtain ⟨rl2, hrun2, hmsg2, hmode2, hcur2, hlen2, hpre2, hnew2, hcut2, hcl2⟩ :=
      ih rl1 (fun x hx => hs x (List.mem_cons_of_mem _ hx)) hmsg1 hmode1
        (by rw [hcur1, hlen1]) (by omega) (by omega)
    refine ⟨rl2, ?_, hmsg2, hmode2, hcur2, ?_, ?_, ?_, hcut2.trans hcut1, hcl2.trans hcl1⟩
    · rw [rl_loop_cons_ok w c cs rl rl1 hrun1 (by omega)]
      exact hrun2
    · rw [hlen2, hlen1]
      simp only [List.length_cons, Nat.cast_add, Nat.cast_one]
      omega
    · intro i hi
      rw [hpre2 i (by omega), hbuf1, Function.update_noteq (by omega),
        Function.update_noteq (by omega)]
    · intro j hj
      cases j with
      | zero =>
        have e : rl.len + ((0 : Nat) : Int) = rl.len := by simp
        rw [e, hpre2 _ (by omega), hbuf1, Function.update_noteq (by omega),
          Function.update_same]
        rfl
      | succ j =>
        simp only [List.length_cons, Nat.add_lt_add_iff_right] at hj
        have := hnew2 j hj
        rw [hlen1] at this
        simp only [List.getD_cons_succ, Nat.cast_add, Nat.cast_one]
        rw [← this]
        congr 1
        omega

/-- The 256th printable key typed into a fresh editor. -/
theorem type_overflow (w : Int) (s : List Int) (hs : ∀ c ∈ s, 32 ≤ c ∧ c ≤ 126)
    (hlen : s.length = 256) : rl_loop w s rl_start = Result.undefined := by
  have hne : s ≠ [] := by
    intro h
    rw [h] at hlen
    simp at hlen
  have hsplit := List.dropLast_append_getLast hne
  have hdl : s.dropLast.length = 255 := by
    rw [List.length_dropLast, hlen]
  obtain ⟨rl1, hrun1, hmsg1, hmode1, hcur1, hlen1, _⟩ :=
    type_run w s.dropLast rl_start
      (fun c hc => hs c (List.mem_of_mem_dropLast hc)) rfl rfl rfl (le_refl _) (by
        rw [hdl]
        decide)
  have hl : rl1.len = 255 := by
    rw [hlen1, hdl]
    rfl
  have hc := hs (s.getLast hne) (List.getLast_mem hne)
  rw [← hsplit, rl_loop_append w _ _ rl_start rl1 hrun1]
  simp only [rl_loop, rl_read_type_full w _ rl1 hmsg1 hmode1 hcur1 hl hc.1 hc.2,
    bind_undefined]

/-- A printable key typed when the line holds `MAXLEN` characters. -/
theorem type_limit (w c : Int) (rl : rlstate) (hmsg : rl.msg = none)
    (hmode : rl.mode = rlmode.INSERT) (hlen : rl.len = 256) (hc0 : 32 ≤ c) (hc1 : c ≤ 126) :
    rl_read w c rl
      = Result.ok (c, { rl with msg := some "> Input limit exceeded.".toList }) := by
  rw [rl_read_type w c rl hmsg hc0 hc1]
  unfold type
  rw [if_neg (by omega), if_neg (by simp [hmode]), if_neg (by rw [MAXLEN_eq]; omega)]
  rfl

/-! ## C14: typing up to the capacity -/

/-- C14 (evaluation of the code). In a fresh editor with a window 80 columns
wide the key `a` is typed. After 255 keys the line holds 255 characters and
the cursor stands at the end. The 256th key passes the test `len < MAXLEN` of
`type`, and `insert` executes `buf[++len] = 0` with index 256, outside
`char buf[MAXLEN]`: the run of 256 keys has no defined result. -/
theorem type_256_undefined :
    (∃ rl1, rl_loop 80 (List.replicate 255 97) rl_start = Result.ok (false, rl1) ∧
      rl1.len = 255 ∧ rl1.cur = 255 ∧ rl1.msg = none) ∧
    rl_loop 80 (List.replicate 256 97) rl_start = Result.undefined := by
  constructor
  · obtain ⟨rl1, hrun, hmsg, _, hcur, hlen, _⟩ :=
      type_run 80 (List.replicate 255 97) rl_start
        (fun c hc => by rw [List.eq_of_mem_replicate hc]; decide) rfl rfl rfl (le_refl _)
        (by rw [List.length_replicate]; decide)
    have hl : rl1.len = 255 := by
      rw [hlen, List.length_replicate]
      rfl
    exact ⟨rl1, hrun, hl, hcur.trans hl, hmsg⟩
  · exact type_overflow 80 _ (fun c hc => by rw [List.eq_of_mem_replicate hc]; decide)
      (List.length_replicate _ _)

/-! ## Cutting to the start of the line, pasting -/

theorem mask_char (c : Char) (h : c.toNat < 128) :
    Char.ofNat (((c.toNat : Nat) : Int) % 128).toNat = c := by
  rw [Int.emod_eq_of_lt (by omega) (by omega), Int.toNat_ofNat, Char.ofNat_toNat]

/-- A character inserted at the start of a line of at most 254 characters. -/
theorem insert_front (rl : rlstate) (c : Int) (hcur : rl.cur = 0) (h0 : 0 ≤ rl.len)
    (h1 : rl.len < 255) :
    ∃ rl1, insert rl c = Result.ok rl1 ∧ rl1.len = rl.len + 1 ∧ rl1.cur = 0 ∧
      rl1.scr = rl.scr ∧ rl1.msg = rl.msg ∧ rl1.mode = rl.mode ∧ rl1.cut = rl.cut ∧
      rl1.cutlen = rl.cutlen ∧ rl1.buf 0 = Char.ofNat (c % 128).toNat ∧
      ∀ i, 1 ≤ i → i ≤ rl.len → rl1.buf i = rl.buf (i - 1) := by
  by_cases hl : rl.len = 0
  · refine ⟨_, insert_end rl c (by rw [hcur, hl]) h0 h1, rfl, hcur, rfl, rfl, rfl, rfl, rfl,
      ?_, ?_⟩
    · show Function.update (Function.update rl.buf rl.len _) (rl.len + 1) NUL 0 = _
      rw [Function.update_noteq (by omega), hl, Function.update_same]
    · intro i hi1 hi2
      omega
  · have hne : rl.cur ≠ rl.len := by
      rw [hcur]
      exact fun h => hl h.symm
    have hmm := memcpy_ok rl.buf (rl.cur + 1) rl.buf rl.cur (rl.len - rl.cur + 1) (by omega)
      (by omega) (by omega) (by omega) (by omega)
    refine ⟨{ rl with
        buf := Function.update (Function.update
          (fun i => if rl.cur + 1 ≤ i ∧ i < rl.cur + 1 + (rl.len - rl.cur + 1)
            then rl.buf (i - (rl.cur + 1) + rl.cur) else rl.buf i)
          rl.cur (Char.ofNat (c % 128).toNat)) (rl.len + 1) NUL
        len := rl.len + 1 }, ?_, rfl, hcur, rfl, rfl, rfl, rfl, rfl, ?_, ?_⟩
    · unfold insert
      rw [if_pos hne]
      unfold memmove
      rw [hmm]
      simp only [bind_ok]
      rw [store_ok _ _ _ (by omega) (by omega)]
      simp only [bind_ok]
      rw [store_ok _ _ _ (by omega) (by omega)]
      simp only [bind_ok]
    · dsimp only
      rw [Function.update_noteq (by omega), hcur, Function.update_same]
    · intro i hi1 hi2
      dsimp only
      rw [Function.update_noteq (by omega), Function.update_noteq (by omega),
        if_pos (by omega)]
      congr 1
      omega

/-- The loop of `paste` with the cursor at the start of the line: the clipboard,
seven bits of each character, is put in front of the line. -/
theorem paste_loop_front : ∀ (k : Nat) (rl : rlstate), rl.cur = 0 → 0 ≤ rl.len →
    rl.len + k ≤ 255 →
    ∃ rl1, paste_loop k rl = Result.ok rl1 ∧ rl1.len = rl.len + k ∧ rl1.cur = 0 ∧
      rl1.scr = rl.scr ∧ rl1.msg = rl.msg ∧ rl1.mode = rl.mode ∧ rl1.cut = rl.cut ∧
      rl1.cutlen = rl.cutlen ∧
      (∀ i : Int, 0 ≤ i → i < k →
        rl1.buf i = Char.ofNat ((((rl.cut i).toNat : Nat) : Int) % 128).toNat) ∧
      (∀ i, (k : Int) ≤ i → i < k + rl.len → rl1.buf i = rl.buf (i - k)) := by
  intro k
  induction k with
  | zero =>
    intro rl hcur _ _
    refine ⟨rl, rfl, by simp, hcur, rfl, rfl, rfl, rfl, rfl, ?_, ?_⟩
    · intro i h0 h1
      omega
    · intro i _ _
      simp
  | succ k ih =>
    intro rl hcur h0 hlen
    simp only [Nat.cast_add, Nat.cast_one] at hlen ⊢
    obtain ⟨rl1, hins, hlen1, hcur1, hscr1, hmsg1, hmode1, hcut1, hcl1, hb0, hbs⟩ :=
      insert_front rl ((rl.cut k).toNat : Nat) hcur h0 (by omega)
    obtain ⟨rl2, hrun, hlen2, hcur2, hscr2, hmsg2, hmode2, hcut2, hcl2, hpre, hpost⟩ :=
      ih rl1 hcur1 (by omega) (by omega)
    refine ⟨rl2, ?_, by omega, hcur2, hscr2.trans hscr1, hmsg2.trans hmsg1,
      hmode2.trans hmode1, hcut2.trans hcut1, hcl2.trans hcl1, ?_, ?_⟩
    · simp only [paste_loop]
      rw [load_ok _ _ (by omega) (by omega)]
      simp only [bind_ok, hins]
      exact hrun
    · intro i hi0 hi1
      by_cases hik : i < k
      · rw [hpre i hi0 hik, hcut1]
      · have e : i = k := by omega
        rw [hpost i (by omega) (by omega), e, sub_self, hb0]
    · intro i hi0 hi1
      rw [hpost i (by omega) (by omega), hbs (i - k) (by omega) (by omega)]
      congr 1
      omega

theorem left_fields (rl : rlstate) :
    (left rl).buf = rl.buf ∧ (left rl).len = rl.len ∧ (left rl).msg = rl.msg ∧
      (left rl).mode = rl.mode ∧ (left rl).cut = rl.cut ∧ (left rl).cutlen = rl.cutlen ∧
      (left rl).cur = (if rl.cur - 1 < 0 then 0 else rl.cur - 1) :=
  ⟨rfl, rfl, rfl, rfl, rfl, rfl, rfl⟩

/-- The function `cutb` with the cursor inside a line of at most 255 characters. -/
theorem cutb_ok (rl : rlstate) (h0 : 0 < rl.cur) (h1 : rl.cur ≤ rl.len) (h2 : rl.len ≤ 255) :
    ∃ rl1, cutb rl = Result.ok rl1 ∧ rl1.len = rl.len - rl.cur ∧ rl1.cur = 0 ∧
      rl1.cutlen = rl.cur ∧ rl1.msg = rl.msg ∧ rl1.mode = rl.mode ∧
      (∀ i, 0 ≤ i → i < rl.cur → rl1.cut i = rl.buf i) ∧
      (∀ i, 0 ≤ i → i < rl.len - rl.cur → rl1.buf i = rl.buf (i + rl.cur)) := by
  unfold cutb memmove
  rw [if_pos h0, memcpy_ok rl.cut 0 rl.buf 0 (rl.cur + 1) (by omega) (le_refl _) (by omega)
    (le_refl _) (by omega)]
  simp only [bind_ok]
  rw [store_ok _ _ _ (by omega) (by omega)]
  simp only [bind_ok]
  rw [memcpy_ok rl.buf 0 rl.buf rl.cur (rl.len - rl.cur) (by omega) (le_refl _) (by omega)
    (by omega) (by omega)]
  simp only [bind_ok, MAXLEN_eq]
  rw [memset_ok _ _ _ (by omega) (by omega) (by omega)]
  simp only [bind_ok]
  refine ⟨_, rfl, rfl, ?_, rfl, rfl, rfl, ?_, ?_⟩
  · rw [(left_fields _).2.2.2.2.2.2]
    rfl
  · intro i hi0 hi1
    rw [(left_fields _).2.2.2.2.1]
    dsimp only
    rw [Function.update_noteq (by omega), if_pos (by omega)]
    congr 1
    omega
  · intro i hi0 hi1
    rw [(left_fields _).1]
    dsimp only
    rw [if_neg (by omega), if_pos (by omega)]
    congr 1
    omega

/-- The function `cutb` with the cursor at the start of the line. -/
theorem cutb_start (rl : rlstate) (h0 : rl.cur = 0) (h1 : 0 ≤ rl.len) (h2 : rl.len ≤ 256) :
    ∃ rl1, cutb rl = Result.ok rl1 ∧ rl1.len = rl.len ∧ rl1.cur = 0 ∧
      rl1.cutlen = rl.cutlen ∧ rl1.cut = rl.cut ∧ rl1.msg = rl.msg ∧ rl1.mode = rl.mode ∧
      (∀ i, 0 ≤ i → i < rl.len → rl1.buf i = rl.buf i) := by
  unfold cutb memmove
  rw [if_neg (by omega)]
  simp only [bind_ok]
  rw [memcpy_ok rl.buf 0 rl.buf rl.cur (rl.len - rl.cur) (by omega) (le_refl _) (by omega)
    (by omega) (by omega)]
  simp only [bind_ok, MAXLEN_eq]
  rw [memset_ok _ _ _ (by omega) (by omega) (by omega)]
  simp only [bind_ok]
  refine ⟨_, rfl, ?_, ?_, rfl, rfl, rfl, rfl, ?_⟩
  · rw [(left_fields _).2.1]
    dsimp only
    omega
  · rw [(left_fields _).2.2.2.2.2.2]
    rfl
  · intro i hi0 hi1
    rw [(left_fields _).1]
    dsimp only
    rw [if_neg (by omega), if_pos (by omega)]
    congr 1
    omega

/-! ## C15: cutb, then paste -/

/-- C15 (counterexample). First: in a fresh editor (window 80 columns wide) the
keys `a`, C-u, `b`, C-a leave the line "b" with the cursor at 0 and the
clipboard "a"; `cutb` then keeps that clipboard (its copy is guarded by
`cur > 0`) and `paste` inserts it: the line becomes "ab". Second: the line set
by `rl_set` holds the single character 200 and the cursor stands behind it;
`cutb` then `paste` bring back the character 72 (`insert` stores `c & 0x7F`). -/
theorem cutb_paste_not_identity :
    (∃ rl rl1 rl2, rl_loop 80 [97, 0x15, 98, 0x01] rl_start = Result.ok (false, rl) ∧
      rl.cur = 0 ∧ rl.len = 1 ∧ contents rl = ['b'] ∧
      cutb rl = Result.ok rl1 ∧ paste rl1 = Result.ok rl2 ∧
      rl2.len = 2 ∧ contents rl2 = ['a', 'b']) ∧
    (∃ rl1 rl2, (right 80 (rl_set rl_start [Char.ofNat 200])).cur = 1 ∧
      (right 80 (rl_set rl_start [Char.ofNat 200])).len = 1 ∧
      cutb (right 80 (rl_set rl_start [Char.ofNat 200])) = Result.ok rl1 ∧
      paste rl1 = Result.ok rl2 ∧ rl2.len = 1 ∧
      (right 80 (rl_set rl_start [Char.ofNat 200])).buf 0 = Char.ofNat 200 ∧
      rl2.buf 0 = Char.ofNat 72) :=
  ⟨⟨_, _, _, rfl, rfl, rfl, rfl, rfl, rfl, rfl, rfl⟩,
   ⟨_, _, rfl, rfl, rfl, rfl, rfl, rfl, rfl⟩⟩

/-- C15 (amended). Let the editor state satisfy `0 ≤ cur ≤ len ≤ 256`, with
characters below 128 before the cursor, and either `cur > 0` and `len ≤ 255`
(any clipboard), or `cur = 0` and an empty clipboard (`cutlen ≤ 0`). Then `cutb`
and `paste` both return, and afterwards `len` and `buf[0..len)` are as before
the `cutb`. -/
theorem cutb_paste_restores (rl : rlstate) (h0 : 0 ≤ rl.cur) (h1 : rl.cur ≤ rl.len)
    (h2 : rl.len ≤ 256) (h7 : ∀ i, 0 ≤ i → i < rl.cur → (rl.buf i).toNat < 128)
    (hcase : (0 < rl.cur ∧ rl.len ≤ 255) ∨ (rl.cur = 0 ∧ rl.cutlen ≤ 0)) :
    ∃ rl1 rl2, cutb rl = Result.ok rl1 ∧ paste rl1 = Result.ok rl2 ∧ rl2.len = rl.len ∧
      ∀ i, 0 ≤ i → i < rl.len → rl2.buf i = rl.buf i := by
  rcases hcase with ⟨hpos, h255⟩ | ⟨hzero, hclip⟩
  · obtain ⟨rl1, hcut, hlen1, hcur1, hcl1, _, _, hcut1, hbuf1⟩ := cutb_ok rl hpos h1 h255
    have hk : ((rl.cur.toNat : Nat) : Int) = rl.cur := Int.toNat_of_nonneg h0
    obtain ⟨rl2, hrun, hlen2, _, _, _, _, _, _, hpre, hpost⟩ :=
      paste_loop_front rl.cur.toNat rl1 hcur1 (by omega) (by omega)
    refine ⟨rl1, rl2, hcut, ?_, by omega, ?_⟩
    · unfold paste
      rw [if_neg (by omega), hcl1]
      exact hrun
    · intro i hi0 hi1
      by_cases hi : i < rl.cur
      · rw [hpre i hi0 (by omega), hcut1 i hi0 hi, mask_char _ (h7 i hi0 hi)]
      · rw [hpost i (by omega) (by omega), hbuf1 _ (by omega) (by omega)]
        congr 1
        omega
  · obtain ⟨rl1, hcut, hlen1, _, hcl1, _, _, _, hbuf1⟩ :=
      cutb_start rl hzero (by omega) h2
    refine ⟨rl1, { rl1 with msg := some "> Clipboard empty.".toList }, hcut, ?_, hlen1, hbuf1⟩
    unfold paste
    rw [if_pos (by omega)]

/-- Witness of C15 (amended): the line "ab" with the cursor behind the `a`. -/
theorem cutb_paste_restores_witness :
    ∃ rl1 rl2, cutb example_line = Result.ok rl1 ∧ paste rl1 = Result.ok rl2 ∧
      rl2.len = example_line.len ∧
      ∀ i, 0 ≤ i → i < example_line.len → rl2.buf i = example_line.buf i :=
  cutb_paste_restores example_line (by decide) (by decide) (by decide)
    (fun i hi0 hi1 => by
      have hc : example_line.cur = 1 := rfl
      have e : i = 0 := by omega
      rw [e]
      decide)
    (Or.inl ⟨by decide, by decide⟩)

/-! ## Pasting into a line that has no room -/

theorem rl_read_cutb (w : Int) (rl : rlstate) (hmsg : rl.msg = none) :
    rl_read w 0x15 rl = (cutb rl >>= fun rl1 => Result.ok (0x15, rl1)) := by
  simp [rl_read, hmsg, KEY_NPAGE, KEY_PPAGE, KEY_UP, KEY_DOWN]

theorem rl_read_paste (w : Int) (rl : rlstate) (hmsg : rl.msg = none) :
    rl_read w 0x16 rl = (paste rl >>= fun rl1 => Result.ok (0x16, rl1)) := by
  simp [rl_read, hmsg, KEY_NPAGE, KEY_PPAGE, KEY_UP, KEY_DOWN]

/-- The loop of `paste` with the cursor at the start of the line, when line and
clipboard together hold more than 255 characters: the call of `insert` for a
line of 255 characters moves 256 characters to `buf[1..256]`. -/
theorem paste_loop_overflow : ∀ (k : Nat) (rl : rlstate), rl.cur = 0 → 0 ≤ rl.len →
    rl.len ≤ 255 → 255 < rl.len + k → (k : Int) ≤ 256 →
    paste_loop k rl = Result.undefined := by
  intro k
  induction k with
  | zero =>
    intro rl _ _ h1 h2 _
    omega
  | succ k ih =>
    intro rl hcur h0 h1 h2 hk
    simp only [Nat.cast_add, Nat.cast_one] at h2 hk
    simp only [paste_loop]
    rw [load_ok _ _ (by omega) (by omega)]
    simp only [bind_ok]
    by_cases hfull : rl.len = 255
    · have hins : insert rl ((rl.cut k).toNat : Nat) = Result.undefined := by
        unfold insert memmove
        rw [if_pos (by omega), memcpy_out _ _ _ _ _ (by omega)]
        rfl
      rw [hins]
      rfl
    · obtain ⟨rl1, hins, hlen1, hcur1, _⟩ :=
        insert_front rl ((rl.cut k).toNat : Nat) hcur h0 (by omega)
      rw [hins]
      simp only [bind_ok]
      exact ih rl1 hcur1 (by omega) (by omega) (by omega) (by omega)

/-! ## C16: the length of the line -/

/-- C16 (evaluation of the code). In a fresh editor with a window 80 columns
wide the key `a` is typed 200 times, then C-u (cut to the start of the line) and
C-v (paste): the line again holds 200 characters, the clipboard holds the same
200, the cursor stands at 0. A second C-v runs `paste`, which calls `insert` 200
more times without the test `len < MAXLEN` made by `type`; the call made with
`len = 255` moves 256 characters to `buf[1..256]`, past the end of
`char buf[MAXLEN]`: the run has no defined result. -/
theorem paste_overflows :
    (∃ rl, rl_loop 80 (List.replicate 200 97 ++ [0x15, 0x16]) rl_start
        = Result.ok (false, rl) ∧ rl.len = 200 ∧ rl.cutlen = 200 ∧ rl.cur = 0) ∧
    rl_loop 80 (List.replicate 200 97 ++ [0x15, 0x16, 0x16]) rl_start
      = Result.undefined := by
  obtain ⟨rl1, hrun1, hmsg1, _, hcur1, hlen1, _⟩ :=
    type_run 80 (List.replicate 200 97) rl_start
      (fun c hc => by rw [List.eq_of_mem_replicate hc]; decide) rfl rfl rfl (le_refl _)
      (by rw [List.length_replicate]; decide)
  have hl1 : rl1.len = 200 := by
    rw [hlen1, List.length_replicate]
    rfl
  obtain ⟨rl2, hcut, hlen2, hcur2, hcl2, hmsg2, _⟩ :=
    cutb_ok rl1 (by omega) (by omega) (by omega)
  have hread2 : rl_read 80 0x15 rl1 = Result.ok (0x15, rl2) := by
    rw [rl_read_cutb 80 rl1 hmsg1, hcut]
    rfl
  obtain ⟨rl3, hpaste, hlen3, hcur3, _, hmsg3, _, _, hcl3, _⟩ :=
    paste_loop_front 200 rl2 hcur2 (by omega) (by omega)
  have hk : rl2.cutlen.toNat = 200 := by
    rw [hcl2, hcur1, hl1]
    rfl
  have hread3 : rl_read 80 0x16 rl2 = Result.ok (0x16, rl3) := by
    rw [rl_read_paste 80 rl2 (hmsg2.trans hmsg1)]
    unfold paste
    rw [if_neg (by omega), hk, hpaste]
    rfl
  have hread4 : rl_read 80 0x16 rl3 = Result.undefined := by
    rw [rl_read_paste 80 rl3 (hmsg3.trans (hmsg2.trans hmsg1))]
    unfold paste
    rw [if_neg (by omega), hcl3, hk,
      paste_loop_overflow 200 rl3 hcur3 (by omega) (by omega) (by omega) (by decide)]
    rfl
  constructor
  · refine ⟨rl3, ?_, by omega, by omega, hcur3⟩
    rw [rl_loop_append 80 _ _ rl_start rl1 hrun1,
      rl_loop_cons_ok 80 _ _ rl1 rl2 hread2 (by decide),
      rl_loop_cons_ok 80 _ _ rl2 rl3 hread3 (by decide)]
    rfl
  · rw [rl_loop_append 80 _ _ rl_start rl1 hrun1,
      rl_loop_cons_ok 80 _ _ rl1 rl2 hread2 (by decide),
      rl_loop_cons_ok 80 _ _ rl2 rl3 hread3 (by decide)]
    simp only [rl_loop, hread4, bind_undefined]

/-! ## Cutting the next word on an empty line -/

/-- The function `wordf` on an empty line: two rounds of the last loop, each
appending `buf[0]` to the clipboard. -/
theorem wordf_empty (b ct : Int → Char) (s n : Int) (m : Option (List Char)) (md : rlmode)
    (h0 : 0 ≤ n) (h1 : n ≤ 253) :
    wordf ⟨b, 0, 0, s, m, md, ct, n⟩ = Result.ok ⟨b, 0, 0, s, m, md,
      Function.update (Function.update (Function.update ct n (b 0)) (n + 1) (b 0))
        (n + 1 + 1) NUL, n + 1 + 1⟩ := by
  simp [wordf, wordf_skip, wordf_word, wordf_cut, load, del, MAXLEN]
  rw [store_ok ct n (b 0) h0 (by omega)]
  simp only [bind_ok]
  rw [store_ok _ (n + 1) (b 0) (by omega) (by omega)]
  simp only [bind_ok]
  rw [store_ok _ (n + 1 + 1) NUL (by omega) (by omega)]
  simp only [bind_ok]

/-- The function `wordf` on an empty line when the clipboard counts 254
characters: the terminating `cut[cutlen] = 0` has index 256. -/
theorem wordf_empty_full (b ct : Int → Char) (s n : Int) (m : Option (List Char))
    (md : rlmode) (h : n = 254) : wordf ⟨b, 0, 0, s, m, md, ct, n⟩ = Result.undefined := by
  simp [wordf, wordf_skip, wordf_word, wordf_cut, load, del, MAXLEN]
  rw [store_ok ct n (b 0) (by omega) (by omega)]
  simp only [bind_ok]
  rw [store_ok _ (n + 1) (b 0) (by omega) (by omega)]
  simp only [bind_ok]
  rw [store_out _ (n + 1 + 1) NUL (by omega)]
  rfl

theorem rl_read_wordf (w : Int) (rl : rlstate) (hmsg : rl.msg = none) :
    rl_read w 0x18 rl = (wordf rl >>= fun rl1 => Result.ok (0x18, rl1)) := by
  simp [rl_read, hmsg, KEY_NPAGE, KEY_PPAGE, KEY_UP, KEY_DOWN]

/-- The key C-x pressed `j` times on an empty line. -/
theorem wordf_run (w : Int) : ∀ (j : Nat) (rl : rlstate), rl.len = 0 → rl.cur = 0 →
    rl.msg = none → 0 ≤ rl.cutlen → rl.cutlen + 2 * j ≤ 255 →
    ∃ rl1, rl_loop w (List.replicate j 0x18) rl = Result.ok (false, rl1) ∧ rl1.len = 0 ∧
      rl1.cur = 0 ∧ rl1.msg = none ∧ rl1.cutlen = rl.cutlen + 2 * j := by
  intro j
  induction j with
  | zero =>
    intro rl hlen hcur hmsg _ _
    exact ⟨rl, rfl, hlen, hcur, hmsg, by simp⟩
  | succ j ih =>
    intro rl hlen hcur hmsg h0 h1
    simp only [Nat.cast_add, Nat.cast_one] at h1 ⊢
    obtain ⟨b, l, c, s, m, md, ct, n⟩ := rl
    simp only at hlen hcur hmsg h0 h1
    subst hlen hcur hmsg
    have hread : rl_read w 0x18 ⟨b, 0, 0, s, none, md, ct, n⟩ = Result.ok (0x18,
        ⟨b, 0, 0, s, none, md,
          Function.update (Function.update (Function.update ct n (b 0)) (n + 1) (b 0))
            (n + 1 + 1) NUL, n + 1 + 1⟩) := by
      rw [rl_read_wordf w _ rfl, wordf_empty b ct s n none md h0 (by omega)]
      rfl
    obtain ⟨rl1, hrun, hlen1, hcur1, hmsg1, hcl1⟩ := ih ⟨b, 0, 0, s, none, md,
        Function.update (Function.update (Function.update ct n (b 0)) (n + 1) (b 0))
          (n + 1 + 1) NUL, n + 1 + 1⟩ rfl rfl rfl
      (by show 0 ≤ n + 1 + 1; omega) (by show n + 1 + 1 + 2 * (j : Int) ≤ 255; omega)
    refine ⟨rl1, ?_, hlen1, hcur1, hmsg1, ?_⟩
    · rw [List.replicate_succ, rl_loop_cons_ok w _ _ _ _ hread (by decide)]
      exact hrun
    · rw [hcl1]
      show n + 1 + 1 + 2 * (j : Int) = n + 2 * ((j : Int) + 1)
      omega

/-! ## C17: the length of the clipboard -/

/-- C17 (evaluation of the code). In a fresh editor with a window 80 columns
wide the key C-x (cut next word) is pressed. On the empty line `wordf` starts
with `dst = cur + 1 = 1`, leaves `cutlen` as it is and runs its last loop for
`cur = 0 ≤ dst = 1, 0`: each press appends two characters to the clipboard.
After 127 presses `cutlen = 254`. The 128th press writes `cut[254]`, `cut[255]`
and then the terminating `cut[256] = 0`, past the end of `char cut[MAXLEN]`: the
run has no defined result. -/
theorem wordf_overflows :
    (∃ rl, rl_loop 80 (List.replicate 127 0x18) rl_start = Result.ok (false, rl) ∧
      rl.cutlen = 254 ∧ rl.len = 0) ∧
    rl_loop 80 (List.replicate 127 0x18 ++ [0x18]) rl_start = Result.undefined := by
  obtain ⟨rl1, hrun, hlen, hcur, hmsg, hcl⟩ :=
    wordf_run 80 127 rl_start rfl rfl rfl (le_refl _) (by decide)
  have hcl1 : rl1.cutlen = 254 := by
    rw [hcl]
    rfl
  refine ⟨⟨rl1, hrun, hcl1, hlen⟩, ?_⟩
  rw [rl_loop_append 80 _ _ rl_start rl1 hrun]
  obtain ⟨b, l, c, s, m, md, ct, n⟩ := rl1
  simp only at hlen hcur hmsg hcl1
  subst hlen hcur hmsg
  have hread : rl_read 80 0x18 ⟨b, 0, 0, s, none, md, ct, n⟩ = Result.undefined := by
    rw [rl_read_wordf 80 _ rfl, wordf_empty_full b ct s n none md hcl1]
    rfl
  simp only [rl_loop, hread, bind_undefined]

/-! ## The ordering of scroll position, cursor and length -/

theorem bind_eq_ok {α β : Type} {r : Result α} {f : α → Result β} {b : β}
    (h : (r >>= f) = Result.ok b) : ∃ a, r = Result.ok a ∧ f a = Result.ok b := by
  cases r with
  | ok a => exact ⟨a, rfl, h⟩
  | raised ty m => cases h
  | died => cases h
  | undefined => cases h
  | nofuel => cases h

theorem left_ordered (rl : rlstate) (h : ordered rl) : ordered (left rl) := by
  obtain ⟨h0, h1, h2⟩ := h
  unfold ordered left
  dsimp only
  split_ifs <;> omega

theorem right_ordered (w : Int) (hw : 1 ≤ w) (rl : rlstate) (h : ordered rl) :
    ordered (right w rl) := by
  obtain ⟨h0, h1, h2⟩ := h
  unfold ordered right
  dsimp only
  split_ifs <;> omega

theorem del_fields {rl rl1 : rlstate} (h : del rl = Result.ok rl1) :
    rl1.cur = rl.cur ∧ rl1.scr = rl.scr ∧
      (rl1.len = rl.len ∨ (rl1.len = rl.len - 1 ∧ rl.cur ≠ rl.len)) := by
  unfold del at h
  by_cases hc : rl.len ≤ 0 ∨ rl.cur = rl.len
  · rw [if_pos hc] at h
    cases h
    exact ⟨rfl, rfl, Or.inl rfl⟩
  · rw [if_neg hc] at h
    obtain ⟨b1, _, h⟩ := bind_eq_ok h
    obtain ⟨b2, _, h⟩ := bind_eq_ok h
    cases h
    exact ⟨rfl, rfl, Or.inr ⟨rfl, fun e => hc (Or.inr e)⟩⟩

theorem del_ordered {rl rl1 : rlstate} (h : del rl = Result.ok rl1) (ho : ordered rl) :
    ordered rl1 := by
  obtain ⟨hcur, hscr, hlen⟩ := del_fields h
  obtain ⟨h0, h1, h2⟩ := ho
  unfold ordered
  rw [hcur, hscr]
  rcases hlen with e | ⟨e, hne⟩ <;> rw [e] <;> omega

theorem bksp_ordered {rl rl1 : rlstate} (h : bksp rl = Result.ok rl1) (ho : ordered rl) :
    ordered rl1 := by
  unfold bksp at h
  by_cases hc : rl.cur ≤ 0
  · rw [if_pos hc] at h
    cases h
    exact ho
  · rw [if_neg hc] at h
    exact del_ordered h (left_ordered rl ho)

theorem insert_fields {rl rl1 : rlstate} {c : Int} (h : insert rl c = Result.ok rl1) :
    rl1.cur = rl.cur ∧ rl1.scr = rl.scr ∧ rl1.len = rl.len + 1 := by
  unfold insert at h
  dsimp only at h
  split_ifs at h
  all_goals
    obtain ⟨b1, _, h⟩ := bind_eq_ok h
    obtain ⟨b2, _, h⟩ := bind_eq_ok h
    obtain ⟨b3, _, h⟩ := bind_eq_ok h
    cases h
    exact ⟨rfl, rfl, rfl⟩

theorem insert_ordered {rl rl1 : rlstate} {c : Int} (h : insert rl c = Result.ok rl1)
    (ho : ordered rl) : ordered rl1 := by
  obtain ⟨hcur, hscr, hlen⟩ := insert_fields h
  obtain ⟨h0, h1, h2⟩ := ho
  unfold ordered
  rw [hcur, hscr, hlen]
  omega

theorem type_ordered {w c : Int} (hw : 1 ≤ w) {rl rl1 : rlstate}
    (h : type w rl c = Result.ok rl1) (ho : ordered rl) : ordered rl1 := by
  unfold type at h
  split_ifs at h
  · cases h
    exact ho
  · obtain ⟨rl2, h2, h⟩ := bind_eq_ok h
    cases h
    unfold replace at h2
    obtain ⟨rl3, h3, h2⟩ := bind_eq_ok h2
    exact right_ordered w hw _ (insert_ordered h2 (del_ordered h3 ho))
  · obtain ⟨rl2, h2, h⟩ := bind_eq_ok h
    cases h
    exact right_ordered w hw _ (insert_ordered h2 ho)
  · cases h
    exact ho

theorem paste_loop_ordered : ∀ (k : Nat) {rl rl1 : rlstate},
    paste_loop k rl = Result.ok rl1 → ordered rl → ordered rl1 := by
  intro k
  induction k with
  | zero =>
    intro rl rl1 h ho
    simp only [paste_loop] at h
    cases h
    exact ho
  | succ k ih =>
    intro rl rl1 h ho
    simp only [paste_loop] at h
    obtain ⟨c, _, h⟩ := bind_eq_ok h
    obtain ⟨rl2, h2, h⟩ := bind_eq_ok h
    exact ih h (insert_ordered h2 ho)

theorem paste_ordered {rl rl1 : rlstate} (h : paste rl = Result.ok rl1) (ho : ordered rl) :
    ordered rl1 := by
  unfold paste at h
  split_ifs at h
  · cases h
    exact ho
  · exact paste_loop_ordered _ h ho

theorem wordb_cut_ordered (dst : Int) : ∀ (f : Nat) {rl rl1 : rlstate},
    wordb_cut dst f rl = Result.ok rl1 → ordered rl → ordered rl1 := by
  intro f
  induction f with
  | zero =>
    intro rl rl1 h _
    cases h
  | succ f ih =>
    intro rl rl1 h ho
    simp only [wordb_cut] at h
    split_ifs at h
    · obtain ⟨c, _, h⟩ := bind_eq_ok h
      obtain ⟨cut1, _, h⟩ := bind_eq_ok h
      obtain ⟨rl2, h2, h⟩ := bind_eq_ok h
      exact ih h (bksp_ordered h2 ho)
    · cases h
      exact ho

theorem wordb_ordered {rl rl1 : rlstate} (h : wordb rl = Result.ok rl1) (ho : ordered rl) :
    ordered rl1 := by
  unfold wordb at h
  dsimp only at h
  obtain ⟨dst1, _, h⟩ := bind_eq_ok h
  obtain ⟨dst2, _, h⟩ := bind_eq_ok h
  obtain ⟨rl2, h2, h⟩ := bind_eq_ok h
  obtain ⟨cut3, _, h⟩ := bind_eq_ok h
  cases h
  have ho1 : ordered (if dst2 ≠ rl.cur - 1 then { rl with cutlen := 0 } else rl) := by
    split_ifs
    · exact ho
    · exact ho
  have ho2 : ordered rl2 := wordb_cut_ordered dst2 _ h2 ho1
  exact ho2

theorem wordf_cut_ordered : ∀ (f : Nat) {dst : Int} {rl rl1 : rlstate},
    wordf_cut f dst rl = Result.ok rl1 → ordered rl → ordered rl1 := by
  intro f
  induction f with
  | zero =>
    intro dst rl rl1 h _
    cases h
  | succ f ih =>
    intro dst rl rl1 h ho
    simp only [wordf_cut] at h
    split_ifs at h
    · obtain ⟨c, _, h⟩ := bind_eq_ok h
      obtain ⟨cut1, _, h⟩ := bind_eq_ok h
      obtain ⟨rl2, h2, h⟩ := bind_eq_ok h
      exact ih h (del_ordered h2 ho)
    · cases h
      exact ho

theorem wordf_ordered {rl rl1 : rlstate} (h : wordf rl = Result.ok rl1) (ho : ordered rl) :
    ordered rl1 := by
  unfold wordf at h
  dsimp only at h
  obtain ⟨dst1, _, h⟩ := bind_eq_ok h
  obtain ⟨dst2, _, h⟩ := bind_eq_ok h
  obtain ⟨rl2, h2, h⟩ := bind_eq_ok h
  obtain ⟨cut3, _, h⟩ := bind_eq_ok h
  cases h
  have ho1 : ordered (if dst2 ≠ rl.cur + 1 then { rl with cutlen := 0 } else rl) := by
    split_ifs
    · exact ho
    · exact ho
  have ho2 : ordered rl2 := wordf_cut_ordered _ h2 ho1
  exact ho2

theorem home_ordered (rl : rlstate) (ho : ordered rl) : ordered (home rl) := by
  obtain ⟨h0, h1, h2⟩ := ho
  unfold ordered home left
  dsimp only
  split_ifs <;> omega

theorem rl_end_ordered (w : Int) (hw : 1 ≤ w) (rl : rlstate) (ho : ordered rl) :
    ordered (rl_end w rl) := by
  obtain ⟨h0, h1, h2⟩ := ho
  exact right_ordered w hw _ ⟨h0, by show rl.scr ≤ rl.len; omega, le_refl _⟩

theorem cutb_ordered {rl rl1 : rlstate} (h : cutb rl = Result.ok rl1) (ho : ordered rl) :
    ordered rl1 := by
  obtain ⟨h0, h1, h2⟩ := ho
  unfold cutb at h
  dsimp only at h
  split_ifs at h
  · obtain ⟨c1, _, h⟩ := bind_eq_ok h
    obtain ⟨c2, _, h⟩ := bind_eq_ok h
    obtain ⟨rl2, h2, h⟩ := bind_eq_ok h
    cases h2
    obtain ⟨b1, _, h⟩ := bind_eq_ok h
    obtain ⟨b2, _, h⟩ := bind_eq_ok h
    cases h
    unfold ordered left
    dsimp only
    split_ifs <;> omega
  · obtain ⟨rl2, h2, h⟩ := bind_eq_ok h
    cases h2
    obtain ⟨b1, _, h⟩ := bind_eq_ok h
    obtain ⟨b2, _, h⟩ := bind_eq_ok h
    cases h
    unfold ordered left
    dsimp only
    split_ifs <;> omega

theorem cutf_ordered {w : Int} (hw : 1 ≤ w) {rl rl1 : rlstate}
    (h : cutf w rl = Result.ok rl1) (ho : ordered rl) : ordered rl1 := by
  obtain ⟨h0, h1, h2⟩ := ho
  unfold cutf at h
  dsimp only at h
  split_ifs at h
  · obtain ⟨c1, _, h⟩ := bind_eq_ok h
    obtain ⟨c2, _, h⟩ := bind_eq_ok h
    obtain ⟨rl2, h2, h⟩ := bind_eq_ok h
    cases h2
    obtain ⟨b1, _, h⟩ := bind_eq_ok h
    cases h
    exact right_ordered w hw _ ⟨h0, h1, le_refl _⟩
  · obtain ⟨rl2, h2, h⟩ := bind_eq_ok h
    cases h2
    obtain ⟨b1, _, h⟩ := bind_eq_ok h
    cases h
    exact right_ordered w hw _ ⟨h0, h1, le_refl _⟩

/-- One key that does not end the session keeps the ordering. -/
theorem rl_read_ordered {w c r : Int} (hw : 1 ≤ w) {rl rl1 : rlstate}
    (h : rl_read w c rl = Result.ok (r, rl1)) (hr : r ≠ 10) (ho : ordered rl) :
    ordered rl1 := by
  unfold rl_read at h
  by_cases c0 : rl.msg ≠ none
  · rw [if_pos c0] at h
    cases h
    exact ho
  rw [if_neg c0] at h
  by_cases c1 : c = 0x1F ∨ c = 9
  · rw [if_pos c1] at h
    cases h
    exact ho
  rw [if_neg c1] at h
  by_cases c2 : c = KEY_NPAGE ∨ c = KEY_PPAGE ∨ c = KEY_UP ∨ c = KEY_DOWN
  · rw [if_pos c2] at h
    cases h
    exact ho
  rw [if_neg c2] at h
  by_cases c3 : c = 10 ∨ c = 13
  · rw [if_pos c3] at h
    cases h
    exact ho
  rw [if_neg c3] at h
  by_cases c4 : c = 0x03
  · rw [if_pos c4] at h
    cases h
    exact absurd rfl hr
  rw [if_neg c4] at h
  by_cases c5 : c = 0x0B
  · rw [if_pos c5] at h
    obtain ⟨rl2, h2, h⟩ := bind_eq_ok h
    cases h
    exact cutf_ordered hw h2 ho
  rw [if_neg c5] at h
  by_cases c6 : c = 0x15
  · rw [if_pos c6] at h
    obtain ⟨rl2, h2, h⟩ := bind_eq_ok h
    cases h
    exact cutb_ordered h2 ho
  rw [if_neg c6] at h
  by_cases c7 : c = 0x17
  · rw [if_pos c7] at h
    obtain ⟨rl2, h2, h⟩ := bind_eq_ok h
    cases h
    exact wordb_ordered h2 ho
  rw [if_neg c7] at h
  by_cases c8 : c = 0x18
  · rw [if_pos c8] at h
    obtain ⟨rl2, h2, h⟩ := bind_eq_ok h
    cases h
    exact wordf_ordered h2 ho
  rw [if_neg c8] at h
  by_cases c9 : c = 0x16 ∨ c = 0x19
  · rw [if_pos c9] at h
    obtain ⟨rl2, h2, h⟩ := bind_eq_ok h
    cases h
    exact paste_ordered h2 ho
  rw [if_neg c9] at h
  by_cases c10 : c = 0x02 ∨ c = KEY_LEFT
  · rw [if_pos c10] at h
    cases h
    exact left_ordered _ ho
  rw [if_neg c10] at h
  by_cases c11 : c = 0x06 ∨ c = KEY_RIGHT
  · rw [if_pos c11] at h
    cases h
    exact right_ordered w hw _ ho
  rw [if_neg c11] at h
  by_cases c12 : c = 0x01 ∨ c = KEY_HOME
  · rw [if_pos c12] at h
    cases h
    exact home_ordered _ ho
  rw [if_neg c12] at h
  by_cases c13 : c = 0x05 ∨ c = KEY_END
  · rw [if_pos c13] at h
    cases h
    exact rl_end_ordered w hw _ ho
  rw [if_neg c13] at h
  by_cases c14 : c = 0x08 ∨ c = 0x7F ∨ c = KEY_BACKSPACE
  · rw [if_pos c14] at h
    obtain ⟨rl2, h2, h⟩ := bind_eq_ok h
    cases h
    exact bksp_ordered h2 ho
  rw [if_neg c14] at h
  by_cases c15 : c = 0x04 ∨ c = KEY_DC
  · rw [if_pos c15] at h
    obtain ⟨rl2, h2, h⟩ := bind_eq_ok h
    cases h
    exact del_ordered h2 ho
  rw [if_neg c15] at h
  obtain ⟨rl2, h2, h⟩ := bind_eq_ok h
  cases h
  exact type_ordered hw h2 ho

theorem rl_loop_ordered {w : Int} (hw : 1 ≤ w) : ∀ (keys : List Int) {rl rl1 : rlstate},
    rl_loop w keys rl = Result.ok (false, rl1) → ordered rl → ordered rl1 := by
  intro keys
  induction keys with
  | nil =>
    intro rl rl1 h ho
    simp only [rl_loop, Result.ok.injEq, Prod.mk.injEq, true_and] at h
    rw [← h]
    exact ho
  | cons c cs ih =>
    intro rl rl1 h ho
    simp only [rl_loop] at h
    obtain ⟨p, hp, h⟩ := bind_eq_ok h
    obtain ⟨r, rl2⟩ := p
    dsimp only at h
    split_ifs at h with h10
    · simp at h
    · exact ih h (rl_read_ordered hw hp h10 ho)

theorem rl_set_ordered (rl : rlstate) (str : List Char) : ordered (rl_set rl str) := by
  unfold ordered rl_set
  dsimp only
  refine ⟨le_refl _, ?_, ?_⟩
  · exact le_refl _
  · split_ifs
    · rw [MAXLEN_eq]
      decide
    · exact Int.ofNat_nonneg _

/-! ## The loops of the embedding get rounds enough -/

theorem bind_fuel {α β : Type} {r : Result α} {f : α → Result β} (hr : r ≠ Result.nofuel)
    (hf : ∀ a, r = Result.ok a → f a ≠ Result.nofuel) : (r >>= f) ≠ Result.nofuel := by
  cases r with
  | ok a => exact hf a rfl
  | raised ty m => intro h; cases h
  | died => intro h; cases h
  | undefined => intro h; cases h
  | nofuel => exact absurd rfl hr

theorem ok_fuel {α : Type} (a : α) : (Result.ok a : Result α) ≠ Result.nofuel := by
  intro h
  cases h

theorem undefined_fuel {α : Type} : (Result.undefined : Result α) ≠ Result.nofuel := by
  intro h
  cases h

theorem load_fuel (a : Int → Char) (i : Int) : load a i ≠ Result.nofuel := by
  unfold load
  split_ifs
  · exact ok_fuel _
  · exact undefined_fuel

theorem store_fuel (a : Int → Char) (i : Int) (c : Char) : store a i c ≠ Result.nofuel := by
  unfold store
  split_ifs
  · exact ok_fuel _
  · exact undefined_fuel

theorem memcpy_fuel (dst : Int → Char) (d : Int) (src : Int → Char) (s n : Int) :
    memcpy dst d src s n ≠ Result.nofuel := by
  unfold memcpy
  split_ifs
  · exact ok_fuel _
  · exact undefined_fuel

theorem memset_fuel (a : Int → Char) (d n : Int) : memset a d n ≠ Result.nofuel := by
  unfold memset
  split_ifs
  · exact ok_fuel _
  · exact undefined_fuel

theorem del_fuel (rl : rlstate) : del rl ≠ Result.nofuel := by
  unfold del
  split_ifs
  · exact ok_fuel _
  · exact bind_fuel (memcpy_fuel _ _ _ _ _)
      (fun _ _ => bind_fuel (memset_fuel _ _ _) (fun _ _ => ok_fuel _))

theorem bksp_fuel (rl : rlstate) : bksp rl ≠ Result.nofuel := by
  unfold bksp
  split_ifs
  · exact ok_fuel _
  · exact del_fuel _

theorem insert_fuel (rl : rlstate) (c : Int) : insert rl c ≠ Result.nofuel := by
  unfold insert
  dsimp only
  split_ifs
  · exact bind_fuel (memcpy_fuel _ _ _ _ _) (fun _ _ => bind_fuel (store_fuel _ _ _)
      (fun _ _ => bind_fuel (store_fuel _ _ _) (fun _ _ => ok_fuel _)))
  · exact bind_fuel (ok_fuel _) (fun _ _ => bind_fuel (store_fuel _ _ _)
      (fun _ _ => bind_fuel (store_fuel _ _ _) (fun _ _ => ok_fuel _)))

theorem type_fuel (w : Int) (rl : rlstate) (c : Int) : type w rl c ≠ Result.nofuel := by
  unfold type replace
  split_ifs
  · exact ok_fuel _
  · exact bind_fuel (bind_fuel (del_fuel _) (fun _ _ => insert_fuel _ _))
      (fun _ _ => ok_fuel _)
  · exact bind_fuel (insert_fuel _ _) (fun _ _ => ok_fuel _)
  · exact ok_fuel _

theorem paste_loop_fuel : ∀ (k : Nat) (rl : rlstate), paste_loop k rl ≠ Result.nofuel := by
  intro k
  induction k with
  | zero =>
    intro rl
    exact ok_fuel _
  | succ k ih =>
    intro rl
    simp only [paste_loop]
    exact bind_fuel (load_fuel _ _) (fun _ _ => bind_fuel (insert_fuel _ _)
      (fun rl1 _ => ih rl1))

theorem paste_fuel (rl : rlstate) : paste rl ≠ Result.nofuel := by
  unfold paste
  split_ifs
  · exact ok_fuel _
  · exact paste_loop_fuel _ _

theorem cutb_fuel (rl : rlstate) : cutb rl ≠ Result.nofuel := by
  have hrest : ∀ rl1 : rlstate, (do
      let b1 ← memmove rl1.buf 0 rl1.cur (rl1.len - rl1.cur)
      let b2 ← memset b1 (rl1.len - rl1.cur) (MAXLEN - (rl1.len - rl1.cur))
      Result.ok (left { rl1 with buf := b2, len := rl1.len - rl1.cur, cur := 0 }))
        ≠ Result.nofuel := fun rl1 =>
    bind_fuel (memcpy_fuel _ _ _ _ _)
      (fun _ _ => bind_fuel (memset_fuel _ _ _) (fun _ _ => ok_fuel _))
  unfold cutb
  dsimp only
  split_ifs
  · exact bind_fuel (memcpy_fuel _ _ _ _ _) (fun _ _ => bind_fuel (store_fuel _ _ _)
      (fun _ _ => bind_fuel (ok_fuel _) (fun rl1 _ => hrest rl1)))
  · exact bind_fuel (ok_fuel _) (fun rl1 _ => hrest rl1)

theorem cutf_fuel (w : Int) (rl : rlstate) : cutf w rl ≠ Result.nofuel := by
  have hrest : ∀ rl1 : rlstate, (do
      let b1 ← memset rl1.buf rl1.cur (MAXLEN - rl1.cur)
      Result.ok (right w { rl1 with len := rl1.cur, buf := b1 })) ≠ Result.nofuel :=
    fun rl1 => bind_fuel (memset_fuel _ _ _) (fun _ _ => ok_fuel _)
  unfold cutf
  dsimp only
  split_ifs
  · exact bind_fuel (memcpy_fuel _ _ _ _ _) (fun _ _ => bind_fuel (store_fuel _ _ _)
      (fun _ _ => bind_fuel (ok_fuel _) (fun rl1 _ => hrest rl1)))
  · exact bind_fuel (ok_fuel _) (fun rl1 _ => hrest rl1)

theorem wordb_skip_fuel (buf : Int → Char) : ∀ (f : Nat) (dst : Int), dst.toNat < f →
    wordb_skip buf f dst ≠ Result.nofuel := by
  intro f
  induction f with
  | zero =>
    intro dst h
    omega
  | succ f ih =>
    intro dst h
    simp only [wordb_skip]
    split_ifs with hd
    · refine bind_fuel (load_fuel _ _) (fun c _ => ?_)
      split_ifs
      · exact ih _ (by omega)
      · exact ok_fuel _
    · exact ok_fuel _

theorem wordb_word_fuel (buf : Int → Char) : ∀ (f : Nat) (dst : Int), dst.toNat < f →
    wordb_word buf f dst ≠ Result.nofuel := by
  intro f
  induction f with
  | zero =>
    intro dst h
    omega
  | succ f ih =>
    intro dst h
    simp only [wordb_word]
    split_ifs with hd
    · refine bind_fuel (load_fuel _ _) (fun c _ => ?_)
      split_ifs
      · exact ih _ (by omega)
      · exact ok_fuel _
    · exact ok_fuel _

theorem bksp_cur {rl rl1 : rlstate} (h : bksp rl = Result.ok rl1) (hpos : 0 < rl.cur) :
    rl1.cur = rl.cur - 1 := by
  unfold bksp at h
  rw [if_neg (by omega)] at h
  rw [(del_fields h).1, (left_fields rl).2.2.2.2.2.2, if_neg (by omega)]

theorem wordb_cut_fuel (dst : Int) : ∀ (f : Nat) (rl : rlstate), rl.cur.toNat < f →
    wordb_cut dst f rl ≠ Result.nofuel := by
  intro f
  induction f with
  | zero =>
    intro rl h
    omega
  | succ f ih =>
    intro rl h
    simp only [wordb_cut]
    split_ifs with hd
    · refine bind_fuel (load_fuel _ _) (fun c _ => bind_fuel (store_fuel _ _ _)
        (fun cut1 _ => bind_fuel (bksp_fuel _) (fun rl1 h1 => ih rl1 ?_)))
      have := bksp_cur h1 hd.2
      dsimp only at this
      omega
    · exact ok_fuel _

theorem wordb_fuel (rl : rlstate) : wordb rl ≠ Result.nofuel := by
  unfold wordb
  dsimp only
  exact bind_fuel (wordb_skip_fuel _ _ _ (by omega)) (fun dst1 _ =>
    bind_fuel (wordb_word_fuel _ _ _ (by omega)) (fun dst2 _ =>
      bind_fuel (wordb_cut_fuel _ _ _ (by omega)) (fun rl2 _ =>
        bind_fuel (store_fuel _ _ _) (fun _ _ => ok_fuel _))))

theorem wordf_skip_fuel (buf : Int → Char) (len : Int) : ∀ (f : Nat) (dst : Int),
    (len - dst).toNat < f → wordf_skip buf len f dst ≠ Result.nofuel := by
  intro f
  induction f with
  | zero =>
    intro dst h
    omega
  | succ f ih =>
    intro dst h
    simp only [wordf_skip]
    split_ifs with hd
    · refine bind_fuel (load_fuel _ _) (fun c _ => ?_)
      split_ifs
      · exact ih _ (by omega)
      · exact ok_fuel _
    · exact ok_fuel _

theorem wordf_word_fuel (buf : Int → Char) (len : Int) : ∀ (f : Nat) (dst : Int),
    (len - dst).toNat < f → wordf_word buf len f dst ≠ Result.nofuel := by
  intro f
  induction f with
  | zero =>
    intro dst h
    omega
  | succ f ih =>
    intro dst h
    simp only [wordf_word]
    split_ifs with hd
    · refine bind_fuel (load_fuel _ _) (fun c _ => ?_)
      split_ifs
      · exact ih _ (by omega)
      · exact ok_fuel _
    · exact ok_fuel _

theorem wordf_cut_fuel : ∀ (f : Nat) (dst : Int) (rl : rlstate),
    (dst - rl.cur + 1).toNat < f → wordf_cut f dst rl ≠ Result.nofuel := by
  intro f
  induction f with
  | zero =>
    intro dst rl h
    omega
  | succ f ih =>
    intro dst rl h
    simp only [wordf_cut]
    split_ifs with hd
    · refine bind_fuel (load_fuel _ _) (fun c _ => bind_fuel (store_fuel _ _ _)
        (fun cut1 _ => bind_fuel (del_fuel _) (fun rl1 h1 => ih _ rl1 ?_)))
      have := (del_fields h1).1
      dsimp only at this
      omega
    · exact ok_fuel _

theorem wordf_fuel (rl : rlstate) : wordf rl ≠ Result.nofuel := by
  unfold wordf
  dsimp only
  exact bind_fuel (wordf_skip_fuel _ _ _ _ (by omega)) (fun dst1 _ =>
    bind_fuel (wordf_word_fuel _ _ _ _ (by omega)) (fun dst2 _ =>
      bind_fuel (wordf_cut_fuel _ _ _ (by omega)) (fun rl2 _ =>
        bind_fuel (store_fuel _ _ _) (fun _ _ => ok_fuel _))))

theorem rl_read_fuel (w c : Int) (rl : rlstate) : rl_read w c rl ≠ Result.nofuel := by
  unfold rl_read
  by_cases c0 : rl.msg ≠ none
  · rw [if_pos c0]
    exact ok_fuel _
  rw [if_neg c0]
  by_cases c1 : c = 0x1F ∨ c = 9
  · rw [if_pos c1]
    exact ok_fuel _
  rw [if_neg c1]
  by_cases c2 : c = KEY_NPAGE ∨ c = KEY_PPAGE ∨ c = KEY_UP ∨ c = KEY_DOWN
  · rw [if_pos c2]
    exact ok_fuel _
  rw [if_neg c2]
  by_cases c3 : c = 10 ∨ c = 13
  · rw [if_pos c3]
    exact ok_fuel _
  rw [if_neg c3]
  by_cases c4 : c = 0x03
  · rw [if_pos c4]
    exact ok_fuel _
  rw [if_neg c4]
  by_cases c5 : c = 0x0B
  · rw [if_pos c5]
    exact bind_fuel (cutf_fuel w rl) (fun _ _ => ok_fuel _)
  rw [if_neg c5]
  by_cases c6 : c = 0x15
  · rw [if_pos c6]
    exact bind_fuel (cutb_fuel rl) (fun _ _ => ok_fuel _)
  rw [if_neg c6]
  by_cases c7 : c = 0x17
  · rw [if_pos c7]
    exact bind_fuel (wordb_fuel rl) (fun _ _ => ok_fuel _)
  rw [if_neg c7]
  by_cases c8 : c = 0x18
  · rw [if_pos c8]
    exact bind_fuel (wordf_fuel rl) (fun _ _ => ok_fuel _)
  rw [if_neg c8]
  by_cases c9 : c = 0x16 ∨ c = 0x19
  · rw [if_pos c9]
    exact bind_fuel (paste_fuel rl) (fun _ _ => ok_fuel _)
  rw [if_neg c9]
  by_cases c10 : c = 0x02 ∨ c = KEY_LEFT
  · rw [if_pos c10]
    exact ok_fuel _
  rw [if_neg c10]
  by_cases c11 : c = 0x06 ∨ c = KEY_RIGHT
  · rw [if_pos c11]
    exact ok_fuel _
  rw [if_neg c11]
  by_cases c12 : c = 0x01 ∨ c = KEY_HOME
  · rw [if_pos c12]
    exact ok_fuel _
  rw [if_neg c12]
  by_cases c13 : c = 0x05 ∨ c = KEY_END
  · rw [if_pos c13]
    exact ok_fuel _
  rw [if_neg c13]
  by_cases c14 : c = 0x08 ∨ c = 0x7F ∨ c = KEY_BACKSPACE
  · rw [if_pos c14]
    exact bind_fuel (bksp_fuel rl) (fun _ _ => ok_fuel _)
  rw [if_neg c14]
  by_cases c15 : c = 0x04 ∨ c = KEY_DC
  · rw [if_pos c15]
    exact bind_fuel (del_fuel rl) (fun _ _ => ok_fuel _)
  rw [if_neg c15]
  exact bind_fuel (type_fuel w rl c) (fun _ _ => ok_fuel _)

theorem rl_loop_fuel (w : Int) : ∀ (keys : List Int) (rl : rlstate),
    rl_loop w keys rl ≠ Result.nofuel := by
  intro keys
  induction keys with
  | nil =>
    intro rl
    exact ok_fuel _
  | cons c cs ih =>
    intro rl
    simp only [rl_loop]
    refine bind_fuel (rl_read_fuel w c rl) (fun p _ => ?_)
    obtain ⟨r, rl1⟩ := p
    dsimp only
    split_ifs
    · exact ok_fuel _
    · exact ih rl1

/-! ## Cursor and scroll position in runs with a defined result -/

/-- Let the window be at least one column wide and let the editor start in the
state made by `rl_start`, or by `rl_start` and `rl_set`. For every sequence of
keys the loop of `prompt` gets a result in the embedding (its loops never run out
of rounds), and when that result is defined (no access outside `buf` and `cut`)
and the session is still open after these keys, the state satisfies
`0 ≤ scr ≤ cur ≤ len`. -/
theorem cursor_scroll_ordered (w : Int) (hw : 1 ≤ w) (keys : List Int) (rl0 : rlstate)
    (h0 : rl0 = rl_start ∨ ∃ str, rl0 = rl_set rl_start str) :
    rl_loop w keys rl0 ≠ Result.nofuel ∧
    ∀ rl, rl_loop w keys rl0 = Result.ok (false, rl) →
      0 ≤ rl.scr ∧ rl.scr ≤ rl.cur ∧ rl.cur ≤ rl.len := by
  refine ⟨rl_loop_fuel w keys rl0, fun rl hrun => ?_⟩
  have hstart : ordered rl0 := by
    rcases h0 with e | ⟨str, e⟩
    · rw [e]
      exact ⟨le_refl _, le_refl _, le_refl _⟩
    · rw [e]
      exact rl_set_ordered _ _
  exact rl_loop_ordered hw keys hrun hstart

/-- An instance: a window 80 columns wide, the keys `a`, `b`, left arrow,
C-w (cut previous word), C-v (paste) typed into a fresh editor. -/
theorem cursor_scroll_ordered_witness :
    (1 : Int) ≤ 80 ∧ ∃ rl, rl_loop 80 [97, 98, 260, 0x17, 0x16] rl_start
        = Result.ok (false, rl) ∧
      rl.len = 2 ∧ rl.cur = 0 ∧ 0 ≤ rl.scr ∧ rl.scr ≤ rl.cur ∧ rl.cur ≤ rl.len :=
  ⟨by decide, _, rfl, rfl, rfl,
    (cursor_scroll_ordered 80 (by decide) [97, 98, 260, 0x17, 0x16] rl_start
      (Or.inl rfl)).2 _ rfl⟩

end Readline

/-! # Part 3, continued: paste at any cursor position (C25) -/

namespace Readline

open Store (bind_ok pure_eq_ok)

/-- A character inserted at the cursor of a line of at most 254 characters: the
characters before the cursor stay, the others move one cell to the right. -/
theorem insert_at (rl : rlstate) (c : Int) (h0 : 0 ≤ rl.cur) (h1 : rl.cur ≤ rl.len)
    (h2 : rl.len < 255) :
    ∃ rl1, insert rl c = Result.ok rl1 ∧ rl1.len = rl.len + 1 ∧ rl1.cur = rl.cur ∧
      rl1.scr = rl.scr ∧ rl1.msg = rl.msg ∧ rl1.mode = rl.mode ∧ rl1.cut = rl.cut ∧
      rl1.cutlen = rl.cutlen ∧
      (∀ i, 0 ≤ i → i < rl.cur → rl1.buf i = rl.buf i) ∧
      rl1.buf rl.cur = Char.ofNat (c % 128).toNat ∧
      ∀ i, rl.cur < i → i ≤ rl.len → rl1.buf i = rl.buf (i - 1) := by
  by_cases hl : rl.cur = rl.len
  · refine ⟨_, insert_end rl c hl (by omega) h2, rfl, rfl, rfl, rfl, rfl, rfl, rfl, ?_, ?_, ?_⟩
    · intro i hi0 hi1
      dsimp only
      rw [Function.update_noteq (by omega), Function.update_noteq (by omega)]
    · dsimp only
      rw [Function.update_noteq (by omega), hl, Function.update_same]
    · intro i hi1 hi2
      omega
  · have hmm := memcpy_ok rl.buf (rl.cur + 1) rl.buf rl.cur (rl.len - rl.cur + 1) (by omega)
      (by omega) (by omega) (by omega) (by omega)
    refine ⟨{ rl with
        buf := Function.update (Function.update
          (fun i => if rl.cur + 1 ≤ i ∧ i < rl.cur + 1 + (rl.len - rl.cur + 1)
            then rl.buf (i - (rl.cur + 1) + rl.cur) else rl.buf i)
          rl.cur (Char.ofNat (c % 128).toNat)) (rl.len + 1) NUL
        len := rl.len + 1 }, ?_, rfl, rfl, rfl, rfl, rfl, rfl, rfl, ?_, ?_, ?_⟩
    · unfold insert
      rw [if_pos hl]
      unfold memmove
      rw [hmm]
      simp only [bind_ok]
      rw [store_ok _ _ _ (by omega) (by omega)]
      simp only [bind_ok]
      rw [store_ok _ _ _ (by omega) (by omega)]
      simp only [bind_ok]
    · intro i hi0 hi1
      dsimp only
      rw [Function.update_noteq (by omega), Function.update_noteq (by omega),
        if_neg (by omega)]
    · dsimp only
      rw [Function.update_noteq (by omega), Function.update_same]
    · intro i hi1 hi2
      dsimp only
      rw [Function.update_noteq (by omega), Function.update_noteq (by omega),
        if_pos (by omega)]
      congr 1
      omega

/-- The loop of `paste` at any cursor position: the first `k` clipboard cells,
seven bits of each character, are put between the text before the cursor and the
text from the cursor on, in the order of the clipboard. -/
theorem paste_loop_at : ∀ (k : Nat) (rl : rlstate), 0 ≤ rl.cur → rl.cur ≤ rl.len →
    rl.len + k ≤ 255 →
    ∃ rl1, paste_loop k rl = Result.ok rl1 ∧ rl1.len = rl.len + k ∧ rl1.cur = rl.cur ∧
      rl1.scr = rl.scr ∧ rl1.msg = rl.msg ∧ rl1.mode = rl.mode ∧ rl1.cut = rl.cut ∧
      rl1.cutlen = rl.cutlen ∧
      (∀ i, 0 ≤ i → i < rl.cur → rl1.buf i = rl.buf i) ∧
      (∀ j : Int, 0 ≤ j → j < k →
        rl1.buf (rl.cur + j) = Char.ofNat ((((rl.cut j).toNat : Nat) : Int) % 128).toNat) ∧
      (∀ i, rl.cur ≤ i → i < rl.len → rl1.buf (i + k) = rl.buf i) := by
  intro k
  induction k with
  | zero =>
    intro rl _ _ _
    refine ⟨rl, rfl, by simp, rfl, rfl, rfl, rfl, rfl, rfl, fun _ _ _ => rfl, ?_, ?_⟩
    · intro j hj0 hj1
      omega
    · intro i _ _
      simp
  | succ k ih =>
    intro rl h0 h1 hlen
    simp only [Nat.cast_add, Nat.cast_one] at hlen ⊢
    obtain ⟨rl1, hins, hlen1, hcur1, hscr1, hmsg1, hmode1, hcut1, hcl1, hb, hbc, hbs⟩ :=
      insert_at rl ((rl.cut k).toNat : Nat) h0 h1 (by omega)
    obtain ⟨rl2, hrun, hlen2, hcur2, hscr2, hmsg2, hmode2, hcut2, hcl2, hpre, hmid, hpost⟩ :=
      ih rl1 (by omega) (by omega) (by omega)
    refine ⟨rl2, ?_, by omega, hcur2.trans hcur1, hscr2.trans hscr1, hmsg2.trans hmsg1,
      hmode2.trans hmode1, hcut2.trans hcut1, hcl2.trans hcl1, ?_, ?_, ?_⟩
    · simp only [paste_loop]
      rw [load_ok _ _ (by omega) (by omega)]
      simp only [bind_ok, hins]
      exact hrun
    · intro i hi0 hi1
      rw [hpre i hi0 (by omega), hb i hi0 hi1]
    · intro j hj0 hj1
      by_cases hjk : j < k
      · have := hmid j hj0 hjk
        rw [hcur1, hcut1] at this
        exact this
      · have e : j = k := by omega
        have := hpost rl.cur (by omega) (by omega)
        rw [e, this, hbc]
    · intro i hi0 hi1
      have := hpost (i + 1) (by omega) (by omega)
      have e : i + 1 + (k : Int) = i + ((k : Int) + 1) := by omega
      rw [e] at this
      rw [this, hbs (i + 1) (by omega) (by omega)]
      congr 1
      omega

/-- The function `paste` with the cursor inside the line (`0 ≤ cur ≤ len`). With a
clipboard of `k = cutlen ≥ 1` characters, all below 128, and `len + k ≤ 255`,
`paste` returns: the buffer holds the old `buf[0..cur)`, then the clipboard cells
`cut[0..k)` in the order in which the clipboard stores them, then the old
`buf[cur..len)`; `len` has grown by `k`; cursor, clipboard and message are
unchanged. With an empty clipboard `paste` only sets the message
"> Clipboard empty.". -/
theorem paste_spec (rl : rlstate) (h0 : 0 ≤ rl.cur) (h1 : rl.cur ≤ rl.len) :
    (0 < rl.cutlen → rl.len + rl.cutlen ≤ 255 →
      (∀ j, 0 ≤ j → j < rl.cutlen → (rl.cut j).toNat < 128) →
      ∃ rl1, paste rl = Result.ok rl1 ∧ rl1.len = rl.len + rl.cutlen ∧ rl1.cur = rl.cur ∧
        rl1.cut = rl.cut ∧ rl1.cutlen = rl.cutlen ∧ rl1.msg = rl.msg ∧
        (∀ i, 0 ≤ i → i < rl.cur → rl1.buf i = rl.buf i) ∧
        (∀ j, 0 ≤ j → j < rl.cutlen → rl1.buf (rl.cur + j) = rl.cut j) ∧
        (∀ i, rl.cur ≤ i → i < rl.len → rl1.buf (i + rl.cutlen) = rl.buf i)) ∧
    (rl.cutlen ≤ 0 →
      paste rl = Result.ok { rl with msg := some "> Clipboard empty.".toList }) := by
  constructor
  · intro hk hroom h7
    have e : ((rl.cutlen.toNat : Nat) : Int) = rl.cutlen := Int.toNat_of_nonneg (by omega)
    obtain ⟨rl1, hrun, hlen, hcur, _, hmsg, _, hcut, hcl, hpre, hmid, hpost⟩ :=
      paste_loop_at rl.cutlen.toNat rl h0 h1 (by omega)
    rw [e] at hlen hmid hpost
    refine ⟨rl1, ?_, hlen, hcur, hcut, hcl, hmsg, hpre, ?_, hpost⟩
    · unfold paste
      rw [if_neg (by omega)]
      exact hrun
    · intro j hj0 hj1
      rw [hmid j hj0 hj1, mask_char _ (h7 j hj0 hj1)]
  · intro hk
    unfold paste
    rw [if_pos hk]

/-- An instance: the line "ab" with the cursor behind the `a` and the clipboard
"x": `paste` makes the line "axb". -/
theorem paste_spec_example :
    ∃ rl1, paste { example_line with cut := fun i => if i = 0 then 'x' else NUL, cutlen := 1 }
        = Result.ok rl1 ∧
      rl1.len = 3 ∧ rl1.cur = 1 ∧ rl1.buf 0 = 'a' ∧ rl1.buf 1 = 'x' ∧ rl1.buf 2 = 'b' := by
  obtain ⟨rl1, hrun, hlen, hcur, _, _, _, hpre, hmid, hpost⟩ :=
    (paste_spec { example_line with cut := fun i => if i = 0 then 'x' else NUL, cutlen := 1 }
      (by decide) (by decide)).1 (by decide) (by decide)
      (fun j hj0 hj1 => by
        have e : j = 0 := by
          have : j < 1 := hj1
          omega
        rw [e]
        decide)
  refine ⟨rl1, hrun, hlen, hcur, ?_, ?_, ?_⟩
  · rw [hpre 0 (by decide) (by decide)]
    rfl
  · exact hmid 0 (by decide) (by decide)
  · exact hpost 1 (by decide) (by decide)

/-- C25 (evaluation of the code). In a fresh editor (window 80 columns wide) the
keys `a`, `b`, C-w cut the word "ab" and C-v pastes it at the same place: the line
is then "ba", the clipboard characters in the reverse of their text order
(`wordb` stores the characters in the order it deletes them, rightmost first, and
`paste` puts the clipboard cells into the line in stored order). After each of the
other cuts `paste` restores the text: `a`, `b`, C-u (`cutb`), C-v gives "ab"; `a`,
`b`, C-a, C-k (`cutf`), C-v gives "ab"; `a`, `b`, space, `c`, C-a, C-x (`wordf`),
C-v gives "ab c". -/
theorem paste_after_wordb_reversed :
    (∃ rl, rl_loop 80 [97, 98, 0x17, 0x16] rl_start = Result.ok (false, rl) ∧
      rl.len = 2 ∧ rl.cur = 0 ∧ contents rl = ['b', 'a'] ∧
      rl.cutlen = 2 ∧ rl.cut 0 = 'b' ∧ rl.cut 1 = 'a') ∧
    (∃ rl, rl_loop 80 [97, 98, 0x15, 0x16] rl_start = Result.ok (false, rl) ∧
      contents rl = ['a', 'b']) ∧
    (∃ rl, rl_loop 80 [97, 98, 0x01, 0x0B, 0x16] rl_start = Result.ok (false, rl) ∧
      contents rl = ['a', 'b']) ∧
    (∃ rl, rl_loop 80 [97, 98, 32, 99, 0x01, 0x18, 0x16] rl_start = Result.ok (false, rl) ∧
      contents rl = ['a', 'b', ' ', 'c']) :=
  ⟨⟨_, rfl, rfl, rfl, rfl, rfl, rfl, rfl⟩, ⟨_, rfl, rfl⟩, ⟨_, rfl, rfl⟩, ⟨_, rfl, rfl⟩⟩

end Readline

/-! # Part 3, continued: cutting words (C27, C28) -/

namespace Readline

/-- C27 (evaluation of the code). In a fresh editor (window 80 columns wide):
the keys `x`, C-u, `a` leave the line "a" with the cursor behind it and the
clipboard "x". `wordb` finds the boundary 0 and removes the `a`, but as the
boundary equals `cur - 1` the test `dst != rl->cur - 1` does not reset `cutlen`:
the clipboard becomes "xa", two characters, although one character was removed.
With the line "ab cd" instead (keys `x`, C-u, `a`, `b`, space, `c`, `d`) `wordb`
removes "cd", leaves "ab " with the cursor at 3 and the clipboard holds `d`, `c`
only. -/
theorem wordb_single_char_appends :
    (∃ rl rl1, rl_loop 80 [120, 0x15, 97] rl_start = Result.ok (false, rl) ∧
      rl.cur = 1 ∧ rl.len = 1 ∧ contents rl = ['a'] ∧ rl.cutlen = 1 ∧ rl.cut 0 = 'x' ∧
      wordb rl = Result.ok rl1 ∧ rl1.len = 0 ∧ rl1.cur = 0 ∧
      rl1.cutlen = 2 ∧ rl1.cut 0 = 'x' ∧ rl1.cut 1 = 'a') ∧
    (∃ rl rl1, rl_loop 80 [120, 0x15, 97, 98, 32, 99, 100] rl_start = Result.ok (false, rl) ∧
      rl.cur = 5 ∧ rl.len = 5 ∧ contents rl = ['a', 'b', ' ', 'c', 'd'] ∧
      rl.cutlen = 1 ∧ rl.cut 0 = 'x' ∧
      wordb rl = Result.ok rl1 ∧ contents rl1 = ['a', 'b', ' '] ∧ rl1.cur = 3 ∧
      rl1.cutlen = 2 ∧ rl1.cut 0 = 'd' ∧ rl1.cut 1 = 'c') :=
  ⟨⟨_, _, rfl, rfl, rfl, rfl, rfl, rfl, rfl, rfl, rfl, rfl, rfl, rfl⟩,
   ⟨_, _, rfl, rfl, rfl, rfl, rfl, rfl, rfl, rfl, rfl, rfl, rfl, rfl⟩⟩

/-- C28 (evaluation of the code). In a fresh editor (window 80 columns wide):
the keys `a`, space, `b`, C-a leave the line "a b" with the cursor at 0 and an
empty clipboard. `wordf` then empties the line: the scan starts at `cur + 1`, runs
over the space and the `b` up to `len`, and the last loop cuts `buf[0..3]`, the
terminator included; the clipboard holds `a`, space, `b`, NUL (`cutlen` 4). On
the empty line (`cur = len = 0`) `wordf` stores two NUL characters in the
clipboard (`cutlen` 2). With the line "ab c" (keys `a`, `b`, space, `c`, C-a)
`wordf` removes "ab", leaves " c" and the clipboard holds `a`, `b`. -/
theorem wordf_cuts_too_far :
    (∃ rl rl1, rl_loop 80 [97, 32, 98, 0x01] rl_start = Result.ok (false, rl) ∧
      rl.cur = 0 ∧ rl.len = 3 ∧ contents rl = ['a', ' ', 'b'] ∧ rl.cutlen = 0 ∧
      wordf rl = Result.ok rl1 ∧ rl1.len = 0 ∧ rl1.cur = 0 ∧ rl1.cutlen = 4 ∧
      rl1.cut 0 = 'a' ∧ rl1.cut 1 = ' ' ∧ rl1.cut 2 = 'b' ∧ rl1.cut 3 = NUL) ∧
    (∃ rl1, rl_start.cur = rl_start.len ∧ rl_start.cutlen = 0 ∧
      wordf rl_start = Result.ok rl1 ∧ rl1.len = 0 ∧ rl1.cutlen = 2 ∧
      rl1.cut 0 = NUL ∧ rl1.cut 1 = NUL) ∧
    (∃ rl rl1, rl_loop 80 [97, 98, 32, 99, 0x01] rl_start = Result.ok (false, rl) ∧
      rl.cur = 0 ∧ contents rl = ['a', 'b', ' ', 'c'] ∧
      wordf rl = Result.ok rl1 ∧ contents rl1 = [' ', 'c'] ∧ rl1.cur = 0 ∧
      rl1.cutlen = 2 ∧ rl1.cut 0 = 'a' ∧ rl1.cut 1 = 'b') :=
  ⟨⟨_, _, rfl, rfl, rfl, rfl, rfl, rfl, rfl, rfl, rfl, rfl, rfl, rfl, rfl⟩,
   ⟨_, rfl, rfl, rfl, rfl, rfl, rfl, rfl⟩,
   ⟨_, _, rfl, rfl, rfl, rfl, rfl, rfl, rfl, rfl, rfl⟩⟩

/-! ## C18: cursor and scroll position -/

/-- A character inserted in front of the last character of a line of 255
characters: `memmove` shifts `len - cur + 1` characters to `buf[cur + 1 ..]`, the
last of them to `buf[256]`, outside `char buf[MAXLEN]`. -/
theorem insert_shift_full (rl : rlstate) (c : Int) (h1 : rl.cur < rl.len)
    (h : rl.len = 255) : insert rl c = Result.undefined := by
  unfold insert memmove
  rw [if_pos (by omega), memcpy_out _ _ _ _ _ (Or.inr (Or.inr (Or.inl (by omega))))]
  rfl

/-- C18 (evaluation of the code). In a fresh editor with a window 80 columns wide
the key `a` is typed 255 times and the cursor is moved left once (C-b): the line
has 255 characters, the cursor stands at 254 and `0 ≤ scr ≤ cur ≤ len` holds. The
next key `b` passes the test `len < MAXLEN` of `type`; `insert` then shifts the two
characters `buf[254..255]` to `buf[255..256]`, the second write outside
`char buf[MAXLEN]`: the run has no defined result, and the ordering is not kept
(in the `struct rlstate` the cell after `buf` is the first byte of `len`). For
every run from `rl_start`, or `rl_start` and `rl_set`, whose result is defined, the
ordering holds while the session is open. -/
theorem insert_shift_overflows :
    (∃ rl1, rl_loop 80 (List.replicate 255 97 ++ [0x02]) rl_start = Result.ok (false, rl1) ∧
      rl1.len = 255 ∧ rl1.cur = 254 ∧ ordered rl1) ∧
    rl_loop 80 (List.replicate 255 97 ++ [0x02, 98]) rl_start = Result.undefined ∧
    (∀ (w : Int) (keys : List Int) (rl0 rl : rlstate), 1 ≤ w →
      (rl0 = rl_start ∨ ∃ str, rl0 = rl_set rl_start str) →
      rl_loop w keys rl0 = Result.ok (false, rl) →
      0 ≤ rl.scr ∧ rl.scr ≤ rl.cur ∧ rl.cur ≤ rl.len) := by
  obtain ⟨rl1, hrun, hmsg, hmode, hcur, hlen, _⟩ :=
    type_run 80 (List.replicate 255 97) rl_start
      (fun c hc => by rw [List.eq_of_mem_replicate hc]; decide) rfl rfl rfl (le_refl _)
      (by rw [List.length_replicate]; decide)
  have hl : rl1.len = 255 := by
    rw [hlen, List.length_replicate]
    rfl
  have hc : rl1.cur = 255 := hcur.trans hl
  have hleft : rl_read 80 0x02 rl1 = Result.ok (0x02, left rl1) := by
    simp [rl_read, hmsg, KEY_NPAGE, KEY_PPAGE, KEY_UP, KEY_DOWN]
  have hlcur : (left rl1).cur = 254 := by
    simp only [left, hc]
    rfl
  have hord : ordered rl1 := rl_loop_ordered (by decide) _ hrun ⟨le_refl _, le_refl _, le_refl _⟩
  refine ⟨⟨left rl1, ?_, hl, hlcur, left_ordered rl1 hord⟩, ?_, ?_⟩
  · rw [rl_loop_append 80 _ [0x02] rl_start rl1 hrun]
    simp only [rl_loop, hleft, Store.bind_ok]
    rfl
  · rw [rl_loop_append 80 _ [0x02, 98] rl_start rl1 hrun]
    have htype : rl_read 80 98 (left rl1) = Result.undefined := by
      rw [rl_read_type 80 98 (left rl1) hmsg (by decide) (by decide)]
      unfold type
      rw [if_neg (by decide), if_neg (by simp [left, hmode]),
        if_pos (by rw [MAXLEN_eq]; show rl1.len < 256; omega),
        insert_shift_full (left rl1) 98 (by rw [hlcur]; show 254 < rl1.len; omega) hl]
      rfl
    simp only [rl_loop, hleft, Store.bind_ok, htype]
    rfl
  · intro w keys rl0 rl hw h0 hrun0
    have hstart : ordered rl0 := by
      rcases h0 with e | ⟨str, e⟩
      · rw [e]
        exact ⟨le_refl _, le_refl _, le_refl _⟩
      · rw [e]
        exact rl_set_ordered _ _
    exact rl_loop_ordered hw keys hrun0 hstart

end Readline

/-! # Part 4: theorems about the frame stack -/

namespace Exception

theorem take_msglen (msg : List Char) (n : Nat) :
    msg.take (if msg.length > n then n else msg.length) = msg.take n := by
  split_ifs with h
  · rfl
  · rw [List.take_length, List.take_of_length_le (by omega)]

theorem except_raise_frame (k : errcode) (m file : List Char) (line : Int) (fr : stackframe)
    (prev : List stackframe) :
    except_raise k m file line (fr :: prev) = Result.ok ({ fr with
      error := { val := k, msg := TreeTool.get_error k m, line := line, file := some file } }
        :: prev) := by
  simp only [except_raise, take_msglen, TreeTool.get_error]

theorem get_error_length (k : errcode) (m : List Char) :
    (TreeTool.get_error k m).length = min ((errstrings k).length + m.length) 255 := by
  have hk : (errstrings k).length ≤ 18 := by
    cases k <;> decide
  simp only [TreeTool.get_error, List.length_append, List.length_take, MAX_ERROR_LEN]
  omega

/-! ## C22: catch -/

/-- C22. For every frame stack and kind `k`: `catch(k)` returns true exactly
when the stack is not empty and the pending kind of its top frame is `k`; then
the result is the stack with that frame's pending kind cleared and nothing else
changed (message, line and file of the error stay); when `catch(k)` returns
false the stack is unchanged. -/
theorem except_catch_spec (k : errcode) (context : List stackframe) :
    ((except_catch k context).1 = true ↔
      ∃ fr prev, context = fr :: prev ∧ fr.error.val = k) ∧
    (∀ fr prev, context = fr :: prev → fr.error.val = k →
      except_catch k context = (true,
        { fr with error := { fr.error with val := errcode.ERR_NONE } } :: prev)) ∧
    ((except_catch k context).1 = false → (except_catch k context).2 = context) := by
  cases context with
  | nil =>
    refine ⟨?_, ?_, fun _ => rfl⟩
    · simp [except_catch]
    · intro fr prev h
      cases h
  | cons fr prev =>
    by_cases hk : fr.error.val = k
    · refine ⟨?_, ?_, ?_⟩
      · simp only [except_catch, if_pos hk, true_iff]
        exact ⟨fr, prev, rfl, hk⟩
      · intro fr1 prev1 h _
        cases h
        simp only [except_catch, if_pos hk]
      · simp [except_catch, hk]
    · refine ⟨?_, ?_, ?_⟩
      · simp only [except_catch, if_neg hk, Bool.false_eq_true, false_iff]
        rintro ⟨fr1, prev1, h, hv⟩
        cases h
        exact hk hv
      · intro fr1 prev1 h hv
        cases h
        exact absurd hv hk
      · intro _
        simp only [except_catch, if_neg hk]

/-! ## C23: raise -/

/-- C23. For every kind `k`, message `m` and raise site: with a frame on the stack,
`raise(k, m)` sets the error of the top frame to kind `k`, to the text made of the
label of `k` and the longest prefix of `m` that keeps the text within 255
characters (its length is the smaller of 255 and the length of label and
message), and to the site of the `raise`; the frame's own `file` and `line` and all
other frames are unchanged. With an empty stack `raise(k, m)` ends the process. -/
theorem except_raise_spec :
    (∀ (k : errcode) (m file : List Char) (line : Int) (fr : stackframe)
        (prev : List stackframe),
      except_raise k m file line (fr :: prev) = Result.ok ({ fr with
        error := { val := k
                   msg := errstrings k ++ m.take (255 - (errstrings k).length)
                   line := line
                   file := some file } } :: prev) ∧
      (errstrings k ++ m.take (255 - (errstrings k).length)).length
        = min ((errstrings k).length + m.length) 255) ∧
    (∀ (k : errcode) (m file : List Char) (line : Int),
      except_raise k m file line [] = Result.died) := by
  refine ⟨fun k m file line fr prev => ⟨?_, ?_⟩, fun k m file line => rfl⟩
  · rw [except_raise_frame]
    rfl
  · exact get_error_length k m

/-! ## C24: finally -/

/-- C24. For every frame stack: `finally()` ends the process exactly when the
stack is empty or its top frame has a pending error (a kind other than
`ERR_NONE`); otherwise it returns, having removed exactly the top frame, with all
remaining frames unchanged. So `except_try` followed by `finally()` gives back the
stack that existed before the `try()`. -/
theorem except_finally_spec :
    (∀ context : List stackframe, except_finally context = Result.died ↔
      (context = [] ∨ ∃ fr prev, context = fr :: prev ∧ fr.error.val ≠ errcode.ERR_NONE)) ∧
    (∀ (fr : stackframe) (prev : List stackframe), fr.error.val = errcode.ERR_NONE →
      except_finally (fr :: prev) = Result.ok prev) ∧
    (∀ (file : List Char) (line : Int) (context : List stackframe),
      except_finally (except_try file line context) = Result.ok context) := by
  refine ⟨?_, ?_, fun _ _ _ => rfl⟩
  · intro context
    cases context with
    | nil => simp [except_finally]
    | cons fr prev =>
      by_cases hv : fr.error.val = errcode.ERR_NONE
      · simp [except_finally, hv]
      · simp [except_finally, hv]
  · intro fr prev hv
    simp [except_finally, hv]

/-! ## C26: the handler of `load` -/

/-- The handler of `load` on a pending FileNotFound or Format error whose text
fits the status buffer: the text is shown, an existing tree is replaced by a fresh
root, and `finally()` pops the frame. -/
theorem load_else_caught (fr : stackframe) (prev : List stackframe) (g : Globals)
    (hty : fr.error.val = errcode.ERR_FILENOTFOUND ∨ fr.error.val = errcode.ERR_FORMAT)
    (hfit : fr.error.msg.length < MAX_SAY_CHARS) :
    ∃ g2, load_else (fr :: prev) g = Result.ok (false, g2, prev) ∧
      g2.saymsg = fr.error.msg ∧
      g2.root = g.root.map (fun _ => add_child_null "Entries".toList) ∧
      g2.filename = g.filename ∧ g2.modified = g.modified := by
  obtain ⟨root, filename, modified, saymsg, sayblink⟩ := g
  rcases hty with h | h
  · cases root <;>
      simp [load_else, except_catch, h, get_error, TreeTool.say, hfit, except_finally]
  · cases root <;>
      simp [load_else, except_catch, h, get_error, TreeTool.say, hfit, except_finally]

/-- The handler of `load` on a pending IO error: neither `catch` takes it, and
`finally()` ends the process. -/
theorem load_else_io (fr : stackframe) (prev : List stackframe) (g : Globals)
    (hty : fr.error.val = errcode.ERR_IO) :
    load_else (fr :: prev) g = Result.died := by
  simp [load_else, except_catch, hty, except_finally]

/-- When the protected region of `load` is left by a `raise` of kind FileNotFound
or Format whose text (label and message) fits the status buffer, `load` returns
false with the frame stack as it was before `try()`: `finally()` found no pending
error. The status message is the text of the error and the tree is a fresh root
"Entries" if a tree existed. When the region is left by a `raise` of kind IO, the
handler does not catch it and `finally()` ends the process. -/
theorem load_protected_catches (context : List stackframe) (src : List Char) (line : Int)
    (g g1 : Globals) (fname : List Char) (file : Option (List Char)) (errno : Nat)
    (ty : errcode) (msg : List Char)
    (hraise : load_try g fname file errno = (g1, Result.raised ty msg)) :
    ((ty = errcode.ERR_FILENOTFOUND ∨ ty = errcode.ERR_FORMAT) →
      (TreeTool.get_error ty msg).length < MAX_SAY_CHARS →
      ∃ g2, load_protected context src line g fname file errno
          = Result.ok (false, g2, context) ∧
        g2.saymsg = TreeTool.get_error ty msg ∧
        g2.root = g1.root.map (fun _ => add_child_null "Entries".toList)) ∧
    (ty = errcode.ERR_IO →
      load_protected context src line g fname file errno = Result.died) := by
  have e : load_protected context src line g fname file errno
      = load_else ({ line := 842
                     file := some src
                     error := { val := ty
                                msg := TreeTool.get_error ty msg
                                line := line
                                file := some src } } :: context) g1 := by
    simp only [load_protected, hraise, except_try, except_raise_frame]
  refine ⟨fun hty hfit => ?_, fun hty => ?_⟩
  · obtain ⟨g2, h1, h2, h3, _⟩ := load_else_caught
      { line := 842
        file := some src
        error := { val := ty
                   msg := TreeTool.get_error ty msg
                   line := line
                   file := some src } } context g1 hty hfit
    exact ⟨g2, by rw [e, h1], h2, h3⟩
  · rw [e]
    exact load_else_io _ _ _ hty

/-- An instance: the example tree and a file that cannot be opened. -/
theorem load_protected_file_not_found :
    ∃ g2, load_protected [] "tt.c".toList 846 example_globals "f".toList none 0
        = Result.ok (false, g2, []) ∧
      g2.saymsg = TreeTool.get_error errcode.ERR_FILENOTFOUND "f".toList ∧
      g2.root = example_globals.root.map (fun _ => add_child_null "Entries".toList) :=
  (load_protected_catches [] "tt.c".toList 846 example_globals example_globals "f".toList
    none 0 errcode.ERR_FILENOTFOUND "f".toList rfl).1 (Or.inl rfl) (by decide)

/-- C26 (evaluation of the code). An empty file read while `errno` is 2: this is
what `main` does for a file name that does not exist yet (the first `load` fails in
`fopen`, which leaves `errno` at 2; `main` creates the file and calls `load`
again). The first `fgetc` of `read_tree` meets the end of the file, `ungetc(EOF)`
fails and `raise(ERR_IO, ...)` at line 711 leaves the protected region of `load`.
The handler tries `catch(ERR_FILENOTFOUND)` and `catch(ERR_FORMAT)` only, the error
stays pending and `finally()` ends the process: `load` does not return false. A
file that cannot be opened, and a file with wrong indentation, are caught: `load`
returns false and the frame stack is as before. -/
theorem load_io_not_caught :
    (load_try example_globals "f".toList (some []) 2).2
      = Result.raised errcode.ERR_IO "errno 2".toList ∧
    load_protected [] "tt.c".toList 711 example_globals "f".toList (some []) 2
      = Result.died ∧
    load example_globals "f".toList (some []) [] 2 = Result.died ∧
    (∃ g2, load_protected [] "tt.c".toList 846 example_globals "f".toList none 2
      = Result.ok (false, g2, [])) ∧
    (∃ g2, load_protected [] "tt.c".toList 725 example_globals "f".toList
        (some "\tb\n".toList) 2
      = Result.ok (false, g2, [])) :=
  ⟨by rfl, by rfl, by rfl, ⟨_, by rfl⟩, ⟨_, by rfl⟩⟩

end Exception

end TreeTool
